import Mathlib

/-!
# Baseball / cricket elimination by maximum flow

A shallow embedding of `wow.cpp` (classes `Division`, `Graph`, `FordFulkerson`,
`FlowNetwork` and the per-team loop of `main`) together with theorems about it.

Conventions of the embedding:

* a C++ `vector<int>` is a function `Nat → Int` together with its length, a
  `vector<vector<int>>` a function `Nat → Nat → Int`;
* every `int` addition and subtraction of the source is followed by `wrap32`, the
  two's-complement wrap to 32 bits;
* loops whose number of iterations is not syntactically bounded take fuel and return
  `none` when it runs out; reading `residual[parent[v]]` with a negative `parent[v]`
  (out of bounds in the source) is `none` as well.
-/


namespace CricketElimination

/-! ## Machine integers -/

/-- Largest value of a 32-bit signed `int` (`INT_MAX` of `<climits>`). -/
def INT_MAX : Int := 2147483647

/-- Two's-complement wrap of an integer into the range of a 32-bit signed `int`. -/
def wrap32 (x : Int) : Int := (x + 2147483648) % 4294967296 - 2147483648

/-! ## Division -/

/-- Class `Division`: the table of team records produced by the loader. -/
structure Division where
  numTeams : Nat
  teamNames : Nat → String
  wins : Nat → Int
  losses : Nat → Int
  remainingGames : Nat → Int
  gamesAgainstMatrix : Nat → Nat → Int

/-! ## Graph -/

/-- Class `Graph`: a number of vertices and a square capacity matrix. -/
structure Graph where
  numVertices : Nat
  capacityMatrix : Nat → Nat → Int

/-- Constructor `Graph(int vertices)`: all capacities are zero. -/
def Graph.create (vertices : Nat) : Graph := ⟨vertices, fun _ _ => 0⟩

/-- Write one cell of a matrix: `m[u][v] = x`. -/
def setCell (m : Nat → Nat → Int) (u v : Nat) (x : Int) : Nat → Nat → Int :=
  fun i j => if i = u ∧ j = v then x else m i j

/-- Write one entry of a vector: `a[k] = x`. -/
def setAt {α : Type} (a : Nat → α) (k : Nat) (x : α) : Nat → α :=
  fun i => if i = k then x else a i

/-- Method `Graph::addEdge`: `capacityMatrix[from][to] = capacity`. -/
def Graph.addEdge (g : Graph) (u v : Nat) (capacity : Int) : Graph :=
  ⟨g.numVertices, setCell g.capacityMatrix u v capacity⟩

/-! ## FordFulkerson -/

/-- The `for (next ...)` loop inside `FordFulkerson::bfs` for one dequeued vertex `current`.
The list argument holds the values of `next` still to be visited.  The Boolean is `true`
when the loop left the function through `return true`. -/
def bfsScan (residual : Nat → Nat → Int) (sink current : Nat) :
    List Nat → (Nat → Int) → List Nat → Bool × (Nat → Int) × List Nat
  | [], parent, q => (false, parent, q)
  | next :: rest, parent, q =>
    if parent next = -1 ∧ residual current next > 0 then
      if next = sink then (true, setAt parent next (current : Int), q)
      else bfsScan residual sink current rest (setAt parent next (current : Int)) (q ++ [next])
    else bfsScan residual sink current rest parent q

/-- The `while (!q.empty())` loop of `FordFulkerson::bfs`. -/
def bfsLoop (residual : Nat → Nat → Int) (n sink : Nat) :
    Nat → (Nat → Int) → List Nat → Option (Bool × (Nat → Int))
  | 0, _, _ => none
  | _ + 1, parent, [] => some (false, parent)
  | fuel + 1, parent, current :: q =>
    match bfsScan residual sink current (List.range n) parent q with
    | (true, parent', _) => some (true, parent')
    | (false, parent', q') => bfsLoop residual n sink fuel parent' q'

/-- Method `FordFulkerson::bfs`: returns whether the sink was reached and the parent map.
Every vertex enters the queue at most once, so `n + 1` rounds of the outer loop are
enough (`bfs_isSome`). -/
def bfs (residual : Nat → Nat → Int) (n source sink : Nat) : Option (Bool × (Nat → Int)) :=
  bfsLoop residual n sink (n + 1) (setAt (fun _ => (-1 : Int)) source (-2)) [source]

/-- First `for (v = sink; v != source; v = parent[v])` loop of `getMaxFlow`:
the bottleneck `pathFlow` of the path stored in `parent`. -/
def bottleneck (residual : Nat → Nat → Int) (parent : Nat → Int) (source : Nat) :
    Nat → Nat → Int → Option Int
  | 0, v, pathFlow => if v = source then some pathFlow else none
  | fuel + 1, v, pathFlow =>
    if v = source then some pathFlow
    else if parent v < 0 then none
    else bottleneck residual parent source fuel (parent v).toNat
      (min pathFlow (residual (parent v).toNat v))

/-- Second `for (v = sink; v != source; v = parent[v])` loop of `getMaxFlow`:
`residual[u][v] -= pathFlow; residual[v][u] += pathFlow` along the path. -/
def augment (parent : Nat → Int) (source : Nat) (pathFlow : Int) :
    Nat → Nat → (Nat → Nat → Int) → Option (Nat → Nat → Int)
  | 0, v, residual => if v = source then some residual else none
  | fuel + 1, v, residual =>
    if v = source then some residual
    else if parent v < 0 then none
    else
      let u := (parent v).toNat
      let r1 := setCell residual u v (wrap32 (residual u v - pathFlow))
      let r2 := setCell r1 v u (wrap32 (r1 v u + pathFlow))
      augment parent source pathFlow fuel u r2

/-- The `while (bfs())` loop of `FordFulkerson::getMaxFlow`, threading the residual
matrix and the running total `maxFlow`. -/
def maxFlowLoop (n source sink : Nat) :
    Nat → (Nat → Nat → Int) → Int → Option (Int × (Nat → Nat → Int))
  | 0, _, _ => none
  | fuel + 1, residual, maxFlow =>
    match bfs residual n source sink with
    | none => none
    | some (false, _) => some (maxFlow, residual)
    | some (true, parent) =>
      match bottleneck residual parent source n sink INT_MAX with
      | none => none
      | some pathFlow =>
        match augment parent source pathFlow n sink residual with
        | none => none
        | some residual' =>
          maxFlowLoop n source sink fuel residual' (wrap32 (maxFlow + pathFlow))

/-- Method `FordFulkerson::getMaxFlow` on a solver freshly constructed by
`FordFulkerson(g, s, t)` (whose residual is a copy of the capacity matrix of `g`).
Returns the flow value and the final residual matrix (`getResidualGraph`). -/
def getMaxFlow (fuel : Nat) (g : Graph) (source sink : Nat) :
    Option (Int × (Nat → Nat → Int)) :=
  maxFlowLoop g.numVertices source sink fuel g.capacityMatrix 0

/-! ## FlowNetwork -/

/-- Class `FlowNetwork`. -/
structure FlowNetwork where
  graph : Graph
  source : Nat
  sink : Nat
  teamIndex : Nat
  numTeams : Nat
  numGames : Nat
  gameNodeStart : Nat
  teamNodeStart : Nat
  teamNames : Nat → String
  wins : Nat → Int
  remainingGames : Nat → Int

/-- The iteration space `for (i = 0; i < numTeams; ++i) for (j = i + 1; j < numTeams; ++j)`,
in the order in which the loops run. -/
def teamPairs (numTeams : Nat) : List (Nat × Nat) :=
  (List.range numTeams).flatMap fun i =>
    (List.range' (i + 1) (numTeams - (i + 1))).map fun j => (i, j)

/-- First loop of the constructor: the number of game nodes. -/
def countGames (numTeams teamIndex : Nat) (gamesAgainst : Nat → Nat → Int) : Nat :=
  (teamPairs numTeams).foldl
    (fun numGames p =>
      if p.1 ≠ teamIndex ∧ p.2 ≠ teamIndex then
        if gamesAgainst p.1 p.2 > 0 then numGames + 1 else numGames
      else numGames) 0

/-- Method `FlowNetwork::adjustedTeamNode`, with the two fields it reads as arguments. -/
def adjustedTeamNode (teamNodeStart teamIndex originalIndex : Nat) : Nat :=
  teamNodeStart + originalIndex - (if originalIndex > teamIndex then 1 else 0)

/-- Body of the second loop of the constructor for the pair `(i, j)`; the state is the
graph and the running `gameNode`. -/
def addGameEdges (gamesAgainst : Nat → Nat → Int) (source teamNodeStart teamIndex : Nat)
    (st : Graph × Nat) (p : Nat × Nat) : Graph × Nat :=
  if p.1 = teamIndex then st
  else if p.2 = teamIndex then st
  else if gamesAgainst p.1 p.2 > 0 then
    (((st.1.addEdge source st.2 (gamesAgainst p.1 p.2)).addEdge st.2
        (adjustedTeamNode teamNodeStart teamIndex p.1) INT_MAX).addEdge st.2
        (adjustedTeamNode teamNodeStart teamIndex p.2) INT_MAX,
      st.2 + 1)
  else st

/-- Body of the third loop of the constructor for team `i`: the edge to the sink. -/
def addSinkEdge (wins : Nat → Int) (maxPossibleWins : Int) (sink teamNodeStart teamIndex : Nat)
    (g : Graph) (i : Nat) : Graph :=
  if i = teamIndex then g
  else
    let capacity := wrap32 (maxPossibleWins - wins i)
    let capacity := if capacity < 0 then 0 else capacity
    g.addEdge (adjustedTeamNode teamNodeStart teamIndex i) sink capacity

/-- Constructor `FlowNetwork(division, teamIdx)`. -/
def FlowNetwork.create (division : Division) (teamIdx : Nat) : FlowNetwork :=
  let numTeams := division.numTeams
  let gamesAgainst := division.gamesAgainstMatrix
  let numGames := countGames numTeams teamIdx gamesAgainst
  let totalNodes := 2 + numGames + (numTeams - 1)
  let source := 0
  let sink := totalNodes - 1
  let gameNodeStart := 1
  let teamNodeStart := gameNodeStart + numGames
  let g1 := ((teamPairs numTeams).foldl
    (addGameEdges gamesAgainst source teamNodeStart teamIdx)
    (Graph.create totalNodes, gameNodeStart)).1
  let maxPossibleWins := wrap32 (division.wins teamIdx + division.remainingGames teamIdx)
  let g2 := (List.range numTeams).foldl
    (addSinkEdge division.wins maxPossibleWins sink teamNodeStart teamIdx) g1
  ⟨g2, source, sink, teamIdx, numTeams, numGames, gameNodeStart, teamNodeStart,
    division.teamNames, division.wins, division.remainingGames⟩

/-- The loop `for (int capacity : capacityMatrix[source]) totalGames += capacity`. -/
def sourceRowTotal (g : Graph) (source : Nat) : Int :=
  (List.range g.numVertices).foldl (fun totalGames j => wrap32 (totalGames + g.capacityMatrix source j)) 0

/-- Method `FlowNetwork::isEliminated` (the printing of the verbose mode left out). -/
def FlowNetwork.isEliminated (fuel : Nat) (fn : FlowNetwork) : Option Bool :=
  match getMaxFlow fuel fn.graph fn.source fn.sink with
  | none => none
  | some (maxFlow, _) => some (decide (maxFlow < sourceRowTotal fn.graph fn.source))

/-- The `for (next ...)` loop of the reachability search in `getEliminationCertificate`. -/
def reachScan (residual : Nat → Nat → Int) (current : Nat) :
    List Nat → (Nat → Bool) → List Nat → (Nat → Bool) × List Nat
  | [], visited, q => (visited, q)
  | next :: rest, visited, q =>
    if visited next = false ∧ residual current next > 0 then
      reachScan residual current rest (setAt visited next true) (q ++ [next])
    else reachScan residual current rest visited q

/-- The `while (!q.empty())` loop of the reachability search. -/
def reachLoop (residual : Nat → Nat → Int) (n : Nat) :
    Nat → (Nat → Bool) → List Nat → Option (Nat → Bool)
  | 0, _, _ => none
  | _ + 1, visited, [] => some visited
  | fuel + 1, visited, current :: q =>
    match reachScan residual current (List.range n) visited q with
    | (visited', q') => reachLoop residual n fuel visited' q'

/-- The reachability search of `getEliminationCertificate`: the `visited` vector after the
loop.  As in `bfs`, `n + 1` rounds are enough. -/
def reachable (residual : Nat → Nat → Int) (n source : Nat) : Option (Nat → Bool) :=
  reachLoop residual n (n + 1) (setAt (fun _ => false) source true) [source]

/-- The indices `i` whose name the last loop of `getEliminationCertificate` pushes, in
the order in which it pushes them. -/
def certificateTeams (fn : FlowNetwork) (visited : Nat → Bool) : List Nat :=
  (List.range fn.numTeams).filter fun i =>
    i ≠ fn.teamIndex ∧ visited (adjustedTeamNode fn.teamNodeStart fn.teamIndex i) = true

/-- The team indices behind the certificate: the solver is run, the residual graph is
searched from the source and the teams with a visited team node are collected. -/
def FlowNetwork.certificateIndices (fuel : Nat) (fn : FlowNetwork) : Option (List Nat) :=
  match getMaxFlow fuel fn.graph fn.source fn.sink with
  | none => none
  | some (_, residual) =>
    match reachable residual fn.graph.numVertices fn.source with
    | none => none
    | some visited => some (certificateTeams fn visited)

/-- Method `FlowNetwork::getEliminationCertificate`: the names `teamNames[i]` of the
collected teams. -/
def FlowNetwork.getEliminationCertificate (fuel : Nat) (fn : FlowNetwork) :
    Option (List String) :=
  (fn.certificateIndices fuel).map fun l => l.map fn.teamNames

/-! ## The per-team analysis of `main` -/

/-- What `main` reports for one team. -/
inductive Verdict where
  | NotEliminated
  | TriviallyEliminated (byTeam : String)
  | Eliminated (certificate : List String)
  deriving DecidableEq, Repr

/-- The value `maxPossibleWins` computed at the top of the loop body of `main`. -/
def maxPossibleWins (division : Division) (teamIndex : Nat) : Int :=
  wrap32 (division.wins teamIndex + division.remainingGames teamIndex)

/-- The trivial elimination check of `main`: the first `i != teamIndex` with
`wins[i] > maxPossibleWins`, at which the loop breaks. -/
def trivialCheck (division : Division) (teamIndex : Nat) : Option Nat :=
  (List.range division.numTeams).find? fun i =>
    i ≠ teamIndex ∧ division.wins i > maxPossibleWins division teamIndex

/-- Body of the loop of `main` for one `teamIndex`, returning the verdict instead of
printing it. -/
def analyzeTeam (fuel : Nat) (division : Division) (teamIndex : Nat) : Option Verdict :=
  match trivialCheck division teamIndex with
  | some i => some (Verdict.TriviallyEliminated (division.teamNames i))
  | none =>
    let fn := FlowNetwork.create division teamIndex
    match fn.isEliminated fuel with
    | none => none
    | some true =>
      match fn.getEliminationCertificate fuel with
      | none => none
      | some certificate => some (Verdict.Eliminated certificate)
    | some false => some Verdict.NotEliminated

/-! ## The division of the worked example -/

/-- Read entry `i` of a list, `0` past its end. -/
def listAt (l : List Int) (i : Nat) : Int := l.getD i 0

/-- The four-team division Atlanta, Philadelphia, NewYork, Montreal. -/
def classicDivision : Division where
  numTeams := 4
  teamNames := fun i => ["Atlanta", "Philadelphia", "NewYork", "Montreal"].getD i ""
  wins := listAt [83, 80, 78, 77]
  losses := listAt [71, 79, 78, 82]
  remainingGames := listAt [8, 3, 6, 3]
  gamesAgainstMatrix := fun i j =>
    listAt ([[0, 1, 6, 1], [1, 0, 0, 2], [6, 0, 0, 0], [1, 2, 0, 0]].getD i []) j

/-! ## Specification vocabulary -/

/-- The list `l` is `v, parent[v], parent[parent[v]], …, source`: the walk the two path
loops of `getMaxFlow` take from `v`, without a repeated vertex. -/
inductive ParentChain (parent : Nat → Int) (source : Nat) : Nat → List Nat → Prop where
  | base : ParentChain parent source source [source]
  | step {v u : Nat} {l : List Nat} : v ≠ source → parent v = (u : Int) →
      ParentChain parent source u l → v ∉ l → ParentChain parent source v (v :: l)

/-- The edges `(parent[v], v)` of a walk given as the list of its vertices from the far
end back to the source. -/
def pathEdges : List Nat → List (Nat × Nat)
  | v :: u :: rest => (u, v) :: pathEdges (u :: rest)
  | _ => []

/-- Sum of row `a` of a matrix over the columns `0 … n-1`. -/
def rowSum (n : Nat) (m : Nat → Nat → Int) (a : Nat) : Int :=
  ∑ j ∈ Finset.range n, m a j

/-- Sum of column `a` of a matrix over the rows `0 … n-1`. -/
def colSum (n : Nat) (m : Nat → Nat → Int) (a : Nat) : Int :=
  ∑ j ∈ Finset.range n, m j a

/-- A feasible flow of the graph `g` from `source` to `sink`: between 0 and the capacity
on every ordered pair of vertices, and conserved at every vertex other than the two
terminals. -/
structure IsFlow (g : Graph) (source sink : Nat) (f : Nat → Nat → Int) : Prop where
  nonneg : ∀ u v, u < g.numVertices → v < g.numVertices → 0 ≤ f u v
  le_cap : ∀ u v, u < g.numVertices → v < g.numVertices → f u v ≤ g.capacityMatrix u v
  conserve : ∀ v, v < g.numVertices → v ≠ source → v ≠ sink →
    rowSum g.numVertices f v = colSum g.numVertices f v

/-- Value of a flow: what leaves the source minus what enters it. -/
def flowValue (g : Graph) (source : Nat) (f : Nat → Nat → Int) : Int :=
  rowSum g.numVertices f source - colSum g.numVertices f source

/-- A source/sink cut, given by its source side. -/
def IsCut (g : Graph) (source sink : Nat) (S : Finset Nat) : Prop :=
  S ⊆ Finset.range g.numVertices ∧ source ∈ S ∧ sink ∉ S

/-- Total capacity of the edges leaving the source side `S` of a cut. -/
def cutCapacity (g : Graph) (S : Finset Nat) : Int :=
  ∑ u ∈ S, ∑ v ∈ Finset.range g.numVertices \ S, g.capacityMatrix u v

/-- Capacities are non-negative. -/
def Graph.NonNeg (g : Graph) : Prop :=
  ∀ u v, u < g.numVertices → v < g.numVertices → 0 ≤ g.capacityMatrix u v

/-- Static condition under which no `int` operation of `getMaxFlow` leaves the 32-bit
range: the two capacities between any two vertices add up to at most `INT_MAX`, and so
do the capacities leaving the source. -/
def Graph.NoOverflow (g : Graph) (source : Nat) : Prop :=
  (∀ u v, u < g.numVertices → v < g.numVertices →
    g.capacityMatrix u v + g.capacityMatrix v u ≤ INT_MAX) ∧
  rowSum g.numVertices g.capacityMatrix source ≤ INT_MAX

/-- Number of vertices below `n` that `bfs` has not reached yet (`parent[v] == -1`). -/
def unvisitedCount (n : Nat) (parent : Nat → Int) : Nat :=
  ((Finset.range n).filter fun v => parent v = -1).card

/-- Invariant of the parent map during `bfs`: the source carries the mark `-2`, and from
every reached vertex the parent pointers lead back to the source through reached
vertices below `n`, along edges of positive residual capacity. -/
def BfsInv (residual : Nat → Nat → Int) (n source : Nat) (parent : Nat → Int) : Prop :=
  parent source = -2 ∧ source < n ∧
  ∀ v, parent v ≠ -1 → ∃ l, ParentChain parent source v l ∧
    (∀ x ∈ l, x < n ∧ parent x ≠ -1) ∧ ∀ e ∈ pathEdges l, residual e.1 e.2 > 0

/-- All positive-residual successors of `v` below `n` have been reached. -/
def ClosedAt (residual : Nat → Nat → Int) (n : Nat) (parent : Nat → Int) (v : Nat) : Prop :=
  ∀ w, w < n → residual v w > 0 → parent w ≠ -1

/-- Invariant of the `while (bfs())` loop of `getMaxFlow`: every residual entry is
non-negative, the two residual entries between two vertices add up to the two capacities,
every row of an inner vertex keeps its sum (conservation), and the running total is what
the source row lost and the sink row gained. -/
structure ResidualInv (g : Graph) (source sink : Nat) (residual : Nat → Nat → Int)
    (maxFlow : Int) : Prop where
  nonneg : ∀ u v, u < g.numVertices → v < g.numVertices → 0 ≤ residual u v
  pair : ∀ u v, u < g.numVertices → v < g.numVertices →
    residual u v + residual v u = g.capacityMatrix u v + g.capacityMatrix v u
  conserve : ∀ v, v < g.numVertices → v ≠ source → v ≠ sink →
    rowSum g.numVertices residual v = rowSum g.numVertices g.capacityMatrix v
  value : rowSum g.numVertices g.capacityMatrix source
    - rowSum g.numVertices residual source = maxFlow
  sinkRow : rowSum g.numVertices residual sink
    = rowSum g.numVertices g.capacityMatrix sink + maxFlow
  value_nonneg : 0 ≤ maxFlow

/-- The source side `S` of a cut is closed in the residual graph: no edge of positive
residual capacity leaves it. -/
def ResidualClosed (g : Graph) (residual : Nat → Nat → Int) (S : Finset Nat) : Prop :=
  ∀ a ∈ S, ∀ b, b < g.numVertices → b ∉ S → residual a b ≤ 0

/-- The flow carried by a residual matrix: the part of each capacity that is used. -/
def residualFlow (g : Graph) (residual : Nat → Nat → Int) : Nat → Nat → Int :=
  fun a b => max 0 (g.capacityMatrix a b - residual a b)

/-- Number of games still to be played in the whole division: the sum of
`gamesAgainst[i][j]` over the pairs `i < j`. -/
def Division.totalGames (d : Division) : Int :=
  ∑ i ∈ Finset.range d.numTeams, ∑ j ∈ Finset.range d.numTeams,
    if i < j then d.gamesAgainstMatrix i j else 0

/-- Valid team records: at least two teams, distinct names, non-negative entries, a
symmetric games matrix whose rows (the diagonal left out) add up to the remaining games,
and values small enough for 32-bit arithmetic (no team can reach more than `INT_MAX`
wins and fewer than `INT_MAX` games remain in the division). -/
structure ValidRecords (d : Division) : Prop where
  two_teams : 2 ≤ d.numTeams
  names_unique : ∀ i j, i < d.numTeams → j < d.numTeams → d.teamNames i = d.teamNames j → i = j
  wins_nonneg : ∀ i, i < d.numTeams → 0 ≤ d.wins i
  losses_nonneg : ∀ i, i < d.numTeams → 0 ≤ d.losses i
  remaining_nonneg : ∀ i, i < d.numTeams → 0 ≤ d.remainingGames i
  games_nonneg : ∀ i j, i < d.numTeams → j < d.numTeams → 0 ≤ d.gamesAgainstMatrix i j
  games_symm : ∀ i j, i < d.numTeams → j < d.numTeams →
    d.gamesAgainstMatrix i j = d.gamesAgainstMatrix j i
  games_sum : ∀ i, i < d.numTeams →
    (∑ j ∈ (Finset.range d.numTeams).erase i, d.gamesAgainstMatrix i j) = d.remainingGames i
  wins_bound : ∀ i, i < d.numTeams → d.wins i + d.remainingGames i ≤ INT_MAX
  games_bound : d.totalGames < INT_MAX

/-- The pairs that receive a game node, in the order of their node ids: `i < j`, both
other than the target, with `gamesAgainst[i][j] > 0`. -/
def gameList (d : Division) (t : Nat) : List (Nat × Nat) :=
  (teamPairs d.numTeams).filter fun p =>
    p.1 ≠ t ∧ p.2 ≠ t ∧ d.gamesAgainstMatrix p.1 p.2 > 0

/-- Inverse of the index adjustment: the team whose team node is the `m`-th one. -/
def teamOfNode (t m : Nat) : Nat := if m < t then m else m + 1

/-- The capacity the constructor puts on the edge from the team node of `i` to the sink. -/
def sinkCapacity (d : Division) (t i : Nat) : Int :=
  if wrap32 (maxPossibleWins d t - d.wins i) < 0 then 0
  else wrap32 (maxPossibleWins d t - d.wins i)

/-- Closed form of the capacity matrix built by `FlowNetwork(division, t)`: with `G` game
nodes, vertex 0 is the source, `1 … G` are the game nodes, `G+1 … G+N-1` the team nodes
and `G+N` the sink. -/
def networkCap (d : Division) (t : Nat) : Nat → Nat → Int := fun u v =>
  if v = (gameList d t).length + d.numTeams ∧ 1 + (gameList d t).length ≤ u ∧
      teamOfNode t (u - (1 + (gameList d t).length)) < d.numTeams then
    sinkCapacity d t (teamOfNode t (u - (1 + (gameList d t).length)))
  else if u = 0 ∧ 1 ≤ v ∧ v < 1 + (gameList d t).length then
    d.gamesAgainstMatrix ((gameList d t).getD (v - 1) (0, 0)).1
      ((gameList d t).getD (v - 1) (0, 0)).2
  else if 1 ≤ u ∧ u < 1 + (gameList d t).length ∧
      (v = adjustedTeamNode (1 + (gameList d t).length) t
            ((gameList d t).getD (u - 1) (0, 0)).1 ∨
        v = adjustedTeamNode (1 + (gameList d t).length) t
            ((gameList d t).getD (u - 1) (0, 0)).2) then
    INT_MAX
  else 0

/-- The pair of teams of the `k`-th game node (node id `1 + k`). -/
def gameAt (d : Division) (t k : Nat) : Nat × Nat := (gameList d t).getD k (0, 0)

/-- Node id of the team node of team `i` in the network built for target `t`. -/
def teamNode (d : Division) (t i : Nat) : Nat :=
  adjustedTeamNode (1 + (gameList d t).length) t i

/-- Number of vertices of the network built for target `t`. -/
def networkSize (d : Division) (t : Nat) : Nat := (gameList d t).length + d.numTeams + 1

/-- Node id of the sink of the network built for target `t`. -/
def networkSink (d : Division) (t : Nat) : Nat := (gameList d t).length + d.numTeams

/-- Number of games still to be played among the teams other than `t`: the sum of
`gamesAgainst[i][j]` over the pairs `i < j` with `i != t` and `j != t`. -/
def gamesAmong (d : Division) (t : Nat) : Int :=
  ∑ i ∈ Finset.range d.numTeams, ∑ j ∈ Finset.range d.numTeams,
    if i < j ∧ i ≠ t ∧ j ≠ t then d.gamesAgainstMatrix i j else 0

/-- The pairs of `gameList` as a finite set. -/
def gamePairSet (d : Division) (t : Nat) : Finset (Nat × Nat) :=
  (Finset.range d.numTeams ×ˢ Finset.range d.numTeams).filter fun p =>
    p.1 < p.2 ∧ p.1 ≠ t ∧ p.2 ≠ t ∧ d.gamesAgainstMatrix p.1 p.2 > 0

/-- Vertex reachable from `source` along edges of positive residual capacity, through
vertices below `n`. -/
inductive ResidualReach (residual : Nat → Nat → Int) (n source : Nat) : Nat → Prop where
  | start : ResidualReach residual n source source
  | step {u w : Nat} : ResidualReach residual n source u → w < n → residual u w > 0 →
      ResidualReach residual n source w

/-- Number of vertices below `n` not yet marked in the `visited` vector. -/
def unmarkedCount (n : Nat) (visited : Nat → Bool) : Nat :=
  ((Finset.range n).filter fun v => visited v = false).card

/-- Games still to be played between two teams of the set `R`, each unordered pair
counted once. -/
def gamesWithin (d : Division) (R : Finset Nat) : Int :=
  ∑ i ∈ R, ∑ j ∈ R, if i < j then d.gamesAgainstMatrix i j else 0

/-- Current wins of the teams of the set `R`, added up. -/
def winsOf (d : Division) (R : Finset Nat) : Int := ∑ i ∈ R, d.wins i

/-- The teams other than `t` whose team node lies in the vertex set `S`. -/
def teamsIn (d : Division) (t : Nat) (S : Finset Nat) : Finset Nat :=
  ((Finset.range d.numTeams).erase t).filter fun i => teamNode d t i ∈ S

/-- An outcome of the games remaining among the teams other than `t`: for each pair
`i < j` of such teams, `x i j` games won by `i` and `x j i` games won by `j`, adding up
to `gamesAgainst[i][j]`. -/
def IsOutcome (d : Division) (t : Nat) (x : Nat → Nat → Int) : Prop :=
  ∀ i j, i < d.numTeams → j < d.numTeams → i ≠ t → j ≠ t → i < j →
    0 ≤ x i j ∧ 0 ≤ x j i ∧ x i j + x j i = d.gamesAgainstMatrix i j

/-- Wins of team `i` at the end of the season under the outcome `x` of the games among
the teams other than `t` (games against `t` not counted). -/
def finalWins (d : Division) (t : Nat) (x : Nat → Nat → Int) (i : Nat) : Int :=
  d.wins i + ∑ j ∈ ((Finset.range d.numTeams).erase t).erase i, x i j

/-- Share of team `i` in the games of the `k`-th game node that a residual matrix
encodes: the first team of the pair gets what its team node sent back, capped by the
number of games, the second team gets the rest. -/
def gameShare (d : Division) (t : Nat) (residual : Nat → Nat → Int) (k i : Nat) : Int :=
  if i = (gameAt d t k).1 then
    min (residual (teamNode d t (gameAt d t k).1) (1 + k))
      (d.gamesAgainstMatrix (gameAt d t k).1 (gameAt d t k).2)
  else if i = (gameAt d t k).2 then
    d.gamesAgainstMatrix (gameAt d t k).1 (gameAt d t k).2
      - min (residual (teamNode d t (gameAt d t k).1) (1 + k))
          (d.gamesAgainstMatrix (gameAt d t k).1 (gameAt d t k).2)
  else 0

/-- The outcome read off a residual matrix. -/
def outcomeOf (d : Division) (t : Nat) (residual : Nat → Nat → Int) : Nat → Nat → Int :=
  fun i j => ∑ k ∈ Finset.range (gameList d t).length,
    if gameAt d t k = (i, j) ∨ gameAt d t k = (j, i) then gameShare d t residual k i else 0

/-- An outcome of all the games remaining in the division: for each pair `i < j` of
teams, `x i j` games won by `i` and `x j i` games won by `j`, adding up to
`gamesAgainst[i][j]`. -/
def IsFullOutcome (d : Division) (x : Nat → Nat → Int) : Prop :=
  ∀ i j, i < d.numTeams → j < d.numTeams → i < j →
    0 ≤ x i j ∧ 0 ≤ x j i ∧ x i j + x j i = d.gamesAgainstMatrix i j

/-- Wins of team `i` at the end of the season under the outcome `x` of all remaining
games. -/
def seasonWins (d : Division) (x : Nat → Nat → Int) (i : Nat) : Int :=
  d.wins i + ∑ j ∈ (Finset.range d.numTeams).erase i, x i j

/-- Two teams level on wins with nothing left to play. -/
def tieDivision : Division where
  numTeams := 2
  teamNames := fun i => ["A", "B"].getD i ""
  wins := listAt [1, 1]
  losses := listAt [0, 0]
  remainingGames := listAt [0, 0]
  gamesAgainstMatrix := fun _ _ => 0

/-- Team `T` has played all its games and leads on wins, level with `A` and `B`, who
still have one game against each other. -/
def boundaryDivision : Division where
  numTeams := 3
  teamNames := fun i => ["T", "A", "B"].getD i ""
  wins := listAt [10, 10, 10]
  losses := listAt [0, 0, 0]
  remainingGames := listAt [0, 1, 1]
  gamesAgainstMatrix := fun i j =>
    listAt ([[0, 0, 0], [0, 0, 1], [0, 1, 0]].getD i []) j

/-- The cut of the network that belongs to a set `R` of teams: the source, the game
nodes of the games between two teams of `R`, and the team nodes of `R`. -/
def cutOf (d : Division) (t : Nat) (R : Finset Nat) : Finset Nat :=
  insert 0
    ((((Finset.range (gameList d t).length).filter fun k =>
        (gameAt d t k).1 ∈ R ∧ (gameAt d t k).2 ∈ R).image fun k => 1 + k)
      ∪ R.image (teamNode d t))

/-- Surplus of a set `R` of teams over the target `t`: games among `R` plus wins of `R`,
minus `|R|` times the most wins `t` can reach.  A non-empty `R` is an elimination
certificate exactly when its surplus is positive. -/
def surplus (d : Division) (t : Nat) (R : Finset Nat) : Int :=
  gamesWithin d R + winsOf d R - (R.card : Int) * (d.wins t + d.remainingGames t)

/-- Target `T` is eliminated by `A`, `B`, `C` together, and already by `A` and `B`. -/
def surplusDivision : Division where
  numTeams := 4
  teamNames := fun i => ["T", "A", "B", "C"].getD i ""
  wins := listAt [0, 0, 0, 0]
  losses := listAt [0, 0, 0, 0]
  remainingGames := listAt [0, 2, 1, 1]
  gamesAgainstMatrix := fun i j =>
    listAt ([[0, 0, 0, 0], [0, 0, 1, 1], [0, 1, 0, 0], [0, 1, 0, 0]].getD i []) j

/-- The index at which the team of index `i` stands once the positions `p` and `q` have
been exchanged (and the other way round). -/
def swapIndex (p q i : Nat) : Nat := if i = p then q else if i = q then p else i

/-- The input with the teams at positions `p` and `q` exchanged: their rows, and the
corresponding columns of the games matrix. -/
def swapTeams (d : Division) (p q : Nat) : Division where
  numTeams := d.numTeams
  teamNames := fun i => d.teamNames (swapIndex p q i)
  wins := fun i => d.wins (swapIndex p q i)
  losses := fun i => d.losses (swapIndex p q i)
  remainingGames := fun i => d.remainingGames (swapIndex p q i)
  gamesAgainstMatrix := fun i j => d.gamesAgainstMatrix (swapIndex p q i) (swapIndex p q j)

/-- Teams `A` and `B` have identical records and both are out of reach of `C`. -/
def twinDivision : Division where
  numTeams := 3
  teamNames := fun i => ["A", "B", "C"].getD i ""
  wins := listAt [10, 10, 0]
  losses := listAt [0, 0, 20]
  remainingGames := listAt [0, 0, 0]
  gamesAgainstMatrix := fun _ _ => 0

/-- A three-vertex graph with small capacities: `0 → 1` (3), `1 → 2` (2), `0 → 2` (1). -/
def smallGraph : Graph :=
  (((Graph.create 3).addEdge 0 1 3).addEdge 1 2 2).addEdge 0 2 1

/-- A three-vertex graph whose maximum flow does not fit in an `int`:
`0 → 2` (`INT_MAX`), `0 → 1` (1), `1 → 2` (1). -/
def overflowGraph : Graph :=
  (((Graph.create 3).addEdge 0 2 INT_MAX).addEdge 0 1 1).addEdge 1 2 1

/-! ## The solver as an object -/

/-- Class `FordFulkerson`: the solver object, with the graph it refers to
(`const Graph& graph`) and its own `parent` and `residual` vectors. -/
structure FordFulkerson where
  graph : Graph
  source : Nat
  sink : Nat
  parent : Nat → Int
  residual : Nat → Nat → Int

/-- Constructor `FordFulkerson(g, s, t)`: `parent` is filled with `-1` and `residual` is a
copy of the capacity matrix of `g`. -/
def FordFulkerson.create (g : Graph) (s t : Nat) : FordFulkerson :=
  ⟨g, s, t, fun _ => -1, g.capacityMatrix⟩

/-- Method `FordFulkerson::bfs` as a step of the solver object: it assigns `parent` and
returns whether the sink was reached. -/
def FordFulkerson.bfs (ff : FordFulkerson) : Option (Bool × FordFulkerson) :=
  match CricketElimination.bfs ff.residual ff.graph.numVertices ff.source ff.sink with
  | none => none
  | some (found, parent) => some (found, { ff with parent := parent })

/-- The `while (bfs())` loop of `FordFulkerson::getMaxFlow` on the solver object. -/
def FordFulkerson.getMaxFlowLoop : Nat → FordFulkerson → Int → Option (Int × FordFulkerson)
  | 0, _, _ => none
  | fuel + 1, ff, maxFlow =>
    match ff.bfs with
    | none => none
    | some (false, ff1) => some (maxFlow, ff1)
    | some (true, ff1) =>
      match bottleneck ff1.residual ff1.parent ff1.source ff1.graph.numVertices ff1.sink
          INT_MAX with
      | none => none
      | some pathFlow =>
        match augment ff1.parent ff1.source pathFlow ff1.graph.numVertices ff1.sink
            ff1.residual with
        | none => none
        | some residual' =>
          FordFulkerson.getMaxFlowLoop fuel { ff1 with residual := residual' }
            (wrap32 (maxFlow + pathFlow))

/-- Method `FordFulkerson::getMaxFlow` on the solver object: the returned value and the
solver after the call. -/
def FordFulkerson.getMaxFlow (fuel : Nat) (ff : FordFulkerson) :
    Option (Int × FordFulkerson) :=
  ff.getMaxFlowLoop fuel 0

/-- Method `FordFulkerson::getResidualGraph`. -/
def FordFulkerson.getResidualGraph (ff : FordFulkerson) : Nat → Nat → Int := ff.residual

/-! ## The augmentations of a run -/

/-- One round of the `while (bfs())` loop that found a path: the residual matrix before
it, the parent map of the search, the bottleneck and the residual matrix after it. -/
structure Augmentation where
  before : Nat → Nat → Int
  parent : Nat → Int
  pathFlow : Int
  after : Nat → Nat → Int

/-- The rounds of the `while (bfs())` loop of `getMaxFlow` that found a path, in the
order in which they run. -/
def maxFlowTrace (n source sink : Nat) :
    Nat → (Nat → Nat → Int) → Option (List Augmentation)
  | 0, _ => none
  | fuel + 1, residual =>
    match bfs residual n source sink with
    | none => none
    | some (false, _) => some []
    | some (true, parent) =>
      match bottleneck residual parent source n sink INT_MAX with
      | none => none
      | some pathFlow =>
        match augment parent source pathFlow n sink residual with
        | none => none
        | some residual' =>
          match maxFlowTrace n source sink fuel residual' with
          | none => none
          | some rounds => some (⟨residual, parent, pathFlow, residual'⟩ :: rounds)

/-- The running total and the residual matrix after a list of rounds. -/
def afterRounds (rounds : List Augmentation) (maxFlow : Int) (residual : Nat → Nat → Int) :
    Int × (Nat → Nat → Int) :=
  rounds.foldl (fun st a => (wrap32 (st.1 + a.pathFlow), a.after)) (maxFlow, residual)

/-- The net flow a residual matrix stands for: `capacity[i][j] - residual[i][j]`. -/
def netFlow (g : Graph) (residual : Nat → Nat → Int) : Nat → Nat → Int :=
  fun i j => g.capacityMatrix i j - residual i j

/-- The capacities are values of the type `int`. -/
def Graph.InIntRange (g : Graph) : Prop :=
  ∀ u v, u < g.numVertices → v < g.numVertices →
    -INT_MAX - 1 ≤ g.capacityMatrix u v ∧ g.capacityMatrix u v ≤ INT_MAX

/-- The rounds follow one another: the first starts from `residual`, each later one from
the matrix the round before it left. -/
def Linked : (Nat → Nat → Int) → List Augmentation → Prop
  | _, [] => True
  | residual, a :: rest => a.before = residual ∧ Linked a.after rest

/-- The invariant of the residual matrix: every entry between two vertices is
non-negative, and the two entries between two vertices add up to the two capacities
between them. -/
def ResidualBalanced (g : Graph) (residual : Nat → Nat → Int) : Prop :=
  (∀ i j, i < g.numVertices → j < g.numVertices → 0 ≤ residual i j) ∧
  ∀ i j, i < g.numVertices → j < g.numVertices →
    residual i j + residual j i = g.capacityMatrix i j + g.capacityMatrix j i

/-- What one round does: the parent map leads from the sink back to the source along a
list `l` of vertices, `pathFlow` is the bottleneck computed on the matrix before the
round, it is at least 1 and at most the residual capacity of every edge of the path, and
the matrix after the round is the matrix before it with `pathFlow` subtracted on the
edges `(parent[v], v)` of the path, added on their reverses, and nothing else changed. -/
def IsAugmentingStep (g : Graph) (source sink : Nat) (a : Augmentation) : Prop :=
  ∃ l, ParentChain a.parent source sink l ∧ (∀ x ∈ l, x < g.numVertices) ∧
    bottleneck a.before a.parent source g.numVertices sink INT_MAX = some a.pathFlow ∧
    1 ≤ a.pathFlow ∧ (∀ e ∈ pathEdges l, a.pathFlow ≤ a.before e.1 e.2) ∧
    ∀ i j, a.after i j =
      if (i, j) ∈ pathEdges l then a.before i j - a.pathFlow
      else if (j, i) ∈ pathEdges l then a.before i j + a.pathFlow
      else a.before i j

/-! ## Shortest augmenting paths -/

/-- A walk of `m` edges from `source` to a vertex along edges of positive residual
capacity, through vertices below `n`. -/
inductive ResidualWalk (residual : Nat → Nat → Int) (n source : Nat) : Nat → Nat → Prop where
  | start : ResidualWalk residual n source source 0
  | step {u w m : Nat} : ResidualWalk residual n source u m → w < n → residual u w > 0 →
      ResidualWalk residual n source w (m + 1)

/-- The list `p` holds the vertices of a path from `source` to `sink` in the graph with
`n` vertices, every edge of which has positive residual capacity. -/
def IsResidualPath (residual : Nat → Nat → Int) (n source sink : Nat) (p : List Nat) : Prop :=
  p.head? = some source ∧ p.getLast? = some sink ∧ (∀ x ∈ p, x < n) ∧
    p.Chain' (fun u w => residual u w > 0)

/-- The parent map is a tree rooted at the source and `dist` is the depth in it: every
reached vertex other than the source has a reached parent one level above it. -/
def BfsTree (source : Nat) (parent : Nat → Int) (dist : Nat → Nat) : Prop :=
  parent source = -2 ∧ dist source = 0 ∧
  ∀ v, parent v ≠ -1 → v ≠ source →
    ∃ u : Nat, parent v = (u : Int) ∧ parent u ≠ -1 ∧ dist v = dist u + 1

/-- All positive-residual successors of `v` below `n` have been reached, at most one
level below `v`. -/
def LayerClosed (residual : Nat → Nat → Int) (n : Nat) (parent : Nat → Int)
    (dist : Nat → Nat) (v : Nat) : Prop :=
  ∀ w, w < n → residual v w > 0 → parent w ≠ -1 ∧ dist w ≤ dist v + 1

/-- Invariant of `bfs` while the successors of `current` are scanned: the queue is
ordered by depth and holds vertices of the depth of `current` or one more; every reached
vertex is `current`, waits in the queue, or has all its successors reached; the reached
vertices outside the queue are no deeper than `current`. -/
structure ScanInv (residual : Nat → Nat → Int) (n source : Nat) (parent : Nat → Int)
    (dist : Nat → Nat) (current : Nat) (q : List Nat) : Prop where
  tree : BfsTree source parent dist
  cur : parent current ≠ -1
  sorted : q.Pairwise (fun a b => dist a ≤ dist b)
  band : ∀ x ∈ q, parent x ≠ -1 ∧ dist current ≤ dist x ∧ dist x ≤ dist current + 1
  closed : ∀ v, parent v ≠ -1 → v = current ∨ v ∈ q ∨ LayerClosed residual n parent dist v
  low : ∀ v, parent v ≠ -1 → v ∉ q → dist v ≤ dist current

/-- Invariant of `bfs` at the head of its `while` loop, for the queue `q`. -/
structure LoopInv (residual : Nat → Nat → Int) (n source : Nat) (parent : Nat → Int)
    (dist : Nat → Nat) (q : List Nat) : Prop where
  tree : BfsTree source parent dist
  sorted : q.Pairwise (fun a b => dist a ≤ dist b)
  vis : ∀ x ∈ q, parent x ≠ -1
  band : ∀ a ∈ q, ∀ b ∈ q, dist b ≤ dist a + 1
  closed : ∀ v, parent v ≠ -1 → v ∈ q ∨ LayerClosed residual n parent dist v
  low : ∀ v, parent v ≠ -1 → v ∉ q → ∀ x ∈ q, dist v ≤ dist x

/-! ## The `addEdge` calls of the constructor -/

/-- One call `graph.addEdge(from, to, capacity)`. -/
structure EdgeCall where
  src : Nat
  dst : Nat
  capacity : Int

/-- A list of `addEdge` calls applied to a graph, in order. -/
def replayCalls (calls : List EdgeCall) (g : Graph) : Graph :=
  calls.foldl (fun g c => g.addEdge c.src c.dst c.capacity) g

/-- Body of the second loop of the constructor for the pair `(i, j)`, recording the
`addEdge` calls it makes instead of applying them. -/
def addGameCalls (gamesAgainst : Nat → Nat → Int) (source teamNodeStart teamIndex : Nat)
    (st : List EdgeCall × Nat) (p : Nat × Nat) : List EdgeCall × Nat :=
  if p.1 = teamIndex then st
  else if p.2 = teamIndex then st
  else if gamesAgainst p.1 p.2 > 0 then
    (st.1 ++ [⟨source, st.2, gamesAgainst p.1 p.2⟩,
        ⟨st.2, adjustedTeamNode teamNodeStart teamIndex p.1, INT_MAX⟩,
        ⟨st.2, adjustedTeamNode teamNodeStart teamIndex p.2, INT_MAX⟩],
      st.2 + 1)
  else st

/-- Body of the third loop of the constructor for team `i`, recording the `addEdge` call. -/
def addSinkCall (wins : Nat → Int) (maxPossibleWins : Int) (sink teamNodeStart teamIndex : Nat)
    (calls : List EdgeCall) (i : Nat) : List EdgeCall :=
  if i = teamIndex then calls
  else
    let capacity := wrap32 (maxPossibleWins - wins i)
    let capacity := if capacity < 0 then 0 else capacity
    calls ++ [⟨adjustedTeamNode teamNodeStart teamIndex i, sink, capacity⟩]

/-- The `addEdge` calls made by the constructor `FlowNetwork(division, teamIdx)`, in the
order in which it makes them. -/
def FlowNetwork.edgeCalls (division : Division) (teamIdx : Nat) : List EdgeCall :=
  let numTeams := division.numTeams
  let gamesAgainst := division.gamesAgainstMatrix
  let numGames := countGames numTeams teamIdx gamesAgainst
  let totalNodes := 2 + numGames + (numTeams - 1)
  let source := 0
  let sink := totalNodes - 1
  let gameNodeStart := 1
  let teamNodeStart := gameNodeStart + numGames
  let calls1 := ((teamPairs numTeams).foldl
    (addGameCalls gamesAgainst source teamNodeStart teamIdx) ([], gameNodeStart)).1
  let maxPossibleWins := wrap32 (division.wins teamIdx + division.remainingGames teamIdx)
  (List.range numTeams).foldl
    (addSinkCall division.wins maxPossibleWins sink teamNodeStart teamIdx) calls1

/-- The pair `p` comes before the pair `q` when the loops `i` ascending, `j` ascending
run. -/
def pairBefore (p q : Nat × Nat) : Prop := p.1 < q.1 ∨ (p.1 = q.1 ∧ p.2 < q.2)

/-- The three calls made for a game: its node id and its pair of teams. -/
def gameCalls (d : Division) (t : Nat) (x : Nat × (Nat × Nat)) : List EdgeCall :=
  [⟨0, x.1, d.gamesAgainstMatrix x.2.1 x.2.2⟩,
    ⟨x.1, teamNode d t x.2.1, INT_MAX⟩, ⟨x.1, teamNode d t x.2.2, INT_MAX⟩]

/-- The call made for the team `i`. -/
def sinkCall (d : Division) (t i : Nat) : EdgeCall :=
  ⟨teamNode d t i, networkSink d t, sinkCapacity d t i⟩

/-! ## The variant `end.cpp` -/

/-- The three decisions `main` can print for a team. -/
inductive Decision where
  | NotEliminated
  | TriviallyEliminated
  | Eliminated
  deriving DecidableEq, Repr

/-- The decision behind a verdict of `wow.cpp`. -/
def Verdict.decision : Verdict → Decision
  | Verdict.NotEliminated => Decision.NotEliminated
  | Verdict.TriviallyEliminated _ => Decision.TriviallyEliminated
  | Verdict.Eliminated _ => Decision.Eliminated

namespace EndVariant

/-- Constant `INT32_MAX` of `<cstdint>`. -/
def INT32_MAX : Int := 2147483647

/-- Class `Division` of `end.cpp`; the games matrix is called `remainingGamesMatrix`. -/
structure Division where
  numTeams : Nat
  teamNames : Nat → String
  wins : Nat → Int
  losses : Nat → Int
  remainingGames : Nat → Int
  remainingGamesMatrix : Nat → Nat → Int

/-- Class `Graph` of `end.cpp`; the capacity matrix is called `adjList`. -/
structure Graph where
  numVertices : Nat
  adjList : Nat → Nat → Int

/-- Constructor `Graph(int vertices)` of `end.cpp`. -/
def Graph.create (vertices : Nat) : Graph := ⟨vertices, fun _ _ => 0⟩

/-- Method `Graph::addEdge` of `end.cpp`: `adjList[from][to] = capacity`. -/
def Graph.addEdge (g : Graph) (u v : Nat) (capacity : Int) : Graph :=
  ⟨g.numVertices, setCell g.adjList u v capacity⟩

/-- The `for (next ...)` loop inside `FordFulkerson::bfs` of `end.cpp`. -/
def bfsScan (residual : Nat → Nat → Int) (sink current : Nat) :
    List Nat → (Nat → Int) → List Nat → Bool × (Nat → Int) × List Nat
  | [], parent, q => (false, parent, q)
  | next :: rest, parent, q =>
    if parent next = -1 ∧ residual current next > 0 then
      if next = sink then (true, setAt parent next (current : Int), q)
      else bfsScan residual sink current rest (setAt parent next (current : Int)) (q ++ [next])
    else bfsScan residual sink current rest parent q

/-- The `while (!q.empty())` loop of `FordFulkerson::bfs` of `end.cpp`. -/
def bfsLoop (residual : Nat → Nat → Int) (n sink : Nat) :
    Nat → (Nat → Int) → List Nat → Option (Bool × (Nat → Int))
  | 0, _, _ => none
  | _ + 1, parent, [] => some (false, parent)
  | fuel + 1, parent, current :: q =>
    match bfsScan residual sink current (List.range n) parent q with
    | (true, parent', _) => some (true, parent')
    | (false, parent', q') => bfsLoop residual n sink fuel parent' q'

/-- Method `FordFulkerson::bfs` of `end.cpp`. -/
def bfs (residual : Nat → Nat → Int) (n source sink : Nat) : Option (Bool × (Nat → Int)) :=
  bfsLoop residual n sink (n + 1) (setAt (fun _ => (-1 : Int)) source (-2)) [source]

/-- First path loop of `getMaxFlow` of `end.cpp`: the bottleneck. -/
def bottleneck (residual : Nat → Nat → Int) (parent : Nat → Int) (source : Nat) :
    Nat → Nat → Int → Option Int
  | 0, v, pathFlow => if v = source then some pathFlow else none
  | fuel + 1, v, pathFlow =>
    if v = source then some pathFlow
    else if parent v < 0 then none
    else bottleneck residual parent source fuel (parent v).toNat
      (min pathFlow (residual (parent v).toNat v))

/-- Second path loop of `getMaxFlow` of `end.cpp`: the update of the residual matrix. -/
def augment (parent : Nat → Int) (source : Nat) (pathFlow : Int) :
    Nat → Nat → (Nat → Nat → Int) → Option (Nat → Nat → Int)
  | 0, v, residual => if v = source then some residual else none
  | fuel + 1, v, residual =>
    if v = source then some residual
    else if parent v < 0 then none
    else
      let u := (parent v).toNat
      let r1 := setCell residual u v (wrap32 (residual u v - pathFlow))
      let r2 := setCell r1 v u (wrap32 (r1 v u + pathFlow))
      augment parent source pathFlow fuel u r2

/-- The `while (bfs())` loop of `FordFulkerson::getMaxFlow` of `end.cpp`. -/
def maxFlowLoop (n source sink : Nat) :
    Nat → (Nat → Nat → Int) → Int → Option (Int × (Nat → Nat → Int))
  | 0, _, _ => none
  | fuel + 1, residual, maxFlow =>
    match bfs residual n source sink with
    | none => none
    | some (false, _) => some (maxFlow, residual)
    | some (true, parent) =>
      match bottleneck residual parent source n sink INT_MAX with
      | none => none
      | some pathFlow =>
        match augment parent source pathFlow n sink residual with
        | none => none
        | some residual' =>
          maxFlowLoop n source sink fuel residual' (wrap32 (maxFlow + pathFlow))

/-- Method `FordFulkerson::getMaxFlow` of `end.cpp` on a fresh solver, with the final
residual matrix (`getResidualGraph`). -/
def getMaxFlow (fuel : Nat) (g : Graph) (source sink : Nat) :
    Option (Int × (Nat → Nat → Int)) :=
  maxFlowLoop g.numVertices source sink fuel g.adjList 0

/-- Class `FlowNetwork` of `end.cpp`. -/
structure FlowNetwork where
  graph : Graph
  source : Nat
  sink : Nat
  leftTeam : Nat
  teamNames : Nat → String

/-- First loop of the constructor of `end.cpp`: the number of game nodes. -/
def countGames (numTeams teamIndex : Nat) (remainingGamesMatrix : Nat → Nat → Int) : Nat :=
  (teamPairs numTeams).foldl
    (fun numGames p =>
      if p.1 ≠ teamIndex ∧ p.2 ≠ teamIndex then
        if remainingGamesMatrix p.1 p.2 > 0 then numGames + 1 else numGames
      else numGames) 0

/-- Body of the second loop of the constructor of `end.cpp` for the pair `(i, j)`; the
index adjustment is written out in place. -/
def addGameEdges (remainingGames : Nat → Nat → Int) (source teamNodeStart teamIndex : Nat)
    (st : Graph × Nat) (p : Nat × Nat) : Graph × Nat :=
  if p.1 = teamIndex then st
  else if p.2 = teamIndex then st
  else if remainingGames p.1 p.2 > 0 then
    (((st.1.addEdge source st.2 (remainingGames p.1 p.2)).addEdge st.2
        (teamNodeStart + p.1 - (if p.1 > teamIndex then 1 else 0)) INT32_MAX).addEdge st.2
        (teamNodeStart + p.2 - (if p.2 > teamIndex then 1 else 0)) INT32_MAX,
      st.2 + 1)
  else st

/-- Body of the third loop of the constructor of `end.cpp` for team `i`. -/
def addSinkEdge (wins : Nat → Int) (maxPossibleWins : Int) (sink teamNodeStart teamIndex : Nat)
    (g : Graph) (i : Nat) : Graph :=
  if i = teamIndex then g
  else
    let capacity := wrap32 (maxPossibleWins - wins i)
    let capacity := if capacity < 0 then 0 else capacity
    g.addEdge (teamNodeStart + i - (if i > teamIndex then 1 else 0)) sink capacity

/-- Constructor `FlowNetwork(division, teamIndex)` of `end.cpp`. -/
def FlowNetwork.create (division : Division) (teamIndex : Nat) : FlowNetwork :=
  let numTeams := division.numTeams
  let numGames := countGames numTeams teamIndex division.remainingGamesMatrix
  let totalNodes := 2 + numGames + (numTeams - 1)
  let source := 0
  let sink := totalNodes - 1
  let gameNodeStart := 1
  let teamNodeStart := gameNodeStart + numGames
  let remainingGames := division.remainingGamesMatrix
  let g1 := ((teamPairs numTeams).foldl
    (addGameEdges remainingGames source teamNodeStart teamIndex)
    (Graph.create totalNodes, gameNodeStart)).1
  let maxPossibleWins := wrap32 (division.wins teamIndex + division.remainingGames teamIndex)
  let g2 := (List.range numTeams).foldl
    (addSinkEdge division.wins maxPossibleWins sink teamNodeStart teamIndex) g1
  ⟨g2, source, sink, teamIndex, division.teamNames⟩

/-- Method `FlowNetwork::isEliminated` of `end.cpp` (the diagnostic printing left out):
the loop `for (j < adjList[source].size()) totalGames += adjList[source][j]` and the
comparison `maxFlow < totalGames`. -/
def FlowNetwork.isEliminated (fuel : Nat) (fn : FlowNetwork) : Option Bool :=
  match getMaxFlow fuel fn.graph fn.source fn.sink with
  | none => none
  | some (maxFlow, _) =>
    some (decide (maxFlow < (List.range fn.graph.numVertices).foldl
      (fun totalGames j => wrap32 (totalGames + fn.graph.adjList fn.source j)) 0))

/-- What `main` of `end.cpp` reports for one team. -/
inductive Verdict where
  | NotEliminated
  | TriviallyEliminated (byTeam : String)
  | Eliminated
  deriving DecidableEq, Repr

/-- The decision behind a verdict of `end.cpp`. -/
def Verdict.decision : Verdict → Decision
  | Verdict.NotEliminated => Decision.NotEliminated
  | Verdict.TriviallyEliminated _ => Decision.TriviallyEliminated
  | Verdict.Eliminated => Decision.Eliminated

/-- The trivial elimination check of `main` of `end.cpp`. -/
def trivialCheck (division : Division) (teamIndex : Nat) : Option Nat :=
  (List.range division.numTeams).find? fun i =>
    i ≠ teamIndex ∧
      division.wins i > wrap32 (division.wins teamIndex + division.remainingGames teamIndex)

/-- Body of the loop of `main` of `end.cpp` for one `teamIndex`. -/
def analyzeTeam (fuel : Nat) (division : Division) (teamIndex : Nat) : Option Verdict :=
  match trivialCheck division teamIndex with
  | some i => some (Verdict.TriviallyEliminated (division.teamNames i))
  | none =>
    match (FlowNetwork.create division teamIndex).isEliminated fuel with
    | none => none
    | some true => some Verdict.Eliminated
    | some false => some Verdict.NotEliminated

end EndVariant

/-- The records of a division as the loader of `end.cpp` stores them. -/
def Division.toEnd (d : Division) : EndVariant.Division :=
  ⟨d.numTeams, d.teamNames, d.wins, d.losses, d.remainingGames, d.gamesAgainstMatrix⟩

/-- A graph of `end.cpp` read as a graph of `wow.cpp`. -/
def EndVariant.Graph.toWow (g : EndVariant.Graph) : CricketElimination.Graph :=
  ⟨g.numVertices, g.adjList⟩

theorem wrap32_of_range {x : Int} (h1 : -2147483648 ≤ x) (h2 : x ≤ 2147483647) :
    wrap32 x = x := by
  unfold wrap32; omega

theorem setAt_same {α : Type} (a : Nat → α) (k : Nat) (x : α) : setAt a k x k = x := by
  simp [setAt]

theorem setAt_other {α : Type} (a : Nat → α) (k : Nat) (x : α) {i : Nat} (h : i ≠ k) :
    setAt a k x i = a i := by
  simp [setAt, h]

theorem parentChain_head {parent : Nat → Int} {source v : Nat} {l : List Nat}
    (h : ParentChain parent source v l) : ∃ t, l = v :: t := by
  cases h with
  | base => exact ⟨[], rfl⟩
  | step _ _ _ _ => exact ⟨_, rfl⟩

theorem parentChain_congr {parent parent' : Nat → Int} {source v : Nat} {l : List Nat}
    (h : ParentChain parent source v l) (hp : ∀ x ∈ l, parent' x = parent x) :
    ParentChain parent' source v l := by
  induction h with
  | base => exact ParentChain.base
  | step hv hu _ hn ih =>
    refine ParentChain.step hv ?_ (ih fun x hx => hp x (List.mem_cons_of_mem _ hx)) hn
    rw [hp _ (List.mem_cons_self _ _)]; exact hu

theorem parentChain_nodup {parent : Nat → Int} {source v : Nat} {l : List Nat}
    (h : ParentChain parent source v l) : l.Nodup := by
  induction h with
  | base => simp
  | step _ _ _ hn ih => exact List.nodup_cons.mpr ⟨hn, ih⟩

theorem pathEdges_cons_cons (v u : Nat) (rest : List Nat) :
    pathEdges (v :: u :: rest) = (u, v) :: pathEdges (u :: rest) := rfl

theorem pathEdges_mem {l : List Nat} {e : Nat × Nat} (h : e ∈ pathEdges l) :
    e.1 ∈ l ∧ e.2 ∈ l := by
  induction l with
  | nil => simp [pathEdges] at h
  | cons v t ih =>
    cases t with
    | nil => simp [pathEdges] at h
    | cons u rest =>
      rw [pathEdges_cons_cons] at h
      rcases List.mem_cons.mp h with h | h
      · subst h; simp
      · have := ih h
        exact ⟨List.mem_cons_of_mem _ this.1, List.mem_cons_of_mem _ this.2⟩

theorem unvisitedCount_setAt {n : Nat} {parent : Nat → Int} {next : Nat} {c : Int}
    (hn : next < n) (hp : parent next = -1) (hc : c ≠ -1) :
    unvisitedCount n (setAt parent next c) + 1 = unvisitedCount n parent := by
  unfold unvisitedCount
  have hmem : next ∈ (Finset.range n).filter fun v => parent v = -1 := by
    simp [hn, hp]
  have : ((Finset.range n).filter fun v => setAt parent next c v = -1)
      = ((Finset.range n).filter fun v => parent v = -1).erase next := by
    ext x
    simp only [Finset.mem_filter, Finset.mem_range, Finset.mem_erase]
    by_cases hx : x = next
    · subst hx; simp [setAt_same, hc]
    · simp [setAt_other _ _ _ hx, hx]
  rw [this, Finset.card_erase_of_mem hmem]
  have := Finset.card_pos.mpr ⟨next, hmem⟩
  omega

theorem bfsInv_setAt {residual : Nat → Nat → Int} {n source : Nat} {parent : Nat → Int}
    {current next : Nat} (hinv : BfsInv residual n source parent) (hcur : parent current ≠ -1)
    (hn : next < n) (hp : parent next = -1) (hr : residual current next > 0) :
    BfsInv residual n source (setAt parent next (current : Int)) := by
  obtain ⟨hs, hsn, hch⟩ := hinv
  have hns : next ≠ source := by
    intro h; rw [h, hs] at hp; omega
  have hkeep : ∀ x, parent x ≠ -1 → setAt parent next (current : Int) x = parent x := by
    intro x hx
    apply setAt_other
    intro h; exact hx (h ▸ hp)
  have hvis : ∀ x, parent x ≠ -1 → setAt parent next (current : Int) x ≠ -1 := by
    intro x hx; rw [hkeep x hx]; exact hx
  refine ⟨by rw [setAt_other _ _ _ (Ne.symm hns)]; exact hs, hsn, ?_⟩
  intro v hv
  by_cases hvn : v = next
  · subst hvn
    obtain ⟨l, hl, hlx, hle⟩ := hch current hcur
    obtain ⟨t, rfl⟩ := parentChain_head hl
    have hnotin : v ∉ current :: t := fun h => (hlx v h).2 hp
    refine ⟨v :: current :: t, ?_, ?_, ?_⟩
    · exact ParentChain.step hns (setAt_same _ _ _)
        (parentChain_congr hl fun x hx => hkeep x (hlx x hx).2) hnotin
    · intro x hx
      rcases List.mem_cons.mp hx with h | h
      · subst h; exact ⟨hn, by rw [setAt_same]; omega⟩
      · exact ⟨(hlx x h).1, hvis x (hlx x h).2⟩
    · intro e he
      rw [pathEdges_cons_cons] at he
      rcases List.mem_cons.mp he with h | h
      · subst h; exact hr
      · exact hle e h
  · rw [setAt_other _ _ _ hvn] at hv
    obtain ⟨l, hl, hlx, hle⟩ := hch v hv
    exact ⟨l, parentChain_congr hl fun x hx => hkeep x (hlx x hx).2,
      fun x hx => ⟨(hlx x hx).1, hvis x (hlx x hx).2⟩, hle⟩

theorem bfsScan_spec {residual : Nat → Nat → Int} {n source sink current : Nat} :
    ∀ (rest : List Nat) (parent : Nat → Int) (q : List Nat) (b : Bool) (parent' : Nat → Int)
      (q' : List Nat),
    (∀ x ∈ rest, x < n) → BfsInv residual n source parent → parent current ≠ -1 →
    bfsScan residual sink current rest parent q = (b, parent', q') →
    BfsInv residual n source parent' ∧ (∀ x, parent x ≠ -1 → parent' x = parent x) ∧
    (b = true → parent' sink ≠ -1 ∧ sink ≠ source) ∧
    (b = false →
      (parent sink = -1 → parent' sink = -1) ∧
      (∀ x ∈ rest, residual current x > 0 → parent' x ≠ -1) ∧
      (∀ x ∈ q', x ∈ q ∨ (x < n ∧ parent' x ≠ -1)) ∧
      (∀ x ∈ q, x ∈ q') ∧
      (∀ x, parent' x ≠ -1 → parent x ≠ -1 ∨ x ∈ q') ∧
      q'.length + unvisitedCount n parent' ≤ q.length + unvisitedCount n parent) := by
  intro rest
  induction rest with
  | nil =>
    intro parent q b parent' q' _ hinv _ h
    simp only [bfsScan, Prod.mk.injEq] at h
    obtain ⟨rfl, rfl, rfl⟩ := h
    refine ⟨hinv, fun _ _ => rfl, by simp, fun _ => ⟨id, by simp, fun x hx => Or.inl hx,
      fun x hx => hx, fun x hx => Or.inl hx, le_refl _⟩⟩
  | cons next rest ih =>
    intro parent q b parent' q' hrest hinv hcur h
    have hnext : next < n := hrest next (List.mem_cons_self _ _)
    have hrest' : ∀ x ∈ rest, x < n := fun x hx => hrest x (List.mem_cons_of_mem _ hx)
    simp only [bfsScan] at h
    split at h
    · rename_i hcond
      obtain ⟨hp, hr⟩ := hcond
      have hinv1 := bfsInv_setAt hinv hcur hnext hp hr
      have hkeep : ∀ x, parent x ≠ -1 → setAt parent next (current : Int) x = parent x := by
        intro x hx
        apply setAt_other
        intro hxn; exact hx (hxn ▸ hp)
      split at h
      · rename_i hsink
        simp only [Prod.mk.injEq] at h
        obtain ⟨rfl, rfl, rfl⟩ := h
        refine ⟨hinv1, hkeep, fun _ => ⟨?_, ?_⟩, by simp⟩
        · rw [← hsink, setAt_same]; omega
        · intro hss
          rw [← hsink] at hss
          rw [hss, hinv.1] at hp; omega
      · rename_i hsink
        have hcur1 : setAt parent next (current : Int) current ≠ -1 := by
          rw [hkeep _ hcur]; exact hcur
        obtain ⟨i1, i2, i3, i4⟩ := ih _ _ b parent' q' hrest' hinv1 hcur1 h
        refine ⟨i1, fun x hx => ?_, i3, fun hb => ?_⟩
        · rw [i2 x (by rw [hkeep x hx]; exact hx), hkeep x hx]
        · obtain ⟨j1, j2, j3, j4, j5, j6⟩ := i4 hb
          have hnv : parent' next ≠ -1 := by
            rw [i2 next (by rw [setAt_same]; omega), setAt_same]; omega
          refine ⟨fun hs => j1 ?_, ?_, ?_, ?_, ?_, ?_⟩
          · rw [setAt_other _ _ _ (Ne.symm hsink)]; exact hs
          · intro x hx hrx
            rcases List.mem_cons.mp hx with hx | hx
            · subst hx; exact hnv
            · exact j2 x hx hrx
          · intro x hx
            rcases j3 x hx with hx | hx
            · rcases List.mem_append.mp hx with hx | hx
              · exact Or.inl hx
              · simp only [List.mem_singleton] at hx
                subst hx; exact Or.inr ⟨hnext, hnv⟩
            · exact Or.inr hx
          · intro x hx
            exact j4 x (List.mem_append_left _ hx)
          · intro x hx
            rcases j5 x hx with hx | hx
            · by_cases hxn : x = next
              · subst hxn
                exact Or.inr (j4 x (by simp))
              · rw [setAt_other _ _ _ hxn] at hx; exact Or.inl hx
            · exact Or.inr hx
          · have hc := unvisitedCount_setAt (c := (current : Int)) hnext hp (by omega)
            simp only [List.length_append, List.length_singleton] at j6
            omega
    · rename_i hcond
      obtain ⟨i1, i2, i3, i4⟩ := ih _ _ b parent' q' hrest' hinv hcur h
      refine ⟨i1, i2, i3, fun hb => ?_⟩
      obtain ⟨j1, j2, j3, j4, j5, j6⟩ := i4 hb
      refine ⟨j1, ?_, j3, j4, j5, j6⟩
      intro x hx hrx
      rcases List.mem_cons.mp hx with hx | hx
      · subst hx
        have hpx : parent x ≠ -1 := fun hpx => hcond ⟨hpx, hrx⟩
        rw [i2 x hpx]; exact hpx
      · exact j2 x hx hrx

theorem bfsLoop_spec {residual : Nat → Nat → Int} {n source sink : Nat} :
    ∀ (fuel : Nat) (parent : Nat → Int) (q : List Nat),
    BfsInv residual n source parent →
    (∀ x ∈ q, x < n ∧ parent x ≠ -1) →
    (∀ v, v < n → parent v ≠ -1 → v ∈ q ∨ ClosedAt residual n parent v) →
    q.length + unvisitedCount n parent < fuel →
    ∃ b parent', bfsLoop residual n sink fuel parent q = some (b, parent') ∧
      BfsInv residual n source parent' ∧
      (b = true → parent' sink ≠ -1 ∧ sink ≠ source) ∧
      (b = false → (parent sink = -1 → parent' sink = -1) ∧
        ∀ v, v < n → parent' v ≠ -1 → ClosedAt residual n parent' v) := by
  intro fuel
  induction fuel with
  | zero => intro parent q _ _ _ h; omega
  | succ fuel ih =>
    intro parent q hinv hq hclosed hfuel
    cases q with
    | nil =>
      refine ⟨false, parent, rfl, hinv, by simp, fun _ => ⟨id, fun v hv hpv => ?_⟩⟩
      rcases hclosed v hv hpv with h | h
      · simp at h
      · exact h
    | cons current q =>
      have hcur := hq current (List.mem_cons_self _ _)
      simp only [bfsLoop]
      rcases hscan : bfsScan residual sink current (List.range n) parent q with ⟨b, parent', q'⟩
      obtain ⟨i1, i2, i3, i4⟩ := bfsScan_spec (List.range n) parent q b parent' q'
        (fun x hx => List.mem_range.mp hx) hinv hcur.2 hscan
      cases b with
      | true => exact ⟨true, parent', rfl, i1, i3, by simp⟩
      | false =>
        obtain ⟨j1, j2, j3, j4, j5, j6⟩ := i4 rfl
        simp only
        have hq' : ∀ x ∈ q', x < n ∧ parent' x ≠ -1 := by
          intro x hx
          rcases j3 x hx with h | h
          · have := hq x (List.mem_cons_of_mem _ h)
            exact ⟨this.1, by rw [i2 x this.2]; exact this.2⟩
          · exact h
        have hmono : ∀ x, parent x ≠ -1 → parent' x ≠ -1 := fun x hx => by
          rw [i2 x hx]; exact hx
        have hclosed' : ∀ v, v < n → parent' v ≠ -1 → v ∈ q' ∨ ClosedAt residual n parent' v := by
          intro v hv hpv
          rcases j5 v hpv with h | h
          · rcases hclosed v hv h with h | h
            · rcases List.mem_cons.mp h with h | h
              · subst h
                exact Or.inr fun w hw hr => j2 w (List.mem_range.mpr hw) hr
              · exact Or.inl (j4 v h)
            · exact Or.inr fun w hw hr => hmono w (h w hw hr)
          · exact Or.inl h
        have hfuel' : q'.length + unvisitedCount n parent' < fuel := by
          simp only [List.length_cons] at hfuel
          omega
        obtain ⟨b, p2, h1, h2, h3, h4⟩ := ih parent' q' i1 hq' hclosed' hfuel'
        exact ⟨b, p2, h1, h2, h3, fun hb => ⟨fun hs => (h4 hb).1 (j1 hs), (h4 hb).2⟩⟩

/-- Specification of `bfs`: it always returns; when it returns `true` the parent
pointers lead from the sink back to the source along positive residual edges; when it
returns `false` the reached vertices are closed under positive residual edges and the
sink is not among them. -/
theorem bfs_spec (residual : Nat → Nat → Int) {n source sink : Nat} (hs : source < n) :
    ∃ b parent, bfs residual n source sink = some (b, parent) ∧
      BfsInv residual n source parent ∧
      (b = true → parent sink ≠ -1 ∧ sink ≠ source) ∧
      (b = false → (sink ≠ source → parent sink = -1) ∧
        ∀ v, v < n → parent v ≠ -1 → ClosedAt residual n parent v) := by
  have hinv : BfsInv residual n source (setAt (fun _ => (-1 : Int)) source (-2)) := by
    refine ⟨setAt_same _ _ _, hs, fun v hv => ?_⟩
    have hv' : v = source := by
      by_contra h
      rw [setAt_other _ _ _ h] at hv
      exact hv rfl
    subst hv'
    exact ⟨[v], ParentChain.base, by simpa using ⟨hs, hv⟩, by simp [pathEdges]⟩
  have hcount : unvisitedCount n (setAt (fun _ => (-1 : Int)) source (-2)) + 1 = n := by
    have := @unvisitedCount_setAt n (fun _ => (-1 : Int)) source (-2) hs rfl (by omega)
    have h0 : unvisitedCount n (fun _ => (-1 : Int)) = n := by
      simp [unvisitedCount]
    omega
  obtain ⟨b, parent, h1, h2, h3, h4⟩ := @bfsLoop_spec residual n source sink (n + 1)
    (setAt (fun _ => (-1 : Int)) source (-2)) [source] hinv
    (by
      intro x hx
      simp only [List.mem_singleton] at hx
      subst hx
      exact ⟨hs, by rw [setAt_same]; omega⟩)
    (by
      intro v _ hpv
      left
      by_contra h
      simp only [List.mem_singleton] at h
      rw [setAt_other _ _ _ h] at hpv
      exact hpv rfl)
    (by simp only [List.length_singleton]; omega)
  refine ⟨b, parent, h1, h2, h3, fun hb => ⟨fun hne => (h4 hb).1 ?_, (h4 hb).2⟩⟩
  rw [setAt_other _ _ _ hne]

theorem parentChain_length_le {parent : Nat → Int} {source v n : Nat} {l : List Nat}
    (h : ParentChain parent source v l) (hl : ∀ x ∈ l, x < n) : l.length ≤ n := by
  have hnd := parentChain_nodup h
  have hsub : l.toFinset ⊆ Finset.range n := by
    intro x hx
    exact Finset.mem_range.mpr (hl x (List.mem_toFinset.mp hx))
  have := Finset.card_le_card hsub
  rw [List.toFinset_card_of_nodup hnd, Finset.card_range] at this
  exact this

theorem bottleneck_spec {residual : Nat → Nat → Int} {parent : Nat → Int} {source : Nat}
    {v : Nat} {l : List Nat} (h : ParentChain parent source v l) :
    ∀ (fuel : Nat) (pf : Int), l.length ≤ fuel + 1 →
    ∃ pf', bottleneck residual parent source fuel v pf = some pf' ∧ pf' ≤ pf ∧
      (∀ e ∈ pathEdges l, pf' ≤ residual e.1 e.2) ∧
      (0 < pf → (∀ e ∈ pathEdges l, 0 < residual e.1 e.2) → 0 < pf') := by
  induction h with
  | base =>
    intro fuel pf _
    refine ⟨pf, ?_, le_refl _, by simp [pathEdges], fun h _ => h⟩
    cases fuel <;> simp [bottleneck]
  | @step v u l hv hu hl hn ih =>
    intro fuel pf hlen
    obtain ⟨t, rfl⟩ := parentChain_head hl
    cases fuel with
    | zero => simp at hlen
    | succ fuel =>
      have hlen' : (u :: t).length ≤ fuel + 1 := by
        simp only [List.length_cons] at hlen ⊢; omega
      obtain ⟨pf', h1, h2, h3, h4⟩ := ih fuel (min pf (residual u v)) hlen'
      refine ⟨pf', ?_, ?_, ?_, ?_⟩
      · simp only [bottleneck, hv, if_false, hu]
        have : ¬ ((u : Int) < 0) := by omega
        simp only [this, if_false, Int.toNat_ofNat]
        exact h1
      · exact le_trans h2 (min_le_left _ _)
      · intro e he
        rw [pathEdges_cons_cons] at he
        rcases List.mem_cons.mp he with he | he
        · subst he; exact le_trans h2 (min_le_right _ _)
        · exact h3 e he
      · intro hpf hpos
        apply h4
        · exact lt_min hpf (hpos (u, v) (by rw [pathEdges_cons_cons]; simp))
        · intro e he
          exact hpos e (by rw [pathEdges_cons_cons]; exact List.mem_cons_of_mem _ he)

theorem sum_range_ite_eq (n v : Nat) (hv : v < n) (x : Int) (f : Nat → Int) :
    (∑ j ∈ Finset.range n, if j = v then x else f j)
      = (∑ j ∈ Finset.range n, f j) + (x - f v) := by
  have hmem : v ∈ Finset.range n := Finset.mem_range.mpr hv
  rw [← Finset.add_sum_erase _ _ hmem, ← Finset.add_sum_erase (Finset.range n) f hmem]
  have : (∑ j ∈ (Finset.range n).erase v, if j = v then x else f j)
      = ∑ j ∈ (Finset.range n).erase v, f j := by
    apply Finset.sum_congr rfl
    intro j hj
    simp [(Finset.mem_erase.mp hj).1]
  rw [this]
  simp only [if_true]
  ring

theorem rowSum_setCell (n : Nat) (r : Nat → Nat → Int) (u v : Nat) (hv : v < n) (x : Int)
    (a : Nat) :
    rowSum n (setCell r u v x) a = rowSum n r a + (if a = u then x - r u v else 0) := by
  unfold rowSum setCell
  by_cases ha : a = u
  · subst ha
    simp only [true_and, if_true]
    exact sum_range_ite_eq n v hv x (r a)
  · simp [ha]

/-- One step of the update loop without the wrap. -/
theorem pushStep_apply (r : Nat → Nat → Int) (u v : Nat) (huv : u ≠ v) (pf : Int) (a b : Nat) :
    setCell (setCell r u v (r u v - pf)) v u (r v u + pf) a b
      = if a = u ∧ b = v then r u v - pf else if a = v ∧ b = u then r v u + pf else r a b := by
  unfold setCell
  by_cases h1 : a = v ∧ b = u
  · obtain ⟨rfl, rfl⟩ := h1
    have : ¬ (a = b ∧ b = a) := fun h => huv h.1.symm
    simp [this]
  · simp [h1]

theorem augment_spec {parent : Nat → Int} {source n : Nat} {pf : Int} (hpf : 0 ≤ pf)
    {v : Nat} {l : List Nat} (h : ParentChain parent source v l) :
    ∀ (fuel : Nat) (r : Nat → Nat → Int), l.length ≤ fuel + 1 → (∀ x ∈ l, x < n) →
    (∀ e ∈ pathEdges l, pf ≤ r e.1 e.2) →
    (∀ a b, a < n → b < n → 0 ≤ r a b) →
    (∀ a b, a < n → b < n → r a b + r b a ≤ INT_MAX) →
    ∃ r', augment parent source pf fuel v r = some r' ∧
      (∀ a b, a < n → b < n → 0 ≤ r' a b) ∧
      (∀ a b, r' a b + r' b a = r a b + r b a) ∧
      (∀ a, a < n → rowSum n r' a
        = rowSum n r a + (if a = v then pf else 0) - (if a = source then pf else 0)) := by
  induction h with
  | base =>
    intro fuel r _ _ _ hnn _
    refine ⟨r, ?_, hnn, fun _ _ => rfl, fun a _ => by ring⟩
    cases fuel <;> simp [augment]
  | @step v u l hv hu hl hn ih =>
    intro fuel r hlen hln hedge hnn hbound
    obtain ⟨t, rfl⟩ := parentChain_head hl
    cases fuel with
    | zero => simp at hlen
    | succ fuel =>
      have hlen' : (u :: t).length ≤ fuel + 1 := by
        simp only [List.length_cons] at hlen ⊢; omega
      have hvn : v < n := hln v (List.mem_cons_self _ _)
      have hun : u < n := hln u (List.mem_cons_of_mem _ (List.mem_cons_self _ _))
      have huv : u ≠ v := fun h => hn (h ▸ List.mem_cons_self _ _)
      have hpfle : pf ≤ r u v := hedge (u, v) (by rw [pathEdges_cons_cons]; simp)
      have h0uv := hnn u v hun hvn
      have h0vu := hnn v u hvn hun
      have hb := hbound u v hun hvn
      have hIM : INT_MAX = 2147483647 := rfl
      have hw1 : wrap32 (r u v - pf) = r u v - pf := wrap32_of_range (by omega) (by omega)
      have hr1 : setCell r u v (r u v - pf) v u = r v u := by
        unfold setCell
        have : ¬ (v = u ∧ u = v) := fun h => huv h.2
        simp [this]
      have hw2 : wrap32 (r v u + pf) = r v u + pf := wrap32_of_range (by omega) (by omega)
      have hstep := pushStep_apply r u v huv pf
      have hnn2 : ∀ a b, a < n → b < n →
          0 ≤ setCell (setCell r u v (r u v - pf)) v u (r v u + pf) a b := by
        intro a b ha hb'
        rw [hstep]
        split_ifs
        · omega
        · omega
        · exact hnn a b ha hb'
      have hpair2 : ∀ a b, setCell (setCell r u v (r u v - pf)) v u (r v u + pf) a b
          + setCell (setCell r u v (r u v - pf)) v u (r v u + pf) b a = r a b + r b a := by
        intro a b
        rw [hstep, hstep]
        by_cases h1 : a = u ∧ b = v
        · obtain ⟨rfl, rfl⟩ := h1
          have : ¬ (b = a ∧ a = b) := fun h => huv h.2
          simp [this]
        · by_cases h2 : a = v ∧ b = u
          · obtain ⟨rfl, rfl⟩ := h2
            have : ¬ (a = b ∧ b = a) := fun h => huv h.2
            simp [this]
          · have h3 : ¬ (b = u ∧ a = v) := fun h => h2 ⟨h.2, h.1⟩
            have h4 : ¬ (b = v ∧ a = u) := fun h => h1 ⟨h.2, h.1⟩
            simp [h1, h2, h3, h4]
      have hedge2 : ∀ e ∈ pathEdges (u :: t),
          pf ≤ setCell (setCell r u v (r u v - pf)) v u (r v u + pf) e.1 e.2 := by
        intro e he
        have hm := pathEdges_mem he
        have h1 : e.1 ≠ v := fun h => hn (h ▸ hm.1)
        have h2 : e.2 ≠ v := fun h => hn (h ▸ hm.2)
        rw [hstep]
        simp only [h1, h2, false_and, and_false, if_false]
        exact hedge e (by rw [pathEdges_cons_cons]; exact List.mem_cons_of_mem _ he)
      obtain ⟨r', g1, g2, g3, g4⟩ := ih fuel
        (setCell (setCell r u v (r u v - pf)) v u (r v u + pf)) hlen'
        (fun x hx => hln x (List.mem_cons_of_mem _ hx)) hedge2 hnn2
        (fun a b ha hb' => by rw [hpair2]; exact hbound a b ha hb')
      refine ⟨r', ?_, g2, fun a b => by rw [g3, hpair2], ?_⟩
      · simp only [augment, hv, if_false, hu]
        have : ¬ ((u : Int) < 0) := by omega
        simp only [this, if_false, Int.toNat_ofNat, hw1, hr1, hw2]
        exact g1
      · intro a ha
        rw [g4 a ha, rowSum_setCell n _ v u hun, rowSum_setCell n _ u v hvn, hr1]
        have hus : (if a = source then pf else 0) = (if a = source then pf else (0 : Int)) := rfl
        by_cases hau : a = u
        · have hav : a ≠ v := fun h => huv (hau ▸ h)
          simp only [hau, if_true]
          have : ¬ (u = v) := huv
          simp only [this, if_false]
          ring
        · by_cases hav : a = v
          · simp only [hav, if_true]
            have : ¬ (v = u) := fun h => huv h.symm
            simp only [this, if_false]
            ring
          · simp only [hau, hav, if_false]
            ring

theorem rowSum_nonneg {n : Nat} {r : Nat → Nat → Int} {a : Nat} (ha : a < n)
    (h : ∀ a b, a < n → b < n → 0 ≤ r a b) : 0 ≤ rowSum n r a :=
  Finset.sum_nonneg fun j hj => h a j ha (Finset.mem_range.mp hj)

theorem residualInv_init (g : Graph) (source sink : Nat) (hnn : g.NonNeg) :
    ResidualInv g source sink g.capacityMatrix 0 :=
  ⟨hnn, fun _ _ _ _ => rfl, fun _ _ _ _ => rfl, by simp, by simp, le_refl _⟩

theorem maxFlowLoop_spec (g : Graph) {source sink : Nat} (hs : source < g.numVertices)
    (hne : source ≠ sink) (hov : g.NoOverflow source) :
    ∀ (fuel : Nat) (residual : Nat → Nat → Int) (maxFlow : Int),
    ResidualInv g source sink residual maxFlow →
    (rowSum g.numVertices residual source).toNat < fuel →
    ∃ v residual', maxFlowLoop g.numVertices source sink fuel residual maxFlow
        = some (v, residual') ∧
      ResidualInv g source sink residual' v ∧
      ∃ S, IsCut g source sink S ∧ ResidualClosed g residual' S := by
  intro fuel
  induction fuel with
  | zero => intro _ _ _ h; omega
  | succ fuel ih =>
    intro residual maxFlow hinv hfuel
    obtain ⟨b, parent, hbfs, hbinv, htrue, hfalse⟩ := @bfs_spec residual g.numVertices source sink hs
    simp only [maxFlowLoop, hbfs]
    cases b with
    | false =>
      obtain ⟨hsink, hclosed⟩ := hfalse rfl
      refine ⟨maxFlow, residual, rfl, hinv,
        (Finset.range g.numVertices).filter (fun v => parent v ≠ -1), ?_, ?_⟩
      · refine ⟨Finset.filter_subset _ _, ?_, ?_⟩
        · simp only [Finset.mem_filter, Finset.mem_range]
          exact ⟨hs, by rw [hbinv.1]; omega⟩
        · simp only [Finset.mem_filter, Finset.mem_range, not_and, not_not]
          intro _; exact hsink (Ne.symm hne)
      · intro a ha b hb hbS
        simp only [Finset.mem_filter, Finset.mem_range] at ha hbS
        by_contra hpos
        exact hbS ⟨hb, hclosed a ha.1 ha.2 b hb (by omega)⟩
    | true =>
      obtain ⟨hps, _⟩ := htrue rfl
      obtain ⟨l, hl, hlx, hle⟩ := hbinv.2.2 sink hps
      have hlen := parentChain_length_le hl (fun x hx => (hlx x hx).1)
      obtain ⟨pf, hb1, hb2, hb3, hb4⟩ := @bottleneck_spec residual parent source sink l hl
        g.numVertices INT_MAX (by omega)
      have hpos : 0 < pf := hb4 (by decide) hle
      obtain ⟨r', ha1, ha2, ha3, ha4⟩ := augment_spec (n := g.numVertices) (le_of_lt hpos) hl
        g.numVertices residual (by omega) (fun x hx => (hlx x hx).1) hb3 hinv.nonneg
        (fun a b ha hb => by rw [hinv.pair a b ha hb]; exact hov.1 a b ha hb)
      have hsinkn : sink < g.numVertices := (hlx sink (by
        obtain ⟨t, rfl⟩ := parentChain_head hl; exact List.mem_cons_self _ _)).1
      have hrs := ha4 source hs
      have hrt := ha4 sink hsinkn
      simp only [hne, if_false, if_true, (Ne.symm hne)] at hrs hrt
      have hnn' := rowSum_nonneg hs ha2
      have hnn0 := rowSum_nonneg hs hinv.nonneg
      have hval := hinv.value
      have hvn := hinv.value_nonneg
      have hIM : INT_MAX = 2147483647 := rfl
      have hcap := hov.2
      have hw : wrap32 (maxFlow + pf) = maxFlow + pf :=
        wrap32_of_range (by omega) (by omega)
      have hinv' : ResidualInv g source sink r' (maxFlow + pf) := by
        refine ⟨ha2, fun u v hu hv => by rw [ha3, hinv.pair u v hu hv], ?_, ?_, ?_, by omega⟩
        · intro v hv h1 h2
          rw [ha4 v hv, hinv.conserve v hv h1 h2]
          simp [h1, h2]
        · omega
        · rw [hrt, hinv.sinkRow]; ring
      simp only [hb1, ha1, hw]
      exact ih r' (maxFlow + pf) hinv' (by omega)

/-- With `source == sink` the first `bfs` fails at once and the flow is 0. -/
theorem maxFlowLoop_same (n source : Nat) (hs : source < n) (fuel : Nat)
    (residual : Nat → Nat → Int) (maxFlow : Int) :
    maxFlowLoop n source source (fuel + 1) residual maxFlow = some (maxFlow, residual) := by
  obtain ⟨b, parent, hbfs, _, htrue, _⟩ := @bfs_spec residual n source source hs
  simp only [maxFlowLoop, hbfs]
  cases b with
  | false => rfl
  | true => exact absurd rfl (htrue rfl).2

theorem antisym_double_sum (S : Finset Nat) (N : Nat → Nat → Int)
    (h : ∀ a ∈ S, ∀ b ∈ S, N a b = - N b a) : ∑ u ∈ S, ∑ v ∈ S, N u v = 0 := by
  have h1 : ∑ u ∈ S, ∑ v ∈ S, N u v = ∑ u ∈ S, ∑ v ∈ S, - N v u :=
    Finset.sum_congr rfl fun u hu => Finset.sum_congr rfl fun v hv => h u hu v hv
  have h2 : ∑ u ∈ S, ∑ v ∈ S, - N v u = - ∑ u ∈ S, ∑ v ∈ S, N v u := by
    simp only [Finset.sum_neg_distrib]
  have h3 : ∑ u ∈ S, ∑ v ∈ S, N v u = ∑ u ∈ S, ∑ v ∈ S, N u v := Finset.sum_comm
  rw [h2, h3] at h1
  omega

theorem sum_split_cut {n : Nat} {S : Finset Nat} (hS : S ⊆ Finset.range n) (h : Nat → Int) :
    ∑ v ∈ Finset.range n, h v = ∑ v ∈ S, h v + ∑ v ∈ Finset.range n \ S, h v := by
  rw [← Finset.sum_sdiff hS]; ring

theorem cut_sum {n : Nat} {S : Finset Nat} (hS : S ⊆ Finset.range n) (N : Nat → Nat → Int)
    (h : ∀ a, a < n → ∀ b, b < n → N a b = - N b a) :
    ∑ u ∈ S, ∑ v ∈ Finset.range n, N u v = ∑ u ∈ S, ∑ v ∈ Finset.range n \ S, N u v := by
  have h1 : ∑ u ∈ S, ∑ v ∈ Finset.range n, N u v
      = ∑ u ∈ S, (∑ v ∈ S, N u v + ∑ v ∈ Finset.range n \ S, N u v) :=
    Finset.sum_congr rfl fun u _ => sum_split_cut hS (N u)
  rw [h1, Finset.sum_add_distrib, antisym_double_sum S N fun a ha b hb =>
    h a (Finset.mem_range.mp (hS ha)) b (Finset.mem_range.mp (hS hb))]
  ring

/-- Weak duality: no feasible flow is worth more than a cut. -/
theorem flowValue_le_cutCapacity {g : Graph} {source sink : Nat} {f : Nat → Nat → Int}
    {S : Finset Nat} (hf : IsFlow g source sink f) (hS : IsCut g source sink S) :
    flowValue g source f ≤ cutCapacity g S := by
  obtain ⟨hsub, hsrc, hsnk⟩ := hS
  have hN : ∀ u, ∑ v ∈ Finset.range g.numVertices, (f u v - f v u)
      = rowSum g.numVertices f u - colSum g.numVertices f u := by
    intro u; simp only [rowSum, colSum, Finset.sum_sub_distrib]
  have h1 : ∑ u ∈ S, (rowSum g.numVertices f u - colSum g.numVertices f u)
      = flowValue g source f := by
    rw [Finset.sum_eq_single_of_mem source hsrc]
    · rfl
    · intro u hu hne
      have hun := Finset.mem_range.mp (hsub hu)
      have : u ≠ sink := fun h => hsnk (h ▸ hu)
      rw [hf.conserve u hun hne this]; ring
  have h2 := cut_sum hsub (fun u v => f u v - f v u) (fun a _ b _ => by ring)
  simp only [hN] at h2
  rw [← h1, h2]
  unfold cutCapacity
  apply Finset.sum_le_sum
  intro u hu
  apply Finset.sum_le_sum
  intro v hv
  have hun := Finset.mem_range.mp (hsub hu)
  have hvn := Finset.mem_range.mp (Finset.mem_sdiff.mp hv).1
  have := hf.le_cap u v hun hvn
  have := hf.nonneg v u hvn hun
  omega

theorem residualFlow_isFlow {g : Graph} {source sink : Nat} {residual : Nat → Nat → Int}
    {maxFlow : Int} (hnn : g.NonNeg) (hs : source < g.numVertices)
    (hinv : ResidualInv g source sink residual maxFlow) :
    IsFlow g source sink (residualFlow g residual)
      ∧ flowValue g source (residualFlow g residual) = maxFlow := by
  have hdiff : ∀ u, u < g.numVertices →
      rowSum g.numVertices (residualFlow g residual) u
        - colSum g.numVertices (residualFlow g residual) u
      = rowSum g.numVertices g.capacityMatrix u - rowSum g.numVertices residual u := by
    intro u hu
    simp only [rowSum, colSum, ← Finset.sum_sub_distrib]
    apply Finset.sum_congr rfl
    intro v hv
    have hvn := Finset.mem_range.mp hv
    have := hinv.pair u v hu hvn
    simp only [residualFlow]
    rcases max_cases 0 (g.capacityMatrix u v - residual u v) with ⟨h1, _⟩ | ⟨h1, _⟩ <;>
    rcases max_cases 0 (g.capacityMatrix v u - residual v u) with ⟨h2, _⟩ | ⟨h2, _⟩ <;>
    omega
  refine ⟨⟨?_, ?_, ?_⟩, ?_⟩
  · intro u v _ _; exact le_max_left _ _
  · intro u v hu hv
    have := hinv.nonneg u v hu hv
    have := hnn u v hu hv
    simp only [residualFlow]
    rcases max_cases 0 (g.capacityMatrix u v - residual u v) with ⟨h1, _⟩ | ⟨h1, _⟩ <;> omega
  · intro v hv h1 h2
    have := hdiff v hv
    rw [hinv.conserve v hv h1 h2] at this
    omega
  · unfold flowValue
    rw [hdiff source hs]; exact hinv.value

theorem cutCapacity_of_closed {g : Graph} {source sink : Nat} {residual : Nat → Nat → Int}
    {maxFlow : Int} {S : Finset Nat} (hinv : ResidualInv g source sink residual maxFlow)
    (hS : IsCut g source sink S) (hcl : ResidualClosed g residual S) :
    cutCapacity g S = maxFlow := by
  obtain ⟨hsub, hsrc, hsnk⟩ := hS
  have hsn := Finset.mem_range.mp (hsub hsrc)
  have hN : ∀ u, ∑ v ∈ Finset.range g.numVertices, (g.capacityMatrix u v - residual u v)
      = rowSum g.numVertices g.capacityMatrix u - rowSum g.numVertices residual u := by
    intro u; simp only [rowSum, Finset.sum_sub_distrib]
  have h1 : ∑ u ∈ S, (rowSum g.numVertices g.capacityMatrix u
      - rowSum g.numVertices residual u) = maxFlow := by
    rw [Finset.sum_eq_single_of_mem source hsrc]
    · exact hinv.value
    · intro u hu hne
      have hun := Finset.mem_range.mp (hsub hu)
      have : u ≠ sink := fun h => hsnk (h ▸ hu)
      rw [hinv.conserve u hun hne this]; ring
  have h2 := cut_sum hsub (fun u v => g.capacityMatrix u v - residual u v)
    (fun a ha b hb => by have := hinv.pair a b ha hb; simp only; omega)
  simp only [hN] at h2
  rw [← h1, h2]
  unfold cutCapacity
  apply Finset.sum_congr rfl
  intro u hu
  apply Finset.sum_congr rfl
  intro v hv
  have hun := Finset.mem_range.mp (hsub hu)
  have hvm := Finset.mem_sdiff.mp hv
  have hvn := Finset.mem_range.mp hvm.1
  have := hcl u hu v hvn hvm.2
  have := hinv.nonneg u v hun hvn
  omega

/-- What `getMaxFlow` returns on a well-formed input: enough fuel gives a value and a
residual matrix that satisfy the loop invariant, together with a cut that the residual
graph cannot leave. -/
theorem getMaxFlow_spec (g : Graph) {source sink : Nat} (hs : source < g.numVertices)
    (hne : source ≠ sink) (hnn : g.NonNeg) (hov : g.NoOverflow source) (fuel : Nat)
    (hfuel : (rowSum g.numVertices g.capacityMatrix source).toNat < fuel) :
    ∃ v residual, getMaxFlow fuel g source sink = some (v, residual) ∧
      ResidualInv g source sink residual v ∧
      ∃ S, IsCut g source sink S ∧ ResidualClosed g residual S :=
  maxFlowLoop_spec g hs hne hov fuel g.capacityMatrix 0 (residualInv_init g source sink hnn)
    hfuel

/-- What a cut is worth beyond the flow is the residual capacity that crosses it. -/
theorem cutCapacity_sub_value {g : Graph} {source sink : Nat} {residual : Nat → Nat → Int}
    {maxFlow : Int} {S : Finset Nat} (hinv : ResidualInv g source sink residual maxFlow)
    (hS : IsCut g source sink S) :
    cutCapacity g S - maxFlow
      = ∑ u ∈ S, ∑ v ∈ Finset.range g.numVertices \ S, residual u v := by
  obtain ⟨hsub, hsrc, hsnk⟩ := hS
  have hN : ∀ u, ∑ v ∈ Finset.range g.numVertices, (g.capacityMatrix u v - residual u v)
      = rowSum g.numVertices g.capacityMatrix u - rowSum g.numVertices residual u := by
    intro u; simp only [rowSum, Finset.sum_sub_distrib]
  have h1 : ∑ u ∈ S, (rowSum g.numVertices g.capacityMatrix u
      - rowSum g.numVertices residual u) = maxFlow := by
    rw [Finset.sum_eq_single_of_mem source hsrc]
    · exact hinv.value
    · intro u hu hne
      have hun := Finset.mem_range.mp (hsub hu)
      have : u ≠ sink := fun h => hsnk (h ▸ hu)
      rw [hinv.conserve u hun hne this]; ring
  have h2 := cut_sum hsub (fun u v => g.capacityMatrix u v - residual u v)
    (fun a ha b hb => by have := hinv.pair a b ha hb; simp only; omega)
  simp only [hN] at h2
  rw [h1] at h2
  rw [h2]
  unfold cutCapacity
  simp only [Finset.sum_sub_distrib]
  ring

theorem value_le_cutCapacity {g : Graph} {source sink : Nat} {residual : Nat → Nat → Int}
    {maxFlow : Int} {S : Finset Nat} (hinv : ResidualInv g source sink residual maxFlow)
    (hS : IsCut g source sink S) : maxFlow ≤ cutCapacity g S := by
  have h := cutCapacity_sub_value hinv hS
  have : 0 ≤ ∑ u ∈ S, ∑ v ∈ Finset.range g.numVertices \ S, residual u v := by
    apply Finset.sum_nonneg
    intro u hu
    apply Finset.sum_nonneg
    intro v hv
    exact hinv.nonneg u v (Finset.mem_range.mp (hS.1 hu))
      (Finset.mem_range.mp (Finset.mem_sdiff.mp hv).1)
  omega

/-- A cut worth exactly the flow is closed in the residual graph. -/
theorem closed_of_cutCapacity_eq {g : Graph} {source sink : Nat}
    {residual : Nat → Nat → Int} {maxFlow : Int} {S : Finset Nat}
    (hinv : ResidualInv g source sink residual maxFlow) (hS : IsCut g source sink S)
    (heq : cutCapacity g S = maxFlow) : ResidualClosed g residual S := by
  have h := cutCapacity_sub_value hinv hS
  rw [heq, sub_self] at h
  have hnn : ∀ u ∈ S, ∀ v ∈ Finset.range g.numVertices \ S, 0 ≤ residual u v :=
    fun u hu v hv => hinv.nonneg u v (Finset.mem_range.mp (hS.1 hu))
      (Finset.mem_range.mp (Finset.mem_sdiff.mp hv).1)
  intro a ha b hb hbS
  have h1 := (Finset.sum_eq_zero_iff_of_nonneg
    (fun u hu => Finset.sum_nonneg (hnn u hu))).mp h.symm a ha
  have h2 := (Finset.sum_eq_zero_iff_of_nonneg (hnn a ha)).mp h1 b
    (Finset.mem_sdiff.mpr ⟨Finset.mem_range.mpr hb, hbS⟩)
  omega

theorem smallGraph_nonNeg : smallGraph.NonNeg := by
  intro u v hu hv
  have hu' : u < 3 := hu
  have hv' : v < 3 := hv
  interval_cases u <;> interval_cases v <;> decide

theorem smallGraph_noOverflow : smallGraph.NoOverflow 0 := by
  constructor
  · intro u v hu hv
    have hu' : u < 3 := hu
    have hv' : v < 3 := hv
    interval_cases u <;> interval_cases v <;> decide
  · decide

theorem overflowGraph_nonNeg : overflowGraph.NonNeg := by
  intro u v hu hv
  have hu' : u < 3 := hu
  have hv' : v < 3 := hv
  interval_cases u <;> interval_cases v <;> decide

/-- C4. On a graph with non-negative capacities whose arithmetic stays in 32 bits, with
`source`, `sink` distinct and in range, `getMaxFlow` returns (given fuel beyond the sum of
the capacities leaving the source) a value that is the value of a feasible flow, bounds
the value of every feasible flow, is the capacity of a source/sink cut and bounds the
capacity of every such cut from below: the maximum flow, equal to the minimum cut. -/
theorem getMaxFlow_max_flow_min_cut (g : Graph) (source sink : Nat)
    (hs : source < g.numVertices) (_ht : sink < g.numVertices) (hne : source ≠ sink)
    (hnn : g.NonNeg) (hov : g.NoOverflow source) (fuel : Nat)
    (hfuel : (rowSum g.numVertices g.capacityMatrix source).toNat < fuel) :
    ∃ v residual, getMaxFlow fuel g source sink = some (v, residual) ∧
      (∃ f, IsFlow g source sink f ∧ flowValue g source f = v) ∧
      (∀ f, IsFlow g source sink f → flowValue g source f ≤ v) ∧
      (∃ S, IsCut g source sink S ∧ cutCapacity g S = v) ∧
      (∀ S, IsCut g source sink S → v ≤ cutCapacity g S) := by
  obtain ⟨v, residual, hrun, hinv, S, hS, hcl⟩ := getMaxFlow_spec g hs hne hnn hov fuel hfuel
  have hflow := residualFlow_isFlow hnn hs hinv
  have hcut := cutCapacity_of_closed hinv hS hcl
  refine ⟨v, residual, hrun, ⟨_, hflow.1, hflow.2⟩, ?_, ⟨S, hS, hcut⟩, ?_⟩
  · intro f hf
    rw [← hcut]; exact flowValue_le_cutCapacity hf hS
  · intro S' hS'
    rw [← hflow.2]; exact flowValue_le_cutCapacity hflow.1 hS'

theorem getMaxFlow_max_flow_min_cut_witness :
    ∃ v residual, getMaxFlow 5 smallGraph 0 2 = some (v, residual) ∧
      (∃ f, IsFlow smallGraph 0 2 f ∧ flowValue smallGraph 0 f = v) ∧
      (∀ f, IsFlow smallGraph 0 2 f → flowValue smallGraph 0 f ≤ v) ∧
      (∃ S, IsCut smallGraph 0 2 S ∧ cutCapacity smallGraph S = v) ∧
      (∀ S, IsCut smallGraph 0 2 S → v ≤ cutCapacity smallGraph S) :=
  getMaxFlow_max_flow_min_cut smallGraph 0 2 (by decide) (by decide) (by decide)
    smallGraph_nonNeg smallGraph_noOverflow 5 (by decide)

/-- C6, as stated, fails: on `overflowGraph` (capacities 2147483647, 1, 1, all
non-negative; source 0 and sink 2 in range) the running total wraps and `getMaxFlow`
returns a negative value. -/
theorem getMaxFlow_bounds_counterexample :
    overflowGraph.NonNeg ∧ 0 < overflowGraph.numVertices ∧ 2 < overflowGraph.numVertices ∧
    (getMaxFlow 3 overflowGraph 0 2).map Prod.fst = some (-2147483648) ∧
    ¬ (0 ≤ (-2147483648 : Int)) :=
  ⟨overflowGraph_nonNeg, by decide, by decide, by decide, by decide⟩

/-- C6, amended. On a graph with non-negative capacities whose arithmetic stays in 32 bits
(`Graph.NoOverflow`), for every `source` and `sink` in range, `getMaxFlow` returns a value
that is non-negative, at most the sum of the capacities leaving the source and at most
the sum of the capacities entering the sink. -/
theorem getMaxFlow_bounds (g : Graph) (source sink : Nat)
    (hs : source < g.numVertices) (ht : sink < g.numVertices)
    (hnn : g.NonNeg) (hov : g.NoOverflow source) (fuel : Nat)
    (hfuel : (rowSum g.numVertices g.capacityMatrix source).toNat < fuel) :
    ∃ v residual, getMaxFlow fuel g source sink = some (v, residual) ∧
      0 ≤ v ∧ v ≤ rowSum g.numVertices g.capacityMatrix source ∧
      v ≤ colSum g.numVertices g.capacityMatrix sink := by
  by_cases hne : source = sink
  · subst hne
    cases fuel with
    | zero => omega
    | succ fuel =>
      refine ⟨0, g.capacityMatrix, maxFlowLoop_same _ _ hs _ _ _, le_refl _, ?_, ?_⟩
      · exact rowSum_nonneg hs hnn
      · exact Finset.sum_nonneg fun j hj => hnn j source (Finset.mem_range.mp hj) hs
  · obtain ⟨v, residual, hrun, hinv, -⟩ := getMaxFlow_spec g hs hne hnn hov fuel hfuel
    refine ⟨v, residual, hrun, hinv.value_nonneg, ?_, ?_⟩
    · have := rowSum_nonneg hs hinv.nonneg
      have := hinv.value
      omega
    · have h1 := hinv.sinkRow
      have h2 : rowSum g.numVertices residual sink
          ≤ rowSum g.numVertices g.capacityMatrix sink
            + colSum g.numVertices g.capacityMatrix sink := by
        simp only [rowSum, colSum, ← Finset.sum_add_distrib]
        apply Finset.sum_le_sum
        intro j hj
        have hjn := Finset.mem_range.mp hj
        have := hinv.pair sink j ht hjn
        have := hinv.nonneg j sink hjn ht
        omega
      omega

theorem getMaxFlow_bounds_witness :
    ∃ v residual, getMaxFlow 5 smallGraph 0 2 = some (v, residual) ∧
      0 ≤ v ∧ v ≤ rowSum smallGraph.numVertices smallGraph.capacityMatrix 0 ∧
      v ≤ colSum smallGraph.numVertices smallGraph.capacityMatrix 2 :=
  getMaxFlow_bounds smallGraph 0 2 (by decide) (by decide)
    smallGraph_nonNeg smallGraph_noOverflow 5 (by decide)

theorem maxPossibleWins_eq {d : Division} (hv : ValidRecords d) {t : Nat} (ht : t < d.numTeams) :
    maxPossibleWins d t = d.wins t + d.remainingGames t := by
  have h1 := hv.wins_nonneg t ht
  have h2 := hv.remaining_nonneg t ht
  have h3 := hv.wins_bound t ht
  have hIM : INT_MAX = 2147483647 := rfl
  exact wrap32_of_range (by omega) (by omega)

theorem classicDivision_valid : ValidRecords classicDivision := by
  refine ⟨by decide, ?_, ?_, ?_, ?_, ?_, ?_, ?_, ?_, by decide⟩
  · intro i j hi hj
    have hi' : i < 4 := hi
    have hj' : j < 4 := hj
    interval_cases i <;> interval_cases j <;> decide
  · intro i hi
    have hi' : i < 4 := hi
    interval_cases i <;> decide
  · intro i hi
    have hi' : i < 4 := hi
    interval_cases i <;> decide
  · intro i hi
    have hi' : i < 4 := hi
    interval_cases i <;> decide
  · intro i j hi hj
    have hi' : i < 4 := hi
    have hj' : j < 4 := hj
    interval_cases i <;> interval_cases j <;> decide
  · intro i j hi hj
    have hi' : i < 4 := hi
    have hj' : j < 4 := hj
    interval_cases i <;> interval_cases j <;> decide
  · intro i hi
    have hi' : i < 4 := hi
    interval_cases i <;> decide
  · intro i hi
    have hi' : i < 4 := hi
    interval_cases i <;> decide

/-- C2. For valid records and a team `t`: if some other team already has more wins than
`wins[t] + gamesRemaining[t]`, the analysis of `main` yields
`TriviallyEliminated(teamNames[b])` for the lowest-index such team `b` (so never
`NotEliminated`), and it does so for every amount of fuel, zero included, that is without
running the flow computation; if there is no such team the verdict is not
`TriviallyEliminated`. -/
theorem analyzeTeam_trivial (d : Division) (hv : ValidRecords d) (t : Nat)
    (ht : t < d.numTeams) (fuel : Nat) :
    ((∃ i, i < d.numTeams ∧ i ≠ t ∧ d.wins i > d.wins t + d.remainingGames t) →
      ∃ b, b < d.numTeams ∧ b ≠ t ∧ d.wins b > d.wins t + d.remainingGames t ∧
        (∀ i, i < b → i ≠ t → ¬ d.wins i > d.wins t + d.remainingGames t) ∧
        analyzeTeam fuel d t = some (Verdict.TriviallyEliminated (d.teamNames b)) ∧
        analyzeTeam 0 d t = some (Verdict.TriviallyEliminated (d.teamNames b)) ∧
        analyzeTeam fuel d t ≠ some Verdict.NotEliminated) ∧
    ((¬ ∃ i, i < d.numTeams ∧ i ≠ t ∧ d.wins i > d.wins t + d.remainingGames t) →
      ∀ name, analyzeTeam fuel d t ≠ some (Verdict.TriviallyEliminated name)) := by
  have hM := maxPossibleWins_eq hv ht
  constructor
  · rintro ⟨i, hi, hit, hw⟩
    cases hc : trivialCheck d t with
    | none =>
      exfalso
      unfold trivialCheck at hc
      rw [List.find?_range_eq_none] at hc
      have := hc i hi
      simp [hit, hM, hw] at this
    | some b =>
      have hc' := hc
      unfold trivialCheck at hc'
      rw [List.find?_range_eq_some] at hc'
      obtain ⟨h1, h2, h3⟩ := hc'
      simp only [hM, decide_eq_true_eq] at h1
      refine ⟨b, List.mem_range.mp h2, h1.1, h1.2, ?_, ?_, ?_, ?_⟩
      · intro j hj hjt hjw
        have := h3 j hj
        simp [hjt, hM, hjw] at this
      · simp [analyzeTeam, hc]
      · simp [analyzeTeam, hc]
      · simp [analyzeTeam, hc]
  · intro hno name
    have hc : trivialCheck d t = none := by
      unfold trivialCheck
      rw [List.find?_range_eq_none]
      intro i hi
      simp only [hM, Bool.not_eq_eq_eq_not, Bool.not_true, decide_eq_false_iff_not]
      intro h
      exact hno ⟨i, hi, h.1, h.2⟩
    simp only [analyzeTeam, hc]
    cases (FlowNetwork.create d t).isEliminated fuel with
    | none => simp
    | some b =>
      cases b with
      | false => simp
      | true =>
        cases (FlowNetwork.create d t).getEliminationCertificate fuel <;> simp

theorem analyzeTeam_trivial_witness :
    ((∃ i, i < classicDivision.numTeams ∧ i ≠ 3 ∧
        classicDivision.wins i > classicDivision.wins 3 + classicDivision.remainingGames 3) →
      ∃ b, b < classicDivision.numTeams ∧ b ≠ 3 ∧
        classicDivision.wins b > classicDivision.wins 3 + classicDivision.remainingGames 3 ∧
        (∀ i, i < b → i ≠ 3 →
          ¬ classicDivision.wins i
            > classicDivision.wins 3 + classicDivision.remainingGames 3) ∧
        analyzeTeam 5 classicDivision 3
          = some (Verdict.TriviallyEliminated (classicDivision.teamNames b)) ∧
        analyzeTeam 0 classicDivision 3
          = some (Verdict.TriviallyEliminated (classicDivision.teamNames b)) ∧
        analyzeTeam 5 classicDivision 3 ≠ some Verdict.NotEliminated) ∧
    ((¬ ∃ i, i < classicDivision.numTeams ∧ i ≠ 3 ∧
        classicDivision.wins i > classicDivision.wins 3 + classicDivision.remainingGames 3) →
      ∀ name, analyzeTeam 5 classicDivision 3 ≠ some (Verdict.TriviallyEliminated name)) :=
  analyzeTeam_trivial classicDivision classicDivision_valid 3 (by decide) 5

set_option maxRecDepth 100000 in
/-- C5. On the four-team division Atlanta, Philadelphia, NewYork, Montreal the analysis
yields: Atlanta not eliminated; Philadelphia eliminated with certificate Atlanta, NewYork;
NewYork not eliminated; Montreal trivially eliminated by Atlanta. -/
theorem analyzeTeam_classicDivision :
    analyzeTeam 10 classicDivision 0 = some Verdict.NotEliminated ∧
    analyzeTeam 10 classicDivision 1 = some (Verdict.Eliminated ["Atlanta", "NewYork"]) ∧
    analyzeTeam 10 classicDivision 2 = some Verdict.NotEliminated ∧
    analyzeTeam 10 classicDivision 3 = some (Verdict.TriviallyEliminated "Atlanta") := by
  refine ⟨?_, ?_, ?_, ?_⟩ <;> decide

theorem mem_teamPairs {n : Nat} {p : Nat × Nat} : p ∈ teamPairs n ↔ p.1 < p.2 ∧ p.2 < n := by
  unfold teamPairs
  simp only [List.mem_flatMap, List.mem_range, List.mem_map, List.mem_range'_1]
  constructor
  · rintro ⟨i, hi, j, hj, rfl⟩
    simp only
    omega
  · intro h
    exact ⟨p.1, by omega, p.2, by omega, rfl⟩

theorem teamPairs_nodup (n : Nat) : (teamPairs n).Nodup := by
  unfold teamPairs
  rw [List.nodup_flatMap]
  constructor
  · intro i _
    apply List.Nodup.map
    · intro a b h; simpa using h
    · exact List.nodup_range' _ _
  · have hnd := List.nodup_range n
    refine List.Pairwise.imp ?_ hnd
    intro a b hab
    simp only [Function.onFun]
    intro x m1 m2
    simp only [List.mem_map] at m1 m2
    obtain ⟨_, _, rfl⟩ := m1
    obtain ⟨_, _, h⟩ := m2
    simp only [Prod.mk.injEq] at h
    exact absurd h.1.symm hab

theorem mem_gameList {d : Division} {t : Nat} {p : Nat × Nat} :
    p ∈ gameList d t ↔ p.1 < p.2 ∧ p.2 < d.numTeams ∧ p.1 ≠ t ∧ p.2 ≠ t ∧
      d.gamesAgainstMatrix p.1 p.2 > 0 := by
  unfold gameList
  simp only [List.mem_filter, mem_teamPairs, decide_eq_true_eq]
  tauto

theorem gameList_nodup (d : Division) (t : Nat) : (gameList d t).Nodup :=
  List.Nodup.filter _ (teamPairs_nodup _)

theorem countGames_eq (d : Division) (t : Nat) :
    countGames d.numTeams t d.gamesAgainstMatrix = (gameList d t).length := by
  unfold countGames gameList
  have key : ∀ (l : List (Nat × Nat)) (c : Nat),
      l.foldl (fun numGames p =>
        if p.1 ≠ t ∧ p.2 ≠ t then
          if d.gamesAgainstMatrix p.1 p.2 > 0 then numGames + 1 else numGames
        else numGames) c
      = c + (l.filter fun p =>
          p.1 ≠ t ∧ p.2 ≠ t ∧ d.gamesAgainstMatrix p.1 p.2 > 0).length := by
    intro l
    induction l with
    | nil => intro c; simp
    | cons p l ih =>
      intro c
      simp only [List.foldl_cons]
      rw [ih]
      by_cases h1 : p.1 ≠ t ∧ p.2 ≠ t
      · by_cases h2 : d.gamesAgainstMatrix p.1 p.2 > 0
        · have hf : (List.filter (fun q : Nat × Nat =>
              decide (q.1 ≠ t ∧ q.2 ≠ t ∧ d.gamesAgainstMatrix q.1 q.2 > 0)) (p :: l))
              = p :: List.filter (fun q : Nat × Nat =>
              decide (q.1 ≠ t ∧ q.2 ≠ t ∧ d.gamesAgainstMatrix q.1 q.2 > 0)) l := by
            rw [List.filter_cons]; simp [h1, h2]
          rw [if_pos h1, if_pos h2, hf, List.length_cons]
          omega
        · have hf : (List.filter (fun q : Nat × Nat =>
              decide (q.1 ≠ t ∧ q.2 ≠ t ∧ d.gamesAgainstMatrix q.1 q.2 > 0)) (p :: l))
              = List.filter (fun q : Nat × Nat =>
              decide (q.1 ≠ t ∧ q.2 ≠ t ∧ d.gamesAgainstMatrix q.1 q.2 > 0)) l := by
            rw [List.filter_cons]; simp [h2]
          rw [if_pos h1, if_neg h2, hf]
      · have hf : (List.filter (fun q : Nat × Nat =>
            decide (q.1 ≠ t ∧ q.2 ≠ t ∧ d.gamesAgainstMatrix q.1 q.2 > 0)) (p :: l))
            = List.filter (fun q : Nat × Nat =>
            decide (q.1 ≠ t ∧ q.2 ≠ t ∧ d.gamesAgainstMatrix q.1 q.2 > 0)) l := by
          rw [List.filter_cons]
          have : ¬ (p.1 ≠ t ∧ p.2 ≠ t ∧ d.gamesAgainstMatrix p.1 p.2 > 0) :=
            fun h => h1 ⟨h.1, h.2.1⟩
          simp only [decide_eq_false this]
          simp
        rw [if_neg h1, hf]
  rw [key]; simp

theorem setCell_apply (m : Nat → Nat → Int) (u v : Nat) (x : Int) (a b : Nat) :
    setCell m u v x a b = if a = u ∧ b = v then x else m a b := rfl

theorem getD_cons_shift {α : Type} (p : α) (l : List α) (d : α) {a k : Nat} (h : k + 1 ≤ a) :
    (p :: l).getD (a - k) d = l.getD (a - (k + 1)) d := by
  obtain ⟨m, rfl⟩ : ∃ m, a = k + 1 + m := ⟨a - (k + 1), by omega⟩
  have h1 : k + 1 + m - k = m + 1 := by omega
  have h2 : k + 1 + m - (k + 1) = m := by omega
  rw [h1, h2, List.getD_cons_succ]

theorem foldl_addGameEdges (g : Nat → Nat → Int) (s t : Nat) :
    ∀ (ps : List (Nat × Nat)) (gr : Graph) (k : Nat), 1 ≤ k →
    (ps.foldl (addGameEdges g 0 s t) (gr, k)).2
      = k + (ps.filter fun p => decide (p.1 ≠ t ∧ p.2 ≠ t ∧ g p.1 p.2 > 0)).length ∧
    (ps.foldl (addGameEdges g 0 s t) (gr, k)).1.numVertices = gr.numVertices ∧
    ∀ u v, (ps.foldl (addGameEdges g 0 s t) (gr, k)).1.capacityMatrix u v =
      if u = 0 ∧ k ≤ v ∧
          v < k + (ps.filter fun p => decide (p.1 ≠ t ∧ p.2 ≠ t ∧ g p.1 p.2 > 0)).length then
        g ((ps.filter fun p => decide (p.1 ≠ t ∧ p.2 ≠ t ∧ g p.1 p.2 > 0)).getD (v - k) (0, 0)).1
          ((ps.filter fun p => decide (p.1 ≠ t ∧ p.2 ≠ t ∧ g p.1 p.2 > 0)).getD (v - k) (0, 0)).2
      else if k ≤ u ∧
          u < k + (ps.filter fun p => decide (p.1 ≠ t ∧ p.2 ≠ t ∧ g p.1 p.2 > 0)).length ∧
          (v = adjustedTeamNode s t
              ((ps.filter fun p =>
                decide (p.1 ≠ t ∧ p.2 ≠ t ∧ g p.1 p.2 > 0)).getD (u - k) (0, 0)).1 ∨
            v = adjustedTeamNode s t
              ((ps.filter fun p =>
                decide (p.1 ≠ t ∧ p.2 ≠ t ∧ g p.1 p.2 > 0)).getD (u - k) (0, 0)).2) then
        INT_MAX
      else gr.capacityMatrix u v := by
  intro ps
  induction ps with
  | nil =>
    intro gr k _
    refine ⟨by simp, by simp, fun u v => ?_⟩
    have h1 : ¬ (u = 0 ∧ k ≤ v ∧ v < k + 0) := by omega
    have h2 : ∀ q : Prop, ¬ (k ≤ u ∧ u < k + 0 ∧ q) := fun q h => by omega
    simp only [List.filter_nil, List.length_nil, List.foldl_nil, h1, h2, if_false]
  | cons p ps ih =>
    intro gr k hk
    by_cases hc : p.1 ≠ t ∧ p.2 ≠ t ∧ g p.1 p.2 > 0
    · have hf : (List.filter (fun q : Nat × Nat =>
          decide (q.1 ≠ t ∧ q.2 ≠ t ∧ g q.1 q.2 > 0)) (p :: ps))
          = p :: List.filter (fun q : Nat × Nat =>
          decide (q.1 ≠ t ∧ q.2 ≠ t ∧ g q.1 q.2 > 0)) ps := by
        rw [List.filter_cons]; simp [hc]
      have hstep : addGameEdges g 0 s t (gr, k) p
          = (((gr.addEdge 0 k (g p.1 p.2)).addEdge k (adjustedTeamNode s t p.1) INT_MAX).addEdge k
              (adjustedTeamNode s t p.2) INT_MAX, k + 1) := by
        unfold addGameEdges
        simp [hc.1, hc.2.1, hc.2.2]
      rw [List.foldl_cons, hstep, hf]
      obtain ⟨i1, i2, i3⟩ := ih
        (((gr.addEdge 0 k (g p.1 p.2)).addEdge k (adjustedTeamNode s t p.1) INT_MAX).addEdge k
          (adjustedTeamNode s t p.2) INT_MAX) (k + 1) (by omega)
      refine ⟨by rw [i1, List.length_cons]; omega, by rw [i2]; rfl, ?_⟩
      intro u v
      rw [i3 u v]
      simp only [Graph.addEdge, setCell_apply, List.length_cons]
      generalize (List.filter (fun q : Nat × Nat =>
          decide (q.1 ≠ t ∧ q.2 ≠ t ∧ g q.1 q.2 > 0)) ps) = F
      by_cases hu0 : u = 0
      · subst hu0
        have hk0 : ¬ (0 = k) := by omega
        have hk1 : ¬ (k ≤ 0) := by omega
        have hk2 : ¬ (k + 1 ≤ 0) := by omega
        simp only [hk0, hk1, hk2, false_and, if_false, true_and]
        by_cases hvk : v = k
        · subst hvk
          have h1 : ¬ (v + 1 ≤ v ∧ v < v + 1 + F.length) := by omega
          have h2 : (v ≤ v ∧ v < v + (F.length + 1)) := by omega
          simp only [h1, h2, if_false, if_true, and_self, Nat.sub_self, List.getD_cons_zero]
        · by_cases hr : k + 1 ≤ v ∧ v < k + 1 + F.length
          · have h2 : (k ≤ v ∧ v < k + (F.length + 1)) := by omega
            rw [if_pos hr, if_pos h2, getD_cons_shift p F (0, 0) hr.1]
          · have h2 : ¬ (k ≤ v ∧ v < k + (F.length + 1)) := by omega
            rw [if_neg hr, if_neg h2]
            simp [hvk]
      · have h0 : ∀ q : Prop, ¬ (u = 0 ∧ q) := fun q h => hu0 h.1
        simp only [h0, hu0, false_and, if_false]
        by_cases huk : u = k
        · subst huk
          have h1 : ¬ (u + 1 ≤ u) := by omega
          have h2 : u ≤ u ∧ u < u + (F.length + 1) := by omega
          simp only [h1, false_and, if_false, h2.1, h2.2, true_and, Nat.sub_self,
            List.getD_cons_zero]
          by_cases ha : v = adjustedTeamNode s t p.1
          · simp [ha]
          · by_cases hb : v = adjustedTeamNode s t p.2
            · simp [hb]
            · simp [ha, hb]
        · have h3 : ∀ q : Prop, ¬ (u = k ∧ q) := fun q h => huk h.1
          simp only [h3, if_false]
          by_cases hr : k + 1 ≤ u ∧ u < k + 1 + F.length
          · have h2 : k ≤ u ∧ u < k + (F.length + 1) := by omega
            simp only [hr.1, hr.2, h2.1, h2.2, true_and, getD_cons_shift p F (0, 0) hr.1]
          · have h2 : ¬ (k ≤ u ∧ u < k + (F.length + 1)) := by omega
            have h4 : ∀ q : Prop, ¬ (k + 1 ≤ u ∧ u < k + 1 + F.length ∧ q) :=
              fun q h => hr ⟨h.1, h.2.1⟩
            have h5 : ∀ q : Prop, ¬ (k ≤ u ∧ u < k + (F.length + 1) ∧ q) :=
              fun q h => h2 ⟨h.1, h.2.1⟩
            simp only [h4, h5, if_false]
    · have hf : (List.filter (fun q : Nat × Nat =>
          decide (q.1 ≠ t ∧ q.2 ≠ t ∧ g q.1 q.2 > 0)) (p :: ps))
          = List.filter (fun q : Nat × Nat =>
          decide (q.1 ≠ t ∧ q.2 ≠ t ∧ g q.1 q.2 > 0)) ps := by
        rw [List.filter_cons, decide_eq_false hc]; simp
      have hstep : addGameEdges g 0 s t (gr, k) p = (gr, k) := by
        unfold addGameEdges
        by_cases h1 : p.1 = t
        · simp [h1]
        · by_cases h2 : p.2 = t
          · simp [h2]
          · have : ¬ (g p.1 p.2 > 0) := fun h => hc ⟨h1, h2, h⟩
            simp [h1, h2, this]
      rw [List.foldl_cons, hstep, hf]
      exact ih gr k hk

theorem adjustedTeamNode_teamOfNode (s t m : Nat) :
    adjustedTeamNode s t (teamOfNode t m) = s + m := by
  unfold adjustedTeamNode teamOfNode
  by_cases h : m < t
  · have : ¬ (m > t) := by omega
    simp [h, this]
  · have : m + 1 > t := by omega
    simp [h, this]

theorem teamOfNode_ne (t m : Nat) : teamOfNode t m ≠ t := by
  unfold teamOfNode
  by_cases h : m < t
  · simp only [h, if_true]; omega
  · simp only [h, if_false]; omega

theorem teamOfNode_adjustedTeamNode (s t i : Nat) (h : i ≠ t) :
    teamOfNode t (adjustedTeamNode s t i - s) = i := by
  unfold adjustedTeamNode teamOfNode
  by_cases hi : i > t
  · simp only [hi, if_true]
    have : ¬ (s + i - 1 - s < t) := by omega
    simp only [this, if_false]; omega
  · simp only [hi, if_false]
    have : s + i - 0 - s < t := by omega
    simp only [this, if_true]; omega

theorem le_adjustedTeamNode (s t i : Nat) (_h : i ≠ t) : s ≤ adjustedTeamNode s t i := by
  unfold adjustedTeamNode
  by_cases hi : i > t
  · simp only [hi, if_true]; omega
  · simp only [hi, if_false]; omega

theorem adjustedTeamNode_lt (s t i n : Nat) (ht : t < n) (hi : i < n) (_h : i ≠ t) :
    adjustedTeamNode s t i < s + (n - 1) := by
  unfold adjustedTeamNode
  by_cases hi' : i > t
  · simp only [hi', if_true]; omega
  · simp only [hi', if_false]; omega

theorem adjustedTeamNode_inj (s t i j : Nat) (hi : i ≠ t) (hj : j ≠ t)
    (h : adjustedTeamNode s t i = adjustedTeamNode s t j) : i = j := by
  have h1 := teamOfNode_adjustedTeamNode s t i hi
  have h2 := teamOfNode_adjustedTeamNode s t j hj
  rw [h] at h1
  omega

theorem foldl_addSinkEdge (wins : Nat → Int) (M : Int) (sink s t : Nat) :
    ∀ (m : Nat) (gr : Graph),
    ((List.range m).foldl (addSinkEdge wins M sink s t) gr).numVertices = gr.numVertices ∧
    ∀ u v, ((List.range m).foldl (addSinkEdge wins M sink s t) gr).capacityMatrix u v =
      if v = sink ∧ s ≤ u ∧ teamOfNode t (u - s) < m then
        (if wrap32 (M - wins (teamOfNode t (u - s))) < 0 then 0
          else wrap32 (M - wins (teamOfNode t (u - s))))
      else gr.capacityMatrix u v := by
  intro m
  induction m with
  | zero =>
    intro gr
    refine ⟨rfl, fun u v => ?_⟩
    have : ¬ (v = sink ∧ s ≤ u ∧ teamOfNode t (u - s) < 0) := by omega
    simp only [List.range_zero, List.foldl_nil, this, if_false]
  | succ m ih =>
    intro gr
    obtain ⟨i1, i2⟩ := ih gr
    rw [List.range_succ, List.foldl_append, List.foldl_cons, List.foldl_nil]
    by_cases hmt : m = t
    · have hstep : ∀ g : Graph, addSinkEdge wins M sink s t g m = g := by
        intro g; unfold addSinkEdge; simp [hmt]
      rw [hstep]
      refine ⟨i1, fun u v => ?_⟩
      rw [i2 u v]
      have hne := teamOfNode_ne t (u - s)
      have : (teamOfNode t (u - s) < m + 1) ↔ (teamOfNode t (u - s) < m) := by omega
      simp only [this]
    · have hstep : ∀ g : Graph, addSinkEdge wins M sink s t g m
          = g.addEdge (adjustedTeamNode s t m) sink
              (if wrap32 (M - wins m) < 0 then 0 else wrap32 (M - wins m)) := by
        intro g; unfold addSinkEdge; simp [hmt]
      rw [hstep]
      refine ⟨i1, fun u v => ?_⟩
      simp only [Graph.addEdge, setCell_apply]
      rw [i2 u v]
      by_cases hcell : u = adjustedTeamNode s t m ∧ v = sink
      · obtain ⟨rfl, rfl⟩ := hcell
        have h1 := teamOfNode_adjustedTeamNode s t m hmt
        have h2 := le_adjustedTeamNode s t m hmt
        simp only [h1, h2, and_self, true_and, Nat.lt_succ_self, if_true]
      · rw [if_neg hcell]
        by_cases hc : v = sink ∧ s ≤ u ∧ teamOfNode t (u - s) < m + 1
        · have hlt : teamOfNode t (u - s) < m := by
            rcases Nat.lt_succ_iff_lt_or_eq.mp hc.2.2 with h | h
            · exact h
            · exfalso
              apply hcell
              refine ⟨?_, hc.1⟩
              have := adjustedTeamNode_teamOfNode s t (u - s)
              rw [h] at this
              omega
          rw [if_pos hc, if_pos ⟨hc.1, hc.2.1, hlt⟩]
        · have hc' : ¬ (v = sink ∧ s ≤ u ∧ teamOfNode t (u - s) < m) :=
            fun h => hc ⟨h.1, h.2.1, by omega⟩
          rw [if_neg hc, if_neg hc']

/-- The graph built by the constructor of `FlowNetwork`, in closed form. -/
theorem create_graph (d : Division) (t : Nat) (hN : 1 ≤ d.numTeams) :
    (FlowNetwork.create d t).graph.numVertices = (gameList d t).length + d.numTeams + 1 ∧
    (FlowNetwork.create d t).graph.capacityMatrix = networkCap d t ∧
    (FlowNetwork.create d t).source = 0 ∧
    (FlowNetwork.create d t).sink = (gameList d t).length + d.numTeams ∧
    (FlowNetwork.create d t).teamNodeStart = 1 + (gameList d t).length ∧
    (FlowNetwork.create d t).teamIndex = t ∧
    (FlowNetwork.create d t).numTeams = d.numTeams ∧
    (FlowNetwork.create d t).teamNames = d.teamNames := by
  have hcount := countGames_eq d t
  have hgraph : (FlowNetwork.create d t).graph
      = (List.range d.numTeams).foldl
          (addSinkEdge d.wins (wrap32 (d.wins t + d.remainingGames t))
            (2 + countGames d.numTeams t d.gamesAgainstMatrix + (d.numTeams - 1) - 1)
            (1 + countGames d.numTeams t d.gamesAgainstMatrix) t)
          ((teamPairs d.numTeams).foldl
            (addGameEdges d.gamesAgainstMatrix 0
              (1 + countGames d.numTeams t d.gamesAgainstMatrix) t)
            (Graph.create (2 + countGames d.numTeams t d.gamesAgainstMatrix
              + (d.numTeams - 1)), 1)).1 := rfl
  have hsinkeq : (FlowNetwork.create d t).sink
      = 2 + countGames d.numTeams t d.gamesAgainstMatrix + (d.numTeams - 1) - 1 := rfl
  have hstart : (FlowNetwork.create d t).teamNodeStart
      = 1 + countGames d.numTeams t d.gamesAgainstMatrix := rfl
  rw [hgraph, hsinkeq, hstart, hcount]
  obtain ⟨_, g2, g3⟩ := foldl_addGameEdges d.gamesAgainstMatrix (1 + (gameList d t).length) t
    (teamPairs d.numTeams)
    (Graph.create (2 + (gameList d t).length + (d.numTeams - 1))) 1 (le_refl _)
  obtain ⟨s1, s2⟩ := foldl_addSinkEdge d.wins (wrap32 (d.wins t + d.remainingGames t))
    (2 + (gameList d t).length + (d.numTeams - 1) - 1) (1 + (gameList d t).length) t
    d.numTeams
    ((teamPairs d.numTeams).foldl
      (addGameEdges d.gamesAgainstMatrix 0 (1 + (gameList d t).length) t)
      (Graph.create (2 + (gameList d t).length + (d.numTeams - 1)), 1)).1
  have hsink : 2 + (gameList d t).length + (d.numTeams - 1) - 1
      = (gameList d t).length + d.numTeams := by omega
  refine ⟨?_, ?_, rfl, hsink, rfl, rfl, rfl, rfl⟩
  · rw [s1, g2]
    simp only [Graph.create]; omega
  · funext u v
    rw [s2 u v, g3 u v, hsink]
    simp only [networkCap, sinkCapacity, maxPossibleWins, Graph.create, gameList]

theorem gameAt_mem {d : Division} {t k : Nat} (hk : k < (gameList d t).length) :
    gameAt d t k ∈ gameList d t := by
  unfold gameAt
  rw [List.getD_eq_getElem _ _ hk]
  exact List.getElem_mem hk

theorem gameAt_inj {d : Division} {t k k' : Nat} (hk : k < (gameList d t).length)
    (hk' : k' < (gameList d t).length) (h : gameAt d t k = gameAt d t k') : k = k' := by
  unfold gameAt at h
  rw [List.getD_eq_getElem _ _ hk, List.getD_eq_getElem _ _ hk'] at h
  exact ((gameList_nodup d t).getElem_inj_iff).mp h

theorem exists_gameAt {d : Division} {t : Nat} {p : Nat × Nat} (hp : p ∈ gameList d t) :
    ∃ k, k < (gameList d t).length ∧ gameAt d t k = p := by
  obtain ⟨k, hk, rfl⟩ := List.getElem_of_mem hp
  exact ⟨k, hk, by unfold gameAt; rw [List.getD_eq_getElem _ _ hk]⟩

theorem teamNode_ge {d : Division} {t i : Nat} (h : i ≠ t) :
    1 + (gameList d t).length ≤ teamNode d t i := le_adjustedTeamNode _ _ _ h

theorem teamNode_lt {d : Division} {t i : Nat} (ht : t < d.numTeams) (hi : i < d.numTeams)
    (h : i ≠ t) : teamNode d t i < networkSink d t := by
  have := adjustedTeamNode_lt (1 + (gameList d t).length) t i d.numTeams ht hi h
  unfold teamNode networkSink
  omega

theorem teamNode_inj {d : Division} {t i j : Nat} (hi : i ≠ t) (hj : j ≠ t)
    (h : teamNode d t i = teamNode d t j) : i = j :=
  adjustedTeamNode_inj _ _ _ _ hi hj h

theorem networkCap_source (d : Division) (t v : Nat) :
    networkCap d t 0 v = if 1 ≤ v ∧ v < 1 + (gameList d t).length then
      d.gamesAgainstMatrix (gameAt d t (v - 1)).1 (gameAt d t (v - 1)).2 else 0 := by
  unfold networkCap gameAt
  have h1 : ∀ q r : Prop, ¬ (q ∧ 1 + (gameList d t).length ≤ 0 ∧ r) := fun q r h => by omega
  have h2 : ∀ q r : Prop, ¬ (1 ≤ 0 ∧ q ∧ r) := fun q r h => by omega
  simp only [h1, h2, if_false, true_and]

theorem networkCap_game (d : Division) (t k v : Nat) (hk : k < (gameList d t).length) :
    networkCap d t (1 + k) v
      = if v = teamNode d t (gameAt d t k).1 ∨ v = teamNode d t (gameAt d t k).2
        then INT_MAX else 0 := by
  unfold networkCap gameAt teamNode
  have h1 : ∀ q r : Prop, ¬ (q ∧ 1 + (gameList d t).length ≤ 1 + k ∧ r) :=
    fun q r h => by omega
  have h2 : ∀ q : Prop, ¬ (1 + k = 0 ∧ q) := fun q h => by omega
  have h3 : 1 ≤ 1 + k := by omega
  have h4 : 1 + k < 1 + (gameList d t).length := by omega
  have h5 : 1 + k - 1 = k := by omega
  simp only [h1, h2, h3, h4, h5, if_false, true_and]

theorem networkCap_team (d : Division) (t i v : Nat) (_ht : t < d.numTeams)
    (hi : i < d.numTeams) (h : i ≠ t) :
    networkCap d t (teamNode d t i) v
      = if v = networkSink d t then sinkCapacity d t i else 0 := by
  have hge := teamNode_ge (d := d) h
  have hinv : teamOfNode t (teamNode d t i - (1 + (gameList d t).length)) = i :=
    teamOfNode_adjustedTeamNode _ _ _ h
  unfold networkCap networkSink
  have h2 : ∀ q : Prop, ¬ (teamNode d t i = 0 ∧ q) := fun q h => by omega
  have h3 : ∀ q r : Prop, ¬ (q ∧ teamNode d t i < 1 + (gameList d t).length ∧ r) :=
    fun q r h => by omega
  simp only [hinv, hge, hi, h2, h3, if_false, and_true]

theorem networkCap_pos_lt (d : Division) (t u v : Nat) (ht : t < d.numTeams)
    (h : networkCap d t u v ≠ 0) :
    u < v ∧ u < networkSink d t := by
  unfold networkCap at h
  unfold networkSink
  split at h
  · rename_i hc
    obtain ⟨rfl, h1, h2⟩ := hc
    have := adjustedTeamNode_teamOfNode (1 + (gameList d t).length) t
      (u - (1 + (gameList d t).length))
    have hlt : u - (1 + (gameList d t).length) < d.numTeams - 1 := by
      unfold teamOfNode at h2
      split at h2 <;> omega
    omega
  · split at h
    · rename_i hc; omega
    · split at h
      · rename_i hc
        obtain ⟨h1, h2, h3⟩ := hc
        have hm : (gameList d t).getD (u - 1) (0, 0) ∈ gameList d t :=
          gameAt_mem (k := u - 1) (by omega)
        have hm' := mem_gameList.mp hm
        rcases h3 with h3 | h3
        · have := le_adjustedTeamNode (1 + (gameList d t).length) t
            ((gameList d t).getD (u - 1) (0, 0)).1 hm'.2.2.1
          omega
        · have := le_adjustedTeamNode (1 + (gameList d t).length) t
            ((gameList d t).getD (u - 1) (0, 0)).2 hm'.2.2.2.1
          omega
      · exact absurd rfl h

theorem wrap32_le (x : Int) : wrap32 x ≤ INT_MAX := by
  unfold wrap32 INT_MAX; omega

theorem sinkCapacity_nonneg (d : Division) (t i : Nat) : 0 ≤ sinkCapacity d t i := by
  unfold sinkCapacity; split <;> omega

theorem sinkCapacity_le (d : Division) (t i : Nat) : sinkCapacity d t i ≤ INT_MAX := by
  unfold sinkCapacity
  split
  · decide
  · exact wrap32_le _

theorem sinkCapacity_ge {d : Division} (hv : ValidRecords d) {t i : Nat}
    (ht : t < d.numTeams) (hi : i < d.numTeams) :
    d.wins t + d.remainingGames t - d.wins i ≤ sinkCapacity d t i := by
  have hM := maxPossibleWins_eq hv ht
  have h1 := hv.wins_nonneg t ht
  have h2 := hv.remaining_nonneg t ht
  have h3 := hv.wins_bound t ht
  have h4 := hv.wins_nonneg i hi
  have h5 := hv.wins_bound i hi
  have h6 := hv.remaining_nonneg i hi
  have hIM : INT_MAX = 2147483647 := rfl
  have hw : wrap32 (d.wins t + d.remainingGames t - d.wins i)
      = d.wins t + d.remainingGames t - d.wins i := wrap32_of_range (by omega) (by omega)
  unfold sinkCapacity
  rw [hM, hw]
  split <;> omega

theorem sinkCapacity_eq {d : Division} (hv : ValidRecords d) {t i : Nat}
    (ht : t < d.numTeams) (hi : i < d.numTeams)
    (hle : d.wins i ≤ d.wins t + d.remainingGames t) :
    sinkCapacity d t i = d.wins t + d.remainingGames t - d.wins i := by
  have hM := maxPossibleWins_eq hv ht
  have h1 := hv.wins_nonneg t ht
  have h2 := hv.remaining_nonneg t ht
  have h3 := hv.wins_bound t ht
  have h4 := hv.wins_nonneg i hi
  have hIM : INT_MAX = 2147483647 := rfl
  have hw : wrap32 (d.wins t + d.remainingGames t - d.wins i)
      = d.wins t + d.remainingGames t - d.wins i := wrap32_of_range (by omega) (by omega)
  unfold sinkCapacity
  rw [hM, hw]
  split <;> omega

theorem image_gameAt (d : Division) (t : Nat) :
    (Finset.range (gameList d t).length).image (gameAt d t) = gamePairSet d t := by
  ext p
  simp only [Finset.mem_image, Finset.mem_range, gamePairSet, Finset.mem_filter,
    Finset.mem_product]
  constructor
  · rintro ⟨k, hk, rfl⟩
    have := mem_gameList.mp (gameAt_mem hk)
    exact ⟨⟨by omega, this.2.1⟩, this.1, this.2.2.1, this.2.2.2.1, this.2.2.2.2⟩
  · rintro ⟨⟨_, h2⟩, h3, h4, h5, h6⟩
    obtain ⟨k, hk, hke⟩ := exists_gameAt (mem_gameList.mpr ⟨h3, h2, h4, h5, h6⟩)
    exact ⟨k, hk, hke⟩

/-- Sums over the game nodes are sums over the set of game pairs. -/
theorem sum_gameAt (d : Division) (t : Nat) (F : Nat × Nat → Int) :
    ∑ k ∈ Finset.range (gameList d t).length, F (gameAt d t k)
      = ∑ p ∈ gamePairSet d t, F p := by
  rw [← image_gameAt, Finset.sum_image]
  intro a ha b hb h
  exact gameAt_inj (Finset.mem_range.mp ha) (Finset.mem_range.mp hb) h

theorem sum_gamePairSet (d : Division) (hv : ValidRecords d) (t : Nat) :
    ∑ p ∈ gamePairSet d t, d.gamesAgainstMatrix p.1 p.2 = gamesAmong d t := by
  unfold gamePairSet gamesAmong
  rw [Finset.sum_filter, Finset.sum_product]
  apply Finset.sum_congr rfl
  intro i hi
  apply Finset.sum_congr rfl
  intro j hj
  have hg := hv.games_nonneg i j (Finset.mem_range.mp hi) (Finset.mem_range.mp hj)
  by_cases h1 : i < j ∧ i ≠ t ∧ j ≠ t
  · by_cases h2 : d.gamesAgainstMatrix i j > 0
    · rw [if_pos ⟨h1.1, h1.2.1, h1.2.2, h2⟩, if_pos h1]
    · have : ¬ (i < j ∧ i ≠ t ∧ j ≠ t ∧ d.gamesAgainstMatrix i j > 0) := fun h => h2 h.2.2.2
      rw [if_neg this, if_pos h1]; omega
  · have : ¬ (i < j ∧ i ≠ t ∧ j ≠ t ∧ d.gamesAgainstMatrix i j > 0) :=
      fun h => h1 ⟨h.1, h.2.1, h.2.2.1⟩
    rw [if_neg this, if_neg h1]

theorem gamesAmong_le_totalGames (d : Division) (hv : ValidRecords d) (t : Nat) :
    gamesAmong d t ≤ d.totalGames := by
  unfold gamesAmong Division.totalGames
  apply Finset.sum_le_sum
  intro i hi
  apply Finset.sum_le_sum
  intro j hj
  have hg := hv.games_nonneg i j (Finset.mem_range.mp hi) (Finset.mem_range.mp hj)
  by_cases h1 : i < j ∧ i ≠ t ∧ j ≠ t
  · rw [if_pos h1, if_pos h1.1]
  · rw [if_neg h1]
    split <;> omega

theorem gamesAmong_nonneg (d : Division) (hv : ValidRecords d) (t : Nat) :
    0 ≤ gamesAmong d t := by
  unfold gamesAmong
  apply Finset.sum_nonneg
  intro i hi
  apply Finset.sum_nonneg
  intro j hj
  have hg := hv.games_nonneg i j (Finset.mem_range.mp hi) (Finset.mem_range.mp hj)
  split <;> omega

/-- The source row of the network adds up to the games among the other teams. -/
theorem rowSum_networkCap_source (d : Division) (hv : ValidRecords d) (t : Nat) :
    rowSum (networkSize d t) (networkCap d t) 0 = gamesAmong d t := by
  rw [← sum_gamePairSet d hv t, ← sum_gameAt d t fun p => d.gamesAgainstMatrix p.1 p.2]
  unfold rowSum networkSize
  have hsub : Finset.range (1 + (gameList d t).length)
      ⊆ Finset.range ((gameList d t).length + d.numTeams + 1) :=
    Finset.range_subset.mpr (by omega)
  rw [← Finset.sum_subset hsub]
  · rw [add_comm 1 (gameList d t).length, Finset.sum_range_succ']
    rw [networkCap_source]
    have : ¬ (1 ≤ 0 ∧ 0 < 1 + (gameList d t).length) := by omega
    rw [if_neg this, add_zero]
    apply Finset.sum_congr rfl
    intro k hk
    have hk' := Finset.mem_range.mp hk
    rw [networkCap_source]
    have : 1 ≤ k + 1 ∧ k + 1 < 1 + (gameList d t).length := by omega
    rw [if_pos this]
    simp
  · intro v _ hv'
    rw [networkCap_source]
    have : ¬ (1 ≤ v ∧ v < 1 + (gameList d t).length) := by
      simp only [Finset.mem_range] at hv'; omega
    rw [if_neg this]

theorem game_le_gamesAmong (d : Division) (hv : ValidRecords d) (t : Nat) {p : Nat × Nat}
    (hp : p ∈ gameList d t) : d.gamesAgainstMatrix p.1 p.2 ≤ gamesAmong d t := by
  rw [← sum_gamePairSet d hv t]
  have hmem : p ∈ gamePairSet d t := by
    have := mem_gameList.mp hp
    simp only [gamePairSet, Finset.mem_filter, Finset.mem_product, Finset.mem_range]
    exact ⟨⟨by omega, this.2.1⟩, this.1, this.2.2.1, this.2.2.2.1, this.2.2.2.2⟩
  apply Finset.single_le_sum (f := fun p : Nat × Nat => d.gamesAgainstMatrix p.1 p.2) _ hmem
  intro q hq
  simp only [gamePairSet, Finset.mem_filter] at hq
  simp only
  omega

theorem networkCap_nonneg (d : Division) (_hv : ValidRecords d) (t u v : Nat) :
    0 ≤ networkCap d t u v := by
  unfold networkCap
  split
  · exact sinkCapacity_nonneg _ _ _
  · split
    · rename_i hc
      have hm : gameAt d t (v - 1) ∈ gameList d t := gameAt_mem (by omega)
      have := (mem_gameList.mp hm).2.2.2.2
      unfold gameAt at this
      omega
    · split
      · decide
      · exact le_refl _

theorem networkCap_le (d : Division) (hv : ValidRecords d) (t u v : Nat) :
    networkCap d t u v ≤ INT_MAX := by
  unfold networkCap
  split
  · exact sinkCapacity_le _ _ _
  · split
    · rename_i hc
      have hm : gameAt d t (v - 1) ∈ gameList d t := gameAt_mem (by omega)
      have h1 := game_le_gamesAmong d hv t hm
      have h2 := gamesAmong_le_totalGames d hv t
      have h3 := hv.games_bound
      unfold gameAt at h1
      omega
    · split
      · exact le_refl _
      · decide

theorem network_nonNeg (d : Division) (hv : ValidRecords d) (t : Nat) :
    (Graph.mk (networkSize d t) (networkCap d t)).NonNeg :=
  fun u v _ _ => networkCap_nonneg d hv t u v

theorem network_noOverflow (d : Division) (hv : ValidRecords d) (t : Nat)
    (ht : t < d.numTeams) : (Graph.mk (networkSize d t) (networkCap d t)).NoOverflow 0 := by
  constructor
  · intro u v _ _
    simp only
    by_cases h1 : networkCap d t u v = 0
    · rw [h1, zero_add]; exact networkCap_le d hv t v u
    · by_cases h2 : networkCap d t v u = 0
      · rw [h2, add_zero]; exact networkCap_le d hv t u v
      · have := networkCap_pos_lt d t u v ht h1
        have := networkCap_pos_lt d t v u ht h2
        omega
  · simp only
    rw [rowSum_networkCap_source d hv t]
    have h2 := gamesAmong_le_totalGames d hv t
    have h3 := hv.games_bound
    omega

theorem foldl_wrap_sum (f : Nat → Int) :
    ∀ n, (∀ j, j < n → 0 ≤ f j) → (∑ j ∈ Finset.range n, f j) ≤ INT_MAX →
    (List.range n).foldl (fun acc j => wrap32 (acc + f j)) 0 = ∑ j ∈ Finset.range n, f j := by
  intro n
  induction n with
  | zero => intro _ _; simp
  | succ n ih =>
    intro hnn hle
    rw [Finset.sum_range_succ] at hle ⊢
    have h0 : 0 ≤ ∑ j ∈ Finset.range n, f j :=
      Finset.sum_nonneg fun j hj => hnn j (by simp only [Finset.mem_range] at hj; omega)
    have hfn := hnn n (by omega)
    rw [List.range_succ, List.foldl_append, ih (fun j hj => hnn j (by omega)) (by omega)]
    simp only [List.foldl_cons, List.foldl_nil]
    have hIM : INT_MAX = 2147483647 := rfl
    exact wrap32_of_range (by omega) (by omega)

theorem sourceRowTotal_network (d : Division) (hv : ValidRecords d) (t : Nat) :
    sourceRowTotal (Graph.mk (networkSize d t) (networkCap d t)) 0 = gamesAmong d t := by
  unfold sourceRowTotal
  simp only
  have h := rowSum_networkCap_source d hv t
  unfold rowSum at h
  rw [foldl_wrap_sum (fun j => networkCap d t 0 j) _
    (fun j _ => networkCap_nonneg d hv t 0 j), h]
  rw [h]
  have h2 := gamesAmong_le_totalGames d hv t
  have h3 := hv.games_bound
  omega

theorem unmarkedCount_setAt {n : Nat} {visited : Nat → Bool} {next : Nat}
    (hn : next < n) (hp : visited next = false) :
    unmarkedCount n (setAt visited next true) + 1 = unmarkedCount n visited := by
  unfold unmarkedCount
  have hmem : next ∈ (Finset.range n).filter fun v => visited v = false := by
    simp [hn, hp]
  have : ((Finset.range n).filter fun v => setAt visited next true v = false)
      = ((Finset.range n).filter fun v => visited v = false).erase next := by
    ext x
    simp only [Finset.mem_filter, Finset.mem_range, Finset.mem_erase]
    by_cases hx : x = next
    · subst hx; simp [setAt_same]
    · simp [setAt_other _ _ _ hx, hx]
  rw [this, Finset.card_erase_of_mem hmem]
  have := Finset.card_pos.mpr ⟨next, hmem⟩
  omega

theorem reachScan_spec {residual : Nat → Nat → Int} {n source current : Nat} :
    ∀ (rest : List Nat) (visited : Nat → Bool) (q : List Nat) (visited' : Nat → Bool)
      (q' : List Nat),
    (∀ x ∈ rest, x < n) → ResidualReach residual n source current →
    (∀ x, visited x = true → x < n ∧ ResidualReach residual n source x) →
    reachScan residual current rest visited q = (visited', q') →
    (∀ x, visited' x = true → x < n ∧ ResidualReach residual n source x) ∧
    (∀ x, visited x = true → visited' x = true) ∧
    (∀ x ∈ rest, residual current x > 0 → visited' x = true) ∧
    (∀ x ∈ q', x ∈ q ∨ visited' x = true) ∧
    (∀ x ∈ q, x ∈ q') ∧
    (∀ x, visited' x = true → visited x = true ∨ x ∈ q') ∧
    q'.length + unmarkedCount n visited' ≤ q.length + unmarkedCount n visited := by
  intro rest
  induction rest with
  | nil =>
    intro visited q visited' q' _ _ hvis h
    simp only [reachScan, Prod.mk.injEq] at h
    obtain ⟨rfl, rfl⟩ := h
    exact ⟨hvis, fun _ h => h, by simp, fun x hx => Or.inl hx, fun x hx => hx,
      fun x hx => Or.inl hx, le_refl _⟩
  | cons next rest ih =>
    intro visited q visited' q' hrest hcur hvis h
    have hnext : next < n := hrest next (List.mem_cons_self _ _)
    have hrest' : ∀ x ∈ rest, x < n := fun x hx => hrest x (List.mem_cons_of_mem _ hx)
    simp only [reachScan] at h
    split at h
    · rename_i hcond
      obtain ⟨hp, hr⟩ := hcond
      have hvis1 : ∀ x, setAt visited next true x = true →
          x < n ∧ ResidualReach residual n source x := by
        intro x hx
        by_cases hxn : x = next
        · subst hxn; exact ⟨hnext, ResidualReach.step hcur hnext hr⟩
        · rw [setAt_other _ _ _ hxn] at hx; exact hvis x hx
      have hmono : ∀ x, visited x = true → setAt visited next true x = true := by
        intro x hx
        by_cases hxn : x = next
        · subst hxn; exact setAt_same _ _ _
        · rw [setAt_other _ _ _ hxn]; exact hx
      obtain ⟨j0, j1, j2, j3, j4, j5, j6⟩ := ih _ _ visited' q' hrest' hcur hvis1 h
      have hnv : visited' next = true := j1 next (setAt_same _ _ _)
      refine ⟨j0, fun x hx => j1 x (hmono x hx), ?_, ?_, ?_, ?_, ?_⟩
      · intro x hx hrx
        rcases List.mem_cons.mp hx with hx | hx
        · subst hx; exact hnv
        · exact j2 x hx hrx
      · intro x hx
        rcases j3 x hx with hx | hx
        · rcases List.mem_append.mp hx with hx | hx
          · exact Or.inl hx
          · simp only [List.mem_singleton] at hx
            subst hx; exact Or.inr hnv
        · exact Or.inr hx
      · intro x hx
        exact j4 x (List.mem_append_left _ hx)
      · intro x hx
        rcases j5 x hx with hx | hx
        · by_cases hxn : x = next
          · subst hxn
            exact Or.inr (j4 x (by simp))
          · rw [setAt_other _ _ _ hxn] at hx; exact Or.inl hx
        · exact Or.inr hx
      · have hc := unmarkedCount_setAt hnext hp
        simp only [List.length_append, List.length_singleton] at j6
        omega
    · rename_i hcond
      obtain ⟨j0, j1, j2, j3, j4, j5, j6⟩ := ih _ _ visited' q' hrest' hcur hvis h
      refine ⟨j0, j1, ?_, j3, j4, j5, j6⟩
      intro x hx hrx
      rcases List.mem_cons.mp hx with hx | hx
      · subst hx
        apply j1
        by_contra hpx
        exact hcond ⟨by simpa using hpx, hrx⟩
      · exact j2 x hx hrx

theorem reachLoop_spec {residual : Nat → Nat → Int} {n source : Nat} :
    ∀ (fuel : Nat) (visited : Nat → Bool) (q : List Nat),
    (∀ x, visited x = true → x < n ∧ ResidualReach residual n source x) →
    (∀ x ∈ q, visited x = true) →
    (∀ v, visited v = true → v ∈ q ∨ ∀ w, w < n → residual v w > 0 → visited w = true) →
    q.length + unmarkedCount n visited < fuel →
    ∃ visited', reachLoop residual n fuel visited q = some visited' ∧
      (∀ x, visited x = true → visited' x = true) ∧
      (∀ x, visited' x = true → x < n ∧ ResidualReach residual n source x) ∧
      (∀ v, visited' v = true → ∀ w, w < n → residual v w > 0 → visited' w = true) := by
  intro fuel
  induction fuel with
  | zero => intro _ _ _ _ _ h; omega
  | succ fuel ih =>
    intro visited q hvis hq hclosed hfuel
    cases q with
    | nil =>
      refine ⟨visited, rfl, fun _ h => h, hvis, fun v hv => ?_⟩
      rcases hclosed v hv with h | h
      · simp at h
      · exact h
    | cons current q =>
      have hcur := hq current (List.mem_cons_self _ _)
      simp only [reachLoop]
      rcases hscan : reachScan residual current (List.range n) visited q with ⟨visited', q'⟩
      obtain ⟨j0, j1, j2, j3, j4, j5, j6⟩ := reachScan_spec (List.range n) visited q visited' q'
        (fun x hx => List.mem_range.mp hx) (hvis current hcur).2 hvis hscan
      simp only
      have hq' : ∀ x ∈ q', visited' x = true := by
        intro x hx
        rcases j3 x hx with h | h
        · exact j1 x (hq x (List.mem_cons_of_mem _ h))
        · exact h
      have hclosed' : ∀ v, visited' v = true →
          v ∈ q' ∨ ∀ w, w < n → residual v w > 0 → visited' w = true := by
        intro v hpv
        rcases j5 v hpv with h | h
        · rcases hclosed v h with h | h
          · rcases List.mem_cons.mp h with h | h
            · subst h
              exact Or.inr fun w hw hr => j2 w (List.mem_range.mpr hw) hr
            · exact Or.inl (j4 v h)
          · exact Or.inr fun w hw hr => j1 w (h w hw hr)
        · exact Or.inl h
      have hfuel' : q'.length + unmarkedCount n visited' < fuel := by
        simp only [List.length_cons] at hfuel
        omega
      obtain ⟨v2, h1, h2, h3, h4⟩ := ih visited' q' j0 hq' hclosed' hfuel'
      exact ⟨v2, h1, fun x hx => h2 x (j1 x hx), h3, h4⟩

/-- Specification of the search in `getEliminationCertificate`: it always returns, and
the vertices it marks are exactly those reachable from the source along edges of positive
residual capacity. -/
theorem reachable_spec (residual : Nat → Nat → Int) {n source : Nat} (hs : source < n) :
    ∃ visited, reachable residual n source = some visited ∧
      ∀ x, visited x = true ↔ ResidualReach residual n source x := by
  have hcount : unmarkedCount n (setAt (fun _ => false) source true) + 1 = n := by
    have := @unmarkedCount_setAt n (fun _ => false) source hs rfl
    have h0 : unmarkedCount n (fun _ => false) = n := by
      simp [unmarkedCount]
    omega
  obtain ⟨visited, h1, h2, h3, h4⟩ := @reachLoop_spec residual n source (n + 1)
    (setAt (fun _ => false) source true) [source]
    (by
      intro x hx
      by_cases hxs : x = source
      · subst hxs; exact ⟨hs, ResidualReach.start⟩
      · rw [setAt_other _ _ _ hxs] at hx; exact absurd hx (by simp))
    (by
      intro x hx
      simp only [List.mem_singleton] at hx
      subst hx
      exact setAt_same _ _ _)
    (by
      intro v hv
      left
      by_contra h
      simp only [List.mem_singleton] at h
      rw [setAt_other _ _ _ h] at hv
      exact absurd hv (by simp))
    (by simp only [List.length_singleton]; omega)
  refine ⟨visited, h1, fun x => ⟨fun hx => (h3 x hx).2, fun hx => ?_⟩⟩
  induction hx with
  | start => exact h2 source (setAt_same _ _ _)
  | step _ hw hr ih => exact h4 _ ih _ hw hr

theorem teamOfNode_inj (t : Nat) {a b : Nat} (h : teamOfNode t a = teamOfNode t b) : a = b := by
  unfold teamOfNode at h
  split at h <;> split at h <;> omega

theorem sum_teamOfNode (t n : Nat) (ht : t < n) (B : Nat → Int) :
    ∑ m ∈ Finset.range (n - 1), B (teamOfNode t m) = ∑ i ∈ (Finset.range n).erase t, B i := by
  have himg : (Finset.range (n - 1)).image (teamOfNode t) = (Finset.range n).erase t := by
    ext i
    simp only [Finset.mem_image, Finset.mem_range, Finset.mem_erase]
    constructor
    · rintro ⟨m, hm, rfl⟩
      refine ⟨teamOfNode_ne t m, ?_⟩
      unfold teamOfNode
      split <;> omega
    · rintro ⟨hit, hin⟩
      refine ⟨if i < t then i else i - 1, ?_, ?_⟩
      · split <;> omega
      · unfold teamOfNode
        by_cases h : i < t
        · simp [h]
        · have h2 : ¬ (i - 1 < t) := by omega
          simp only [h, if_false, h2]
          omega
  rw [← himg, Finset.sum_image]
  intro a _ b _ h
  exact teamOfNode_inj t h

/-- A sum over the vertices of the network, split by kind of vertex: the source, the game
nodes, the team nodes and the sink. -/
theorem sum_vertices (d : Division) (t : Nat) (ht : t < d.numTeams) (A : Nat → Int) :
    ∑ u ∈ Finset.range (networkSize d t), A u
      = A 0 + ∑ k ∈ Finset.range (gameList d t).length, A (1 + k)
        + ∑ i ∈ (Finset.range d.numTeams).erase t, A (teamNode d t i)
        + A (networkSink d t) := by
  have hn : networkSize d t = ((gameList d t).length + 1) + (d.numTeams - 1) + 1 := by
    unfold networkSize; omega
  have hs : networkSink d t = ((gameList d t).length + 1) + (d.numTeams - 1) := by
    unfold networkSink; omega
  rw [hn, Finset.sum_range_succ, Finset.sum_range_add, Finset.sum_range_succ', ← hs]
  have h1 : ∑ k ∈ Finset.range (gameList d t).length, A (k + 1)
      = ∑ k ∈ Finset.range (gameList d t).length, A (1 + k) :=
    Finset.sum_congr rfl fun k _ => by rw [add_comm]
  have h2 : ∑ m ∈ Finset.range (d.numTeams - 1), A ((gameList d t).length + 1 + m)
      = ∑ i ∈ (Finset.range d.numTeams).erase t, A (teamNode d t i) := by
    rw [← sum_teamOfNode t d.numTeams ht fun i => A (teamNode d t i)]
    apply Finset.sum_congr rfl
    intro m _
    unfold teamNode
    rw [adjustedTeamNode_teamOfNode, add_comm 1]
  rw [h1, h2]
  ring

theorem sum_two_points (T : Finset Nat) (x y : Nat) (hxy : x ≠ y) (c : Int) :
    ∑ v ∈ T, (if v = x ∨ v = y then c else 0)
      = (if x ∈ T then c else 0) + (if y ∈ T then c else 0) := by
  have h : ∀ v, (if v = x ∨ v = y then c else 0)
      = (if v = x then c else 0) + (if v = y then c else (0 : Int)) := by
    intro v
    by_cases h1 : v = x
    · have h2 : ¬ (v = y) := fun h => hxy (h1 ▸ h)
      rw [if_pos (Or.inl h1), if_pos h1, if_neg h2, add_zero]
    · by_cases h2 : v = y
      · rw [if_pos (Or.inr h2), if_neg h1, if_pos h2, zero_add]
      · rw [if_neg (fun h => h.elim h1 h2), if_neg h1, if_neg h2, add_zero]
  simp only [h, Finset.sum_add_distrib, Finset.sum_ite_eq']

theorem sum_one_point (T : Finset Nat) (x : Nat) (c : Int) :
    ∑ v ∈ T, (if v = x then c else 0) = if x ∈ T then c else 0 := by
  simp only [Finset.sum_ite_eq']

theorem networkSink_lt (d : Division) (t : Nat) : networkSink d t < networkSize d t := by
  unfold networkSink networkSize; omega

theorem teamNode_lt_size {d : Division} {t i : Nat} (ht : t < d.numTeams)
    (hi : i < d.numTeams) (h : i ≠ t) : teamNode d t i < networkSize d t :=
  lt_trans (teamNode_lt ht hi h) (networkSink_lt d t)

theorem gameNode_lt_size {d : Division} {t k : Nat} (hk : k < (gameList d t).length) :
    1 + k < networkSize d t := by
  unfold networkSize; omega

theorem gameAt_spec {d : Division} {t k : Nat} (hk : k < (gameList d t).length) :
    (gameAt d t k).1 < (gameAt d t k).2 ∧ (gameAt d t k).2 < d.numTeams ∧
    (gameAt d t k).1 ≠ t ∧ (gameAt d t k).2 ≠ t ∧
    d.gamesAgainstMatrix (gameAt d t k).1 (gameAt d t k).2 > 0 :=
  mem_gameList.mp (gameAt_mem hk)

theorem sum_sdiff_ite {n : Nat} (S : Finset Nat) (f : Nat → Int) :
    ∑ v ∈ Finset.range n \ S, f v = ∑ v ∈ Finset.range n, if v ∈ S then 0 else f v := by
  rw [Finset.sdiff_eq_filter, Finset.sum_filter]
  apply Finset.sum_congr rfl
  intro v _
  by_cases h : v ∈ S <;> simp [h]

theorem sum_mem_ite {n : Nat} {S : Finset Nat} (hS : S ⊆ Finset.range n) (f : Nat → Int) :
    ∑ u ∈ S, f u = ∑ u ∈ Finset.range n, if u ∈ S then f u else 0 := by
  rw [Finset.sum_ite_mem, Finset.inter_eq_right.mpr hS]

/-- The capacity of a cut of the elimination network, by kind of edge: source edges into
game nodes outside the cut, unbounded edges from game nodes inside to team nodes outside,
and sink edges of the team nodes inside. -/
theorem cutCapacity_network (d : Division) (t : Nat) (ht : t < d.numTeams)
    (S : Finset Nat) (hsub : S ⊆ Finset.range (networkSize d t)) (h0 : 0 ∈ S)
    (hsink : networkSink d t ∉ S) :
    cutCapacity (Graph.mk (networkSize d t) (networkCap d t)) S
      = ∑ k ∈ Finset.range (gameList d t).length,
          (if 1 + k ∈ S then
            (if teamNode d t (gameAt d t k).1 ∈ S then 0 else INT_MAX)
              + (if teamNode d t (gameAt d t k).2 ∈ S then 0 else INT_MAX)
          else d.gamesAgainstMatrix (gameAt d t k).1 (gameAt d t k).2)
        + ∑ i ∈ (Finset.range d.numTeams).erase t,
            (if teamNode d t i ∈ S then sinkCapacity d t i else 0) := by
  unfold cutCapacity
  simp only
  rw [sum_mem_ite hsub, sum_vertices d t ht]
  -- the source
  have hsrc : (if 0 ∈ S then ∑ v ∈ Finset.range (networkSize d t) \ S, networkCap d t 0 v else 0)
      = ∑ k ∈ Finset.range (gameList d t).length,
          (if 1 + k ∈ S then 0
            else d.gamesAgainstMatrix (gameAt d t k).1 (gameAt d t k).2) := by
    rw [if_pos h0, sum_sdiff_ite, sum_vertices d t ht]
    have e1 : (if 0 ∈ S then (0 : Int) else networkCap d t 0 0) = 0 := by rw [if_pos h0]
    have e2 : (if networkSink d t ∈ S then (0 : Int) else networkCap d t 0 (networkSink d t))
        = 0 := by
      rw [if_neg hsink, networkCap_source]
      have : ¬ (1 ≤ networkSink d t ∧ networkSink d t < 1 + (gameList d t).length) := by
        unfold networkSink; omega
      rw [if_neg this]
    have e3 : ∑ i ∈ (Finset.range d.numTeams).erase t,
        (if teamNode d t i ∈ S then (0 : Int) else networkCap d t 0 (teamNode d t i)) = 0 := by
      apply Finset.sum_eq_zero
      intro i hi
      have hit := (Finset.mem_erase.mp hi).1
      have := teamNode_ge (d := d) hit
      rw [networkCap_source]
      have : ¬ (1 ≤ teamNode d t i ∧ teamNode d t i < 1 + (gameList d t).length) := by omega
      rw [if_neg this]; simp
    rw [e1, e2, e3]
    simp only [zero_add, add_zero]
    apply Finset.sum_congr rfl
    intro k hk
    have hk' := Finset.mem_range.mp hk
    rw [networkCap_source]
    have : 1 ≤ 1 + k ∧ 1 + k < 1 + (gameList d t).length := by omega
    rw [if_pos this]
    simp
  -- the game nodes
  have hgame : ∀ k ∈ Finset.range (gameList d t).length,
      (if 1 + k ∈ S then ∑ v ∈ Finset.range (networkSize d t) \ S, networkCap d t (1 + k) v
        else 0)
      = (if 1 + k ∈ S then
          (if teamNode d t (gameAt d t k).1 ∈ S then 0 else INT_MAX)
            + (if teamNode d t (gameAt d t k).2 ∈ S then 0 else INT_MAX)
        else 0) := by
    intro k hk
    have hk' := Finset.mem_range.mp hk
    have hg := gameAt_spec hk'
    by_cases hkS : 1 + k ∈ S
    · rw [if_pos hkS, if_pos hkS]
      have hcongr : ∑ v ∈ Finset.range (networkSize d t) \ S, networkCap d t (1 + k) v
          = ∑ v ∈ Finset.range (networkSize d t) \ S,
              (if v = teamNode d t (gameAt d t k).1 ∨ v = teamNode d t (gameAt d t k).2
                then INT_MAX else 0) :=
        Finset.sum_congr rfl fun v _ => networkCap_game d t k v hk'
      have hne : teamNode d t (gameAt d t k).1 ≠ teamNode d t (gameAt d t k).2 := by
        intro h
        have := teamNode_inj hg.2.2.1 hg.2.2.2.1 h
        omega
      rw [hcongr, sum_two_points _ _ _ hne]
      have ha := teamNode_lt_size ht (by omega : (gameAt d t k).1 < d.numTeams) hg.2.2.1
      have hb := teamNode_lt_size ht hg.2.1 hg.2.2.2.1
      simp only [Finset.mem_sdiff, Finset.mem_range, ha, hb, true_and]
      by_cases h1 : teamNode d t (gameAt d t k).1 ∈ S <;>
      by_cases h2 : teamNode d t (gameAt d t k).2 ∈ S <;> simp [h1, h2]
    · rw [if_neg hkS, if_neg hkS]
  -- the team nodes
  have hteam : ∀ i ∈ (Finset.range d.numTeams).erase t,
      (if teamNode d t i ∈ S then
        ∑ v ∈ Finset.range (networkSize d t) \ S, networkCap d t (teamNode d t i) v else 0)
      = (if teamNode d t i ∈ S then sinkCapacity d t i else 0) := by
    intro i hi
    have hit := (Finset.mem_erase.mp hi).1
    have hin := Finset.mem_range.mp (Finset.mem_erase.mp hi).2
    by_cases hiS : teamNode d t i ∈ S
    · rw [if_pos hiS, if_pos hiS]
      have hcongr : ∑ v ∈ Finset.range (networkSize d t) \ S,
            networkCap d t (teamNode d t i) v
          = ∑ v ∈ Finset.range (networkSize d t) \ S,
              (if v = networkSink d t then sinkCapacity d t i else 0) :=
        Finset.sum_congr rfl fun v _ => networkCap_team d t i v ht hin hit
      rw [hcongr, sum_one_point]
      have : networkSink d t ∈ Finset.range (networkSize d t) \ S := by
        simp only [Finset.mem_sdiff, Finset.mem_range]
        exact ⟨networkSink_lt d t, hsink⟩
      rw [if_pos this]
    · rw [if_neg hiS, if_neg hiS]
  rw [hsrc, Finset.sum_congr rfl hgame, Finset.sum_congr rfl hteam, if_neg hsink, add_zero,
    ← Finset.sum_add_distrib]
  congr 1
  apply Finset.sum_congr rfl
  intro k _
  by_cases hkS : 1 + k ∈ S
  · simp only [hkS, if_true, zero_add]
  · simp only [hkS, if_false, add_zero]

theorem sum_games_within (d : Division) (hv : ValidRecords d) (t : Nat) (R : Finset Nat)
    (hR : ∀ i ∈ R, i < d.numTeams ∧ i ≠ t) :
    ∑ k ∈ Finset.range (gameList d t).length,
        (if (gameAt d t k).1 ∈ R ∧ (gameAt d t k).2 ∈ R
          then d.gamesAgainstMatrix (gameAt d t k).1 (gameAt d t k).2 else 0)
      = gamesWithin d R := by
  rw [sum_gameAt d t fun p =>
    if p.1 ∈ R ∧ p.2 ∈ R then d.gamesAgainstMatrix p.1 p.2 else 0]
  have hsub : R ⊆ Finset.range d.numTeams := fun i hi => Finset.mem_range.mpr (hR i hi).1
  unfold gamePairSet gamesWithin
  rw [Finset.sum_filter, Finset.sum_product, sum_mem_ite hsub]
  apply Finset.sum_congr rfl
  intro i hi
  have hin := Finset.mem_range.mp hi
  by_cases hiR : i ∈ R
  · rw [if_pos hiR, sum_mem_ite hsub]
    apply Finset.sum_congr rfl
    intro j hj
    have hjn := Finset.mem_range.mp hj
    have hg := hv.games_nonneg i j hin hjn
    by_cases hjR : j ∈ R
    · rw [if_pos hjR]
      by_cases hij : i < j
      · by_cases hpos : d.gamesAgainstMatrix i j > 0
        · rw [if_pos ⟨hij, (hR i hiR).2, (hR j hjR).2, hpos⟩, if_pos ⟨hiR, hjR⟩, if_pos hij]
        · have : ¬ (i < j ∧ i ≠ t ∧ j ≠ t ∧ d.gamesAgainstMatrix i j > 0) :=
            fun h => hpos h.2.2.2
          rw [if_neg this, if_pos hij]; omega
      · have : ¬ (i < j ∧ i ≠ t ∧ j ≠ t ∧ d.gamesAgainstMatrix i j > 0) := fun h => hij h.1
        rw [if_neg this, if_neg hij]
    · rw [if_neg hjR]
      split
      · rw [if_neg fun h => hjR h.2]
      · rfl
  · rw [if_neg hiR]
    apply Finset.sum_eq_zero
    intro j _
    split
    · rw [if_neg fun h => hiR h.1]
    · rfl

theorem mem_teamsIn {d : Division} {t : Nat} {S : Finset Nat} {i : Nat} :
    i ∈ teamsIn d t S ↔ i < d.numTeams ∧ i ≠ t ∧ teamNode d t i ∈ S := by
  unfold teamsIn
  simp only [Finset.mem_filter, Finset.mem_erase, Finset.mem_range]
  tauto

/-- A cut of the network that is worth less than `INT_MAX` bounds the surplus of the
teams on its source side: the games among them exceed what their sink edges can take by
at least the amount by which the games among all other teams exceed the cut. -/
theorem cut_surplus (d : Division) (hv : ValidRecords d) (t : Nat) (ht : t < d.numTeams)
    (S : Finset Nat) (hsub : S ⊆ Finset.range (networkSize d t)) (h0 : 0 ∈ S)
    (hsink : networkSink d t ∉ S)
    (hsmall : cutCapacity (Graph.mk (networkSize d t) (networkCap d t)) S < INT_MAX) :
    gamesAmong d t - cutCapacity (Graph.mk (networkSize d t) (networkCap d t)) S
      ≤ gamesWithin d (teamsIn d t S) - ∑ i ∈ teamsIn d t S, sinkCapacity d t i := by
  have hform := cutCapacity_network d t ht S hsub h0 hsink
  have hteams : ∑ i ∈ (Finset.range d.numTeams).erase t,
      (if teamNode d t i ∈ S then sinkCapacity d t i else 0)
      = ∑ i ∈ teamsIn d t S, sinkCapacity d t i := by
    unfold teamsIn; rw [Finset.sum_filter]
  have hteams_nonneg : 0 ≤ ∑ i ∈ teamsIn d t S, sinkCapacity d t i :=
    Finset.sum_nonneg fun i _ => sinkCapacity_nonneg d t i
  have hterm_nonneg : ∀ k ∈ Finset.range (gameList d t).length,
      0 ≤ (if 1 + k ∈ S then
            (if teamNode d t (gameAt d t k).1 ∈ S then 0 else INT_MAX)
              + (if teamNode d t (gameAt d t k).2 ∈ S then 0 else INT_MAX)
          else d.gamesAgainstMatrix (gameAt d t k).1 (gameAt d t k).2) := by
    intro k hk
    have hg := gameAt_spec (Finset.mem_range.mp hk)
    have hIM : INT_MAX = 2147483647 := rfl
    split
    · split <;> split <;> omega
    · omega
  have hwithin := sum_games_within d hv t (teamsIn d t S)
    (fun i hi => ⟨(mem_teamsIn.mp hi).1, (mem_teamsIn.mp hi).2.1⟩)
  have hall := sum_gamePairSet d hv t
  rw [← sum_gameAt d t fun p => d.gamesAgainstMatrix p.1 p.2] at hall
  have hkey : ∑ k ∈ Finset.range (gameList d t).length,
        (d.gamesAgainstMatrix (gameAt d t k).1 (gameAt d t k).2
          - (if (gameAt d t k).1 ∈ teamsIn d t S ∧ (gameAt d t k).2 ∈ teamsIn d t S
              then d.gamesAgainstMatrix (gameAt d t k).1 (gameAt d t k).2 else 0))
      ≤ ∑ k ∈ Finset.range (gameList d t).length,
          (if 1 + k ∈ S then
            (if teamNode d t (gameAt d t k).1 ∈ S then 0 else INT_MAX)
              + (if teamNode d t (gameAt d t k).2 ∈ S then 0 else INT_MAX)
          else d.gamesAgainstMatrix (gameAt d t k).1 (gameAt d t k).2) := by
    apply Finset.sum_le_sum
    intro k hk
    have hk' := Finset.mem_range.mp hk
    have hg := gameAt_spec hk'
    have hterm := Finset.single_le_sum hterm_nonneg hk
    have hIM : INT_MAX = 2147483647 := rfl
    by_cases hkS : 1 + k ∈ S
    · rw [if_pos hkS] at hterm ⊢
      by_cases ha : teamNode d t (gameAt d t k).1 ∈ S
      · by_cases hb : teamNode d t (gameAt d t k).2 ∈ S
        · have hin : (gameAt d t k).1 ∈ teamsIn d t S ∧ (gameAt d t k).2 ∈ teamsIn d t S :=
            ⟨mem_teamsIn.mpr ⟨by omega, hg.2.2.1, ha⟩,
              mem_teamsIn.mpr ⟨hg.2.1, hg.2.2.2.1, hb⟩⟩
          rw [if_pos hin, if_pos ha, if_pos hb]; omega
        · rw [if_pos ha, if_neg hb] at hterm; omega
      · rw [if_neg ha] at hterm
        split at hterm <;> omega
    · rw [if_neg hkS]
      split <;> omega
  rw [Finset.sum_sub_distrib, hall, hwithin] at hkey
  rw [hform, hteams]
  omega

theorem create_graph_eq (d : Division) (t : Nat) (hN : 1 ≤ d.numTeams) :
    (FlowNetwork.create d t).graph = Graph.mk (networkSize d t) (networkCap d t) := by
  obtain ⟨h1, h2, -⟩ := create_graph d t hN
  have : ∀ g : Graph, g = Graph.mk g.numVertices g.capacityMatrix := fun g => rfl
  rw [this (FlowNetwork.create d t).graph, h1, h2]
  rfl

theorem residualReach_mem_closed {g : Graph} {residual : Nat → Nat → Int} {source : Nat}
    {S : Finset Nat} (hs : source ∈ S) (hcl : ResidualClosed g residual S) {x : Nat}
    (hx : ResidualReach residual g.numVertices source x) : x ∈ S := by
  induction hx with
  | start => exact hs
  | step _ hw hr ih =>
    by_contra hn
    have := hcl _ ih _ hw hn
    omega

/-- The run of the solver on the network built for a target, given enough fuel: value,
residual matrix, invariant, and the set of vertices reachable in the residual graph, which
is a cut closed in the residual graph. -/
theorem network_run (d : Division) (hv : ValidRecords d) (t : Nat) (ht : t < d.numTeams)
    (fuel : Nat) (hfuel : (gamesAmong d t).toNat < fuel) :
    ∃ v residual visited,
      getMaxFlow fuel (FlowNetwork.create d t).graph (FlowNetwork.create d t).source
        (FlowNetwork.create d t).sink = some (v, residual) ∧
      reachable residual (networkSize d t) 0 = some visited ∧
      (∀ x, visited x = true ↔ ResidualReach residual (networkSize d t) 0 x) ∧
      ResidualInv (Graph.mk (networkSize d t) (networkCap d t)) 0 (networkSink d t) residual v ∧
      IsCut (Graph.mk (networkSize d t) (networkCap d t)) 0 (networkSink d t)
        ((Finset.range (networkSize d t)).filter fun x => visited x = true) ∧
      ResidualClosed (Graph.mk (networkSize d t) (networkCap d t)) residual
        ((Finset.range (networkSize d t)).filter fun x => visited x = true) := by
  have hN : 1 ≤ d.numTeams := by omega
  obtain ⟨-, -, hsrc, hsnk, -⟩ := create_graph d t hN
  rw [create_graph_eq d t hN, hsrc, hsnk]
  have hs : 0 < (Graph.mk (networkSize d t) (networkCap d t)).numVertices := by
    show 0 < networkSize d t
    unfold networkSize; omega
  have hne : 0 ≠ (gameList d t).length + d.numTeams := by omega
  have hrow := rowSum_networkCap_source d hv t
  obtain ⟨v, residual, hrun, hinv, S, hS, hcl⟩ := getMaxFlow_spec
    (Graph.mk (networkSize d t) (networkCap d t)) hs hne (network_nonNeg d hv t)
    (network_noOverflow d hv t ht) fuel (by simp only; rw [hrow]; exact hfuel)
  obtain ⟨visited, hreach, hvis⟩ := reachable_spec residual hs
  refine ⟨v, residual, visited, hrun, hreach, hvis, hinv, ⟨Finset.filter_subset _ _, ?_, ?_⟩, ?_⟩
  · simp only [Finset.mem_filter, Finset.mem_range]
    exact ⟨hs, (hvis 0).mpr ResidualReach.start⟩
  · simp only [Finset.mem_filter, Finset.mem_range, not_and]
    intro _ hx
    exact hS.2.2 (residualReach_mem_closed hS.2.1 hcl ((hvis _).mp hx))
  · intro a ha b hb hbS
    simp only [Finset.mem_filter, Finset.mem_range] at ha hbS
    by_contra hpos
    exact hbS ⟨hb, (hvis b).mpr (ResidualReach.step ((hvis a).mp ha.2) hb (by omega))⟩

theorem isEliminated_eq {d : Division} (hv : ValidRecords d) {t : Nat} {fuel : Nat} {v : Int}
    {residual : Nat → Nat → Int}
    (hrun : getMaxFlow fuel (FlowNetwork.create d t).graph (FlowNetwork.create d t).source
      (FlowNetwork.create d t).sink = some (v, residual)) :
    (FlowNetwork.create d t).isEliminated fuel = some (decide (v < gamesAmong d t)) := by
  have hN : 1 ≤ d.numTeams := by have := hv.two_teams; omega
  unfold FlowNetwork.isEliminated
  rw [hrun]
  simp only
  obtain ⟨-, -, hsrc, -⟩ := create_graph d t hN
  rw [create_graph_eq d t hN, hsrc, sourceRowTotal_network d hv t]

theorem certificateIndices_eq {d : Division} (hv : ValidRecords d) {t : Nat} {fuel : Nat}
    {v : Int} {residual : Nat → Nat → Int} {visited : Nat → Bool}
    (hrun : getMaxFlow fuel (FlowNetwork.create d t).graph (FlowNetwork.create d t).source
      (FlowNetwork.create d t).sink = some (v, residual))
    (hreach : reachable residual (networkSize d t) 0 = some visited) :
    (FlowNetwork.create d t).certificateIndices fuel
      = some ((List.range d.numTeams).filter fun i =>
          i ≠ t ∧ visited (teamNode d t i) = true) := by
  have hN : 1 ≤ d.numTeams := by have := hv.two_teams; omega
  unfold FlowNetwork.certificateIndices
  rw [hrun]
  simp only
  obtain ⟨hnum, -, hsrc, -, hstart, hidx, hteams, -⟩ := create_graph d t hN
  rw [hnum, hsrc]
  have : networkSize d t = (gameList d t).length + d.numTeams + 1 := rfl
  rw [← this, hreach]
  simp only [certificateTeams, hstart, hidx, hteams, teamNode]

theorem certificate_toFinset (d : Division) (t : Nat) (ht : t < d.numTeams)
    (visited : Nat → Bool) :
    ((List.range d.numTeams).filter fun i =>
        i ≠ t ∧ visited (teamNode d t i) = true).toFinset
      = teamsIn d t ((Finset.range (networkSize d t)).filter fun x => visited x = true) := by
  ext i
  simp only [List.mem_toFinset, List.mem_filter, List.mem_range, decide_eq_true_eq,
    mem_teamsIn, Finset.mem_filter, Finset.mem_range]
  constructor
  · rintro ⟨h1, h2, h3⟩
    exact ⟨h1, h2, teamNode_lt_size ht h1 h2, h3⟩
  · rintro ⟨h1, h2, _, h3⟩
    exact ⟨h1, h2, h3⟩

theorem sum_sinkCapacity_ge (d : Division) (hv : ValidRecords d) (t : Nat)
    (ht : t < d.numTeams) (R : Finset Nat) (hR : ∀ i ∈ R, i < d.numTeams) :
    (R.card : Int) * (d.wins t + d.remainingGames t) - winsOf d R
      ≤ ∑ i ∈ R, sinkCapacity d t i := by
  have h1 : ∑ i ∈ R, (d.wins t + d.remainingGames t - d.wins i)
      ≤ ∑ i ∈ R, sinkCapacity d t i :=
    Finset.sum_le_sum fun i hi => sinkCapacity_ge hv ht (hR i hi)
  rw [Finset.sum_sub_distrib, Finset.sum_const, nsmul_eq_mul] at h1
  unfold winsOf
  exact h1

/-- What the analysis knows after an `Eliminated` answer: the certificate list, its
properties, and the surplus of its teams. -/
theorem certificate_surplus (d : Division) (hv : ValidRecords d) (t : Nat)
    (ht : t < d.numTeams) (fuel : Nat) (hfuel : (gamesAmong d t).toNat < fuel)
    (helim : (FlowNetwork.create d t).isEliminated fuel = some true) :
    ∃ R : List Nat, (FlowNetwork.create d t).certificateIndices fuel = some R ∧
      R ≠ [] ∧ R.Nodup ∧ (∀ i ∈ R, i < d.numTeams ∧ i ≠ t) ∧
      (R.length : Int) * (d.wins t + d.remainingGames t)
        < gamesWithin d R.toFinset + winsOf d R.toFinset := by
  obtain ⟨v, residual, visited, hrun, hreach, -, hinv, hcut, hcl⟩ :=
    network_run d hv t ht fuel hfuel
  rw [isEliminated_eq hv hrun] at helim
  have hlt : v < gamesAmong d t := by simpa using helim
  have hcap := cutCapacity_of_closed hinv hcut hcl
  have hsmall : cutCapacity (Graph.mk (networkSize d t) (networkCap d t))
      ((Finset.range (networkSize d t)).filter fun x => visited x = true) < INT_MAX := by
    have h2 := gamesAmong_le_totalGames d hv t
    have h3 := hv.games_bound
    omega
  have hsur := cut_surplus d hv t ht _ hcut.1 hcut.2.1 hcut.2.2 hsmall
  rw [hcap, ← certificate_toFinset d t ht visited] at hsur
  have hmem : ∀ i ∈ (List.range d.numTeams).filter fun i =>
      i ≠ t ∧ visited (teamNode d t i) = true, i < d.numTeams ∧ i ≠ t := by
    intro i hi
    simp only [List.mem_filter, List.mem_range, decide_eq_true_eq] at hi
    exact ⟨hi.1, hi.2.1⟩
  have hnd : ((List.range d.numTeams).filter fun i =>
      i ≠ t ∧ visited (teamNode d t i) = true).Nodup :=
    List.Nodup.filter _ (List.nodup_range _)
  have hge := sum_sinkCapacity_ge d hv t ht
    ((List.range d.numTeams).filter fun i =>
      i ≠ t ∧ visited (teamNode d t i) = true).toFinset
    (fun i hi => (hmem i (List.mem_toFinset.mp hi)).1)
  rw [List.toFinset_card_of_nodup hnd] at hge
  refine ⟨_, certificateIndices_eq hv hrun hreach, ?_, hnd, hmem, by omega⟩
  intro hnil
  rw [hnil] at hsur
  simp only [List.toFinset_nil, gamesWithin, Finset.sum_empty] at hsur
  omega

/-- C3. Certificate soundness: for valid records and a target `t` for which
`isEliminated()` is true, the team set `R` behind the list returned by
`getEliminationCertificate()` is non-empty and (games among `R` + wins of `R`) / |R| is
strictly greater than `wins[t] + gamesRemaining[t]`; the division is that of the
rationals.  (The hypothesis that `t` is not trivially eliminated is not needed.) -/
theorem certificate_sound (d : Division) (hv : ValidRecords d) (t : Nat)
    (ht : t < d.numTeams) (fuel : Nat) (hfuel : (gamesAmong d t).toNat < fuel)
    (helim : (FlowNetwork.create d t).isEliminated fuel = some true) :
    ∃ R : List Nat,
      (FlowNetwork.create d t).getEliminationCertificate fuel = some (R.map d.teamNames) ∧
      R ≠ [] ∧ R.Nodup ∧ (∀ i ∈ R, i < d.numTeams ∧ i ≠ t) ∧
      (((gamesWithin d R.toFinset + winsOf d R.toFinset : Int) : ℚ) / (R.length : ℚ)
        > ((d.wins t + d.remainingGames t : Int) : ℚ)) := by
  obtain ⟨R, hR, hne, hnd, hmem, hsur⟩ := certificate_surplus d hv t ht fuel hfuel helim
  have hN : 1 ≤ d.numTeams := by omega
  refine ⟨R, ?_, hne, hnd, hmem, ?_⟩
  · unfold FlowNetwork.getEliminationCertificate
    rw [hR, (create_graph d t hN).2.2.2.2.2.2.2]
    rfl
  · have hpos : (0 : ℚ) < (R.length : ℚ) := by
      have : 0 < R.length := List.length_pos.mpr hne
      exact_mod_cast this
    rw [gt_iff_lt, lt_div_iff₀ hpos]
    have : (((d.wins t + d.remainingGames t : Int) : ℚ)) * (R.length : ℚ)
        = (((R.length : Int) * (d.wins t + d.remainingGames t) : Int) : ℚ) := by
      push_cast; ring
    rw [this]
    exact_mod_cast hsur

set_option maxRecDepth 100000 in
theorem certificate_sound_witness :
    ∃ R : List Nat,
      (FlowNetwork.create classicDivision 1).getEliminationCertificate 10
        = some (R.map classicDivision.teamNames) ∧
      R ≠ [] ∧ R.Nodup ∧ (∀ i ∈ R, i < classicDivision.numTeams ∧ i ≠ 1) ∧
      (((gamesWithin classicDivision R.toFinset + winsOf classicDivision R.toFinset : Int) : ℚ)
          / (R.length : ℚ)
        > ((classicDivision.wins 1 + classicDivision.remainingGames 1 : Int) : ℚ)) :=
  certificate_sound classicDivision classicDivision_valid 1 (by decide) 10 (by decide)
    (by decide)

theorem rowSum_networkCap_game (d : Division) (t : Nat) (ht : t < d.numTeams) {k : Nat}
    (hk : k < (gameList d t).length) :
    rowSum (networkSize d t) (networkCap d t) (1 + k) = 2 * INT_MAX := by
  have hg := gameAt_spec hk
  unfold rowSum
  have hcongr : ∑ v ∈ Finset.range (networkSize d t), networkCap d t (1 + k) v
      = ∑ v ∈ Finset.range (networkSize d t),
          (if v = teamNode d t (gameAt d t k).1 ∨ v = teamNode d t (gameAt d t k).2
            then INT_MAX else 0) :=
    Finset.sum_congr rfl fun v _ => networkCap_game d t k v hk
  have hne : teamNode d t (gameAt d t k).1 ≠ teamNode d t (gameAt d t k).2 := by
    intro h
    have := teamNode_inj hg.2.2.1 hg.2.2.2.1 h
    omega
  rw [hcongr, sum_two_points _ _ _ hne]
  have ha := teamNode_lt_size ht (by omega : (gameAt d t k).1 < d.numTeams) hg.2.2.1
  have hb := teamNode_lt_size ht hg.2.1 hg.2.2.2.1
  simp only [Finset.mem_range, ha, hb, if_true]
  ring

theorem rowSum_networkCap_team (d : Division) (t : Nat) (ht : t < d.numTeams) {i : Nat}
    (hi : i < d.numTeams) (hit : i ≠ t) :
    rowSum (networkSize d t) (networkCap d t) (teamNode d t i) = sinkCapacity d t i := by
  unfold rowSum
  have hcongr : ∑ v ∈ Finset.range (networkSize d t), networkCap d t (teamNode d t i) v
      = ∑ v ∈ Finset.range (networkSize d t),
          (if v = networkSink d t then sinkCapacity d t i else 0) :=
    Finset.sum_congr rfl fun v _ => networkCap_team d t i v ht hi hit
  rw [hcongr, sum_one_point]
  simp only [Finset.mem_range, networkSink_lt, if_true]

theorem networkCap_to_source (d : Division) (t u : Nat) (ht : t < d.numTeams) :
    networkCap d t u 0 = 0 := by
  by_contra h
  have := networkCap_pos_lt d t u 0 ht h
  omega

theorem networkCap_team_game (d : Division) (t i k : Nat) (ht : t < d.numTeams)
    (hit : i ≠ t) (hk : k < (gameList d t).length) :
    networkCap d t (teamNode d t i) (1 + k) = 0 := by
  by_contra h
  have := networkCap_pos_lt d t _ _ ht h
  have := teamNode_ge (d := d) hit
  omega

section Residual

variable {d : Division} {t : Nat} {residual : Nat → Nat → Int} {v : Int}

theorem residual_game_team (ht : t < d.numTeams)
    (hinv : ResidualInv (Graph.mk (networkSize d t) (networkCap d t)) 0 (networkSink d t)
      residual v)
    {k : Nat} (hk : k < (gameList d t).length) :
    residual (1 + k) (teamNode d t (gameAt d t k).1)
        + residual (teamNode d t (gameAt d t k).1) (1 + k) = INT_MAX ∧
    residual (1 + k) (teamNode d t (gameAt d t k).2)
        + residual (teamNode d t (gameAt d t k).2) (1 + k) = INT_MAX := by
  have hg := gameAt_spec hk
  have ha := teamNode_lt_size ht (by omega : (gameAt d t k).1 < d.numTeams) hg.2.2.1
  have hb := teamNode_lt_size ht hg.2.1 hg.2.2.2.1
  have hkn := gameNode_lt_size hk
  have p1 := hinv.pair (1 + k) (teamNode d t (gameAt d t k).1) hkn ha
  have p2 := hinv.pair (1 + k) (teamNode d t (gameAt d t k).2) hkn hb
  simp only at p1 p2
  rw [networkCap_game d t k _ hk, networkCap_team_game d t _ k ht hg.2.2.1 hk] at p1
  rw [networkCap_game d t k _ hk, networkCap_team_game d t _ k ht hg.2.2.2.1 hk] at p2
  simp only [true_or, or_true, if_true, add_zero] at p1 p2
  exact ⟨p1, p2⟩

theorem residual_source_game (ht : t < d.numTeams)
    (hinv : ResidualInv (Graph.mk (networkSize d t) (networkCap d t)) 0 (networkSink d t)
      residual v)
    {k : Nat} (hk : k < (gameList d t).length) :
    residual 0 (1 + k) + residual (1 + k) 0
      = d.gamesAgainstMatrix (gameAt d t k).1 (gameAt d t k).2 := by
  have hkn := gameNode_lt_size hk
  have h0 : 0 < networkSize d t := by unfold networkSize; omega
  have p := hinv.pair 0 (1 + k) h0 hkn
  simp only at p
  rw [networkCap_source, networkCap_to_source d t _ ht] at p
  have : 1 ≤ 1 + k ∧ 1 + k < 1 + (gameList d t).length := by omega
  rw [if_pos this] at p
  simpa using p

/-- The two teams of a game node receive between them at least what the source sends
into the node. -/
theorem residual_game_split (ht : t < d.numTeams)
    (hinv : ResidualInv (Graph.mk (networkSize d t) (networkCap d t)) 0 (networkSink d t)
      residual v)
    {k : Nat} (hk : k < (gameList d t).length) :
    d.gamesAgainstMatrix (gameAt d t k).1 (gameAt d t k).2 - residual 0 (1 + k)
      ≤ residual (teamNode d t (gameAt d t k).1) (1 + k)
        + residual (teamNode d t (gameAt d t k).2) (1 + k) := by
  have hg := gameAt_spec hk
  have hkn := gameNode_lt_size hk
  have hne0 : 1 + k ≠ 0 := by omega
  have hnes : 1 + k ≠ networkSink d t := by unfold networkSink; omega
  have hrow := hinv.conserve (1 + k) hkn hne0 hnes
  simp only at hrow
  rw [rowSum_networkCap_game d t ht hk] at hrow
  unfold rowSum at hrow
  rw [sum_vertices d t ht] at hrow
  have hnn := hinv.nonneg
  simp only at hnn
  have h1 : 0 ≤ ∑ k' ∈ Finset.range (gameList d t).length, residual (1 + k) (1 + k') :=
    Finset.sum_nonneg fun k' hk' => hnn _ _ hkn (gameNode_lt_size (Finset.mem_range.mp hk'))
  have h2 : 0 ≤ residual (1 + k) (networkSink d t) := hnn _ _ hkn (networkSink_lt d t)
  have hsubset : ({(gameAt d t k).1, (gameAt d t k).2} : Finset Nat)
      ⊆ (Finset.range d.numTeams).erase t := by
    intro i hi
    simp only [Finset.mem_insert, Finset.mem_singleton] at hi
    simp only [Finset.mem_erase, Finset.mem_range]
    rcases hi with rfl | rfl
    · exact ⟨hg.2.2.1, by omega⟩
    · exact ⟨hg.2.2.2.1, hg.2.1⟩
  have h3 := Finset.sum_le_sum_of_subset_of_nonneg hsubset
    (f := fun i => residual (1 + k) (teamNode d t i))
    (fun i hi _ => hnn _ _ hkn (teamNode_lt_size ht
      (Finset.mem_range.mp (Finset.mem_erase.mp hi).2) (Finset.mem_erase.mp hi).1))
  rw [Finset.sum_pair (by omega : (gameAt d t k).1 ≠ (gameAt d t k).2)] at h3
  simp only at h3
  have p := residual_game_team ht hinv hk
  have q := residual_source_game ht hinv hk
  omega

/-- What a team node has sent back towards the game nodes is at most the capacity of
its sink edge. -/
theorem residual_team_total (ht : t < d.numTeams)
    (hinv : ResidualInv (Graph.mk (networkSize d t) (networkCap d t)) 0 (networkSink d t)
      residual v)
    {i : Nat} (hi : i < d.numTeams) (hit : i ≠ t) :
    ∑ k ∈ Finset.range (gameList d t).length, residual (teamNode d t i) (1 + k)
      ≤ sinkCapacity d t i := by
  have hin := teamNode_lt_size ht hi hit
  have hne0 : teamNode d t i ≠ 0 := by have := teamNode_ge (d := d) hit; omega
  have hnes : teamNode d t i ≠ networkSink d t := by have := teamNode_lt ht hi hit; omega
  have hrow := hinv.conserve _ hin hne0 hnes
  simp only at hrow
  rw [rowSum_networkCap_team d t ht hi hit] at hrow
  unfold rowSum at hrow
  rw [sum_vertices d t ht] at hrow
  have hnn := hinv.nonneg
  simp only at hnn
  have h0 : 0 < networkSize d t := by unfold networkSize; omega
  have h1 : 0 ≤ residual (teamNode d t i) 0 := hnn _ _ hin h0
  have h2 : 0 ≤ residual (teamNode d t i) (networkSink d t) :=
    hnn _ _ hin (networkSink_lt d t)
  have h3 : 0 ≤ ∑ j ∈ (Finset.range d.numTeams).erase t,
      residual (teamNode d t i) (teamNode d t j) :=
    Finset.sum_nonneg fun j hj => hnn _ _ hin (teamNode_lt_size ht
      (Finset.mem_range.mp (Finset.mem_erase.mp hj).2) (Finset.mem_erase.mp hj).1)
  omega

end Residual

section Outcome

variable {d : Division} {t : Nat} {residual : Nat → Nat → Int} {v : Int}

theorem gameShare_nonneg (_hv : ValidRecords d) (ht : t < d.numTeams)
    (hinv : ResidualInv (Graph.mk (networkSize d t) (networkCap d t)) 0 (networkSink d t)
      residual v)
    {k : Nat} (hk : k < (gameList d t).length) (i : Nat) :
    0 ≤ gameShare d t residual k i := by
  have hg := gameAt_spec hk
  have hnn := hinv.nonneg _ _ (teamNode_lt_size ht (by omega : (gameAt d t k).1 < d.numTeams)
    hg.2.2.1) (gameNode_lt_size hk)
  simp only at hnn
  unfold gameShare
  split
  · exact le_min hnn (by omega)
  · split
    · have := min_le_right (residual (teamNode d t (gameAt d t k).1) (1 + k))
        (d.gamesAgainstMatrix (gameAt d t k).1 (gameAt d t k).2)
      omega
    · exact le_refl _

theorem gameShare_le (ht : t < d.numTeams)
    (hinv : ResidualInv (Graph.mk (networkSize d t) (networkCap d t)) 0 (networkSink d t)
      residual v)
    (hsat : ∀ k, k < (gameList d t).length → residual 0 (1 + k) = 0)
    {k : Nat} (hk : k < (gameList d t).length) {i : Nat} (hi : i < d.numTeams) (hit : i ≠ t) :
    gameShare d t residual k i ≤ residual (teamNode d t i) (1 + k) := by
  have hg := gameAt_spec hk
  have hsplit := residual_game_split ht hinv hk
  rw [hsat k hk] at hsplit
  unfold gameShare
  split
  · rename_i h; rw [h]; exact min_le_left _ _
  · split
    · rename_i h; rw [h]
      have hnb := hinv.nonneg _ _ (teamNode_lt_size ht hg.2.1 hg.2.2.2.1) (gameNode_lt_size hk)
      simp only at hnb
      rcases min_cases (residual (teamNode d t (gameAt d t k).1) (1 + k))
        (d.gamesAgainstMatrix (gameAt d t k).1 (gameAt d t k).2) with ⟨h1, h2⟩ | ⟨h1, h2⟩ <;>
      omega
    · exact hinv.nonneg _ _ (teamNode_lt_size ht hi hit) (gameNode_lt_size hk)

theorem outcomeOf_game {k : Nat} (hk : k < (gameList d t).length) (i j : Nat)
    (h : gameAt d t k = (i, j) ∨ gameAt d t k = (j, i)) :
    outcomeOf d t residual i j = gameShare d t residual k i := by
  unfold outcomeOf
  rw [Finset.sum_eq_single_of_mem k (Finset.mem_range.mpr hk)]
  · rw [if_pos h]
  · intro k' hk' hne
    have hk'' := Finset.mem_range.mp hk'
    have hg := gameAt_spec hk
    have hg' := gameAt_spec hk''
    split
    · rename_i h'
      exfalso
      apply hne
      apply gameAt_inj hk'' hk
      rcases h with h | h <;> rcases h' with h' | h'
      · rw [h, h']
      · rw [h] at hg; rw [h'] at hg'
        simp only at hg hg'
        omega
      · rw [h] at hg; rw [h'] at hg'
        simp only at hg hg'
        omega
      · rw [h, h']
    · rfl

theorem outcomeOf_none (i j : Nat)
    (h : ∀ k, k < (gameList d t).length → gameAt d t k ≠ (i, j) ∧ gameAt d t k ≠ (j, i)) :
    outcomeOf d t residual i j = 0 := by
  unfold outcomeOf
  apply Finset.sum_eq_zero
  intro k hk
  have := h k (Finset.mem_range.mp hk)
  rw [if_neg fun h' => h'.elim this.1 this.2]

theorem outcomeOf_isOutcome (hv : ValidRecords d) (ht : t < d.numTeams)
    (hinv : ResidualInv (Graph.mk (networkSize d t) (networkCap d t)) 0 (networkSink d t)
      residual v) :
    IsOutcome d t (outcomeOf d t residual) := by
  intro i j hi hj hit hjt hij
  have hgnn := hv.games_nonneg i j hi hj
  by_cases hpos : d.gamesAgainstMatrix i j > 0
  · obtain ⟨k, hk, hke⟩ := exists_gameAt
      (mem_gameList.mpr (⟨hij, hj, hit, hjt, hpos⟩ :
        (i, j).1 < (i, j).2 ∧ (i, j).2 < d.numTeams ∧ (i, j).1 ≠ t ∧ (i, j).2 ≠ t ∧
          d.gamesAgainstMatrix (i, j).1 (i, j).2 > 0))
    rw [outcomeOf_game hk i j (Or.inl hke), outcomeOf_game hk j i (Or.inr hke)]
    refine ⟨gameShare_nonneg hv ht hinv hk i, gameShare_nonneg hv ht hinv hk j, ?_⟩
    unfold gameShare
    rw [hke]
    simp only
    have : ¬ (j = i) := by omega
    simp only [this, if_true, if_false]
    omega
  · have hnone : ∀ k, k < (gameList d t).length →
        gameAt d t k ≠ (i, j) ∧ gameAt d t k ≠ (j, i) := by
      intro k hk
      have hg := gameAt_spec hk
      constructor
      · intro h; rw [h] at hg; exact hpos hg.2.2.2.2
      · intro h; rw [h] at hg; simp only at hg; omega
    have hnone' : ∀ k, k < (gameList d t).length →
        gameAt d t k ≠ (j, i) ∧ gameAt d t k ≠ (i, j) := fun k hk =>
      ⟨(hnone k hk).2, (hnone k hk).1⟩
    rw [outcomeOf_none i j hnone, outcomeOf_none j i hnone']
    omega

theorem sum_ite_le_of_unique (J : Finset Nat) (P : Nat → Prop) [DecidablePred P] (j0 : Nat)
    (hP : ∀ j, P j → j = j0) (c : Int) (hc : 0 ≤ c) :
    ∑ j ∈ J, (if P j then c else 0) ≤ c := by
  have h1 : ∑ j ∈ J, (if P j then c else 0) ≤ ∑ j ∈ J, (if j = j0 then c else 0) := by
    apply Finset.sum_le_sum
    intro j _
    by_cases h : P j
    · rw [if_pos h, if_pos (hP j h)]
    · rw [if_neg h]; split <;> omega
  rw [sum_one_point] at h1
  split at h1 <;> omega

theorem outcomeOf_total (hv : ValidRecords d) (ht : t < d.numTeams)
    (hinv : ResidualInv (Graph.mk (networkSize d t) (networkCap d t)) 0 (networkSink d t)
      residual v)
    (hsat : ∀ k, k < (gameList d t).length → residual 0 (1 + k) = 0)
    {i : Nat} (hi : i < d.numTeams) (hit : i ≠ t) (J : Finset Nat) :
    ∑ j ∈ J, outcomeOf d t residual i j ≤ sinkCapacity d t i := by
  unfold outcomeOf
  rw [Finset.sum_comm]
  refine le_trans ?_ (residual_team_total ht hinv hi hit)
  apply Finset.sum_le_sum
  intro k hk
  have hk' := Finset.mem_range.mp hk
  refine le_trans ?_ (gameShare_le ht hinv hsat hk' hi hit)
  apply sum_ite_le_of_unique J _
    (if (gameAt d t k).1 = i then (gameAt d t k).2 else (gameAt d t k).1)
  · intro j hj
    rcases hj with h | h
    · rw [h]; simp
    · rw [h]
      have hg := gameAt_spec hk'
      rw [h] at hg
      simp only at hg
      have : ¬ (j = i) := by omega
      simp [this]
  · exact gameShare_nonneg hv ht hinv hk' i

end Outcome

theorem isOutcome_nonneg {d : Division} {t : Nat} {x : Nat → Nat → Int} (hx : IsOutcome d t x)
    {i j : Nat} (hi : i < d.numTeams) (hj : j < d.numTeams) (hit : i ≠ t) (hjt : j ≠ t)
    (hij : i ≠ j) : 0 ≤ x i j := by
  rcases Nat.lt_or_gt_of_ne hij with h | h
  · exact (hx i j hi hj hit hjt h).1
  · exact (hx j i hj hi hjt hit h).2.1

/-- Under any outcome the teams of a set `R` win, between them, at least the games they
play against each other. -/
theorem gamesWithin_le_outcome {d : Division} {t : Nat} {x : Nat → Nat → Int}
    (hx : IsOutcome d t x) (R : Finset Nat) (hR : ∀ i ∈ R, i < d.numTeams ∧ i ≠ t) :
    gamesWithin d R ≤ ∑ i ∈ R, ∑ j ∈ ((Finset.range d.numTeams).erase t).erase i, x i j := by
  have h1 : ∑ i ∈ R, ∑ j ∈ R.erase i, x i j
      ≤ ∑ i ∈ R, ∑ j ∈ ((Finset.range d.numTeams).erase t).erase i, x i j := by
    apply Finset.sum_le_sum
    intro i hi
    apply Finset.sum_le_sum_of_subset_of_nonneg
    · intro j hj
      have hj' := Finset.mem_erase.mp hj
      simp only [Finset.mem_erase, Finset.mem_range]
      exact ⟨hj'.1, (hR j hj'.2).2, (hR j hj'.2).1⟩
    · intro j hj _
      simp only [Finset.mem_erase, Finset.mem_range] at hj
      exact isOutcome_nonneg hx (hR i hi).1 hj.2.2 (hR i hi).2 hj.2.1 (Ne.symm hj.1)
  have h2 : ∑ i ∈ R, ∑ j ∈ R.erase i, x i j
      = ∑ i ∈ R, ∑ j ∈ R, (if i < j then x i j else 0)
        + ∑ i ∈ R, ∑ j ∈ R, (if j < i then x i j else 0) := by
    rw [← Finset.sum_add_distrib]
    apply Finset.sum_congr rfl
    intro i hi
    rw [← Finset.sum_add_distrib, ← Finset.add_sum_erase R _ hi]
    have hself : (if i < i then x i i else 0) + (if i < i then x i i else 0) = 0 := by simp
    rw [hself, zero_add]
    apply Finset.sum_congr rfl
    intro j hj
    have hne := (Finset.mem_erase.mp hj).1
    rcases Nat.lt_or_gt_of_ne hne with h | h
    · have : ¬ (i < j) := by omega
      rw [if_neg this, if_pos h]; ring
    · have : ¬ (j < i) := by omega
      rw [if_pos h, if_neg this]; ring
  have h3 : ∑ i ∈ R, ∑ j ∈ R, (if j < i then x i j else 0)
      = ∑ i ∈ R, ∑ j ∈ R, (if i < j then x j i else 0) := Finset.sum_comm
  have h4 : ∑ i ∈ R, ∑ j ∈ R, (if i < j then x i j else 0)
        + ∑ i ∈ R, ∑ j ∈ R, (if i < j then x j i else 0)
      = gamesWithin d R := by
    unfold gamesWithin
    rw [← Finset.sum_add_distrib]
    apply Finset.sum_congr rfl
    intro i hi
    rw [← Finset.sum_add_distrib]
    apply Finset.sum_congr rfl
    intro j hj
    by_cases hij : i < j
    · rw [if_pos hij, if_pos hij, if_pos hij]
      exact (hx i j (hR i hi).1 (hR j hj).1 (hR i hi).2 (hR j hj).2 hij).2.2
    · rw [if_neg hij, if_neg hij, if_neg hij]; ring
  rw [h2, h3, h4] at h1
  exact h1

/-- C1. For valid records and a target `t` in range that is not trivially eliminated,
`FlowNetwork(division, t).isEliminated()` returns (given fuel beyond the number of games
among the other teams), and it returns false if and only if there is an outcome of the
games remaining among the other teams in which every other team finishes with at most
`wins[t] + gamesRemaining[t]` wins. -/
theorem isEliminated_false_iff_outcome (d : Division) (hv : ValidRecords d) (t : Nat)
    (ht : t < d.numTeams)
    (hnt : ∀ i, i < d.numTeams → i ≠ t → d.wins i ≤ d.wins t + d.remainingGames t)
    (fuel : Nat) (hfuel : (gamesAmong d t).toNat < fuel) :
    ∃ b, (FlowNetwork.create d t).isEliminated fuel = some b ∧
      (b = false ↔ ∃ x, IsOutcome d t x ∧
        ∀ i, i < d.numTeams → i ≠ t → finalWins d t x i ≤ d.wins t + d.remainingGames t) := by
  obtain ⟨v, residual, visited, hrun, -, -, hinv, -, -⟩ := network_run d hv t ht fuel hfuel
  have helim := isEliminated_eq hv hrun
  refine ⟨_, helim, ?_, ?_⟩
  · intro hb
    have hge : gamesAmong d t ≤ v := by
      have : ¬ (v < gamesAmong d t) := by simpa using hb
      omega
    have hval := hinv.value
    simp only at hval
    rw [rowSum_networkCap_source d hv t] at hval
    have h0 : 0 < networkSize d t := by unfold networkSize; omega
    have hnn : ∀ u ∈ Finset.range (networkSize d t), 0 ≤ residual 0 u := fun u hu =>
      hinv.nonneg 0 u h0 (Finset.mem_range.mp hu)
    have hrow0 : rowSum (networkSize d t) residual 0 = 0 := by
      have := Finset.sum_nonneg hnn
      unfold rowSum at hval ⊢
      omega
    have hzero := (Finset.sum_eq_zero_iff_of_nonneg hnn).mp hrow0
    have hsat : ∀ k, k < (gameList d t).length → residual 0 (1 + k) = 0 := fun k hk =>
      hzero _ (Finset.mem_range.mpr (gameNode_lt_size hk))
    refine ⟨outcomeOf d t residual, outcomeOf_isOutcome hv ht hinv, ?_⟩
    intro i hi hit
    have htot := outcomeOf_total hv ht hinv hsat hi hit
      (((Finset.range d.numTeams).erase t).erase i)
    rw [sinkCapacity_eq hv ht hi (hnt i hi hit)] at htot
    unfold finalWins
    omega
  · rintro ⟨x, hx, hfin⟩
    by_contra hb
    have hb' : decide (v < gamesAmong d t) = true := by simpa using hb
    rw [hb'] at helim
    obtain ⟨R, -, -, hnd, hmem, hsur⟩ := certificate_surplus d hv t ht fuel hfuel helim
    have hmem' : ∀ i ∈ R.toFinset, i < d.numTeams ∧ i ≠ t :=
      fun i hi => hmem i (List.mem_toFinset.mp hi)
    have hle := gamesWithin_le_outcome hx R.toFinset hmem'
    have hsum : ∑ i ∈ R.toFinset, finalWins d t x i
        ≤ ∑ _i ∈ R.toFinset, (d.wins t + d.remainingGames t) :=
      Finset.sum_le_sum fun i hi => hfin i (hmem' i hi).1 (hmem' i hi).2
    rw [Finset.sum_const, nsmul_eq_mul, List.toFinset_card_of_nodup hnd] at hsum
    unfold finalWins at hsum
    rw [Finset.sum_add_distrib] at hsum
    unfold winsOf at hsur
    omega

set_option maxRecDepth 100000 in
theorem isEliminated_false_iff_outcome_witness :
    ∃ b, (FlowNetwork.create classicDivision 2).isEliminated 10 = some b ∧
      (b = false ↔ ∃ x, IsOutcome classicDivision 2 x ∧
        ∀ i, i < classicDivision.numTeams → i ≠ 2 →
          finalWins classicDivision 2 x i
            ≤ classicDivision.wins 2 + classicDivision.remainingGames 2) :=
  isEliminated_false_iff_outcome classicDivision classicDivision_valid 2 (by decide)
    (by
      intro i hi _
      have hi' : i < 4 := hi
      interval_cases i <;> decide)
    10 (by decide)

/-- The two ways the analysis of one team can go, with what each yields. -/
theorem analyzeTeam_cases (d : Division) (hv : ValidRecords d) (t : Nat)
    (ht : t < d.numTeams) (fuel : Nat) (hfuel : (gamesAmong d t).toNat < fuel) :
    ((∃ i, i < d.numTeams ∧ i ≠ t ∧ d.wins i > d.wins t + d.remainingGames t) ∧
      ∃ b, b < d.numTeams ∧ b ≠ t ∧ d.wins b > d.wins t + d.remainingGames t ∧
        (∀ i, i < b → i ≠ t → ¬ d.wins i > d.wins t + d.remainingGames t) ∧
        analyzeTeam fuel d t = some (Verdict.TriviallyEliminated (d.teamNames b))) ∨
    ((∀ i, i < d.numTeams → i ≠ t → d.wins i ≤ d.wins t + d.remainingGames t) ∧
      (((FlowNetwork.create d t).isEliminated fuel = some false ∧
          analyzeTeam fuel d t = some Verdict.NotEliminated) ∨
        ((FlowNetwork.create d t).isEliminated fuel = some true ∧
          ∃ R, (FlowNetwork.create d t).certificateIndices fuel = some R ∧
            analyzeTeam fuel d t = some (Verdict.Eliminated (R.map d.teamNames))))) := by
  have htriv := analyzeTeam_trivial d hv t ht fuel
  by_cases hex : ∃ i, i < d.numTeams ∧ i ≠ t ∧ d.wins i > d.wins t + d.remainingGames t
  · left
    obtain ⟨b, h1, h2, h3, h4, h5, -⟩ := htriv.1 hex
    exact ⟨hex, b, h1, h2, h3, h4, h5⟩
  · right
    have hnt : ∀ i, i < d.numTeams → i ≠ t → d.wins i ≤ d.wins t + d.remainingGames t := by
      intro i hi hit
      by_contra h
      exact hex ⟨i, hi, hit, by omega⟩
    refine ⟨hnt, ?_⟩
    have hM := maxPossibleWins_eq hv ht
    have hc : trivialCheck d t = none := by
      unfold trivialCheck
      rw [List.find?_range_eq_none]
      intro i hi
      simp only [hM, Bool.not_eq_eq_eq_not, Bool.not_true, decide_eq_false_iff_not]
      intro h
      exact hex ⟨i, hi, h.1, h.2⟩
    obtain ⟨v, residual, visited, hrun, hreach, -, -, -, -⟩ := network_run d hv t ht fuel hfuel
    have helim := isEliminated_eq hv hrun
    have hcert := certificateIndices_eq hv hrun hreach
    have hN : 1 ≤ d.numTeams := by omega
    have hnames := (create_graph d t hN).2.2.2.2.2.2.2
    by_cases hlt : v < gamesAmong d t
    · right
      rw [decide_eq_true hlt] at helim
      refine ⟨helim, _, hcert, ?_⟩
      simp only [analyzeTeam, hc, helim, FlowNetwork.getEliminationCertificate, hcert,
        Option.map_some', hnames]
    · left
      rw [decide_eq_false hlt] at helim
      refine ⟨helim, ?_⟩
      simp only [analyzeTeam, hc, helim]

theorem tieDivision_valid : ValidRecords tieDivision := by
  refine ⟨by decide, ?_, ?_, ?_, ?_, ?_, ?_, ?_, ?_, by decide⟩
  · intro i j hi hj
    have hi' : i < 2 := hi
    have hj' : j < 2 := hj
    interval_cases i <;> interval_cases j <;> decide
  · intro i hi
    have hi' : i < 2 := hi
    interval_cases i <;> decide
  · intro i hi
    have hi' : i < 2 := hi
    interval_cases i <;> decide
  · intro i hi
    have hi' : i < 2 := hi
    interval_cases i <;> decide
  · intro i j _ _; exact le_refl _
  · intro i j _ _; rfl
  · intro i hi
    have hi' : i < 2 := hi
    interval_cases i <;> decide
  · intro i hi
    have hi' : i < 2 := hi
    interval_cases i <;> decide

/-- C7, as stated, fails: in `tieDivision` no outcome lets team 0 finish with strictly
more wins than team 1, yet the analysis reports team 0 as not eliminated. -/
theorem elimination_strict_counterexample :
    ValidRecords tieDivision ∧
    analyzeTeam 1 tieDivision 0 = some Verdict.NotEliminated ∧
    ¬ ∃ x, IsFullOutcome tieDivision x ∧
      ∀ i, i < tieDivision.numTeams → i ≠ 0 →
        seasonWins tieDivision x i < seasonWins tieDivision x 0 := by
  refine ⟨tieDivision_valid, by decide, ?_⟩
  rintro ⟨x, hx, hlt⟩
  have h := hx 0 1 (by decide) (by decide) (by decide)
  have h1 := hlt 1 (by decide) (by decide)
  have e0 : seasonWins tieDivision x 0 = 1 + x 0 1 := by
    unfold seasonWins
    have : (Finset.range tieDivision.numTeams).erase 0 = {1} := by decide
    rw [this, Finset.sum_singleton]; rfl
  have e1 : seasonWins tieDivision x 1 = 1 + x 1 0 := by
    unfold seasonWins
    have : (Finset.range tieDivision.numTeams).erase 1 = {0} := by decide
    rw [this, Finset.sum_singleton]; rfl
  have hg : tieDivision.gamesAgainstMatrix 0 1 = 0 := rfl
  rw [e0, e1] at h1
  omega

theorem isFullOutcome_le_games {d : Division} (hv : ValidRecords d) {x : Nat → Nat → Int}
    (hx : IsFullOutcome d x) {i j : Nat} (hi : i < d.numTeams) (hj : j < d.numTeams)
    (hij : i ≠ j) : 0 ≤ x i j ∧ x i j ≤ d.gamesAgainstMatrix i j := by
  rcases Nat.lt_or_gt_of_ne hij with h | h
  · have := hx i j hi hj h
    omega
  · have := hx j i hj hi h
    have := hv.games_symm i j hi hj
    omega

theorem seasonWins_target_le {d : Division} (hv : ValidRecords d) {x : Nat → Nat → Int}
    (hx : IsFullOutcome d x) {t : Nat} (ht : t < d.numTeams) :
    seasonWins d x t ≤ d.wins t + d.remainingGames t := by
  unfold seasonWins
  rw [← hv.games_sum t ht]
  have : ∑ j ∈ (Finset.range d.numTeams).erase t, x t j
      ≤ ∑ j ∈ (Finset.range d.numTeams).erase t, d.gamesAgainstMatrix t j := by
    apply Finset.sum_le_sum
    intro j hj
    simp only [Finset.mem_erase, Finset.mem_range] at hj
    exact (isFullOutcome_le_games hv hx ht hj.2 (Ne.symm hj.1)).2
  omega

theorem wins_le_seasonWins {d : Division} (hv : ValidRecords d) {x : Nat → Nat → Int}
    (hx : IsFullOutcome d x) {i : Nat} (hi : i < d.numTeams) :
    d.wins i ≤ seasonWins d x i := by
  unfold seasonWins
  have : 0 ≤ ∑ j ∈ (Finset.range d.numTeams).erase i, x i j := by
    apply Finset.sum_nonneg
    intro j hj
    simp only [Finset.mem_erase, Finset.mem_range] at hj
    exact (isFullOutcome_le_games hv hx hi hj.2 (Ne.symm hj.1)).1
  omega

theorem isFullOutcome_isOutcome {d : Division} {x : Nat → Nat → Int} (hx : IsFullOutcome d x)
    (t : Nat) : IsOutcome d t x :=
  fun i j hi hj _ _ hij => hx i j hi hj hij

theorem finalWins_le_seasonWins {d : Division} (hv : ValidRecords d) {x : Nat → Nat → Int}
    (hx : IsFullOutcome d x) (t : Nat) {i : Nat} (hi : i < d.numTeams) :
    finalWins d t x i ≤ seasonWins d x i := by
  unfold finalWins seasonWins
  have : ∑ j ∈ ((Finset.range d.numTeams).erase t).erase i, x i j
      ≤ ∑ j ∈ (Finset.range d.numTeams).erase i, x i j := by
    apply Finset.sum_le_sum_of_subset_of_nonneg
    · intro j hj
      simp only [Finset.mem_erase, Finset.mem_range] at hj ⊢
      exact ⟨hj.1, hj.2.2⟩
    · intro j hj _
      simp only [Finset.mem_erase, Finset.mem_range] at hj
      exact (isFullOutcome_le_games hv hx hi hj.2 (Ne.symm hj.1)).1
  omega

/-- An outcome of the games among the other teams extends to an outcome of all games in
which the target wins every game it still has to play. -/
theorem extend_outcome {d : Division} (hv : ValidRecords d) {t : Nat} (ht : t < d.numTeams)
    {x : Nat → Nat → Int} (hx : IsOutcome d t x) :
    ∃ x', IsFullOutcome d x' ∧
      seasonWins d x' t = d.wins t + d.remainingGames t ∧
      ∀ i, i < d.numTeams → i ≠ t → seasonWins d x' i = finalWins d t x i := by
  refine ⟨fun i j => if i = t then d.gamesAgainstMatrix t j else if j = t then 0 else x i j,
    ?_, ?_, ?_⟩
  · intro i j hi hj hij
    simp only
    by_cases hit : i = t
    · subst hit
      have hjt : ¬ (j = i) := by omega
      simp only [if_true, hjt, if_false]
      have := hv.games_nonneg i j hi hj
      omega
    · by_cases hjt : j = t
      · subst hjt
        simp only [hit, if_false, if_true]
        have := hv.games_nonneg j i hj hi
        have := hv.games_symm i j hi hj
        omega
      · simp only [hit, hjt, if_false]
        exact hx i j hi hj hit hjt hij
  · unfold seasonWins
    simp only [if_true]
    rw [hv.games_sum t ht]
  · intro i hi hit
    unfold seasonWins finalWins
    simp only [hit, if_false]
    have hmem : t ∈ (Finset.range d.numTeams).erase i := by
      simp only [Finset.mem_erase, Finset.mem_range]
      exact ⟨Ne.symm hit, ht⟩
    rw [← Finset.add_sum_erase _ _ hmem, Finset.erase_right_comm]
    simp only [if_true, zero_add]
    congr 1
    apply Finset.sum_congr rfl
    intro j hj
    have : j ≠ t := (Finset.mem_erase.mp (Finset.mem_erase.mp hj).2).1
    simp only [this, if_false]

/-- C7, amended. For valid records and a team `t`, the analysis reports `t` as eliminated
(trivially or through the flow check) exactly when there is no outcome of the remaining
games in which `t` finishes with at least as many wins as every other team: a tie for the
most wins counts as not eliminated. -/
theorem elimination_iff_cannot_tie (d : Division) (hv : ValidRecords d) (t : Nat)
    (ht : t < d.numTeams) (fuel : Nat) (hfuel : (gamesAmong d t).toNat < fuel) :
    ∃ verdict, analyzeTeam fuel d t = some verdict ∧
      (verdict ≠ Verdict.NotEliminated ↔
        ¬ ∃ x, IsFullOutcome d x ∧
          ∀ i, i < d.numTeams → i ≠ t → seasonWins d x i ≤ seasonWins d x t) := by
  rcases analyzeTeam_cases d hv t ht fuel hfuel with
    ⟨⟨i, hi, hit, hw⟩, b, -, -, -, -, hres⟩ | ⟨hnt, hcase⟩
  · refine ⟨_, hres, ?_⟩
    constructor
    · intro _
      rintro ⟨x, hx, hle⟩
      have h1 := wins_le_seasonWins hv hx hi
      have h2 := hle i hi hit
      have h3 := seasonWins_target_le hv hx ht
      omega
    · intro _ h; cases h
  · obtain ⟨b, hb, hiff⟩ := isEliminated_false_iff_outcome d hv t ht hnt fuel hfuel
    rcases hcase with ⟨helim, hres⟩ | ⟨helim, R, -, hres⟩
    · refine ⟨_, hres, ?_⟩
      have hbf : b = false := by
        rw [helim] at hb; exact (Option.some.inj hb).symm
      obtain ⟨x, hx, hfin⟩ := hiff.mp hbf
      obtain ⟨x', hx', ht', hi'⟩ := extend_outcome hv ht hx
      constructor
      · intro h; exact absurd rfl h
      · intro h
        exfalso
        apply h
        refine ⟨x', hx', fun i hi hit => ?_⟩
        rw [hi' i hi hit, ht']
        exact hfin i hi hit
    · refine ⟨_, hres, ?_⟩
      have hbt : b = true := by
        rw [helim] at hb; exact (Option.some.inj hb).symm
      constructor
      · intro _
        rintro ⟨x, hx, hle⟩
        have : b = false := hiff.mpr ⟨x, isFullOutcome_isOutcome hx t, fun i hi hit => by
          have h1 := finalWins_le_seasonWins hv hx t hi
          have h2 := hle i hi hit
          have h3 := seasonWins_target_le hv hx ht
          omega⟩
        rw [hbt] at this
        cases this
      · intro _ h; cases h

theorem elimination_iff_cannot_tie_witness :
    ∃ verdict, analyzeTeam 1 tieDivision 0 = some verdict ∧
      (verdict ≠ Verdict.NotEliminated ↔
        ¬ ∃ x, IsFullOutcome tieDivision x ∧
          ∀ i, i < tieDivision.numTeams → i ≠ 0 →
            seasonWins tieDivision x i ≤ seasonWins tieDivision x 0) :=
  elimination_iff_cannot_tie tieDivision tieDivision_valid 0 (by decide) 1 (by decide)

theorem boundaryDivision_valid : ValidRecords boundaryDivision := by
  refine ⟨by decide, ?_, ?_, ?_, ?_, ?_, ?_, ?_, ?_, by decide⟩
  · intro i j hi hj
    have hi' : i < 3 := hi
    have hj' : j < 3 := hj
    interval_cases i <;> interval_cases j <;> decide
  · intro i hi
    have hi' : i < 3 := hi
    interval_cases i <;> decide
  · intro i hi
    have hi' : i < 3 := hi
    interval_cases i <;> decide
  · intro i hi
    have hi' : i < 3 := hi
    interval_cases i <;> decide
  · intro i j hi hj
    have hi' : i < 3 := hi
    have hj' : j < 3 := hj
    interval_cases i <;> interval_cases j <;> decide
  · intro i j hi hj
    have hi' : i < 3 := hi
    have hj' : j < 3 := hj
    interval_cases i <;> interval_cases j <;> decide
  · intro i hi
    have hi' : i < 3 := hi
    interval_cases i <;> decide
  · intro i hi
    have hi' : i < 3 := hi
    interval_cases i <;> decide

set_option maxRecDepth 100000 in
/-- C9, as stated, fails: in `boundaryDivision` team 0 has no game left and the maximum
number of wins, and the analysis reports it eliminated by the other two teams, one of
which must win their remaining game. -/
theorem boundary_counterexample :
    ValidRecords boundaryDivision ∧ boundaryDivision.remainingGames 0 = 0 ∧
    (∀ i, i < boundaryDivision.numTeams → boundaryDivision.wins i ≤ boundaryDivision.wins 0) ∧
    analyzeTeam 5 boundaryDivision 0 = some (Verdict.Eliminated ["A", "B"]) ∧
    analyzeTeam 5 boundaryDivision 0 ≠ some Verdict.NotEliminated := by
  refine ⟨boundaryDivision_valid, by decide, ?_, by decide, by decide⟩
  intro i hi
  have hi' : i < 3 := hi
  interval_cases i <;> decide

theorem games_zero_of_gamesAmong {d : Division} (hv : ValidRecords d) {t : Nat}
    (h : gamesAmong d t = 0) {i j : Nat} (hi : i < d.numTeams) (hj : j < d.numTeams)
    (hit : i ≠ t) (hjt : j ≠ t) (hij : i < j) : d.gamesAgainstMatrix i j = 0 := by
  unfold gamesAmong at h
  have hnn : ∀ a ∈ Finset.range d.numTeams, ∀ b ∈ Finset.range d.numTeams,
      0 ≤ (if a < b ∧ a ≠ t ∧ b ≠ t then d.gamesAgainstMatrix a b else 0) := by
    intro a ha b hb
    have := hv.games_nonneg a b (Finset.mem_range.mp ha) (Finset.mem_range.mp hb)
    split <;> omega
  have h1 := (Finset.sum_eq_zero_iff_of_nonneg
    (fun a ha => Finset.sum_nonneg (hnn a ha))).mp h i (Finset.mem_range.mpr hi)
  have h2 := (Finset.sum_eq_zero_iff_of_nonneg (hnn i (Finset.mem_range.mpr hi))).mp h1 j
    (Finset.mem_range.mpr hj)
  rw [if_pos ⟨hij, hit, hjt⟩] at h2
  exact h2

/-- C9, amended. For valid records and a team `t` with `gamesRemaining[t] = 0` whose
wins are the maximum of the division, the verdict is never `TriviallyEliminated`, and it
is `NotEliminated` exactly when the games remaining among the other teams can be split so
that every other team `i` wins at most `wins[t] - wins[i]` of them; in particular it is
`NotEliminated` when no games remain among the other teams. -/
theorem boundary_verdict (d : Division) (hv : ValidRecords d) (t : Nat)
    (ht : t < d.numTeams) (hrem : d.remainingGames t = 0)
    (hmax : ∀ i, i < d.numTeams → d.wins i ≤ d.wins t)
    (fuel : Nat) (hfuel : (gamesAmong d t).toNat < fuel) :
    ∃ verdict, analyzeTeam fuel d t = some verdict ∧
      (∀ name, verdict ≠ Verdict.TriviallyEliminated name) ∧
      (verdict = Verdict.NotEliminated ↔
        ∃ x, IsOutcome d t x ∧ ∀ i, i < d.numTeams → i ≠ t →
          ∑ j ∈ ((Finset.range d.numTeams).erase t).erase i, x i j
            ≤ d.wins t - d.wins i) ∧
      (gamesAmong d t = 0 → verdict = Verdict.NotEliminated) := by
  have hiffx : (∃ x, IsOutcome d t x ∧ ∀ i, i < d.numTeams → i ≠ t →
        finalWins d t x i ≤ d.wins t + d.remainingGames t) ↔
      ∃ x, IsOutcome d t x ∧ ∀ i, i < d.numTeams → i ≠ t →
        ∑ j ∈ ((Finset.range d.numTeams).erase t).erase i, x i j ≤ d.wins t - d.wins i := by
    constructor
    · rintro ⟨x, hx, h⟩
      refine ⟨x, hx, fun i hi hit => ?_⟩
      have := h i hi hit
      unfold finalWins at this
      omega
    · rintro ⟨x, hx, h⟩
      refine ⟨x, hx, fun i hi hit => ?_⟩
      have := h i hi hit
      unfold finalWins
      omega
  have hzero : gamesAmong d t = 0 → ∃ x, IsOutcome d t x ∧ ∀ i, i < d.numTeams → i ≠ t →
      finalWins d t x i ≤ d.wins t + d.remainingGames t := by
    intro h0
    refine ⟨fun _ _ => 0, ?_, ?_⟩
    · intro i j hi hj hit hjt hij
      have := games_zero_of_gamesAmong hv h0 hi hj hit hjt hij
      simp only [this]
      omega
    · intro i hi _
      unfold finalWins
      simp only [Finset.sum_const_zero]
      have := hmax i hi
      omega
  rcases analyzeTeam_cases d hv t ht fuel hfuel with
    ⟨⟨i, hi, _, hw⟩, -⟩ | ⟨hnt, hcase⟩
  · have := hmax i hi
    omega
  · obtain ⟨b, hb, hiff⟩ := isEliminated_false_iff_outcome d hv t ht hnt fuel hfuel
    rw [hiffx] at hiff
    rcases hcase with ⟨helim, hres⟩ | ⟨helim, R, -, hres⟩
    · have hbf : b = false := by
        rw [helim] at hb; exact (Option.some.inj hb).symm
      exact ⟨_, hres, (fun _ h => by cases h), ⟨fun _ => hiff.mp hbf, fun _ => rfl⟩,
        fun _ => rfl⟩
    · have hbt : b = true := by
        rw [helim] at hb; exact (Option.some.inj hb).symm
      have hno : ¬ ∃ x, IsOutcome d t x ∧ ∀ i, i < d.numTeams → i ≠ t →
          ∑ j ∈ ((Finset.range d.numTeams).erase t).erase i, x i j
            ≤ d.wins t - d.wins i := by
        intro h
        have := hiff.mpr h
        rw [hbt] at this
        cases this
      refine ⟨_, hres, (fun _ h => by cases h),
        ⟨(fun h => by cases h), fun h => absurd h hno⟩, ?_⟩
      intro h0
      exact absurd (hiffx.mp (hzero h0)) hno

set_option maxRecDepth 100000 in
theorem boundary_verdict_witness :
    ∃ verdict, analyzeTeam 5 boundaryDivision 0 = some verdict ∧
      (∀ name, verdict ≠ Verdict.TriviallyEliminated name) ∧
      (verdict = Verdict.NotEliminated ↔
        ∃ x, IsOutcome boundaryDivision 0 x ∧ ∀ i, i < boundaryDivision.numTeams → i ≠ 0 →
          ∑ j ∈ ((Finset.range boundaryDivision.numTeams).erase 0).erase i, x i j
            ≤ boundaryDivision.wins 0 - boundaryDivision.wins i) ∧
      (gamesAmong boundaryDivision 0 = 0 → verdict = Verdict.NotEliminated) :=
  boundary_verdict boundaryDivision boundaryDivision_valid 0 (by decide) (by decide)
    (by
      intro i hi
      have hi' : i < 3 := hi
      interval_cases i <;> decide)
    5 (by decide)

section CutOf

variable {d : Division} {t : Nat} {R : Finset Nat}

theorem mem_cutOf {x : Nat} :
    x ∈ cutOf d t R ↔ x = 0 ∨
      (∃ k, k < (gameList d t).length ∧ ((gameAt d t k).1 ∈ R ∧ (gameAt d t k).2 ∈ R) ∧
        1 + k = x) ∨
      (∃ i, i ∈ R ∧ teamNode d t i = x) := by
  unfold cutOf
  simp only [Finset.mem_insert, Finset.mem_union, Finset.mem_image, Finset.mem_filter,
    Finset.mem_range]
  constructor
  · rintro (h | ⟨k, ⟨hk, hR⟩, rfl⟩ | ⟨i, hi, rfl⟩)
    · exact Or.inl h
    · exact Or.inr (Or.inl ⟨k, hk, hR, rfl⟩)
    · exact Or.inr (Or.inr ⟨i, hi, rfl⟩)
  · rintro (h | ⟨k, hk, hR, rfl⟩ | ⟨i, hi, rfl⟩)
    · exact Or.inl h
    · exact Or.inr (Or.inl ⟨k, ⟨hk, hR⟩, rfl⟩)
    · exact Or.inr (Or.inr ⟨i, hi, rfl⟩)

theorem zero_mem_cutOf : 0 ∈ cutOf d t R := mem_cutOf.mpr (Or.inl rfl)

theorem gameNode_mem_cutOf (hR : ∀ i ∈ R, i < d.numTeams ∧ i ≠ t) {k : Nat}
    (hk : k < (gameList d t).length) :
    1 + k ∈ cutOf d t R ↔ (gameAt d t k).1 ∈ R ∧ (gameAt d t k).2 ∈ R := by
  rw [mem_cutOf]
  constructor
  · rintro (h | ⟨k', _, hR', h⟩ | ⟨i, hi, h⟩)
    · omega
    · have : k' = k := by omega
      subst this; exact hR'
    · have := teamNode_ge (d := d) (hR i hi).2
      omega
  · intro h
    exact Or.inr (Or.inl ⟨k, hk, h, rfl⟩)

theorem teamNode_mem_cutOf (hR : ∀ i ∈ R, i < d.numTeams ∧ i ≠ t) {i : Nat} (hit : i ≠ t) :
    teamNode d t i ∈ cutOf d t R ↔ i ∈ R := by
  rw [mem_cutOf]
  have hge := teamNode_ge (d := d) hit
  constructor
  · rintro (h | ⟨k', hk', _, h⟩ | ⟨j, hj, h⟩)
    · omega
    · omega
    · have := teamNode_inj (hR j hj).2 hit h
      subst this; exact hj
  · intro h
    exact Or.inr (Or.inr ⟨i, h, rfl⟩)

theorem cutOf_isCut (ht : t < d.numTeams) (hR : ∀ i ∈ R, i < d.numTeams ∧ i ≠ t) :
    IsCut (Graph.mk (networkSize d t) (networkCap d t)) 0 (networkSink d t) (cutOf d t R) := by
  refine ⟨?_, zero_mem_cutOf, ?_⟩
  · intro x hx
    simp only [Finset.mem_range]
    rcases mem_cutOf.mp hx with h | ⟨k, hk, _, h⟩ | ⟨i, hi, h⟩
    · rw [h]; unfold networkSize; omega
    · rw [← h]; exact gameNode_lt_size hk
    · rw [← h]; exact teamNode_lt_size ht (hR i hi).1 (hR i hi).2
  · intro hx
    rcases mem_cutOf.mp hx with h | ⟨k, hk, _, h⟩ | ⟨i, hi, h⟩
    · unfold networkSink at h; omega
    · unfold networkSink at h; omega
    · have := teamNode_lt ht (hR i hi).1 (hR i hi).2
      omega

/-- The cut that belongs to a set of teams is worth the games not played inside the set
plus the sink capacities of the set. -/
theorem cutCapacity_cutOf (hv : ValidRecords d) (ht : t < d.numTeams)
    (hR : ∀ i ∈ R, i < d.numTeams ∧ i ≠ t) :
    cutCapacity (Graph.mk (networkSize d t) (networkCap d t)) (cutOf d t R)
      = gamesAmong d t - gamesWithin d R + ∑ i ∈ R, sinkCapacity d t i := by
  have hcut := cutOf_isCut ht hR
  rw [cutCapacity_network d t ht _ hcut.1 hcut.2.1 hcut.2.2]
  have h1 : ∑ k ∈ Finset.range (gameList d t).length,
        (if 1 + k ∈ cutOf d t R then
          (if teamNode d t (gameAt d t k).1 ∈ cutOf d t R then 0 else INT_MAX)
            + (if teamNode d t (gameAt d t k).2 ∈ cutOf d t R then 0 else INT_MAX)
        else d.gamesAgainstMatrix (gameAt d t k).1 (gameAt d t k).2)
      = ∑ k ∈ Finset.range (gameList d t).length,
          (d.gamesAgainstMatrix (gameAt d t k).1 (gameAt d t k).2
            - (if (gameAt d t k).1 ∈ R ∧ (gameAt d t k).2 ∈ R
                then d.gamesAgainstMatrix (gameAt d t k).1 (gameAt d t k).2 else 0)) := by
    apply Finset.sum_congr rfl
    intro k hk
    have hk' := Finset.mem_range.mp hk
    have hg := gameAt_spec hk'
    by_cases hin : (gameAt d t k).1 ∈ R ∧ (gameAt d t k).2 ∈ R
    · rw [if_pos ((gameNode_mem_cutOf hR hk').mpr hin),
        if_pos ((teamNode_mem_cutOf hR hg.2.2.1).mpr hin.1),
        if_pos ((teamNode_mem_cutOf hR hg.2.2.2.1).mpr hin.2), if_pos hin]
      ring
    · rw [if_neg (fun h => hin ((gameNode_mem_cutOf hR hk').mp h)), if_neg hin]
      ring
  have h2 : ∑ i ∈ (Finset.range d.numTeams).erase t,
        (if teamNode d t i ∈ cutOf d t R then sinkCapacity d t i else 0)
      = ∑ i ∈ R, sinkCapacity d t i := by
    have hsub : R ⊆ (Finset.range d.numTeams).erase t := by
      intro i hi
      simp only [Finset.mem_erase, Finset.mem_range]
      exact ⟨(hR i hi).2, (hR i hi).1⟩
    have : ∑ i ∈ (Finset.range d.numTeams).erase t,
          (if teamNode d t i ∈ cutOf d t R then sinkCapacity d t i else 0)
        = ∑ i ∈ (Finset.range d.numTeams).erase t,
          (if i ∈ R then sinkCapacity d t i else 0) := by
      apply Finset.sum_congr rfl
      intro i hi
      have hit := (Finset.mem_erase.mp hi).1
      by_cases hiR : i ∈ R
      · rw [if_pos ((teamNode_mem_cutOf hR hit).mpr hiR), if_pos hiR]
      · rw [if_neg (fun h => hiR ((teamNode_mem_cutOf hR hit).mp h)), if_neg hiR]
    rw [this, Finset.sum_ite_mem, Finset.inter_eq_right.mpr hsub]
  have hall := sum_gamePairSet d hv t
  rw [← sum_gameAt d t fun p => d.gamesAgainstMatrix p.1 p.2] at hall
  rw [h1, h2, Finset.sum_sub_distrib, hall, sum_games_within d hv t R hR]

end CutOf

theorem sum_sinkCapacity_eq (d : Division) (hv : ValidRecords d) (t : Nat)
    (ht : t < d.numTeams)
    (hnt : ∀ i, i < d.numTeams → i ≠ t → d.wins i ≤ d.wins t + d.remainingGames t)
    (R : Finset Nat) (hR : ∀ i ∈ R, i < d.numTeams ∧ i ≠ t) :
    ∑ i ∈ R, sinkCapacity d t i
      = (R.card : Int) * (d.wins t + d.remainingGames t) - winsOf d R := by
  have h1 : ∑ i ∈ R, sinkCapacity d t i
      = ∑ i ∈ R, (d.wins t + d.remainingGames t - d.wins i) :=
    Finset.sum_congr rfl fun i hi =>
      sinkCapacity_eq hv ht (hR i hi).1 (hnt i (hR i hi).1 (hR i hi).2)
  rw [h1, Finset.sum_sub_distrib, Finset.sum_const, nsmul_eq_mul]
  rfl

/-- The teams behind the certificate form the least set of maximum surplus. -/
theorem certificate_extremal (d : Division) (hv : ValidRecords d) (t : Nat)
    (ht : t < d.numTeams)
    (hnt : ∀ i, i < d.numTeams → i ≠ t → d.wins i ≤ d.wins t + d.remainingGames t)
    (fuel : Nat) (hfuel : (gamesAmong d t).toNat < fuel) :
    ∃ R : List Nat, (FlowNetwork.create d t).certificateIndices fuel = some R ∧
      R.Nodup ∧ (∀ i ∈ R, i < d.numTeams ∧ i ≠ t) ∧
      ∀ R' : Finset Nat, (∀ i ∈ R', i < d.numTeams ∧ i ≠ t) →
        surplus d t R' ≤ surplus d t R.toFinset ∧
        (surplus d t R' = surplus d t R.toFinset → R.toFinset ⊆ R') := by
  obtain ⟨v, residual, visited, hrun, hreach, hvis, hinv, hcut, hcl⟩ :=
    network_run d hv t ht fuel hfuel
  have hcap := cutCapacity_of_closed hinv hcut hcl
  have hvle : v ≤ gamesAmong d t := by
    have h1 := hinv.value
    simp only at h1
    rw [rowSum_networkCap_source d hv t] at h1
    have h0 : 0 < networkSize d t := by unfold networkSize; omega
    have := rowSum_nonneg h0 hinv.nonneg
    simp only at this
    omega
  have hsmall : cutCapacity (Graph.mk (networkSize d t) (networkCap d t))
      ((Finset.range (networkSize d t)).filter fun x => visited x = true) < INT_MAX := by
    have h2 := gamesAmong_le_totalGames d hv t
    have h3 := hv.games_bound
    omega
  have hsur := cut_surplus d hv t ht _ hcut.1 hcut.2.1 hcut.2.2 hsmall
  rw [hcap, ← certificate_toFinset d t ht visited] at hsur
  have hmem : ∀ i ∈ (List.range d.numTeams).filter fun i =>
      i ≠ t ∧ visited (teamNode d t i) = true, i < d.numTeams ∧ i ≠ t := by
    intro i hi
    simp only [List.mem_filter, List.mem_range, decide_eq_true_eq] at hi
    exact ⟨hi.1, hi.2.1⟩
  have hmem' : ∀ i ∈ ((List.range d.numTeams).filter fun i =>
      i ≠ t ∧ visited (teamNode d t i) = true).toFinset, i < d.numTeams ∧ i ≠ t :=
    fun i hi => hmem i (List.mem_toFinset.mp hi)
  have hnd : ((List.range d.numTeams).filter fun i =>
      i ≠ t ∧ visited (teamNode d t i) = true).Nodup :=
    List.Nodup.filter _ (List.nodup_range _)
  refine ⟨_, certificateIndices_eq hv hrun hreach, hnd, hmem, ?_⟩
  intro R' hR'
  have hcutR := cutOf_isCut ht hR'
  have hcapR := cutCapacity_cutOf hv ht hR'
  have hle := value_le_cutCapacity hinv hcutR
  have e1 := sum_sinkCapacity_eq d hv t ht hnt R' hR'
  have e2 := sum_sinkCapacity_eq d hv t ht hnt _ hmem'
  unfold surplus
  constructor
  · omega
  · intro heq
    have hcapeq : cutCapacity (Graph.mk (networkSize d t) (networkCap d t)) (cutOf d t R')
        = v := by omega
    have hclR := closed_of_cutCapacity_eq hinv hcutR hcapeq
    intro i hi
    have hi' := List.mem_toFinset.mp hi
    simp only [List.mem_filter, List.mem_range, decide_eq_true_eq] at hi'
    have hreachi := (hvis _).mp hi'.2.2
    have := residualReach_mem_closed (g := Graph.mk (networkSize d t) (networkCap d t))
      hcutR.2.1 hclR hreachi
    exact (teamNode_mem_cutOf hR' hi'.2.1).mp this

theorem surplusDivision_valid : ValidRecords surplusDivision := by
  refine ⟨by decide, ?_, ?_, ?_, ?_, ?_, ?_, ?_, ?_, by decide⟩
  · intro i j hi hj
    have hi' : i < 4 := hi
    have hj' : j < 4 := hj
    interval_cases i <;> interval_cases j <;> decide
  · intro i hi
    have hi' : i < 4 := hi
    interval_cases i <;> decide
  · intro i hi
    have hi' : i < 4 := hi
    interval_cases i <;> decide
  · intro i hi
    have hi' : i < 4 := hi
    interval_cases i <;> decide
  · intro i j hi hj
    have hi' : i < 4 := hi
    have hj' : j < 4 := hj
    interval_cases i <;> interval_cases j <;> decide
  · intro i j hi hj
    have hi' : i < 4 := hi
    have hj' : j < 4 := hj
    interval_cases i <;> interval_cases j <;> decide
  · intro i hi
    have hi' : i < 4 := hi
    interval_cases i <;> decide
  · intro i hi
    have hi' : i < 4 := hi
    interval_cases i <;> decide

set_option maxRecDepth 100000 in
/-- C8, as stated, fails: in `surplusDivision` the target (team 0) gets the certificate
`A, B, C` (teams 1, 2, 3), and its proper non-empty subset `A, B` is a certificate too:
one game between them, no wins, against a best total of 0 for the target. -/
theorem certificate_minimal_counterexample :
    ValidRecords surplusDivision ∧
    analyzeTeam 5 surplusDivision 0 = some (Verdict.Eliminated ["A", "B", "C"]) ∧
    (FlowNetwork.create surplusDivision 0).certificateIndices 5 = some [1, 2, 3] ∧
    ({1, 2} : Finset Nat) ⊂ [1, 2, 3].toFinset ∧ ({1, 2} : Finset Nat).Nonempty ∧
    (((gamesWithin surplusDivision {1, 2} + winsOf surplusDivision {1, 2} : Int) : ℚ)
        / ((({1, 2} : Finset Nat).card : Nat) : ℚ)
      > ((surplusDivision.wins 0 + surplusDivision.remainingGames 0 : Int) : ℚ)) := by
  refine ⟨surplusDivision_valid, by decide, by decide, by decide, by decide, ?_⟩
  have h1 : gamesWithin surplusDivision {1, 2} + winsOf surplusDivision {1, 2} = 1 := by
    decide
  have h2 : surplusDivision.wins 0 + surplusDivision.remainingGames 0 = 0 := by decide
  have h3 : ({1, 2} : Finset Nat).card = 2 := by decide
  rw [h1, h2, h3]
  norm_num

/-- C8, amended. For valid records and a target `t` that is not trivially eliminated and
for which `isEliminated()` is true, the team set `R` behind the list returned by
`getEliminationCertificate()` is the least set of maximum surplus: its surplus (games
among `R` + wins of `R` - |R| * (wins[t] + gamesRemaining[t])) is positive, no set of
other teams has a larger surplus, every set with the same surplus contains `R`, and so no
proper subset of `R` has a surplus as large as that of `R`.  A proper subset of `R` may
still have a positive surplus. -/
theorem certificate_least_max_surplus (d : Division) (hv : ValidRecords d) (t : Nat)
    (ht : t < d.numTeams)
    (hnt : ∀ i, i < d.numTeams → i ≠ t → d.wins i ≤ d.wins t + d.remainingGames t)
    (fuel : Nat) (hfuel : (gamesAmong d t).toNat < fuel)
    (helim : (FlowNetwork.create d t).isEliminated fuel = some true) :
    ∃ R : List Nat,
      (FlowNetwork.create d t).getEliminationCertificate fuel = some (R.map d.teamNames) ∧
      R.Nodup ∧ (∀ i ∈ R, i < d.numTeams ∧ i ≠ t) ∧ 0 < surplus d t R.toFinset ∧
      ∀ R' : Finset Nat, (∀ i ∈ R', i < d.numTeams ∧ i ≠ t) →
        surplus d t R' ≤ surplus d t R.toFinset ∧
        (surplus d t R' = surplus d t R.toFinset → R.toFinset ⊆ R') ∧
        (R' ⊂ R.toFinset → surplus d t R' < surplus d t R.toFinset) := by
  obtain ⟨R, hR, hnd, hmem, hext⟩ := certificate_extremal d hv t ht hnt fuel hfuel
  obtain ⟨R2, hR2, -, hnd2, -, hsur⟩ := certificate_surplus d hv t ht fuel hfuel helim
  have hsame : R2 = R := by
    rw [hR] at hR2; exact (Option.some.inj hR2).symm
  subst hsame
  have hN : 1 ≤ d.numTeams := by omega
  refine ⟨R2, ?_, hnd, hmem, ?_, ?_⟩
  · unfold FlowNetwork.getEliminationCertificate
    rw [hR, (create_graph d t hN).2.2.2.2.2.2.2]
    rfl
  · unfold surplus
    rw [List.toFinset_card_of_nodup hnd]
    omega
  · intro R' hR'
    obtain ⟨h1, h2⟩ := hext R' hR'
    refine ⟨h1, h2, fun hss => ?_⟩
    rcases lt_or_eq_of_le h1 with h | h
    · exact h
    · exact absurd (h2 h) hss.2

set_option maxRecDepth 100000 in
theorem certificate_least_max_surplus_witness :
    ∃ R : List Nat,
      (FlowNetwork.create surplusDivision 0).getEliminationCertificate 5
        = some (R.map surplusDivision.teamNames) ∧
      R.Nodup ∧ (∀ i ∈ R, i < surplusDivision.numTeams ∧ i ≠ 0) ∧
      0 < surplus surplusDivision 0 R.toFinset ∧
      ∀ R' : Finset Nat, (∀ i ∈ R', i < surplusDivision.numTeams ∧ i ≠ 0) →
        surplus surplusDivision 0 R' ≤ surplus surplusDivision 0 R.toFinset ∧
        (surplus surplusDivision 0 R' = surplus surplusDivision 0 R.toFinset
          → R.toFinset ⊆ R') ∧
        (R' ⊂ R.toFinset → surplus surplusDivision 0 R' < surplus surplusDivision 0 R.toFinset) :=
  certificate_least_max_surplus surplusDivision surplusDivision_valid 0 (by decide)
    (by
      intro i hi _
      have hi' : i < 4 := hi
      interval_cases i <;> decide)
    5 (by decide) (by decide)

theorem swapIndex_invol (p q i : Nat) : swapIndex p q (swapIndex p q i) = i := by
  unfold swapIndex
  by_cases h1 : i = p
  · by_cases h2 : q = p
    · simp [h1, h2]
    · simp [h1, h2]
  · by_cases h2 : i = q
    · simp [h1, h2]
    · simp [h1, h2]

theorem swapIndex_inj (p q : Nat) {i j : Nat} (h : swapIndex p q i = swapIndex p q j) :
    i = j := by
  have := congrArg (swapIndex p q) h
  rwa [swapIndex_invol, swapIndex_invol] at this

theorem swapIndex_lt {p q n : Nat} (hp : p < n) (hq : q < n) {i : Nat} (hi : i < n) :
    swapIndex p q i < n := by
  unfold swapIndex
  split
  · exact hq
  · split
    · exact hp
    · exact hi

theorem swapIndex_ne {p q i k : Nat} (h : i ≠ k) : swapIndex p q i ≠ swapIndex p q k :=
  fun h' => h (swapIndex_inj p q h')

theorem sum_comp_swap (p q : Nat) (A : Finset Nat) (f : Nat → Int) :
    ∑ a ∈ A, f (swapIndex p q a) = ∑ b ∈ A.image (swapIndex p q), f b := by
  rw [Finset.sum_image]
  intro a _ b _ h
  exact swapIndex_inj p q h

theorem image_swap_range {p q n : Nat} (hp : p < n) (hq : q < n) :
    (Finset.range n).image (swapIndex p q) = Finset.range n := by
  ext x
  simp only [Finset.mem_image, Finset.mem_range]
  constructor
  · rintro ⟨a, ha, rfl⟩
    exact swapIndex_lt hp hq ha
  · intro hx
    exact ⟨swapIndex p q x, swapIndex_lt hp hq hx, swapIndex_invol p q x⟩

theorem image_swap_erase (p q : Nat) (A : Finset Nat) (x : Nat) :
    (A.erase x).image (swapIndex p q) = (A.image (swapIndex p q)).erase (swapIndex p q x) := by
  ext y
  simp only [Finset.mem_image, Finset.mem_erase]
  constructor
  · rintro ⟨a, ⟨hax, ha⟩, rfl⟩
    exact ⟨swapIndex_ne hax, a, ha, rfl⟩
  · rintro ⟨hne, a, ha, rfl⟩
    exact ⟨a, ⟨fun h => hne (by rw [h]), ha⟩, rfl⟩

theorem image_swap_image (p q : Nat) (A : Finset Nat) :
    (A.image (swapIndex p q)).image (swapIndex p q) = A := by
  ext y
  simp only [Finset.mem_image]
  constructor
  · rintro ⟨a, ⟨b, hb, rfl⟩, rfl⟩
    rw [swapIndex_invol]; exact hb
  · intro hy
    exact ⟨swapIndex p q y, ⟨y, hy, rfl⟩, swapIndex_invol p q y⟩

theorem mem_image_swap {p q : Nat} {A : Finset Nat} {x : Nat} :
    x ∈ A.image (swapIndex p q) ↔ swapIndex p q x ∈ A := by
  simp only [Finset.mem_image]
  constructor
  · rintro ⟨a, ha, rfl⟩
    rw [swapIndex_invol]; exact ha
  · intro h
    exact ⟨swapIndex p q x, h, swapIndex_invol p q x⟩

/-- Counting every unordered pair once is half of counting every ordered pair, for a
symmetric matrix. -/
theorem two_mul_sum_lt (X : Finset Nat) (g : Nat → Nat → Int)
    (hsymm : ∀ i ∈ X, ∀ j ∈ X, g i j = g j i) :
    2 * ∑ i ∈ X, ∑ j ∈ X, (if i < j then g i j else 0)
      = ∑ i ∈ X, ∑ j ∈ X, (if i ≠ j then g i j else 0) := by
  have h1 : ∑ i ∈ X, ∑ j ∈ X, (if i ≠ j then g i j else 0)
      = ∑ i ∈ X, ∑ j ∈ X, (if i < j then g i j else 0)
        + ∑ i ∈ X, ∑ j ∈ X, (if j < i then g i j else 0) := by
    rw [← Finset.sum_add_distrib]
    apply Finset.sum_congr rfl
    intro i _
    rw [← Finset.sum_add_distrib]
    apply Finset.sum_congr rfl
    intro j _
    by_cases h : i = j
    · subst h; simp
    · rcases Nat.lt_or_gt_of_ne h with h' | h'
      · have : ¬ (j < i) := by omega
        rw [if_pos h, if_pos h', if_neg this]; ring
      · have : ¬ (i < j) := by omega
        rw [if_pos h, if_neg this, if_pos h']; ring
  have h2 : ∑ i ∈ X, ∑ j ∈ X, (if j < i then g i j else 0)
      = ∑ i ∈ X, ∑ j ∈ X, (if i < j then g j i else 0) := Finset.sum_comm
  have h3 : ∑ i ∈ X, ∑ j ∈ X, (if i < j then g j i else 0)
      = ∑ i ∈ X, ∑ j ∈ X, (if i < j then g i j else 0) := by
    apply Finset.sum_congr rfl
    intro i hi
    apply Finset.sum_congr rfl
    intro j hj
    rw [hsymm j hj i hi]
  rw [h1, h2, h3]
  ring

theorem gamesWithin_swap (d : Division) (hv : ValidRecords d) {p q : Nat}
    (hp : p < d.numTeams) (hq : q < d.numTeams) (X : Finset Nat)
    (hX : ∀ i ∈ X, i < d.numTeams) :
    gamesWithin (swapTeams d p q) X = gamesWithin d (X.image (swapIndex p q)) := by
  have hX' : ∀ i ∈ X.image (swapIndex p q), i < d.numTeams := by
    intro i hi
    have := hX _ (mem_image_swap.mp hi)
    have h2 := swapIndex_lt hp hq this
    rwa [swapIndex_invol] at h2
  have e1 := two_mul_sum_lt X (swapTeams d p q).gamesAgainstMatrix
    (fun i hi j hj => hv.games_symm _ _ (swapIndex_lt hp hq (hX i hi))
      (swapIndex_lt hp hq (hX j hj)))
  have e2 := two_mul_sum_lt (X.image (swapIndex p q)) d.gamesAgainstMatrix
    (fun i hi j hj => hv.games_symm _ _ (hX' i hi) (hX' j hj))
  have e3 : ∑ i ∈ X, ∑ j ∈ X,
        (if i ≠ j then (swapTeams d p q).gamesAgainstMatrix i j else 0)
      = ∑ i ∈ X.image (swapIndex p q), ∑ j ∈ X.image (swapIndex p q),
        (if i ≠ j then d.gamesAgainstMatrix i j else 0) := by
    rw [← sum_comp_swap p q X fun a => ∑ j ∈ X.image (swapIndex p q),
      (if a ≠ j then d.gamesAgainstMatrix a j else 0)]
    apply Finset.sum_congr rfl
    intro i _
    rw [← sum_comp_swap p q X fun b =>
      (if swapIndex p q i ≠ b then d.gamesAgainstMatrix (swapIndex p q i) b else 0)]
    apply Finset.sum_congr rfl
    intro j _
    by_cases h : i = j
    · subst h; simp
    · rw [if_pos h, if_pos (swapIndex_ne h)]
      rfl
  unfold gamesWithin
  omega

theorem gamesAmong_eq_gamesWithin (d : Division) (t : Nat) :
    gamesAmong d t = gamesWithin d ((Finset.range d.numTeams).erase t) := by
  unfold gamesAmong gamesWithin
  rw [← Finset.filter_ne' (Finset.range d.numTeams) t, Finset.sum_filter]
  apply Finset.sum_congr rfl
  intro i _
  by_cases hit : i ≠ t
  · rw [if_pos hit, Finset.sum_filter]
    apply Finset.sum_congr rfl
    intro j _
    by_cases hjt : j ≠ t
    · rw [if_pos hjt]
      by_cases hij : i < j
      · rw [if_pos ⟨hij, hit, hjt⟩, if_pos hij]
      · rw [if_neg (fun h => hij h.1), if_neg hij]
    · rw [if_neg hjt, if_neg (fun h => hjt h.2.2)]
  · rw [if_neg hit]
    apply Finset.sum_eq_zero
    intro j _
    rw [if_neg (fun h => hit h.2.1)]

theorem swapTeams_invol (d : Division) (p q : Nat) : swapTeams (swapTeams d p q) p q = d := by
  unfold swapTeams
  simp only [swapIndex_invol]

theorem swapTeams_valid (d : Division) (hv : ValidRecords d) {p q : Nat}
    (hp : p < d.numTeams) (hq : q < d.numTeams) : ValidRecords (swapTeams d p q) := by
  have hlt : ∀ i, i < d.numTeams → swapIndex p q i < d.numTeams :=
    fun i hi => swapIndex_lt hp hq hi
  refine ⟨hv.two_teams, ?_, ?_, ?_, ?_, ?_, ?_, ?_, ?_, ?_⟩
  · intro i j hi hj h
    exact swapIndex_inj p q (hv.names_unique _ _ (hlt i hi) (hlt j hj) h)
  · intro i hi; exact hv.wins_nonneg _ (hlt i hi)
  · intro i hi; exact hv.losses_nonneg _ (hlt i hi)
  · intro i hi; exact hv.remaining_nonneg _ (hlt i hi)
  · intro i j hi hj; exact hv.games_nonneg _ _ (hlt i hi) (hlt j hj)
  · intro i j hi hj; exact hv.games_symm _ _ (hlt i hi) (hlt j hj)
  · intro i hi
    show ∑ j ∈ (Finset.range d.numTeams).erase i,
      d.gamesAgainstMatrix (swapIndex p q i) (swapIndex p q j)
        = d.remainingGames (swapIndex p q i)
    rw [sum_comp_swap p q _ fun b => d.gamesAgainstMatrix (swapIndex p q i) b,
      image_swap_erase, image_swap_range hp hq]
    exact hv.games_sum _ (hlt i hi)
  · intro i hi; exact hv.wins_bound _ (hlt i hi)
  · have h1 : (swapTeams d p q).totalGames
        = gamesWithin (swapTeams d p q) (Finset.range d.numTeams) := rfl
    have h2 : d.totalGames = gamesWithin d (Finset.range d.numTeams) := rfl
    rw [h1, gamesWithin_swap d hv hp hq _ (fun i hi => Finset.mem_range.mp hi),
      image_swap_range hp hq, ← h2]
    exact hv.games_bound

theorem gamesAmong_swap (d : Division) (hv : ValidRecords d) {p q : Nat}
    (hp : p < d.numTeams) (hq : q < d.numTeams) (k : Nat) :
    gamesAmong (swapTeams d p q) (swapIndex p q k) = gamesAmong d k := by
  rw [gamesAmong_eq_gamesWithin, gamesAmong_eq_gamesWithin]
  have : (swapTeams d p q).numTeams = d.numTeams := rfl
  rw [this, gamesWithin_swap d hv hp hq _
    (fun i hi => Finset.mem_range.mp (Finset.mem_erase.mp hi).2),
    image_swap_erase, image_swap_range hp hq, swapIndex_invol]

theorem winsOf_swap (d : Division) (p q : Nat) (X : Finset Nat) :
    winsOf (swapTeams d p q) X = winsOf d (X.image (swapIndex p q)) := by
  unfold winsOf
  exact sum_comp_swap p q X d.wins

theorem card_image_swap (p q : Nat) (X : Finset Nat) :
    (X.image (swapIndex p q)).card = X.card :=
  Finset.card_image_of_injective X fun _ _ h => swapIndex_inj p q h

theorem surplus_swap (d : Division) (hv : ValidRecords d) {p q : Nat}
    (hp : p < d.numTeams) (hq : q < d.numTeams) (k : Nat) (X : Finset Nat)
    (hX : ∀ i ∈ X, i < d.numTeams) :
    surplus (swapTeams d p q) (swapIndex p q k) X
      = surplus d k (X.image (swapIndex p q)) := by
  unfold surplus
  rw [gamesWithin_swap d hv hp hq X hX, winsOf_swap, card_image_swap]
  show _ - (X.card : Int) * (d.wins (swapIndex p q (swapIndex p q k))
    + d.remainingGames (swapIndex p q (swapIndex p q k))) = _
  rw [swapIndex_invol]

/-- An outcome for a target carries over to the swapped input. -/
theorem outcome_swap (d : Division) (hv : ValidRecords d) {p q : Nat}
    (hp : p < d.numTeams) (hq : q < d.numTeams) (k : Nat) {x : Nat → Nat → Int}
    (hx : IsOutcome d k x)
    (hfin : ∀ i, i < d.numTeams → i ≠ k →
      finalWins d k x i ≤ d.wins k + d.remainingGames k) :
    ∃ x', IsOutcome (swapTeams d p q) (swapIndex p q k) x' ∧
      ∀ i, i < (swapTeams d p q).numTeams → i ≠ swapIndex p q k →
        finalWins (swapTeams d p q) (swapIndex p q k) x' i
          ≤ (swapTeams d p q).wins (swapIndex p q k)
            + (swapTeams d p q).remainingGames (swapIndex p q k) := by
  have hlt : ∀ i, i < d.numTeams → swapIndex p q i < d.numTeams :=
    fun i hi => swapIndex_lt hp hq hi
  have hnek : ∀ i, i ≠ swapIndex p q k → swapIndex p q i ≠ k := by
    intro i hi h
    apply hi
    rw [← h, swapIndex_invol]
  refine ⟨fun i j => x (swapIndex p q i) (swapIndex p q j), ?_, ?_⟩
  · intro i j hi hj hik hjk hij
    have hne : swapIndex p q i ≠ swapIndex p q j := swapIndex_ne (by omega)
    show 0 ≤ x (swapIndex p q i) (swapIndex p q j) ∧ 0 ≤ x (swapIndex p q j) (swapIndex p q i) ∧
      x (swapIndex p q i) (swapIndex p q j) + x (swapIndex p q j) (swapIndex p q i)
        = d.gamesAgainstMatrix (swapIndex p q i) (swapIndex p q j)
    rcases Nat.lt_or_gt_of_ne hne with h | h
    · exact hx _ _ (hlt i hi) (hlt j hj) (hnek i hik) (hnek j hjk) h
    · have := hx _ _ (hlt j hj) (hlt i hi) (hnek j hjk) (hnek i hik) h
      have hs := hv.games_symm _ _ (hlt i hi) (hlt j hj)
      omega
  · intro i hi hik
    have := hfin _ (hlt i hi) (hnek i hik)
    unfold finalWins at this ⊢
    show d.wins (swapIndex p q i)
      + ∑ j ∈ ((Finset.range d.numTeams).erase (swapIndex p q k)).erase i,
          x (swapIndex p q i) (swapIndex p q j)
      ≤ d.wins (swapIndex p q (swapIndex p q k))
        + d.remainingGames (swapIndex p q (swapIndex p q k))
    rw [swapIndex_invol, sum_comp_swap p q _ fun b => x (swapIndex p q i) b,
      image_swap_erase, image_swap_erase, image_swap_range hp hq, swapIndex_invol]
    exact this

theorem wins_swapIndex {d : Division} {p q : Nat} (hw : d.wins p = d.wins q) (i : Nat) :
    d.wins (swapIndex p q i) = d.wins i := by
  unfold swapIndex
  split
  · rename_i h; rw [h, hw]
  · split
    · rename_i h; rw [h, hw]
    · rfl

/-- The certificates of a target before and after the swap name the same teams. -/
theorem certificate_names_swap (d : Division) (hv : ValidRecords d) {p q : Nat}
    (hp : p < d.numTeams) (hq : q < d.numTeams) (k : Nat) (hk : k < d.numTeams)
    (hnt : ∀ i, i < d.numTeams → i ≠ k → d.wins i ≤ d.wins k + d.remainingGames k)
    (hnt' : ∀ i, i < (swapTeams d p q).numTeams → i ≠ swapIndex p q k →
      (swapTeams d p q).wins i ≤ (swapTeams d p q).wins (swapIndex p q k)
        + (swapTeams d p q).remainingGames (swapIndex p q k))
    (fuel : Nat) (hfuel : (gamesAmong d k).toNat < fuel) {R R' : List Nat}
    (hR : (FlowNetwork.create d k).certificateIndices fuel = some R)
    (hR' : (FlowNetwork.create (swapTeams d p q) (swapIndex p q k)).certificateIndices fuel
      = some R') (name : String) :
    name ∈ R'.map (swapTeams d p q).teamNames ↔ name ∈ R.map d.teamNames := by
  have hv' := swapTeams_valid d hv hp hq
  have hk' : swapIndex p q k < (swapTeams d p q).numTeams := swapIndex_lt hp hq hk
  have hfuel' : (gamesAmong (swapTeams d p q) (swapIndex p q k)).toNat < fuel := by
    rw [gamesAmong_swap d hv hp hq k]; exact hfuel
  obtain ⟨R1, hR1, -, hmem, hext⟩ := certificate_extremal d hv k hk hnt fuel hfuel
  obtain ⟨R2, hR2, -, hmem', hext'⟩ := certificate_extremal (swapTeams d p q) hv'
    (swapIndex p q k) hk' hnt' fuel hfuel'
  have e1 : R1 = R := by rw [hR] at hR1; exact (Option.some.inj hR1).symm
  have e2 : R2 = R' := by rw [hR'] at hR2; exact (Option.some.inj hR2).symm
  subst e1 e2
  have hA : ∀ i ∈ R1.toFinset.image (swapIndex p q),
      i < (swapTeams d p q).numTeams ∧ i ≠ swapIndex p q k := by
    intro i hi
    have h := hmem _ (List.mem_toFinset.mp (mem_image_swap.mp hi))
    have h2 := swapIndex_lt hp hq h.1
    rw [swapIndex_invol] at h2
    exact ⟨h2, fun he => h.2 (by rw [he, swapIndex_invol])⟩
  have hB : ∀ i ∈ R2.toFinset.image (swapIndex p q), i < d.numTeams ∧ i ≠ k := by
    intro i hi
    have h := hmem' _ (List.mem_toFinset.mp (mem_image_swap.mp hi))
    have h2 := swapIndex_lt hp hq h.1
    rw [swapIndex_invol] at h2
    exact ⟨h2, fun he => h.2 (by rw [he])⟩
  have s1 := surplus_swap d hv hp hq k R2.toFinset
    (fun i hi => (hmem' i (List.mem_toFinset.mp hi)).1)
  have s2 := surplus_swap d hv hp hq k (R1.toFinset.image (swapIndex p q))
    (fun i hi => (hA i hi).1)
  rw [image_swap_image] at s2
  obtain ⟨a1, a2⟩ := hext _ hB
  obtain ⟨b1, b2⟩ := hext' _ hA
  have hsubA : R1.toFinset ⊆ R2.toFinset.image (swapIndex p q) := a2 (by omega)
  have hsubB : R2.toFinset ⊆ R1.toFinset.image (swapIndex p q) := b2 (by omega)
  simp only [List.mem_map]
  constructor
  · rintro ⟨i, hi, rfl⟩
    have := mem_image_swap.mp (hsubB (List.mem_toFinset.mpr hi))
    exact ⟨swapIndex p q i, List.mem_toFinset.mp this, rfl⟩
  · rintro ⟨j, hj, rfl⟩
    have := mem_image_swap.mp (hsubA (List.mem_toFinset.mpr hj))
    refine ⟨swapIndex p q j, List.mem_toFinset.mp this, ?_⟩
    show d.teamNames (swapIndex p q (swapIndex p q j)) = d.teamNames j
    rw [swapIndex_invol]

/-- Whether the flow test eliminates a target does not change with the swap. -/
theorem isEliminated_swap (d : Division) (hv : ValidRecords d) {p q : Nat}
    (hp : p < d.numTeams) (hq : q < d.numTeams) (k : Nat) (hk : k < d.numTeams)
    (hnt : ∀ i, i < d.numTeams → i ≠ k → d.wins i ≤ d.wins k + d.remainingGames k)
    (hnt' : ∀ i, i < (swapTeams d p q).numTeams → i ≠ swapIndex p q k →
      (swapTeams d p q).wins i ≤ (swapTeams d p q).wins (swapIndex p q k)
        + (swapTeams d p q).remainingGames (swapIndex p q k))
    (fuel : Nat) (hfuel : (gamesAmong d k).toNat < fuel) :
    (FlowNetwork.create (swapTeams d p q) (swapIndex p q k)).isEliminated fuel
      = (FlowNetwork.create d k).isEliminated fuel := by
  have hv' := swapTeams_valid d hv hp hq
  have hk' : swapIndex p q k < (swapTeams d p q).numTeams := swapIndex_lt hp hq hk
  have hfuel' : (gamesAmong (swapTeams d p q) (swapIndex p q k)).toNat < fuel := by
    rw [gamesAmong_swap d hv hp hq k]; exact hfuel
  obtain ⟨b, hb, hiff⟩ := isEliminated_false_iff_outcome d hv k hk hnt fuel hfuel
  obtain ⟨b', hb', hiff'⟩ := isEliminated_false_iff_outcome (swapTeams d p q) hv'
    (swapIndex p q k) hk' hnt' fuel hfuel'
  rw [hb, hb']
  congr 1
  have h1 : b = false → b' = false := by
    intro h
    obtain ⟨x, hx, hfin⟩ := hiff.mp h
    exact hiff'.mpr (outcome_swap d hv hp hq k hx hfin)
  have h2 : b' = false → b = false := by
    intro h
    obtain ⟨x, hx, hfin⟩ := hiff'.mp h
    have := outcome_swap (swapTeams d p q) hv' (p := p) (q := q) hp hq (swapIndex p q k) hx hfin
    rw [swapTeams_invol, swapIndex_invol] at this
    exact hiff.mpr this
  cases b <;> cases b'
  · rfl
  · exact absurd (h1 rfl) (by simp)
  · exact absurd (h2 rfl) (by simp)
  · rfl

theorem twinDivision_valid : ValidRecords twinDivision := by
  refine ⟨by decide, ?_, ?_, ?_, ?_, ?_, ?_, ?_, ?_, by decide⟩
  · intro i j hi hj
    have hi' : i < 3 := hi
    have hj' : j < 3 := hj
    interval_cases i <;> interval_cases j <;> decide
  · intro i hi
    have hi' : i < 3 := hi
    interval_cases i <;> decide
  · intro i hi
    have hi' : i < 3 := hi
    interval_cases i <;> decide
  · intro i hi
    have hi' : i < 3 := hi
    interval_cases i <;> decide
  · intro i j _ _; exact le_refl _
  · intro i j _ _; rfl
  · intro i hi
    have hi' : i < 3 := hi
    interval_cases i <;> decide
  · intro i hi
    have hi' : i < 3 := hi
    interval_cases i <;> decide

/-- C10, as stated, fails: in `twinDivision` the teams `A` and `B` have identical records;
team `C` is trivially eliminated by `A` in the input as given and by `B` once `A` and `B`
have exchanged their positions, because the check reports the first team it finds. -/
theorem swap_verdict_counterexample :
    ValidRecords twinDivision ∧
    twinDivision.wins 0 = twinDivision.wins 1 ∧ twinDivision.losses 0 = twinDivision.losses 1 ∧
    twinDivision.remainingGames 0 = twinDivision.remainingGames 1 ∧
    (∀ j, twinDivision.gamesAgainstMatrix 0 j = twinDivision.gamesAgainstMatrix 1 j) ∧
    (swapTeams twinDivision 0 1).teamNames 2 = twinDivision.teamNames 2 ∧
    analyzeTeam 1 twinDivision 2 = some (Verdict.TriviallyEliminated "A") ∧
    analyzeTeam 1 (swapTeams twinDivision 0 1) 2 = some (Verdict.TriviallyEliminated "B") ∧
    Verdict.TriviallyEliminated "A" ≠ Verdict.TriviallyEliminated "B" :=
  ⟨twinDivision_valid, by decide, by decide, by decide, fun _ => rfl, by decide, by decide,
    by decide, by decide⟩

/-- C10, amended. For valid records with two teams `p`, `q` of identical wins, losses and
remaining games, exchanging their positions gives every team the same kind of verdict as
before: `NotEliminated` stays `NotEliminated`, `Eliminated` stays `Eliminated` with the
same certificate as a set of names, and `TriviallyEliminated` stays `TriviallyEliminated`,
by the same team when that team is neither of the two exchanged, and by the other of the
two when it is one of them. -/
theorem swap_verdict (d : Division) (hv : ValidRecords d) (p q : Nat)
    (hp : p < d.numTeams) (hq : q < d.numTeams)
    (hsame : d.wins p = d.wins q ∧ d.losses p = d.losses q ∧
      d.remainingGames p = d.remainingGames q)
    (k : Nat) (hk : k < d.numTeams) (fuel : Nat) (hfuel : (gamesAmong d k).toNat < fuel) :
    (swapTeams d p q).teamNames (swapIndex p q k) = d.teamNames k ∧
    ∃ verdict verdict', analyzeTeam fuel d k = some verdict ∧
      analyzeTeam fuel (swapTeams d p q) (swapIndex p q k) = some verdict' ∧
      (verdict = Verdict.NotEliminated ↔ verdict' = Verdict.NotEliminated) ∧
      (∀ c, verdict = Verdict.Eliminated c →
        ∃ c', verdict' = Verdict.Eliminated c' ∧ ∀ name, name ∈ c' ↔ name ∈ c) ∧
      (∀ b, verdict = Verdict.TriviallyEliminated b →
        ∃ b', verdict' = Verdict.TriviallyEliminated b' ∧
          (b ≠ d.teamNames p → b ≠ d.teamNames q → b' = b) ∧
          (b = d.teamNames p → b' = d.teamNames q) ∧
          (b = d.teamNames q → b' = d.teamNames p)) := by
  have hv' := swapTeams_valid d hv hp hq
  have hk' : swapIndex p q k < (swapTeams d p q).numTeams := swapIndex_lt hp hq hk
  have hfuel' : (gamesAmong (swapTeams d p q) (swapIndex p q k)).toNat < fuel := by
    rw [gamesAmong_swap d hv hp hq k]; exact hfuel
  have hw' : ∀ i, (swapTeams d p q).wins i = d.wins i := fun i => wins_swapIndex hsame.1 i
  have hM' : (swapTeams d p q).wins (swapIndex p q k)
      + (swapTeams d p q).remainingGames (swapIndex p q k)
      = d.wins k + d.remainingGames k := by
    show d.wins (swapIndex p q (swapIndex p q k))
      + d.remainingGames (swapIndex p q (swapIndex p q k)) = _
    rw [swapIndex_invol]
  have hrem := hv.remaining_nonneg k hk
  have hwk : d.wins (swapIndex p q k) = d.wins k := wins_swapIndex hsame.1 k
  refine ⟨by show d.teamNames (swapIndex p q (swapIndex p q k)) = _; rw [swapIndex_invol], ?_⟩
  rcases analyzeTeam_cases d hv k hk fuel hfuel with
    ⟨-, b, hb1, hb2, hb3, hb4, hres⟩ | ⟨hnt, hcase⟩
  · rcases analyzeTeam_cases (swapTeams d p q) hv' (swapIndex p q k) hk' fuel hfuel' with
      ⟨-, b', hb1', hb2', hb3', hb4', hres'⟩ | ⟨hnt', -⟩
    · rw [hM', hw'] at hb3'
      have hbb : b = b' := by
        rcases Nat.lt_trichotomy b b' with h | h | h
        · exfalso
          have hne : b ≠ swapIndex p q k := by
            intro he; rw [he, hwk] at hb3; omega
          have := hb4' b h hne
          rw [hM', hw'] at this
          exact this hb3
        · exact h
        · exfalso
          have hne : b' ≠ k := by
            intro he; rw [he] at hb3'; omega
          exact hb4 b' h hne hb3'
      subst hbb
      refine ⟨_, _, hres, hres', ⟨(fun h => by cases h), (fun h => by cases h)⟩,
        (fun c h => by cases h), ?_⟩
      intro nm hnm
      have hnm' : nm = d.teamNames b := by
        injection hnm with h; exact h.symm
      refine ⟨_, rfl, ?_⟩
      have hn : (swapTeams d p q).teamNames b = d.teamNames (swapIndex p q b) := rfl
      rw [hn, hnm']
      refine ⟨?_, ?_, ?_⟩
      · intro h1 h2
        have e1 : b ≠ p := fun e => h1 (by rw [e])
        have e2 : b ≠ q := fun e => h2 (by rw [e])
        unfold swapIndex
        rw [if_neg e1, if_neg e2]
      · intro h1
        have e1 : b = p := hv.names_unique b p hb1 hp h1
        unfold swapIndex
        rw [if_pos e1]
      · intro h2
        have e2 : b = q := hv.names_unique b q hb1 hq h2
        unfold swapIndex
        by_cases e1 : b = p
        · rw [if_pos e1, ← e2, e1]
        · rw [if_neg e1, if_pos e2]
    · exfalso
      have hne : b ≠ swapIndex p q k := by
        intro he; rw [he, hwk] at hb3; omega
      have := hnt' b hb1 hne
      rw [hM', hw'] at this
      omega
  · rcases analyzeTeam_cases (swapTeams d p q) hv' (swapIndex p q k) hk' fuel hfuel' with
      ⟨-, b', hb1', hb2', hb3', -, -⟩ | ⟨hnt', hcase'⟩
    · exfalso
      rw [hM', hw'] at hb3'
      have hne : b' ≠ k := by
        intro he; rw [he] at hb3'; omega
      have := hnt b' hb1' hne
      omega
    · have heq := isEliminated_swap d hv hp hq k hk hnt hnt' fuel hfuel
      rcases hcase with ⟨helim, hres⟩ | ⟨helim, R, hR, hres⟩
      · rcases hcase' with ⟨-, hres'⟩ | ⟨helim', -⟩
        · exact ⟨_, _, hres, hres', ⟨fun _ => rfl, fun _ => rfl⟩, (fun c h => by cases h),
            fun b h => by cases h⟩
        · rw [heq, helim] at helim'
          cases helim'
      · rcases hcase' with ⟨helim', -⟩ | ⟨-, R', hR', hres'⟩
        · rw [heq, helim] at helim'
          cases helim'
        · refine ⟨_, _, hres, hres', ⟨(fun h => by cases h), (fun h => by cases h)⟩, ?_,
            fun b h => by cases h⟩
          intro c hc
          have hc' : c = R.map d.teamNames := by
            injection hc with h; exact h.symm
          refine ⟨_, rfl, fun name => ?_⟩
          rw [hc']
          exact certificate_names_swap d hv hp hq k hk hnt hnt' fuel hfuel hR hR' name

theorem swap_verdict_witness :
    (swapTeams twinDivision 0 1).teamNames (swapIndex 0 1 2) = twinDivision.teamNames 2 ∧
    ∃ verdict verdict', analyzeTeam 1 twinDivision 2 = some verdict ∧
      analyzeTeam 1 (swapTeams twinDivision 0 1) (swapIndex 0 1 2) = some verdict' ∧
      (verdict = Verdict.NotEliminated ↔ verdict' = Verdict.NotEliminated) ∧
      (∀ c, verdict = Verdict.Eliminated c →
        ∃ c', verdict' = Verdict.Eliminated c' ∧ ∀ name, name ∈ c' ↔ name ∈ c) ∧
      (∀ b, verdict = Verdict.TriviallyEliminated b →
        ∃ b', verdict' = Verdict.TriviallyEliminated b' ∧
          (b ≠ twinDivision.teamNames 0 → b ≠ twinDivision.teamNames 1 → b' = b) ∧
          (b = twinDivision.teamNames 0 → b' = twinDivision.teamNames 1) ∧
          (b = twinDivision.teamNames 1 → b' = twinDivision.teamNames 0)) :=
  swap_verdict twinDivision twinDivision_valid 0 1 (by decide) (by decide)
    ⟨by decide, by decide, by decide⟩ 2 (by decide) 1 (by decide)

theorem sinkCapacity_max {d : Division} (hv : ValidRecords d) {t i : Nat}
    (ht : t < d.numTeams) (hi : i < d.numTeams) :
    sinkCapacity d t i = max 0 (d.wins t + d.remainingGames t - d.wins i) := by
  have hM := maxPossibleWins_eq hv ht
  have h1 := hv.wins_nonneg t ht
  have h2 := hv.remaining_nonneg t ht
  have h3 := hv.wins_bound t ht
  have h4 := hv.wins_nonneg i hi
  have h5 := hv.wins_bound i hi
  have h6 := hv.remaining_nonneg i hi
  have hIM : INT_MAX = 2147483647 := rfl
  have hw : wrap32 (d.wins t + d.remainingGames t - d.wins i)
      = d.wins t + d.remainingGames t - d.wins i := wrap32_of_range (by omega) (by omega)
  unfold sinkCapacity
  rw [hM, hw]
  split <;> omega

theorem networkCap_other (d : Division) (t u v : Nat)
    (h1 : ¬ ∃ k, k < (gameList d t).length ∧ u = 0 ∧ v = 1 + k)
    (h2 : ¬ ∃ k, k < (gameList d t).length ∧ u = 1 + k ∧
      (v = teamNode d t (gameAt d t k).1 ∨ v = teamNode d t (gameAt d t k).2))
    (h3 : ¬ ∃ i, i < d.numTeams ∧ i ≠ t ∧ u = teamNode d t i ∧ v = networkSink d t) :
    networkCap d t u v = 0 := by
  unfold networkCap
  split
  · rename_i h
    exfalso
    apply h3
    refine ⟨teamOfNode t (u - (1 + (gameList d t).length)), h.2.2, teamOfNode_ne _ _, ?_, h.1⟩
    unfold teamNode
    rw [adjustedTeamNode_teamOfNode]
    omega
  · split
    · rename_i h
      exfalso
      exact h1 ⟨v - 1, by omega, h.1, by omega⟩
    · split
      · rename_i h
        exfalso
        exact h2 ⟨u - 1, by omega, by omega, h.2.2⟩
      · rfl

/-- C11. For valid records with `N` teams and a target `t` in range, the graph built by the
constructor `FlowNetwork(division, t)` has `2 + numGames + (N - 1)` vertices, where the
game nodes `1 + k` stand for the pairs `i < j`, both other than `t`, with
`gamesAgainst[i][j] > 0`; its capacity matrix has `gamesAgainst[i][j]` from the source
to each game node, `INT_MAX` from each game node to the team nodes of its two teams,
`max(0, wins[t] + remaining[t] - wins[i])` from the team node of each `i != t` to the
sink, and `0` on every other ordered pair of nodes. -/
theorem create_capacityMatrix (d : Division) (hv : ValidRecords d) (t : Nat)
    (ht : t < d.numTeams) :
    (FlowNetwork.create d t).numGames = (gameList d t).length ∧
    (FlowNetwork.create d t).graph.numVertices
      = 2 + (FlowNetwork.create d t).numGames + (d.numTeams - 1) ∧
    (FlowNetwork.create d t).source = 0 ∧
    (FlowNetwork.create d t).sink = (FlowNetwork.create d t).graph.numVertices - 1 ∧
    (∀ p : Nat × Nat, p ∈ gameList d t ↔
      p.1 < p.2 ∧ p.2 < d.numTeams ∧ p.1 ≠ t ∧ p.2 ≠ t ∧ d.gamesAgainstMatrix p.1 p.2 > 0) ∧
    (∀ k, k < (FlowNetwork.create d t).numGames →
      (FlowNetwork.create d t).graph.capacityMatrix (FlowNetwork.create d t).source (1 + k)
        = d.gamesAgainstMatrix (gameAt d t k).1 (gameAt d t k).2 ∧
      (FlowNetwork.create d t).graph.capacityMatrix (1 + k)
        (adjustedTeamNode (FlowNetwork.create d t).teamNodeStart t (gameAt d t k).1)
        = INT_MAX ∧
      (FlowNetwork.create d t).graph.capacityMatrix (1 + k)
        (adjustedTeamNode (FlowNetwork.create d t).teamNodeStart t (gameAt d t k).2)
        = INT_MAX) ∧
    (∀ i, i < d.numTeams → i ≠ t →
      (FlowNetwork.create d t).graph.capacityMatrix
        (adjustedTeamNode (FlowNetwork.create d t).teamNodeStart t i)
        (FlowNetwork.create d t).sink
        = max 0 (d.wins t + d.remainingGames t - d.wins i)) ∧
    (∀ u v,
      (¬ ∃ k, k < (FlowNetwork.create d t).numGames ∧
        u = (FlowNetwork.create d t).source ∧ v = 1 + k) →
      (¬ ∃ k, k < (FlowNetwork.create d t).numGames ∧ u = 1 + k ∧
        (v = adjustedTeamNode (FlowNetwork.create d t).teamNodeStart t (gameAt d t k).1 ∨
         v = adjustedTeamNode (FlowNetwork.create d t).teamNodeStart t (gameAt d t k).2)) →
      (¬ ∃ i, i < d.numTeams ∧ i ≠ t ∧
        u = adjustedTeamNode (FlowNetwork.create d t).teamNodeStart t i ∧
        v = (FlowNetwork.create d t).sink) →
      (FlowNetwork.create d t).graph.capacityMatrix u v = 0) := by
  have hN : 1 ≤ d.numTeams := by have := hv.two_teams; omega
  obtain ⟨hn, hcap, hsrc, hsink, hstart, -, -, -⟩ := create_graph d t hN
  have hG : (FlowNetwork.create d t).numGames = (gameList d t).length := countGames_eq d t
  rw [hG, hn, hcap, hsrc, hsink, hstart]
  refine ⟨rfl, by omega, rfl, by omega, fun p => mem_gameList, ?_, ?_, ?_⟩
  · intro k hk
    refine ⟨?_, ?_, ?_⟩
    · rw [networkCap_source, if_pos (by omega)]
      simp
    · rw [networkCap_game d t k _ hk]
      exact if_pos (Or.inl rfl)
    · rw [networkCap_game d t k _ hk]
      exact if_pos (Or.inr rfl)
  · intro i hi hit
    have := networkCap_team d t i ((gameList d t).length + d.numTeams) ht hi hit
    unfold teamNode networkSink at this
    rw [this, if_pos rfl]
    exact sinkCapacity_max hv ht hi
  · intro u v h1 h2 h3
    exact networkCap_other d t u v h1 h2 h3

set_option maxRecDepth 100000 in
theorem create_capacityMatrix_witness :
    (FlowNetwork.create classicDivision 1).numGames = (gameList classicDivision 1).length ∧
    (FlowNetwork.create classicDivision 1).graph.numVertices
      = 2 + (FlowNetwork.create classicDivision 1).numGames + (classicDivision.numTeams - 1) ∧
    (FlowNetwork.create classicDivision 1).source = 0 ∧
    (FlowNetwork.create classicDivision 1).sink
      = (FlowNetwork.create classicDivision 1).graph.numVertices - 1 ∧
    (∀ p : Nat × Nat, p ∈ gameList classicDivision 1 ↔
      p.1 < p.2 ∧ p.2 < classicDivision.numTeams ∧ p.1 ≠ 1 ∧ p.2 ≠ 1 ∧
        classicDivision.gamesAgainstMatrix p.1 p.2 > 0) ∧
    (∀ k, k < (FlowNetwork.create classicDivision 1).numGames →
      (FlowNetwork.create classicDivision 1).graph.capacityMatrix
          (FlowNetwork.create classicDivision 1).source (1 + k)
        = classicDivision.gamesAgainstMatrix (gameAt classicDivision 1 k).1
            (gameAt classicDivision 1 k).2 ∧
      (FlowNetwork.create classicDivision 1).graph.capacityMatrix (1 + k)
        (adjustedTeamNode (FlowNetwork.create classicDivision 1).teamNodeStart 1
          (gameAt classicDivision 1 k).1)
        = INT_MAX ∧
      (FlowNetwork.create classicDivision 1).graph.capacityMatrix (1 + k)
        (adjustedTeamNode (FlowNetwork.create classicDivision 1).teamNodeStart 1
          (gameAt classicDivision 1 k).2)
        = INT_MAX) ∧
    (∀ i, i < classicDivision.numTeams → i ≠ 1 →
      (FlowNetwork.create classicDivision 1).graph.capacityMatrix
        (adjustedTeamNode (FlowNetwork.create classicDivision 1).teamNodeStart 1 i)
        (FlowNetwork.create classicDivision 1).sink
        = max 0 (classicDivision.wins 1 + classicDivision.remainingGames 1
            - classicDivision.wins i)) ∧
    (∀ u v,
      (¬ ∃ k, k < (FlowNetwork.create classicDivision 1).numGames ∧
        u = (FlowNetwork.create classicDivision 1).source ∧ v = 1 + k) →
      (¬ ∃ k, k < (FlowNetwork.create classicDivision 1).numGames ∧ u = 1 + k ∧
        (v = adjustedTeamNode (FlowNetwork.create classicDivision 1).teamNodeStart 1
              (gameAt classicDivision 1 k).1 ∨
         v = adjustedTeamNode (FlowNetwork.create classicDivision 1).teamNodeStart 1
              (gameAt classicDivision 1 k).2)) →
      (¬ ∃ i, i < classicDivision.numTeams ∧ i ≠ 1 ∧
        u = adjustedTeamNode (FlowNetwork.create classicDivision 1).teamNodeStart 1 i ∧
        v = (FlowNetwork.create classicDivision 1).sink) →
      (FlowNetwork.create classicDivision 1).graph.capacityMatrix u v = 0) :=
  create_capacityMatrix classicDivision classicDivision_valid 1 (by decide)

theorem afterRounds_cons (a : Augmentation) (rounds : List Augmentation) (maxFlow : Int)
    (residual : Nat → Nat → Int) :
    afterRounds (a :: rounds) maxFlow residual
      = afterRounds rounds (wrap32 (maxFlow + a.pathFlow)) a.after := rfl

theorem maxFlowLoop_eq_trace (n source sink : Nat) :
    ∀ (fuel : Nat) (residual : Nat → Nat → Int) (maxFlow : Int),
    maxFlowLoop n source sink fuel residual maxFlow
      = (maxFlowTrace n source sink fuel residual).map
          fun rounds => afterRounds rounds maxFlow residual := by
  intro fuel
  induction fuel with
  | zero => intro _ _; rfl
  | succ fuel ih =>
    intro residual maxFlow
    simp only [maxFlowLoop, maxFlowTrace]
    cases hb : bfs residual n source sink with
    | none => rfl
    | some bp =>
      obtain ⟨b, parent⟩ := bp
      cases b with
      | false => rfl
      | true =>
        simp only
        cases hpf : bottleneck residual parent source n sink INT_MAX with
        | none => rfl
        | some pf =>
          simp only
          cases ha : augment parent source pf n sink residual with
          | none => rfl
          | some r' =>
            simp only
            rw [ih r' (wrap32 (maxFlow + pf))]
            cases maxFlowTrace n source sink fuel r' with
            | none => rfl
            | some rounds => rfl

theorem getMaxFlowLoop_eq :
    ∀ (fuel : Nat) (ff : FordFulkerson) (maxFlow : Int),
    (ff.getMaxFlowLoop fuel maxFlow).map
        (fun p => (p.1, p.2.residual, p.2.graph, p.2.source, p.2.sink))
      = (maxFlowLoop ff.graph.numVertices ff.source ff.sink fuel ff.residual maxFlow).map
        (fun p => (p.1, p.2, ff.graph, ff.source, ff.sink)) := by
  intro fuel
  induction fuel with
  | zero => intro _ _; rfl
  | succ fuel ih =>
    intro ff maxFlow
    simp only [FordFulkerson.getMaxFlowLoop, maxFlowLoop, FordFulkerson.bfs]
    cases hb : bfs ff.residual ff.graph.numVertices ff.source ff.sink with
    | none => rfl
    | some bp =>
      obtain ⟨b, parent⟩ := bp
      cases b with
      | false => rfl
      | true =>
        simp only
        cases hpf : bottleneck ff.residual parent ff.source ff.graph.numVertices ff.sink
            INT_MAX with
        | none => rfl
        | some pf =>
          simp only
          cases ha : augment parent ff.source pf ff.graph.numVertices ff.sink ff.residual with
          | none => rfl
          | some r' =>
            simp only
            exact ih ⟨ff.graph, ff.source, ff.sink, parent, r'⟩ (wrap32 (maxFlow + pf))

theorem solver_getMaxFlow_eq (fuel : Nat) (g : Graph) (s t : Nat) :
    ((FordFulkerson.create g s t).getMaxFlow fuel).map
        (fun p => (p.1, p.2.residual, p.2.graph, p.2.source, p.2.sink))
      = (getMaxFlow fuel g s t).map (fun p => (p.1, p.2, g, s, t)) :=
  getMaxFlowLoop_eq fuel (FordFulkerson.create g s t) 0

theorem maxFlowLoop_fuel_mono (n source sink : Nat) :
    ∀ (fuel : Nat) (residual : Nat → Nat → Int) (maxFlow : Int)
      (x : Int × (Nat → Nat → Int)) (k : Nat),
    maxFlowLoop n source sink fuel residual maxFlow = some x →
    maxFlowLoop n source sink (fuel + k) residual maxFlow = some x := by
  intro fuel
  induction fuel with
  | zero => intro _ _ _ _ h; cases h
  | succ fuel ih =>
    intro residual maxFlow x k h
    have hk : fuel + 1 + k = (fuel + k) + 1 := by omega
    rw [hk]
    simp only [maxFlowLoop] at h ⊢
    cases hb : bfs residual n source sink with
    | none => rw [hb] at h; cases h
    | some bp =>
      obtain ⟨b, parent⟩ := bp
      rw [hb] at h
      cases b with
      | false => exact h
      | true =>
        simp only at h ⊢
        cases hpf : bottleneck residual parent source n sink INT_MAX with
        | none => rw [hpf] at h; cases h
        | some pf =>
          rw [hpf] at h
          simp only at h ⊢
          cases ha : augment parent source pf n sink residual with
          | none => rw [ha] at h; cases h
          | some r' =>
            rw [ha] at h
            simp only at h ⊢
            exact ih r' _ x k h

theorem getMaxFlow_fuel_unique (g : Graph) (s t fuel fuel' : Nat)
    (x y : Int × (Nat → Nat → Int)) (hx : getMaxFlow fuel g s t = some x)
    (hy : getMaxFlow fuel' g s t = some y) : x = y := by
  unfold getMaxFlow at hx hy
  have h1 := maxFlowLoop_fuel_mono g.numVertices s t fuel g.capacityMatrix 0 x fuel' hx
  have h2 := maxFlowLoop_fuel_mono g.numVertices s t fuel' g.capacityMatrix 0 y fuel hy
  rw [Nat.add_comm fuel' fuel, h1] at h2
  exact Option.some.inj h2

set_option maxRecDepth 100000 in
/-- C13, as stated, fails: a solver built on `smallGraph` with source 0 and sink 0 is
constructed without complaint and its `getMaxFlow` returns the flow value 0 instead of
raising an error. -/
theorem same_endpoints_counterexample :
    (FordFulkerson.create smallGraph 0 0).source = (FordFulkerson.create smallGraph 0 0).sink ∧
    ((FordFulkerson.create smallGraph 0 0).getMaxFlow 1).isSome = true ∧
    ((FordFulkerson.create smallGraph 0 0).getMaxFlow 1).map Prod.fst = some 0 := by
  refine ⟨rfl, by decide, by decide⟩

/-- C13, amended. A solver constructed with `source == sink` (a vertex of the graph) does
not fail: the constructor copies the capacities, the first `bfs` finds no path, and
`getMaxFlow` returns 0 with the residual matrix equal to the capacity matrix. -/
theorem getMaxFlow_same_endpoints (g : Graph) (s : Nat) (hs : s < g.numVertices)
    (fuel : Nat) :
    (FordFulkerson.create g s s).residual = g.capacityMatrix ∧
    getMaxFlow (fuel + 1) g s s = some (0, g.capacityMatrix) ∧
    ∃ ff, (FordFulkerson.create g s s).getMaxFlow (fuel + 1) = some (0, ff) ∧
      ff.getResidualGraph = g.capacityMatrix ∧ ff.graph = g := by
  have h1 : getMaxFlow (fuel + 1) g s s = some (0, g.capacityMatrix) :=
    maxFlowLoop_same g.numVertices s hs fuel g.capacityMatrix 0
  refine ⟨rfl, h1, ?_⟩
  have h2 := solver_getMaxFlow_eq (fuel + 1) g s s
  rw [h1] at h2
  cases hrun : (FordFulkerson.create g s s).getMaxFlow (fuel + 1) with
  | none => rw [hrun] at h2; cases h2
  | some p =>
    rw [hrun] at h2
    obtain ⟨v, ff⟩ := p
    simp only [Option.map_some', Option.some.injEq, Prod.mk.injEq] at h2
    obtain ⟨hv, hr, hg, -, -⟩ := h2
    exact ⟨ff, by rw [hv], hr, hg⟩

theorem getMaxFlow_same_endpoints_witness :
    (FordFulkerson.create smallGraph 0 0).residual = smallGraph.capacityMatrix ∧
    getMaxFlow (0 + 1) smallGraph 0 0 = some (0, smallGraph.capacityMatrix) ∧
    ∃ ff, (FordFulkerson.create smallGraph 0 0).getMaxFlow (0 + 1) = some (0, ff) ∧
      ff.getResidualGraph = smallGraph.capacityMatrix ∧ ff.graph = smallGraph :=
  getMaxFlow_same_endpoints smallGraph 0 (by decide) 0

/-- C14. `getMaxFlow` writes only the solver's own `parent` and `residual`: the graph the
solver refers to is the same after the call.  Hence a second fresh solver built from
that graph returns the same value and the same residual matrix as the first (whatever
the fuel it is given, when it finishes), and the runs inside `isEliminated()` and
`getEliminationCertificate()` of a network with this graph use that same value and that
same residual matrix. -/
theorem getMaxFlow_fresh_solvers (g : Graph) (s t fuel : Nat) (v : Int)
    (ff1 : FordFulkerson)
    (h : (FordFulkerson.create g s t).getMaxFlow fuel = some (v, ff1)) :
    ff1.graph = g ∧
    (FordFulkerson.create ff1.graph s t).getMaxFlow fuel = some (v, ff1) ∧
    (∀ fuel' v' ff2, (FordFulkerson.create ff1.graph s t).getMaxFlow fuel' = some (v', ff2) →
      v' = v ∧ ff2.getResidualGraph = ff1.getResidualGraph) ∧
    (∀ k, ∃ ff2, (FordFulkerson.create ff1.graph s t).getMaxFlow (fuel + k) = some (v, ff2) ∧
      ff2.getResidualGraph = ff1.getResidualGraph) ∧
    (∀ fn : FlowNetwork, fn.graph = g → fn.source = s → fn.sink = t →
      fn.isEliminated fuel = some (decide (v < sourceRowTotal g s)) ∧
      fn.certificateIndices fuel
        = (reachable ff1.getResidualGraph g.numVertices s).map (certificateTeams fn)) := by
  have h0 := solver_getMaxFlow_eq fuel g s t
  rw [h] at h0
  cases hrun : getMaxFlow fuel g s t with
  | none => rw [hrun] at h0; cases h0
  | some p =>
    rw [hrun] at h0
    obtain ⟨w, r⟩ := p
    simp only [Option.map_some', Option.some.injEq, Prod.mk.injEq] at h0
    obtain ⟨hv, hr, hg, -, -⟩ := h0
    subst hv
    have huniq : ∀ fuel' v' ff2,
        (FordFulkerson.create g s t).getMaxFlow fuel' = some (v', ff2) →
        v' = v ∧ ff2.residual = ff1.residual := by
      intro fuel' v' ff2 h2
      have h3 := solver_getMaxFlow_eq fuel' g s t
      rw [h2] at h3
      cases hrun' : getMaxFlow fuel' g s t with
      | none => rw [hrun'] at h3; cases h3
      | some p' =>
        rw [hrun'] at h3
        obtain ⟨w', r'⟩ := p'
        simp only [Option.map_some', Option.some.injEq, Prod.mk.injEq] at h3
        have := getMaxFlow_fuel_unique g s t fuel fuel' _ _ hrun hrun'
        simp only [Prod.mk.injEq] at this
        exact ⟨by rw [h3.1, this.1], by rw [h3.2.1, hr, this.2]⟩
    rw [hg]
    refine ⟨rfl, h, huniq, ?_, ?_⟩
    · intro k
      have hk := maxFlowLoop_fuel_mono g.numVertices s t fuel g.capacityMatrix 0 _ k hrun
      have h3 := solver_getMaxFlow_eq (fuel + k) g s t
      unfold getMaxFlow at h3
      rw [hk] at h3
      cases hrun' : (FordFulkerson.create g s t).getMaxFlow (fuel + k) with
      | none => rw [hrun'] at h3; cases h3
      | some p' =>
        rw [hrun'] at h3
        obtain ⟨w', ff2⟩ := p'
        simp only [Option.map_some', Option.some.injEq, Prod.mk.injEq] at h3
        exact ⟨ff2, by rw [h3.1], by
          show ff2.residual = ff1.residual
          rw [h3.2.1, hr]⟩
    · intro fn hfg hfs hft
      subst hfg hfs hft
      refine ⟨?_, ?_⟩
      · simp only [FlowNetwork.isEliminated, hrun]
      · simp only [FlowNetwork.certificateIndices, hrun]
        show _ = (reachable ff1.residual fn.graph.numVertices fn.source).map _
        rw [hr]
        cases reachable r fn.graph.numVertices fn.source <;> rfl

set_option maxRecDepth 100000 in
theorem getMaxFlow_fresh_solvers_witness :
    ∃ v ff1, (FordFulkerson.create smallGraph 0 2).getMaxFlow 5 = some (v, ff1) ∧
    ff1.graph = smallGraph ∧
    (FordFulkerson.create ff1.graph 0 2).getMaxFlow 5 = some (v, ff1) ∧
    (∀ fuel' v' ff2, (FordFulkerson.create ff1.graph 0 2).getMaxFlow fuel' = some (v', ff2) →
      v' = v ∧ ff2.getResidualGraph = ff1.getResidualGraph) ∧
    (∀ k, ∃ ff2, (FordFulkerson.create ff1.graph 0 2).getMaxFlow (5 + k) = some (v, ff2) ∧
      ff2.getResidualGraph = ff1.getResidualGraph) ∧
    (∀ fn : FlowNetwork, fn.graph = smallGraph → fn.source = 0 → fn.sink = 2 →
      fn.isEliminated 5 = some (decide (v < sourceRowTotal smallGraph 0)) ∧
      fn.certificateIndices 5
        = (reachable ff1.getResidualGraph smallGraph.numVertices 0).map
            (certificateTeams fn)) := by
  have hsome : ((FordFulkerson.create smallGraph 0 2).getMaxFlow 5).isSome = true := by
    decide
  obtain ⟨p, hp⟩ := Option.isSome_iff_exists.mp hsome
  exact ⟨p.1, p.2, hp, getMaxFlow_fresh_solvers smallGraph 0 2 5 p.1 p.2 hp⟩

theorem residualReach_lt {residual : Nat → Nat → Int} {n source x : Nat} (hs : source < n)
    (h : ResidualReach residual n source x) : x < n := by
  cases h with
  | start => exact hs
  | step _ hw _ => exact hw

theorem residualReach_of_chain {residual : Nat → Nat → Int} {n source : Nat}
    {parent : Nat → Int} {v : Nat} {l : List Nat} (h : ParentChain parent source v l) :
    (∀ x ∈ l, x < n) → (∀ e ∈ pathEdges l, residual e.1 e.2 > 0) →
    ResidualReach residual n source v := by
  induction h with
  | base => intro _ _; exact ResidualReach.start
  | @step v u l _ _ hl _ ih =>
    intro hlt hpos
    obtain ⟨t, rfl⟩ := parentChain_head hl
    have hu := ih (fun x hx => hlt x (List.mem_cons_of_mem _ hx))
      (fun e he => hpos e (by rw [pathEdges_cons_cons]; exact List.mem_cons_of_mem _ he))
    exact ResidualReach.step hu (hlt v (List.mem_cons_self _ _))
      (hpos (u, v) (by rw [pathEdges_cons_cons]; exact List.mem_cons_self _ _))

theorem residualReach_closed {residual : Nat → Nat → Int} {n source : Nat}
    {parent : Nat → Int} (hs : source < n) (hsrc : parent source ≠ -1)
    (hcl : ∀ v, v < n → parent v ≠ -1 → ClosedAt residual n parent v) {x : Nat}
    (h : ResidualReach residual n source x) : parent x ≠ -1 := by
  induction h with
  | start => exact hsrc
  | @step u w hu hw hpos ih => exact hcl u (residualReach_lt hs hu) ih w hw hpos

theorem parentChain_getLast {parent : Nat → Int} {source v : Nat} {l : List Nat}
    (h : ParentChain parent source v l) : l.getLast? = some source := by
  induction h with
  | base => rfl
  | @step v u l _ _ hl _ ih =>
    obtain ⟨t, rfl⟩ := parentChain_head hl
    rw [List.getLast?_cons_cons]
    exact ih

theorem parentChain_edge {parent : Nat → Int} {source v : Nat} {l : List Nat}
    (h : ParentChain parent source v l) :
    ∀ e ∈ pathEdges l, parent e.2 = (e.1 : Int) := by
  induction h with
  | base => intro e he; simp [pathEdges] at he
  | @step v u l _ hu hl _ ih =>
    obtain ⟨t, rfl⟩ := parentChain_head hl
    intro e he
    rw [pathEdges_cons_cons] at he
    rcases List.mem_cons.mp he with h | h
    · rw [h]; exact hu
    · exact ih e h

/-- C16. For every residual matrix and every `source != sink` with `source` in range,
`bfs()` returns, and it returns true exactly when the sink is reachable from the source
along edges of positive residual capacity; when it returns true, following the parent
map from the sink gives a list of vertices without repetition that ends at the source,
and every edge `(parent[v], v)` of it has positive residual capacity. -/
theorem bfs_reaches_sink (residual : Nat → Nat → Int) (n source sink : Nat)
    (hs : source < n) (hne : source ≠ sink) :
    ∃ b parent, bfs residual n source sink = some (b, parent) ∧
      (b = true ↔ ResidualReach residual n source sink) ∧
      (b = true → ∃ l, ParentChain parent source sink l ∧ l.Nodup ∧
        l.head? = some sink ∧ l.getLast? = some source ∧ (∀ x ∈ l, x < n) ∧
        ∀ e ∈ pathEdges l, parent e.2 = (e.1 : Int) ∧ residual e.1 e.2 > 0) := by
  obtain ⟨b, parent, hbfs, hinv, htrue, hfalse⟩ := @bfs_spec residual n source sink hs
  have hchain : b = true → ∃ l, ParentChain parent source sink l ∧
      (∀ x ∈ l, x < n) ∧ ∀ e ∈ pathEdges l, residual e.1 e.2 > 0 := by
    intro hb
    obtain ⟨l, hl, hlx, hle⟩ := hinv.2.2 sink (htrue hb).1
    exact ⟨l, hl, fun x hx => (hlx x hx).1, hle⟩
  refine ⟨b, parent, hbfs, ⟨?_, ?_⟩, ?_⟩
  · intro hb
    obtain ⟨l, hl, hlt, hpos⟩ := hchain hb
    exact residualReach_of_chain hl hlt hpos
  · intro hr
    cases b with
    | true => rfl
    | false =>
      exfalso
      obtain ⟨hsink, hcl⟩ := hfalse rfl
      have := residualReach_closed hs (by rw [hinv.1]; decide) hcl hr
      exact this (hsink (Ne.symm hne))
  · intro hb
    obtain ⟨l, hl, hlt, hpos⟩ := hchain hb
    refine ⟨l, hl, parentChain_nodup hl, ?_, parentChain_getLast hl, hlt, ?_⟩
    · obtain ⟨t, rfl⟩ := parentChain_head hl; rfl
    · intro e he
      exact ⟨parentChain_edge hl e he, hpos e he⟩

theorem bfs_reaches_sink_witness :
    ∃ b parent, bfs smallGraph.capacityMatrix 3 0 2 = some (b, parent) ∧
      (b = true ↔ ResidualReach smallGraph.capacityMatrix 3 0 2) ∧
      (b = true → ∃ l, ParentChain parent 0 2 l ∧ l.Nodup ∧
        l.head? = some 2 ∧ l.getLast? = some 0 ∧ (∀ x ∈ l, x < 3) ∧
        ∀ e ∈ pathEdges l, parent e.2 = (e.1 : Int) ∧
          smallGraph.capacityMatrix e.1 e.2 > 0) :=
  bfs_reaches_sink smallGraph.capacityMatrix 3 0 2 (by decide) (by decide)

theorem rowSum_netFlow (g : Graph) (residual : Nat → Nat → Int) (x : Nat) :
    rowSum g.numVertices (netFlow g residual) x
      = rowSum g.numVertices g.capacityMatrix x - rowSum g.numVertices residual x := by
  unfold rowSum netFlow
  rw [Finset.sum_sub_distrib]

theorem colSum_netFlow {g : Graph} {source sink : Nat} {residual : Nat → Nat → Int}
    {maxFlow : Int} (hinv : ResidualInv g source sink residual maxFlow) {x : Nat}
    (hx : x < g.numVertices) :
    colSum g.numVertices (netFlow g residual) x
      = rowSum g.numVertices residual x - rowSum g.numVertices g.capacityMatrix x := by
  unfold colSum rowSum netFlow
  rw [← Finset.sum_sub_distrib]
  apply Finset.sum_congr rfl
  intro i hi
  have := hinv.pair i x (Finset.mem_range.mp hi) hx
  omega

set_option maxRecDepth 100000 in
/-- C19, as stated, fails: on `overflowGraph` (non-negative capacities, source 0, sink 2)
the net flow leaving the source is 2147483648, while the returned total has wrapped to
-2147483648. -/
theorem net_flow_counterexample :
    overflowGraph.NonNeg ∧ (0 : Nat) ≠ 2 ∧
    ∃ v residual, getMaxFlow 3 overflowGraph 0 2 = some (v, residual) ∧
      rowSum overflowGraph.numVertices (netFlow overflowGraph residual) 0 ≠ v := by
  refine ⟨overflowGraph_nonNeg, by decide, ?_⟩
  have hsome : (getMaxFlow 3 overflowGraph 0 2).isSome = true := by decide
  obtain ⟨p, hp⟩ := Option.isSome_iff_exists.mp hsome
  have hval : (getMaxFlow 3 overflowGraph 0 2).map
      (fun p => (p.1, p.2 0 0, p.2 0 1, p.2 0 2)) = some (-2147483648, 0, 0, 0) := by
    decide
  rw [hp] at hval
  simp only [Option.map_some', Option.some.injEq, Prod.mk.injEq] at hval
  obtain ⟨h1, h2, h3, h4⟩ := hval
  refine ⟨p.1, p.2, hp, ?_⟩
  have hn : overflowGraph.numVertices = 3 := rfl
  have c0 : overflowGraph.capacityMatrix 0 0 = 0 := by decide
  have c1 : overflowGraph.capacityMatrix 0 1 = 1 := by decide
  have c2 : overflowGraph.capacityMatrix 0 2 = 2147483647 := by decide
  unfold rowSum netFlow
  rw [hn]
  simp only [Finset.sum_range_succ, Finset.sum_range_zero, h1, h2, h3, h4, c0, c1, c2]
  decide

/-- C19, amended. After `getMaxFlow()` on a graph with non-negative capacities whose
arithmetic stays within 32 bits, with `source != sink` in range, the net flow
`f[i][j] = capacity[i][j] - residual[i][j]` is a valid flow whose value is the returned
total: it is at most the capacity, it is skew-symmetric, its row sum is 0 at every node
other than source and sink, its row sum at the source is the returned `maxFlow`, and its
column sum at the sink is the returned `maxFlow`. -/
theorem getMaxFlow_net_flow (g : Graph) (source sink : Nat) (hs : source < g.numVertices)
    (ht : sink < g.numVertices) (hne : source ≠ sink) (hnn : g.NonNeg)
    (hov : g.NoOverflow source) (fuel : Nat)
    (hfuel : (rowSum g.numVertices g.capacityMatrix source).toNat < fuel) :
    ∃ v residual, getMaxFlow fuel g source sink = some (v, residual) ∧
      (∀ i j, i < g.numVertices → j < g.numVertices →
        netFlow g residual i j ≤ g.capacityMatrix i j ∧
        netFlow g residual i j = - netFlow g residual j i) ∧
      (∀ x, x < g.numVertices → x ≠ source → x ≠ sink →
        rowSum g.numVertices (netFlow g residual) x = 0) ∧
      rowSum g.numVertices (netFlow g residual) source = v ∧
      colSum g.numVertices (netFlow g residual) sink = v := by
  obtain ⟨v, residual, hrun, hinv, -⟩ := getMaxFlow_spec g hs hne hnn hov fuel hfuel
  refine ⟨v, residual, hrun, ?_, ?_, ?_, ?_⟩
  · intro i j hi hj
    have h1 := hinv.nonneg i j hi hj
    have h2 := hinv.pair i j hi hj
    unfold netFlow
    constructor <;> omega
  · intro x hx h1 h2
    rw [rowSum_netFlow, hinv.conserve x hx h1 h2]
    omega
  · rw [rowSum_netFlow]
    exact hinv.value
  · rw [colSum_netFlow hinv ht, hinv.sinkRow]
    omega

theorem getMaxFlow_net_flow_witness :
    ∃ v residual, getMaxFlow 5 smallGraph 0 2 = some (v, residual) ∧
      (∀ i j, i < smallGraph.numVertices → j < smallGraph.numVertices →
        netFlow smallGraph residual i j ≤ smallGraph.capacityMatrix i j ∧
        netFlow smallGraph residual i j = - netFlow smallGraph residual j i) ∧
      (∀ x, x < smallGraph.numVertices → x ≠ 0 → x ≠ 2 →
        rowSum smallGraph.numVertices (netFlow smallGraph residual) x = 0) ∧
      rowSum smallGraph.numVertices (netFlow smallGraph residual) 0 = v ∧
      colSum smallGraph.numVertices (netFlow smallGraph residual) 2 = v :=
  getMaxFlow_net_flow smallGraph 0 2 (by decide) (by decide) (by decide)
    smallGraph_nonNeg smallGraph_noOverflow 5 (by decide)

theorem augment_sourceRow {parent : Nat → Int} {source n : Nat} {pf : Int} (hpf : 0 ≤ pf)
    {v : Nat} {l : List Nat} (h : ParentChain parent source v l) :
    ∀ (fuel : Nat) (r : Nat → Nat → Int), l.length ≤ fuel + 1 → (∀ x ∈ l, x < n) →
    (∀ e ∈ pathEdges l, pf ≤ r e.1 e.2) →
    (∀ j, j < n → 0 ≤ r source j ∧ r source j ≤ INT_MAX) →
    ∃ r', augment parent source pf fuel v r = some r' ∧
      (∀ j, j < n → 0 ≤ r' source j ∧ r' source j ≤ INT_MAX) ∧
      rowSum n r' source = rowSum n r source - (if v = source then 0 else pf) := by
  induction h with
  | base =>
    intro fuel r _ _ _ hrow
    refine ⟨r, ?_, hrow, by simp⟩
    cases fuel <;> simp [augment]
  | @step v u l hv hu hl hn ih =>
    intro fuel r hlen hln hedge hrow
    obtain ⟨t, rfl⟩ := parentChain_head hl
    cases fuel with
    | zero => simp at hlen
    | succ fuel =>
      have hlen' : (u :: t).length ≤ fuel + 1 := by
        simp only [List.length_cons] at hlen ⊢; omega
      have hvn : v < n := hln v (List.mem_cons_self _ _)
      have hun : u < n := hln u (List.mem_cons_of_mem _ (List.mem_cons_self _ _))
      have huv : u ≠ v := fun h => hn (h ▸ List.mem_cons_self _ _)
      have hpfle : pf ≤ r u v := hedge (u, v) (by rw [pathEdges_cons_cons]; simp)
      have hIM : INT_MAX = 2147483647 := rfl
      -- the matrix after the two writes of this step
      have hr2 : ∀ a b, setCell (setCell r u v (wrap32 (r u v - pf))) v u
            (wrap32 (setCell r u v (wrap32 (r u v - pf)) v u + pf)) a b
          = if a = v ∧ b = u then wrap32 (setCell r u v (wrap32 (r u v - pf)) v u + pf)
            else if a = u ∧ b = v then wrap32 (r u v - pf) else r a b := by
        intro a b
        simp only [setCell]
      have hedge2 : ∀ e ∈ pathEdges (u :: t),
          pf ≤ setCell (setCell r u v (wrap32 (r u v - pf))) v u
            (wrap32 (setCell r u v (wrap32 (r u v - pf)) v u + pf)) e.1 e.2 := by
        intro e he
        have hm := pathEdges_mem he
        have h1 : e.1 ≠ v := fun h => hn (h ▸ hm.1)
        have h2 : e.2 ≠ v := fun h => hn (h ▸ hm.2)
        rw [hr2]
        simp only [h1, h2, false_and, and_false, if_false]
        exact hedge e (by rw [pathEdges_cons_cons]; exact List.mem_cons_of_mem _ he)
      have hsv : source ≠ v := fun h => hv h.symm
      have hrow2 : ∀ j, j < n →
          0 ≤ setCell (setCell r u v (wrap32 (r u v - pf))) v u
            (wrap32 (setCell r u v (wrap32 (r u v - pf)) v u + pf)) source j ∧
          setCell (setCell r u v (wrap32 (r u v - pf))) v u
            (wrap32 (setCell r u v (wrap32 (r u v - pf)) v u + pf)) source j ≤ INT_MAX := by
        intro j hj
        rw [hr2]
        simp only [hsv, false_and, if_false]
        by_cases hc : source = u ∧ j = v
        · rw [if_pos hc]
          have := hrow v hvn
          rw [hc.1] at this
          have hw : wrap32 (r u v - pf) = r u v - pf :=
            wrap32_of_range (by omega) (by omega)
          rw [hw]; omega
        · rw [if_neg hc]; exact hrow j hj
      obtain ⟨r', g1, g2, g3⟩ := ih fuel _ hlen'
        (fun x hx => hln x (List.mem_cons_of_mem _ hx)) hedge2 hrow2
      refine ⟨r', ?_, g2, ?_⟩
      · simp only [augment, hv, if_false, hu]
        have : ¬ ((u : Int) < 0) := by omega
        simp only [this, if_false, Int.toNat_ofNat]
        exact g1
      · rw [g3, rowSum_setCell n _ v u hun, rowSum_setCell n _ u v hvn]
        simp only [hsv, if_false, hv]
        by_cases hus : u = source
        · have := hrow v hvn
          rw [← hus] at this
          have hw : wrap32 (r u v - pf) = r u v - pf :=
            wrap32_of_range (by omega) (by omega)
          simp only [hus, if_true]
          rw [hus] at hw
          rw [hw]; ring
        · have : ¬ (source = u) := fun h => hus h.symm
          simp only [hus, this, if_false]
          ring

theorem maxFlowTrace_terminates {n source sink : Nat} (hs : source < n)
    (hne : source ≠ sink) :
    ∀ (fuel : Nat) (residual : Nat → Nat → Int),
    (∀ j, j < n → 0 ≤ residual source j ∧ residual source j ≤ INT_MAX) →
    (rowSum n residual source).toNat < fuel →
    ∃ rounds, maxFlowTrace n source sink fuel residual = some rounds ∧
      (rounds.length : Int) ≤ rowSum n residual source ∧
      ∀ a ∈ rounds, 1 ≤ a.pathFlow := by
  intro fuel
  induction fuel with
  | zero => intro _ _ h; omega
  | succ fuel ih =>
    intro residual hrow hfuel
    have hnn0 : 0 ≤ rowSum n residual source :=
      Finset.sum_nonneg fun j hj => (hrow j (Finset.mem_range.mp hj)).1
    obtain ⟨b, parent, hbfs, hbinv, htrue, -⟩ := @bfs_spec residual n source sink hs
    simp only [maxFlowTrace, hbfs]
    cases b with
    | false =>
      refine ⟨[], rfl, by simpa using hnn0, fun a ha => by cases ha⟩
    | true =>
      obtain ⟨hps, -⟩ := htrue rfl
      obtain ⟨l, hl, hlx, hle⟩ := hbinv.2.2 sink hps
      have hlen := parentChain_length_le hl (fun x hx => (hlx x hx).1)
      obtain ⟨pf, hb1, -, hb3, hb4⟩ := @bottleneck_spec residual parent source sink l hl
        n INT_MAX (by omega)
      have hpos : 0 < pf := hb4 (by decide) hle
      obtain ⟨r', ha1, ha2, ha3⟩ := augment_sourceRow (n := n) (le_of_lt hpos) hl
        n residual (by omega) (fun x hx => (hlx x hx).1) hb3 hrow
      rw [if_neg (Ne.symm hne)] at ha3
      have hnn1 : 0 ≤ rowSum n r' source :=
        Finset.sum_nonneg fun j hj => (ha2 j (Finset.mem_range.mp hj)).1
      obtain ⟨rounds, hr1, hr2, hr3⟩ := ih r' ha2 (by omega)
      simp only [hb1, ha1, hr1]
      refine ⟨_, rfl, ?_, ?_⟩
      · simp only [List.length_cons, Nat.cast_add, Nat.cast_one]
        omega
      · intro a ha
        rcases List.mem_cons.mp ha with h | h
        · rw [h]; show 1 ≤ pf; omega
        · exact hr3 a h

theorem smallGraph_inIntRange : smallGraph.InIntRange := by
  intro u v hu hv
  have hu' : u < 3 := hu
  have hv' : v < 3 := hv
  interval_cases u <;> interval_cases v <;> decide

/-- C12. For every graph with non-negative `int` capacities and every `source != sink`
with `source` in range, `getMaxFlow()` terminates: every `bfs()` returns (on any
residual matrix); whenever it returns true, following the parent map from the sink
reaches the source through a list of at most `numVertices` vertices, and the bottleneck
loop returns a value of at least 1; and the run of `getMaxFlow()` makes at most as many
augmentations as the capacities leaving the source add up to, each with a bottleneck of
at least 1, and then returns. -/
theorem getMaxFlow_terminates (g : Graph) (source sink : Nat) (hs : source < g.numVertices)
    (hne : source ≠ sink) (hnn : g.NonNeg) (hint : g.InIntRange) (fuel : Nat)
    (hfuel : (rowSum g.numVertices g.capacityMatrix source).toNat < fuel) :
    (∀ residual, ∃ b parent, bfs residual g.numVertices source sink = some (b, parent)) ∧
    (∀ residual parent, bfs residual g.numVertices source sink = some (true, parent) →
      ∃ l, ParentChain parent source sink l ∧ l.length ≤ g.numVertices ∧
        ∃ pathFlow, bottleneck residual parent source g.numVertices sink INT_MAX
          = some pathFlow ∧ 1 ≤ pathFlow) ∧
    ∃ rounds, maxFlowTrace g.numVertices source sink fuel g.capacityMatrix = some rounds ∧
      (rounds.length : Int) ≤ rowSum g.numVertices g.capacityMatrix source ∧
      (∀ a ∈ rounds, 1 ≤ a.pathFlow) ∧
      getMaxFlow fuel g source sink = some (afterRounds rounds 0 g.capacityMatrix) := by
  refine ⟨?_, ?_, ?_⟩
  · intro residual
    obtain ⟨b, parent, hbfs, -⟩ := @bfs_spec residual g.numVertices source sink hs
    exact ⟨b, parent, hbfs⟩
  · intro residual parent hrun
    obtain ⟨b, parent', hbfs, hbinv, htrue, -⟩ :=
      @bfs_spec residual g.numVertices source sink hs
    rw [hrun] at hbfs
    simp only [Option.some.injEq, Prod.mk.injEq] at hbfs
    obtain ⟨hb, hp⟩ := hbfs
    subst hb hp
    obtain ⟨l, hl, hlx, hle⟩ := hbinv.2.2 sink (htrue rfl).1
    have hlen := parentChain_length_le hl (fun x hx => (hlx x hx).1)
    obtain ⟨pf, hb1, -, -, hb4⟩ := @bottleneck_spec residual parent source sink l hl
      g.numVertices INT_MAX (by omega)
    have hpos : 0 < pf := hb4 (by decide) hle
    exact ⟨l, hl, hlen, pf, hb1, by omega⟩
  · obtain ⟨rounds, h1, h2, h3⟩ := maxFlowTrace_terminates hs hne fuel g.capacityMatrix
      (fun j hj => ⟨hnn source j hs hj, (hint source j hs hj).2⟩) hfuel
    refine ⟨rounds, h1, h2, h3, ?_⟩
    unfold getMaxFlow
    rw [maxFlowLoop_eq_trace, h1]
    rfl

theorem getMaxFlow_terminates_witness :
    (∀ residual, ∃ b parent, bfs residual smallGraph.numVertices 0 2 = some (b, parent)) ∧
    (∀ residual parent, bfs residual smallGraph.numVertices 0 2 = some (true, parent) →
      ∃ l, ParentChain parent 0 2 l ∧ l.length ≤ smallGraph.numVertices ∧
        ∃ pathFlow, bottleneck residual parent 0 smallGraph.numVertices 2 INT_MAX
          = some pathFlow ∧ 1 ≤ pathFlow) ∧
    ∃ rounds, maxFlowTrace smallGraph.numVertices 0 2 5 smallGraph.capacityMatrix
        = some rounds ∧
      (rounds.length : Int) ≤ rowSum smallGraph.numVertices smallGraph.capacityMatrix 0 ∧
      (∀ a ∈ rounds, 1 ≤ a.pathFlow) ∧
      getMaxFlow 5 smallGraph 0 2 = some (afterRounds rounds 0 smallGraph.capacityMatrix) :=
  getMaxFlow_terminates smallGraph 0 2 (by decide) (by decide) smallGraph_nonNeg
    smallGraph_inIntRange 5 (by decide)

theorem augment_exact {parent : Nat → Int} {source n : Nat} {pf : Int} (hpf : 0 ≤ pf)
    {v : Nat} {l : List Nat} (h : ParentChain parent source v l) :
    ∀ (fuel : Nat) (r : Nat → Nat → Int), l.length ≤ fuel + 1 → (∀ x ∈ l, x < n) →
    (∀ e ∈ pathEdges l, pf ≤ r e.1 e.2) →
    (∀ a b, a < n → b < n → 0 ≤ r a b) →
    (∀ a b, a < n → b < n → r a b + r b a ≤ INT_MAX) →
    ∃ r', augment parent source pf fuel v r = some r' ∧
      ∀ a b, r' a b = if (a, b) ∈ pathEdges l then r a b - pf
        else if (b, a) ∈ pathEdges l then r a b + pf else r a b := by
  induction h with
  | base =>
    intro fuel r _ _ _ _ _
    refine ⟨r, ?_, fun a b => by simp [pathEdges]⟩
    cases fuel <;> simp [augment]
  | @step v u l hv hu hl hn ih =>
    intro fuel r hlen hln hedge hnn hbound
    obtain ⟨t, rfl⟩ := parentChain_head hl
    cases fuel with
    | zero => simp at hlen
    | succ fuel =>
      have hlen' : (u :: t).length ≤ fuel + 1 := by
        simp only [List.length_cons] at hlen ⊢; omega
      have hvn : v < n := hln v (List.mem_cons_self _ _)
      have hun : u < n := hln u (List.mem_cons_of_mem _ (List.mem_cons_self _ _))
      have huv : u ≠ v := fun h => hn (h ▸ List.mem_cons_self _ _)
      have hpfle : pf ≤ r u v := hedge (u, v) (by rw [pathEdges_cons_cons]; simp)
      have h0uv := hnn u v hun hvn
      have h0vu := hnn v u hvn hun
      have hb := hbound u v hun hvn
      have hIM : INT_MAX = 2147483647 := rfl
      have hw1 : wrap32 (r u v - pf) = r u v - pf := wrap32_of_range (by omega) (by omega)
      have hr1 : setCell r u v (r u v - pf) v u = r v u := by
        unfold setCell
        have : ¬ (v = u ∧ u = v) := fun h => huv h.2
        simp [this]
      have hw2 : wrap32 (r v u + pf) = r v u + pf := wrap32_of_range (by omega) (by omega)
      have hstep := pushStep_apply r u v huv pf
      have hnn2 : ∀ a b, a < n → b < n →
          0 ≤ setCell (setCell r u v (r u v - pf)) v u (r v u + pf) a b := by
        intro a b ha hb'
        rw [hstep]
        split_ifs
        · omega
        · omega
        · exact hnn a b ha hb'
      have hpair2 : ∀ a b, setCell (setCell r u v (r u v - pf)) v u (r v u + pf) a b
          + setCell (setCell r u v (r u v - pf)) v u (r v u + pf) b a = r a b + r b a := by
        intro a b
        rw [hstep, hstep]
        by_cases h1 : a = u ∧ b = v
        · obtain ⟨rfl, rfl⟩ := h1
          have : ¬ (b = a ∧ a = b) := fun h => huv h.2
          simp [this]
        · by_cases h2 : a = v ∧ b = u
          · obtain ⟨rfl, rfl⟩ := h2
            have : ¬ (a = b ∧ b = a) := fun h => huv h.2
            simp [this]
          · have h3 : ¬ (b = u ∧ a = v) := fun h => h2 ⟨h.2, h.1⟩
            have h4 : ¬ (b = v ∧ a = u) := fun h => h1 ⟨h.2, h.1⟩
            simp [h1, h2, h3, h4]
      have hedge2 : ∀ e ∈ pathEdges (u :: t),
          pf ≤ setCell (setCell r u v (r u v - pf)) v u (r v u + pf) e.1 e.2 := by
        intro e he
        have hm := pathEdges_mem he
        have h1 : e.1 ≠ v := fun h => hn (h ▸ hm.1)
        have h2 : e.2 ≠ v := fun h => hn (h ▸ hm.2)
        rw [hstep]
        simp only [h1, h2, false_and, and_false, if_false]
        exact hedge e (by rw [pathEdges_cons_cons]; exact List.mem_cons_of_mem _ he)
      obtain ⟨r', g1, g2⟩ := ih fuel
        (setCell (setCell r u v (r u v - pf)) v u (r v u + pf)) hlen'
        (fun x hx => hln x (List.mem_cons_of_mem _ hx)) hedge2 hnn2
        (fun a b ha hb' => by rw [hpair2]; exact hbound a b ha hb')
      have hnot : ∀ x, (x, v) ∉ pathEdges (u :: t) ∧ (v, x) ∉ pathEdges (u :: t) := by
        intro x
        exact ⟨fun h => hn (pathEdges_mem h).2, fun h => hn (pathEdges_mem h).1⟩
      refine ⟨r', ?_, ?_⟩
      · simp only [augment, hv, if_false, hu]
        have : ¬ ((u : Int) < 0) := by omega
        simp only [this, if_false, Int.toNat_ofNat, hw1, hr1, hw2]
        exact g1
      · intro a b
        rw [g2 a b, hstep, pathEdges_cons_cons]
        by_cases h1 : a = u ∧ b = v
        · obtain ⟨rfl, rfl⟩ := h1
          rw [if_neg (hnot a).1, if_neg (hnot a).2]
          simp
        · by_cases h2 : a = v ∧ b = u
          · obtain ⟨rfl, rfl⟩ := h2
            rw [if_neg (hnot b).2, if_neg (hnot b).1]
            have h3 : ¬ (a = b ∧ b = a) := fun h => huv h.2
            have h4 : (a, b) ∉ (b, a) :: pathEdges (b :: t) := by
              intro hm
              rcases List.mem_cons.mp hm with h | h
              · exact huv (Prod.mk.inj h).2
              · exact (hnot b).2 h
            rw [if_neg h3, if_pos ⟨rfl, rfl⟩, if_neg h4, if_pos (List.mem_cons_self _ _)]
          · rw [if_neg h1, if_neg h2]
            have e1 : (a, b) ∈ (u, v) :: pathEdges (u :: t) ↔ (a, b) ∈ pathEdges (u :: t) := by
              constructor
              · intro hm
                rcases List.mem_cons.mp hm with h | h
                · exact absurd ⟨(Prod.mk.inj h).1, (Prod.mk.inj h).2⟩ h1
                · exact h
              · exact List.mem_cons_of_mem _
            have e2 : (b, a) ∈ (u, v) :: pathEdges (u :: t) ↔ (b, a) ∈ pathEdges (u :: t) := by
              constructor
              · intro hm
                rcases List.mem_cons.mp hm with h | h
                · exact absurd ⟨(Prod.mk.inj h).2, (Prod.mk.inj h).1⟩ h2
                · exact h
              · exact List.mem_cons_of_mem _
            simp only [e1, e2]

theorem linked_afterRounds (rounds : List Augmentation) :
    ∀ (maxFlow : Int) (residual : Nat → Nat → Int) (P : (Nat → Nat → Int) → Prop),
    P residual → (∀ a ∈ rounds, P a.after) → P (afterRounds rounds maxFlow residual).2 := by
  induction rounds with
  | nil => intro _ _ _ h _; exact h
  | cons a rest ih =>
    intro maxFlow residual P _ hall
    rw [afterRounds_cons]
    exact ih _ _ P (hall a (List.mem_cons_self _ _))
      (fun b hb => hall b (List.mem_cons_of_mem _ hb))

theorem maxFlowTrace_invariant (g : Graph) {source sink : Nat} (hs : source < g.numVertices)
    (hne : source ≠ sink) (hov : g.NoOverflow source) :
    ∀ (fuel : Nat) (residual : Nat → Nat → Int) (maxFlow : Int),
    ResidualInv g source sink residual maxFlow →
    (rowSum g.numVertices residual source).toNat < fuel →
    ∃ rounds, maxFlowTrace g.numVertices source sink fuel residual = some rounds ∧
      Linked residual rounds ∧
      ∀ a ∈ rounds, IsAugmentingStep g source sink a ∧ ResidualBalanced g a.after := by
  intro fuel
  induction fuel with
  | zero => intro _ _ _ h; omega
  | succ fuel ih =>
    intro residual maxFlow hinv hfuel
    obtain ⟨b, parent, hbfs, hbinv, htrue, -⟩ :=
      @bfs_spec residual g.numVertices source sink hs
    simp only [maxFlowTrace, hbfs]
    cases b with
    | false => exact ⟨[], rfl, trivial, fun a ha => by cases ha⟩
    | true =>
      obtain ⟨hps, _⟩ := htrue rfl
      obtain ⟨l, hl, hlx, hle⟩ := hbinv.2.2 sink hps
      have hlen := parentChain_length_le hl (fun x hx => (hlx x hx).1)
      obtain ⟨pf, hb1, hb2, hb3, hb4⟩ := @bottleneck_spec residual parent source sink l hl
        g.numVertices INT_MAX (by omega)
      have hpos : 0 < pf := hb4 (by decide) hle
      have hbd : ∀ a b, a < g.numVertices → b < g.numVertices →
          residual a b + residual b a ≤ INT_MAX :=
        fun a b ha hb => by rw [hinv.pair a b ha hb]; exact hov.1 a b ha hb
      obtain ⟨r', ha1, ha2, ha3, ha4⟩ := augment_spec (n := g.numVertices) (le_of_lt hpos) hl
        g.numVertices residual (by omega) (fun x hx => (hlx x hx).1) hb3 hinv.nonneg hbd
      obtain ⟨r'', hx1, hx2⟩ := augment_exact (n := g.numVertices) (le_of_lt hpos) hl
        g.numVertices residual (by omega) (fun x hx => (hlx x hx).1) hb3 hinv.nonneg hbd
      rw [ha1] at hx1
      have hrr : r'' = r' := (Option.some.inj hx1).symm
      subst hrr
      have hsinkn : sink < g.numVertices := (hlx sink (by
        obtain ⟨t, rfl⟩ := parentChain_head hl; exact List.mem_cons_self _ _)).1
      have hrs := ha4 source hs
      have hrt := ha4 sink hsinkn
      simp only [hne, if_false, if_true, (Ne.symm hne)] at hrs hrt
      have hnn' := rowSum_nonneg hs ha2
      have hnn0 := rowSum_nonneg hs hinv.nonneg
      have hval := hinv.value
      have hvn := hinv.value_nonneg
      have hinv' : ResidualInv g source sink r'' (maxFlow + pf) := by
        refine ⟨ha2, fun u v hu hv => by rw [ha3, hinv.pair u v hu hv], ?_, ?_, ?_, by omega⟩
        · intro v hv h1 h2
          rw [ha4 v hv, hinv.conserve v hv h1 h2]
          simp [h1, h2]
        · omega
        · rw [hrt, hinv.sinkRow]; ring
      obtain ⟨rounds, hr1, hr2, hr3⟩ := ih r'' (maxFlow + pf) hinv' (by omega)
      simp only [hb1, ha1, hr1]
      refine ⟨_, rfl, ⟨rfl, hr2⟩, ?_⟩
      intro a ha
      rcases List.mem_cons.mp ha with h | h
      · rw [h]
        exact ⟨⟨l, hl, fun x hx => (hlx x hx).1, hb1, (by show 1 ≤ pf; omega), hb3, hx2⟩,
          ha2, fun u v hu hv => by rw [ha3]; exact hinv.pair u v hu hv⟩
      · exact hr3 a h

/-- C18. On a graph with non-negative capacities whose arithmetic stays within 32 bits,
with `source != sink` and `source` in range, the run of `getMaxFlow()` is a list of
rounds, each starting from the matrix the one before it left (the first from the
capacities); each round subtracts its bottleneck on the edges of its path, adds it on
the reverse edges and changes nothing else; after every round, and at termination,
every residual entry is non-negative and `residual[i][j] + residual[j][i]` equals
`capacity[i][j] + capacity[j][i]`. -/
theorem residual_invariant (g : Graph) (source sink : Nat) (hs : source < g.numVertices)
    (hne : source ≠ sink) (hnn : g.NonNeg) (hov : g.NoOverflow source) (fuel : Nat)
    (hfuel : (rowSum g.numVertices g.capacityMatrix source).toNat < fuel) :
    ∃ rounds, maxFlowTrace g.numVertices source sink fuel g.capacityMatrix = some rounds ∧
      getMaxFlow fuel g source sink = some (afterRounds rounds 0 g.capacityMatrix) ∧
      Linked g.capacityMatrix rounds ∧
      (∀ a ∈ rounds, IsAugmentingStep g source sink a ∧ ResidualBalanced g a.after) ∧
      ResidualBalanced g (afterRounds rounds 0 g.capacityMatrix).2 := by
  obtain ⟨rounds, h1, h2, h3⟩ := maxFlowTrace_invariant g hs hne hov fuel g.capacityMatrix 0
    (residualInv_init g source sink hnn) hfuel
  refine ⟨rounds, h1, ?_, h2, h3, ?_⟩
  · unfold getMaxFlow
    rw [maxFlowLoop_eq_trace, h1]
    rfl
  · exact linked_afterRounds rounds 0 g.capacityMatrix (ResidualBalanced g)
      ⟨hnn, fun _ _ _ _ => rfl⟩ (fun a ha => (h3 a ha).2)

theorem residual_invariant_witness :
    ∃ rounds, maxFlowTrace smallGraph.numVertices 0 2 5 smallGraph.capacityMatrix
        = some rounds ∧
      getMaxFlow 5 smallGraph 0 2 = some (afterRounds rounds 0 smallGraph.capacityMatrix) ∧
      Linked smallGraph.capacityMatrix rounds ∧
      (∀ a ∈ rounds, IsAugmentingStep smallGraph 0 2 a ∧ ResidualBalanced smallGraph a.after) ∧
      ResidualBalanced smallGraph (afterRounds rounds 0 smallGraph.capacityMatrix).2 :=
  residual_invariant smallGraph 0 2 (by decide) (by decide) smallGraph_nonNeg
    smallGraph_noOverflow 5 (by decide)

theorem end_bfsScan_eq (residual : Nat → Nat → Int) (sink current : Nat) :
    ∀ (rest : List Nat) (parent : Nat → Int) (q : List Nat),
    EndVariant.bfsScan residual sink current rest parent q
      = bfsScan residual sink current rest parent q := by
  intro rest
  induction rest with
  | nil => intro _ _; rfl
  | cons next rest ih =>
    intro parent q
    simp only [EndVariant.bfsScan, bfsScan, ih]

theorem end_bfsLoop_eq (residual : Nat → Nat → Int) (n sink : Nat) :
    ∀ (fuel : Nat) (parent : Nat → Int) (q : List Nat),
    EndVariant.bfsLoop residual n sink fuel parent q = bfsLoop residual n sink fuel parent q := by
  intro fuel
  induction fuel with
  | zero => intro _ _; rfl
  | succ fuel ih =>
    intro parent q
    cases q with
    | nil => rfl
    | cons current q =>
      simp only [EndVariant.bfsLoop, bfsLoop, end_bfsScan_eq]
      generalize bfsScan residual sink current (List.range n) parent q = x
      obtain ⟨b, parent', q'⟩ := x
      cases b
      · exact ih parent' q'
      · rfl

theorem end_bfs_eq (residual : Nat → Nat → Int) (n source sink : Nat) :
    EndVariant.bfs residual n source sink = bfs residual n source sink :=
  end_bfsLoop_eq residual n sink _ _ _

theorem end_bottleneck_eq (residual : Nat → Nat → Int) (parent : Nat → Int) (source : Nat) :
    ∀ (fuel v : Nat) (pathFlow : Int),
    EndVariant.bottleneck residual parent source fuel v pathFlow
      = bottleneck residual parent source fuel v pathFlow := by
  intro fuel
  induction fuel with
  | zero => intro _ _; rfl
  | succ fuel ih =>
    intro v pathFlow
    simp only [EndVariant.bottleneck, bottleneck, ih]

theorem end_augment_eq (parent : Nat → Int) (source : Nat) (pathFlow : Int) :
    ∀ (fuel v : Nat) (residual : Nat → Nat → Int),
    EndVariant.augment parent source pathFlow fuel v residual
      = augment parent source pathFlow fuel v residual := by
  intro fuel
  induction fuel with
  | zero => intro _ _; rfl
  | succ fuel ih =>
    intro v residual
    simp only [EndVariant.augment, augment, ih]

theorem end_maxFlowLoop_eq (n source sink : Nat) :
    ∀ (fuel : Nat) (residual : Nat → Nat → Int) (maxFlow : Int),
    EndVariant.maxFlowLoop n source sink fuel residual maxFlow
      = maxFlowLoop n source sink fuel residual maxFlow := by
  intro fuel
  induction fuel with
  | zero => intro _ _; rfl
  | succ fuel ih =>
    intro residual maxFlow
    simp only [EndVariant.maxFlowLoop, maxFlowLoop, end_bfs_eq]
    generalize bfs residual n source sink = x
    cases x with
    | none => rfl
    | some bp =>
      obtain ⟨b, parent⟩ := bp
      cases b with
      | false => rfl
      | true =>
        simp only [end_bottleneck_eq]
        generalize bottleneck residual parent source n sink INT_MAX = y
        cases y with
        | none => rfl
        | some pathFlow =>
          simp only [end_augment_eq]
          generalize augment parent source pathFlow n sink residual = z
          cases z with
          | none => rfl
          | some residual' => exact ih residual' _

theorem end_getMaxFlow_eq (fuel : Nat) (g : EndVariant.Graph) (source sink : Nat) :
    EndVariant.getMaxFlow fuel g source sink = getMaxFlow fuel g.toWow source sink :=
  end_maxFlowLoop_eq g.numVertices source sink fuel g.adjList 0

theorem end_addGameEdges_eq (games : Nat → Nat → Int) (source teamNodeStart teamIndex : Nat)
    (st : EndVariant.Graph × Nat) (p : Nat × Nat) :
    ((EndVariant.addGameEdges games source teamNodeStart teamIndex st p).1.toWow,
      (EndVariant.addGameEdges games source teamNodeStart teamIndex st p).2)
      = addGameEdges games source teamNodeStart teamIndex (st.1.toWow, st.2) p := by
  unfold EndVariant.addGameEdges addGameEdges
  split
  · rfl
  · split
    · rfl
    · split
      · rfl
      · rfl

theorem end_foldl_addGameEdges (games : Nat → Nat → Int)
    (source teamNodeStart teamIndex : Nat) :
    ∀ (ps : List (Nat × Nat)) (st : EndVariant.Graph × Nat),
    ((ps.foldl (EndVariant.addGameEdges games source teamNodeStart teamIndex) st).1.toWow,
      (ps.foldl (EndVariant.addGameEdges games source teamNodeStart teamIndex) st).2)
      = ps.foldl (addGameEdges games source teamNodeStart teamIndex) (st.1.toWow, st.2) := by
  intro ps
  induction ps with
  | nil => intro _; rfl
  | cons p ps ih =>
    intro st
    simp only [List.foldl_cons]
    rw [ih, end_addGameEdges_eq]

theorem end_addSinkEdge_eq (wins : Nat → Int) (M : Int) (sink teamNodeStart teamIndex : Nat)
    (g : EndVariant.Graph) (i : Nat) :
    (EndVariant.addSinkEdge wins M sink teamNodeStart teamIndex g i).toWow
      = addSinkEdge wins M sink teamNodeStart teamIndex g.toWow i := by
  unfold EndVariant.addSinkEdge addSinkEdge
  split
  · rfl
  · rfl

theorem end_foldl_addSinkEdge (wins : Nat → Int) (M : Int)
    (sink teamNodeStart teamIndex : Nat) :
    ∀ (l : List Nat) (g : EndVariant.Graph),
    (l.foldl (EndVariant.addSinkEdge wins M sink teamNodeStart teamIndex) g).toWow
      = l.foldl (addSinkEdge wins M sink teamNodeStart teamIndex) g.toWow := by
  intro l
  induction l with
  | nil => intro _; rfl
  | cons i l ih =>
    intro g
    simp only [List.foldl_cons]
    rw [ih, end_addSinkEdge_eq]

theorem end_create_eq (d : Division) (t : Nat) :
    (EndVariant.FlowNetwork.create d.toEnd t).graph.toWow = (FlowNetwork.create d t).graph ∧
    (EndVariant.FlowNetwork.create d.toEnd t).source = (FlowNetwork.create d t).source ∧
    (EndVariant.FlowNetwork.create d.toEnd t).sink = (FlowNetwork.create d t).sink := by
  refine ⟨?_, rfl, rfl⟩
  simp only [EndVariant.FlowNetwork.create, FlowNetwork.create]
  rw [end_foldl_addSinkEdge]
  have h := end_foldl_addGameEdges d.gamesAgainstMatrix 0
    (1 + countGames d.numTeams t d.gamesAgainstMatrix) t (teamPairs d.numTeams)
    (EndVariant.Graph.create (2 + countGames d.numTeams t d.gamesAgainstMatrix
      + (d.numTeams - 1)), 1)
  have h1 := congrArg Prod.fst h
  exact congrArg (fun g => List.foldl
    (addSinkEdge d.wins (wrap32 (d.wins t + d.remainingGames t))
      (2 + countGames d.numTeams t d.gamesAgainstMatrix + (d.numTeams - 1) - 1)
      (1 + countGames d.numTeams t d.gamesAgainstMatrix) t) g (List.range d.numTeams)) h1

theorem create_numVertices (d : Division) (t : Nat) :
    (FlowNetwork.create d t).graph.numVertices
      = 2 + countGames d.numTeams t d.gamesAgainstMatrix + (d.numTeams - 1) := by
  simp only [FlowNetwork.create]
  rw [(foldl_addSinkEdge _ _ _ _ _ _ _).1,
    (foldl_addGameEdges _ _ _ _ _ _ (le_refl 1)).2.1]
  rfl

theorem certificate_isSome (d : Division) (t fuel : Nat) (b : Bool)
    (h : (FlowNetwork.create d t).isEliminated fuel = some b) :
    ∃ c, (FlowNetwork.create d t).getEliminationCertificate fuel = some c := by
  unfold FlowNetwork.isEliminated at h
  unfold FlowNetwork.getEliminationCertificate FlowNetwork.certificateIndices
  cases hrun : getMaxFlow fuel (FlowNetwork.create d t).graph (FlowNetwork.create d t).source
      (FlowNetwork.create d t).sink with
  | none => rw [hrun] at h; cases h
  | some p =>
    obtain ⟨v, r⟩ := p
    have hs : (FlowNetwork.create d t).source < (FlowNetwork.create d t).graph.numVertices := by
      rw [create_numVertices]
      show 0 < _
      omega
    obtain ⟨visited, hvis, -⟩ := reachable_spec r hs
    simp only [hvis]
    exact ⟨_, rfl⟩

theorem end_isEliminated_eq (d : Division) (t fuel : Nat) :
    (EndVariant.FlowNetwork.create d.toEnd t).isEliminated fuel
      = (FlowNetwork.create d t).isEliminated fuel := by
  obtain ⟨h1, h2, h3⟩ := end_create_eq d t
  unfold EndVariant.FlowNetwork.isEliminated FlowNetwork.isEliminated
  rw [end_getMaxFlow_eq, h1, h2, h3]
  have htot : (List.range (EndVariant.FlowNetwork.create d.toEnd t).graph.numVertices).foldl
      (fun totalGames j => wrap32 (totalGames
        + (EndVariant.FlowNetwork.create d.toEnd t).graph.adjList (FlowNetwork.create d t).source j)) 0
      = sourceRowTotal (FlowNetwork.create d t).graph (FlowNetwork.create d t).source := by
    rw [← h1]
    rfl
  rewrite [htot]
  generalize getMaxFlow fuel (FlowNetwork.create d t).graph (FlowNetwork.create d t).source
    (FlowNetwork.create d t).sink = x
  rfl

/-- C15. The two variants agree on the core.  For every division and target index, the
constructor of `end.cpp` builds the same capacity matrix, number of vertices, source and
sink as the constructor of `wow.cpp`; `getMaxFlow` of `end.cpp` returns the same value
and residual matrix as `getMaxFlow` of `wow.cpp` on every graph; and the decision of
`main` of `end.cpp` (not eliminated, trivially eliminated, eliminated) for a team is
the decision of `main` of `wow.cpp`. -/
theorem end_agrees_with_wow (d : Division) (t fuel : Nat) :
    ((EndVariant.FlowNetwork.create d.toEnd t).graph.adjList
        = (FlowNetwork.create d t).graph.capacityMatrix ∧
      (EndVariant.FlowNetwork.create d.toEnd t).graph.numVertices
        = (FlowNetwork.create d t).graph.numVertices ∧
      (EndVariant.FlowNetwork.create d.toEnd t).source = (FlowNetwork.create d t).source ∧
      (EndVariant.FlowNetwork.create d.toEnd t).sink = (FlowNetwork.create d t).sink) ∧
    (∀ (g : EndVariant.Graph) (source sink : Nat),
      EndVariant.getMaxFlow fuel g source sink
        = getMaxFlow fuel ⟨g.numVertices, g.adjList⟩ source sink) ∧
    (EndVariant.FlowNetwork.create d.toEnd t).isEliminated fuel
      = (FlowNetwork.create d t).isEliminated fuel ∧
    (EndVariant.analyzeTeam fuel d.toEnd t).map EndVariant.Verdict.decision
      = (analyzeTeam fuel d t).map Verdict.decision := by
  obtain ⟨h1, h2, h3⟩ := end_create_eq d t
  refine ⟨⟨congrArg Graph.capacityMatrix h1, congrArg Graph.numVertices h1, h2, h3⟩,
    fun g source sink => end_getMaxFlow_eq fuel g source sink, end_isEliminated_eq d t fuel, ?_⟩
  unfold EndVariant.analyzeTeam analyzeTeam
  have htr : EndVariant.trivialCheck d.toEnd t = trivialCheck d t := rfl
  rw [htr]
  cases trivialCheck d t with
  | some i => rfl
  | none =>
    simp only
    rw [end_isEliminated_eq]
    cases helim : (FlowNetwork.create d t).isEliminated fuel with
    | none => rfl
    | some b =>
      cases b with
      | false => rfl
      | true =>
        obtain ⟨c, hc⟩ := certificate_isSome d t fuel true helim
        simp only [hc]
        rfl

theorem replayCalls_append (l1 l2 : List EdgeCall) (g : Graph) :
    replayCalls (l1 ++ l2) g = replayCalls l2 (replayCalls l1 g) := by
  unfold replayCalls
  rw [List.foldl_append]

theorem foldl_addGameCalls_replay (games : Nat → Nat → Int) (s t : Nat) (g0 : Graph) :
    ∀ (ps : List (Nat × Nat)) (calls : List EdgeCall) (gr : Graph) (k : Nat),
    replayCalls calls g0 = gr →
    replayCalls (ps.foldl (addGameCalls games 0 s t) (calls, k)).1 g0
        = (ps.foldl (addGameEdges games 0 s t) (gr, k)).1 ∧
      (ps.foldl (addGameCalls games 0 s t) (calls, k)).2
        = (ps.foldl (addGameEdges games 0 s t) (gr, k)).2 := by
  intro ps
  induction ps with
  | nil => intro calls gr k h; exact ⟨h, rfl⟩
  | cons p ps ih =>
    intro calls gr k h
    simp only [List.foldl_cons]
    unfold addGameCalls addGameEdges
    by_cases h1 : p.1 = t
    · simp only [h1, if_true]
      exact ih calls gr k h
    · by_cases h2 : p.2 = t
      · simp only [h1, h2, if_true, if_false]
        exact ih calls gr k h
      · by_cases h3 : games p.1 p.2 > 0
        · simp only [h1, h2, h3, if_true, if_false]
          apply ih
          rw [replayCalls_append, h]
          rfl
        · simp only [h1, h2, h3, if_false]
          exact ih calls gr k h

theorem foldl_addSinkCall_replay (wins : Nat → Int) (M : Int) (sink s t : Nat) (g0 : Graph) :
    ∀ (l : List Nat) (calls : List EdgeCall) (gr : Graph),
    replayCalls calls g0 = gr →
    replayCalls (l.foldl (addSinkCall wins M sink s t) calls) g0
      = l.foldl (addSinkEdge wins M sink s t) gr := by
  intro l
  induction l with
  | nil => intro calls gr h; exact h
  | cons i l ih =>
    intro calls gr h
    simp only [List.foldl_cons]
    unfold addSinkCall addSinkEdge
    by_cases h1 : i = t
    · simp only [h1, if_true]
      exact ih calls gr h
    · simp only [h1, if_false]
      apply ih
      rw [replayCalls_append, h]
      rfl

theorem edgeCalls_replay (d : Division) (t : Nat) :
    replayCalls (FlowNetwork.edgeCalls d t)
        (Graph.create (FlowNetwork.create d t).graph.numVertices)
      = (FlowNetwork.create d t).graph := by
  rw [create_numVertices]
  simp only [FlowNetwork.edgeCalls, FlowNetwork.create]
  apply foldl_addSinkCall_replay
  exact (foldl_addGameCalls_replay _ _ _ _ _ _ _ _ rfl).1

theorem foldl_addGameCalls (d : Division) (s t : Nat) :
    ∀ (ps : List (Nat × Nat)) (calls : List EdgeCall) (k : Nat),
    ps.foldl (addGameCalls d.gamesAgainstMatrix 0 s t) (calls, k)
      = (calls ++ ((ps.filter fun p =>
            decide (p.1 ≠ t ∧ p.2 ≠ t ∧ d.gamesAgainstMatrix p.1 p.2 > 0)).enumFrom k).flatMap
          (fun x => [(⟨0, x.1, d.gamesAgainstMatrix x.2.1 x.2.2⟩ : EdgeCall),
            ⟨x.1, adjustedTeamNode s t x.2.1, INT_MAX⟩,
            ⟨x.1, adjustedTeamNode s t x.2.2, INT_MAX⟩]),
        k + (ps.filter fun p =>
            decide (p.1 ≠ t ∧ p.2 ≠ t ∧ d.gamesAgainstMatrix p.1 p.2 > 0)).length) := by
  intro ps
  induction ps with
  | nil => intro calls k; simp
  | cons p ps ih =>
    intro calls k
    by_cases hc : p.1 ≠ t ∧ p.2 ≠ t ∧ d.gamesAgainstMatrix p.1 p.2 > 0
    · have hf : (List.filter (fun q : Nat × Nat =>
          decide (q.1 ≠ t ∧ q.2 ≠ t ∧ d.gamesAgainstMatrix q.1 q.2 > 0)) (p :: ps))
          = p :: List.filter (fun q : Nat × Nat =>
          decide (q.1 ≠ t ∧ q.2 ≠ t ∧ d.gamesAgainstMatrix q.1 q.2 > 0)) ps := by
        rw [List.filter_cons]; simp [hc]
      have hstep : addGameCalls d.gamesAgainstMatrix 0 s t (calls, k) p
          = (calls ++ [⟨0, k, d.gamesAgainstMatrix p.1 p.2⟩,
              ⟨k, adjustedTeamNode s t p.1, INT_MAX⟩,
              ⟨k, adjustedTeamNode s t p.2, INT_MAX⟩], k + 1) := by
        unfold addGameCalls
        simp [hc.1, hc.2.1, hc.2.2]
      rw [List.foldl_cons, hstep, hf, ih]
      simp only [List.enumFrom_cons, List.flatMap_cons, List.length_cons, List.append_assoc,
        Prod.mk.injEq]
      constructor <;> first | rfl | trivial | omega
    · have hf : (List.filter (fun q : Nat × Nat =>
          decide (q.1 ≠ t ∧ q.2 ≠ t ∧ d.gamesAgainstMatrix q.1 q.2 > 0)) (p :: ps))
          = List.filter (fun q : Nat × Nat =>
          decide (q.1 ≠ t ∧ q.2 ≠ t ∧ d.gamesAgainstMatrix q.1 q.2 > 0)) ps := by
        rw [List.filter_cons]; simp [hc]
      have hstep : addGameCalls d.gamesAgainstMatrix 0 s t (calls, k) p = (calls, k) := by
        unfold addGameCalls
        by_cases h1 : p.1 = t
        · simp [h1]
        · by_cases h2 : p.2 = t
          · simp [h1, h2]
          · have h3 : ¬ d.gamesAgainstMatrix p.1 p.2 > 0 := fun h => hc ⟨h1, h2, h⟩
            simp [h1, h2, h3]
      rw [List.foldl_cons, hstep, hf, ih]

theorem foldl_addSinkCall (wins : Nat → Int) (M : Int) (sink s t : Nat) :
    ∀ (l : List Nat) (calls : List EdgeCall),
    l.foldl (addSinkCall wins M sink s t) calls
      = calls ++ (l.filter fun i => decide (i ≠ t)).map fun i =>
          (⟨adjustedTeamNode s t i, sink,
            if wrap32 (M - wins i) < 0 then 0 else wrap32 (M - wins i)⟩ : EdgeCall) := by
  intro l
  induction l with
  | nil => intro calls; simp
  | cons i l ih =>
    intro calls
    rw [List.foldl_cons, ih]
    unfold addSinkCall
    by_cases h1 : i = t
    · simp [h1]
    · simp [h1]

theorem edgeCalls_eq (d : Division) (t : Nat) (hN : 1 ≤ d.numTeams) :
    FlowNetwork.edgeCalls d t
      = ((gameList d t).enumFrom 1).flatMap (gameCalls d t)
        ++ ((List.range d.numTeams).filter fun i => decide (i ≠ t)).map (sinkCall d t) := by
  simp only [FlowNetwork.edgeCalls]
  rw [foldl_addSinkCall, foldl_addGameCalls]
  simp only [List.nil_append]
  have hG : countGames d.numTeams t d.gamesAgainstMatrix = (gameList d t).length :=
    countGames_eq d t
  rw [hG]
  have hsink : 2 + (gameList d t).length + (d.numTeams - 1) - 1 = networkSink d t := by
    unfold networkSink; omega
  rw [hsink]
  rfl

theorem mem_enumFrom_spec {α : Type} :
    ∀ (l : List α) (j : Nat) (x : Nat × α), x ∈ l.enumFrom j →
    j ≤ x.1 ∧ x.1 < j + l.length ∧ x.2 ∈ l := by
  intro l
  induction l with
  | nil => intro j x h; simp at h
  | cons a l ih =>
    intro j x h
    rw [List.enumFrom_cons] at h
    rcases List.mem_cons.mp h with h | h
    · subst h
      simp
    · obtain ⟨h1, h2, h3⟩ := ih (j + 1) x h
      simp only [List.length_cons]
      exact ⟨by omega, by omega, List.mem_cons_of_mem _ h3⟩

theorem teamPairs_pairwise (n : Nat) : (teamPairs n).Pairwise pairBefore := by
  unfold teamPairs
  rw [List.pairwise_flatMap]
  constructor
  · intro i _
    rw [List.pairwise_map]
    refine List.Pairwise.imp ?_ (List.pairwise_lt_range' (i + 1) (n - (i + 1)))
    intro a b hab
    exact Or.inr ⟨rfl, hab⟩
  · refine List.Pairwise.imp ?_ (List.pairwise_lt_range n)
    intro a b hab x hx y hy
    simp only [List.mem_map] at hx hy
    obtain ⟨_, _, rfl⟩ := hx
    obtain ⟨_, _, rfl⟩ := hy
    exact Or.inl hab

theorem gameList_pairwise (d : Division) (t : Nat) : (gameList d t).Pairwise pairBefore :=
  List.Pairwise.filter _ (teamPairs_pairwise _)

theorem teamOfNode_lt {t m n : Nat} (hm : m + 1 < n) : teamOfNode t m < n := by
  unfold teamOfNode
  split <;> omega

theorem edgeCalls_inBounds (d : Division) (t : Nat) (hN : 2 ≤ d.numTeams)
    (ht : t < d.numTeams) :
    ∀ c ∈ FlowNetwork.edgeCalls d t, c.src < networkSize d t ∧ c.dst < networkSize d t := by
  intro c hc
  rw [edgeCalls_eq d t (by omega)] at hc
  have hsz : networkSize d t = networkSink d t + 1 := rfl
  have hsk : networkSink d t = (gameList d t).length + d.numTeams := rfl
  rcases List.mem_append.mp hc with h | h
  · obtain ⟨x, hx, hcx⟩ := List.mem_flatMap.mp h
    obtain ⟨h1, h2, h3⟩ := mem_enumFrom_spec _ _ _ hx
    obtain ⟨_, q2, q3, q4, _⟩ := mem_gameList.mp h3
    have t1 := teamNode_lt ht (by omega : x.2.1 < d.numTeams) q3
    have t2 := teamNode_lt ht q2 q4
    unfold gameCalls at hcx
    simp only [List.mem_cons, List.mem_singleton, List.not_mem_nil, or_false] at hcx
    rcases hcx with rfl | rfl | rfl
    · exact ⟨by show 0 < _; omega, by show x.1 < _; omega⟩
    · exact ⟨by show x.1 < _; omega, by show teamNode d t x.2.1 < _; omega⟩
    · exact ⟨by show x.1 < _; omega, by show teamNode d t x.2.2 < _; omega⟩
  · obtain ⟨i, hi, rfl⟩ := List.mem_map.mp h
    simp only [List.mem_filter, List.mem_range, decide_eq_true_eq] at hi
    have t1 := teamNode_lt ht hi.1 hi.2
    exact ⟨by show teamNode d t i < _; omega, by show networkSink d t < _; omega⟩

/-- C20. For `N >= 2` teams, a target `t < N` and any games matrix, the constructor uses
the ids `source = 0`, game nodes `1 … numGames`, team nodes
`teamNodeStart … teamNodeStart + N - 2` with `teamNodeStart = 1 + numGames`, and
`sink = totalNodes - 1`, where `totalNodes = 2 + numGames + (N - 1)`.  Replaying its
`addEdge` calls on the empty graph gives the graph it builds, and every call has both
indices below `totalNodes`.  The calls are: for the `k`-th pair `i < j` (both other than
`t`, with games left) in loop order, three calls with game node `1 + k`; then one call
per team `i != t`.  `adjustedTeamNode` maps the teams other than `t` one-to-one onto the
team nodes, and the four kinds of ids partition `0 … totalNodes - 1`. -/
theorem constructor_node_layout (d : Division) (t : Nat) (hN : 2 ≤ d.numTeams)
    (ht : t < d.numTeams) :
    ((FlowNetwork.create d t).source = 0 ∧
      (FlowNetwork.create d t).gameNodeStart = 1 ∧
      (FlowNetwork.create d t).numGames = (gameList d t).length ∧
      (FlowNetwork.create d t).teamNodeStart = 1 + (FlowNetwork.create d t).numGames ∧
      (FlowNetwork.create d t).graph.numVertices
        = 2 + (FlowNetwork.create d t).numGames + (d.numTeams - 1) ∧
      (FlowNetwork.create d t).sink = (FlowNetwork.create d t).graph.numVertices - 1 ∧
      (FlowNetwork.create d t).graph.numVertices = networkSize d t ∧
      (FlowNetwork.create d t).sink = networkSink d t ∧
      ∀ i, adjustedTeamNode (FlowNetwork.create d t).teamNodeStart
        (FlowNetwork.create d t).teamIndex i = teamNode d t i) ∧
    (replayCalls (FlowNetwork.edgeCalls d t)
        (Graph.create (FlowNetwork.create d t).graph.numVertices)
        = (FlowNetwork.create d t).graph ∧
      (∀ c ∈ FlowNetwork.edgeCalls d t,
        c.src < (FlowNetwork.create d t).graph.numVertices ∧
        c.dst < (FlowNetwork.create d t).graph.numVertices) ∧
      FlowNetwork.edgeCalls d t
        = ((gameList d t).enumFrom 1).flatMap (gameCalls d t)
          ++ ((List.range d.numTeams).filter fun i => decide (i ≠ t)).map (sinkCall d t)) ∧
    ((gameList d t).Pairwise pairBefore ∧
      ∀ p : Nat × Nat, p ∈ gameList d t ↔
        p.1 < p.2 ∧ p.2 < d.numTeams ∧ p.1 ≠ t ∧ p.2 ≠ t ∧
          d.gamesAgainstMatrix p.1 p.2 > 0) ∧
    ((∀ i, i < d.numTeams → i ≠ t →
        1 + (gameList d t).length ≤ teamNode d t i ∧
        teamNode d t i ≤ 1 + (gameList d t).length + (d.numTeams - 2)) ∧
      (∀ i j, i ≠ t → j ≠ t → teamNode d t i = teamNode d t j → i = j) ∧
      ∀ m, 1 + (gameList d t).length ≤ m → m ≤ 1 + (gameList d t).length + (d.numTeams - 2) →
        ∃ i, i < d.numTeams ∧ i ≠ t ∧ teamNode d t i = m) ∧
    ((∀ v, v < networkSize d t →
        v = 0 ∨ (1 ≤ v ∧ v ≤ (gameList d t).length) ∨
        (1 + (gameList d t).length ≤ v ∧ v ≤ 1 + (gameList d t).length + (d.numTeams - 2)) ∨
        v = networkSink d t) ∧
      1 + (gameList d t).length + (d.numTeams - 2) < networkSink d t ∧
      networkSink d t < networkSize d t) := by
  obtain ⟨hn, -, hsrc, hsink, hstart, hidx, -, -⟩ := create_graph d t (by omega)
  have hG : (FlowNetwork.create d t).numGames = (gameList d t).length := countGames_eq d t
  have hsz : networkSize d t = (gameList d t).length + d.numTeams + 1 := rfl
  have hsk : networkSink d t = (gameList d t).length + d.numTeams := rfl
  refine ⟨⟨hsrc, rfl, hG, by rw [hstart, hG], by rw [hn, hG]; omega, by rw [hsink, hn]; omega,
    by rw [hn, hsz], by rw [hsink, hsk], fun i => by rw [hstart, hidx]; rfl⟩,
    ⟨edgeCalls_replay d t, ?_, edgeCalls_eq d t (by omega)⟩,
    ⟨gameList_pairwise d t, fun p => mem_gameList⟩, ⟨?_, ?_, ?_⟩, ⟨?_, by omega, by omega⟩⟩
  · intro c hc
    rw [hn, ← hsz]
    exact edgeCalls_inBounds d t hN ht c hc
  · intro i hi hit
    have h1 := teamNode_ge (d := d) hit
    have h2 := teamNode_lt ht hi hit
    omega
  · intro i j hi hj h
    exact teamNode_inj hi hj h
  · intro m h1 h2
    refine ⟨teamOfNode t (m - (1 + (gameList d t).length)), teamOfNode_lt (by omega),
      teamOfNode_ne _ _, ?_⟩
    unfold teamNode
    rw [adjustedTeamNode_teamOfNode]
    omega
  · intro v hv
    omega

set_option maxRecDepth 100000 in
theorem constructor_node_layout_witness :
    ((FlowNetwork.create classicDivision 1).source = 0 ∧
      (FlowNetwork.create classicDivision 1).gameNodeStart = 1 ∧
      (FlowNetwork.create classicDivision 1).numGames = (gameList classicDivision 1).length ∧
      (FlowNetwork.create classicDivision 1).teamNodeStart
        = 1 + (FlowNetwork.create classicDivision 1).numGames ∧
      (FlowNetwork.create classicDivision 1).graph.numVertices
        = 2 + (FlowNetwork.create classicDivision 1).numGames
          + (classicDivision.numTeams - 1) ∧
      (FlowNetwork.create classicDivision 1).sink
        = (FlowNetwork.create classicDivision 1).graph.numVertices - 1 ∧
      (FlowNetwork.create classicDivision 1).graph.numVertices
        = networkSize classicDivision 1 ∧
      (FlowNetwork.create classicDivision 1).sink = networkSink classicDivision 1 ∧
      ∀ i, adjustedTeamNode (FlowNetwork.create classicDivision 1).teamNodeStart
        (FlowNetwork.create classicDivision 1).teamIndex i = teamNode classicDivision 1 i) ∧
    (replayCalls (FlowNetwork.edgeCalls classicDivision 1)
        (Graph.create (FlowNetwork.create classicDivision 1).graph.numVertices)
        = (FlowNetwork.create classicDivision 1).graph ∧
      (∀ c ∈ FlowNetwork.edgeCalls classicDivision 1,
        c.src < (FlowNetwork.create classicDivision 1).graph.numVertices ∧
        c.dst < (FlowNetwork.create classicDivision 1).graph.numVertices) ∧
      FlowNetwork.edgeCalls classicDivision 1
        = ((gameList classicDivision 1).enumFrom 1).flatMap (gameCalls classicDivision 1)
          ++ ((List.range classicDivision.numTeams).filter fun i => decide (i ≠ 1)).map
              (sinkCall classicDivision 1)) ∧
    ((gameList classicDivision 1).Pairwise pairBefore ∧
      ∀ p : Nat × Nat, p ∈ gameList classicDivision 1 ↔
        p.1 < p.2 ∧ p.2 < classicDivision.numTeams ∧ p.1 ≠ 1 ∧ p.2 ≠ 1 ∧
          classicDivision.gamesAgainstMatrix p.1 p.2 > 0) ∧
    ((∀ i, i < classicDivision.numTeams → i ≠ 1 →
        1 + (gameList classicDivision 1).length ≤ teamNode classicDivision 1 i ∧
        teamNode classicDivision 1 i
          ≤ 1 + (gameList classicDivision 1).length + (classicDivision.numTeams - 2)) ∧
      (∀ i j, i ≠ 1 → j ≠ 1 →
        teamNode classicDivision 1 i = teamNode classicDivision 1 j → i = j) ∧
      ∀ m, 1 + (gameList classicDivision 1).length ≤ m →
        m ≤ 1 + (gameList classicDivision 1).length + (classicDivision.numTeams - 2) →
        ∃ i, i < classicDivision.numTeams ∧ i ≠ 1 ∧ teamNode classicDivision 1 i = m) ∧
    ((∀ v, v < networkSize classicDivision 1 →
        v = 0 ∨ (1 ≤ v ∧ v ≤ (gameList classicDivision 1).length) ∨
        (1 + (gameList classicDivision 1).length ≤ v ∧
          v ≤ 1 + (gameList classicDivision 1).length + (classicDivision.numTeams - 2)) ∨
        v = networkSink classicDivision 1) ∧
      1 + (gameList classicDivision 1).length + (classicDivision.numTeams - 2)
        < networkSink classicDivision 1 ∧
      networkSink classicDivision 1 < networkSize classicDivision 1) :=
  constructor_node_layout classicDivision 1 (by decide) (by decide)

theorem bfsTree_chain_length {source : Nat} {parent : Nat → Int} {dist : Nat → Nat}
    (ht : BfsTree source parent dist) {v : Nat} {l : List Nat}
    (h : ParentChain parent source v l) : parent v ≠ -1 → l.length = dist v + 1 := by
  induction h with
  | base => intro _; rw [ht.2.1]; rfl
  | @step v u l hv hu hl _ ih =>
    intro hvis
    obtain ⟨u', hu', hvu', hd⟩ := ht.2.2 v hvis hv
    have huu : u' = u := by
      rw [hu] at hu'
      exact (Int.ofNat_inj.mp hu').symm
    subst huu
    rw [List.length_cons, ih hvu', hd]

theorem scanInv_walk {residual : Nat → Nat → Int} {n source : Nat} {parent : Nat → Int}
    {dist : Nat → Nat} {current : Nat} {q : List Nat}
    (hinv : ScanInv residual n source parent dist current q) {w m : Nat}
    (h : ResidualWalk residual n source w m) :
    m ≤ dist current → parent w ≠ -1 ∧ dist w ≤ m := by
  induction h with
  | start =>
    intro _
    exact ⟨by rw [hinv.tree.1]; decide, by rw [hinv.tree.2.1]⟩
  | @step u w m _ hw hpos ih =>
    intro hm
    obtain ⟨hu, hdu⟩ := ih (by omega)
    rcases hinv.closed u hu with h | h | h
    · rw [h] at hdu; omega
    · have := (hinv.band u h).2.1; omega
    · obtain ⟨h1, h2⟩ := h w hw hpos
      exact ⟨h1, by omega⟩

theorem scanInv_setAt {residual : Nat → Nat → Int} {n source : Nat} {parent : Nat → Int}
    {dist : Nat → Nat} {current : Nat} {q : List Nat}
    (hinv : ScanInv residual n source parent dist current q) {next : Nat}
    (hp : parent next = -1) :
    ScanInv residual n source (setAt parent next (current : Int))
      (setAt dist next (dist current + 1)) current (q ++ [next]) := by
  have hne : ∀ v, parent v ≠ -1 → v ≠ next := fun v hv h => hv (h ▸ hp)
  have hpar : ∀ v, parent v ≠ -1 → setAt parent next (current : Int) v = parent v :=
    fun v hv => setAt_other _ _ _ (hne v hv)
  have hdist : ∀ v, parent v ≠ -1 → setAt dist next (dist current + 1) v = dist v :=
    fun v hv => setAt_other _ _ _ (hne v hv)
  have hvis : ∀ v, setAt parent next (current : Int) v ≠ -1 → v = next ∨ parent v ≠ -1 := by
    intro v hv
    by_cases h : v = next
    · exact Or.inl h
    · rw [setAt_other _ _ _ h] at hv; exact Or.inr hv
  have hvis' : ∀ v, parent v ≠ -1 → setAt parent next (current : Int) v ≠ -1 :=
    fun v hv => by rw [hpar v hv]; exact hv
  have hsrc : parent source ≠ -1 := by rw [hinv.tree.1]; decide
  have hnext : setAt parent next (current : Int) next ≠ -1 := by
    rw [setAt_same]; omega
  refine ⟨⟨?_, ?_, ?_⟩, hvis' _ hinv.cur, ?_, ?_, ?_, ?_⟩
  · rw [hpar source hsrc]; exact hinv.tree.1
  · rw [hdist source hsrc]; exact hinv.tree.2.1
  · intro v hv hvs
    rcases hvis v hv with h | h
    · subst h
      refine ⟨current, setAt_same _ _ _, hvis' _ hinv.cur, ?_⟩
      rw [setAt_same, hdist current hinv.cur]
    · obtain ⟨u, h1, h2, h3⟩ := hinv.tree.2.2 v h hvs
      exact ⟨u, by rw [hpar v h]; exact h1, hvis' u h2, by rw [hdist v h, hdist u h2]; exact h3⟩
  · rw [List.pairwise_append]
    refine ⟨?_, List.pairwise_singleton _ _, ?_⟩
    · refine List.Pairwise.imp_of_mem ?_ hinv.sorted
      intro a b ha hb hab
      rw [hdist a (hinv.band a ha).1, hdist b (hinv.band b hb).1]
      exact hab
    · intro a ha b hb
      rw [List.mem_singleton] at hb
      subst hb
      rw [setAt_same, hdist a (hinv.band a ha).1]
      exact (hinv.band a ha).2.2
  · intro x hx
    rw [hdist current hinv.cur]
    rcases List.mem_append.mp hx with h | h
    · obtain ⟨h1, h2, h3⟩ := hinv.band x h
      rw [hdist x h1]
      exact ⟨hvis' x h1, h2, h3⟩
    · rw [List.mem_singleton] at h
      subst h
      simp only [setAt_same]
      exact ⟨by omega, by omega, le_refl _⟩
  · intro v hv
    rcases hvis v hv with h | h
    · right; left
      rw [h]; exact List.mem_append_right _ (List.mem_singleton_self _)
    · rcases hinv.closed v h with h1 | h1 | h1
      · exact Or.inl h1
      · right; left; exact List.mem_append_left _ h1
      · right; right
        intro w hw hpos
        obtain ⟨g1, g2⟩ := h1 w hw hpos
        rw [hdist w g1, hdist v h]
        exact ⟨hvis' w g1, g2⟩
  · intro v hv hvq
    rcases hvis v hv with h | h
    · exfalso
      exact hvq (h ▸ List.mem_append_right _ (List.mem_singleton_self _))
    · rw [hdist v h, hdist current hinv.cur]
      exact hinv.low v h (fun hq => hvq (List.mem_append_left _ hq))

theorem bfsScan_layers {residual : Nat → Nat → Int} {n source sink current : Nat} :
    ∀ (rest : List Nat) (parent : Nat → Int) (dist : Nat → Nat) (q : List Nat) (b : Bool)
      (parent' : Nat → Int) (q' : List Nat),
    ScanInv residual n source parent dist current q → parent sink = -1 →
    bfsScan residual sink current rest parent q = (b, parent', q') →
    ∃ dist', (∀ x, parent x ≠ -1 → parent' x ≠ -1) ∧
      (b = true → BfsTree source parent' dist' ∧
        ∀ m, ResidualWalk residual n source sink m → dist' sink ≤ m) ∧
      (b = false → ScanInv residual n source parent' dist' current q' ∧ parent' sink = -1 ∧
        ∀ x ∈ rest, residual current x > 0 → parent' x ≠ -1) := by
  intro rest
  induction rest with
  | nil =>
    intro parent dist q b parent' q' hinv hsink h
    simp only [bfsScan, Prod.mk.injEq] at h
    obtain ⟨hb, hp, hq⟩ := h
    subst hb hp hq
    exact ⟨dist, fun _ hx => hx, (fun h => by cases h),
      fun _ => ⟨hinv, hsink, (fun x hx => by cases hx)⟩⟩
  | cons next rest ih =>
    intro parent dist q b parent' q' hinv hsink h
    simp only [bfsScan] at h
    by_cases hc : parent next = -1 ∧ residual current next > 0
    · rw [if_pos hc] at h
      have hinv1 := scanInv_setAt hinv hc.1
      have hmono1 : ∀ x, parent x ≠ -1 → setAt parent next (current : Int) x ≠ -1 := by
        intro x hx
        have : x ≠ next := fun e => hx (e ▸ hc.1)
        rw [setAt_other _ _ _ this]; exact hx
      by_cases hs : next = sink
      · rw [if_pos hs] at h
        simp only [Prod.mk.injEq] at h
        obtain ⟨hb, hp, -⟩ := h
        subst hb hp
        refine ⟨setAt dist next (dist current + 1), hmono1, fun _ => ⟨hinv1.tree, ?_⟩,
          (fun h => by cases h)⟩
        intro m hw
        rw [hs, setAt_same]
        by_contra hlt
        have := (scanInv_walk hinv hw (by omega)).1
        exact this hsink
      · rw [if_neg hs] at h
        have hsink1 : setAt parent next (current : Int) sink = -1 := by
          rw [setAt_other _ _ _ (Ne.symm hs)]; exact hsink
        obtain ⟨dist', hm, ht, hf⟩ := ih _ _ _ b parent' q' hinv1 hsink1 h
        refine ⟨dist', fun x hx => hm x (hmono1 x hx), ht, fun hb => ?_⟩
        obtain ⟨f1, f2, f3⟩ := hf hb
        refine ⟨f1, f2, fun x hx hpos => ?_⟩
        rcases List.mem_cons.mp hx with e | e
        · subst e
          apply hm
          rw [setAt_same]; omega
        · exact f3 x e hpos
    · rw [if_neg hc] at h
      obtain ⟨dist', hm, ht, hf⟩ := ih _ _ _ b parent' q' hinv hsink h
      refine ⟨dist', hm, ht, fun hb => ?_⟩
      obtain ⟨f1, f2, f3⟩ := hf hb
      refine ⟨f1, f2, fun x hx hpos => ?_⟩
      rcases List.mem_cons.mp hx with e | e
      · subst e
        apply hm
        intro hp
        exact hc ⟨hp, hpos⟩
      · exact f3 x e hpos

theorem scanInv_of_loopInv {residual : Nat → Nat → Int} {n source : Nat}
    {parent : Nat → Int} {dist : Nat → Nat} {current : Nat} {q : List Nat}
    (h : LoopInv residual n source parent dist (current :: q)) :
    ScanInv residual n source parent dist current q := by
  have hs := List.pairwise_cons.mp h.sorted
  refine ⟨h.tree, h.vis current (List.mem_cons_self _ _), hs.2, ?_, ?_, ?_⟩
  · intro x hx
    exact ⟨h.vis x (List.mem_cons_of_mem _ hx), hs.1 x hx,
      h.band current (List.mem_cons_self _ _) x (List.mem_cons_of_mem _ hx)⟩
  · intro v hv
    rcases h.closed v hv with h1 | h1
    · rcases List.mem_cons.mp h1 with e | e
      · exact Or.inl e
      · exact Or.inr (Or.inl e)
    · exact Or.inr (Or.inr h1)
  · intro v hv hvq
    by_cases e : v = current
    · rw [e]
    · refine h.low v hv ?_ current (List.mem_cons_self _ _)
      intro hm
      rcases List.mem_cons.mp hm with e' | e'
      · exact e e'
      · exact hvq e'

theorem loopInv_of_scanInv {residual : Nat → Nat → Int} {n source : Nat}
    {parent : Nat → Int} {dist : Nat → Nat} {current : Nat} {q : List Nat}
    (h : ScanInv residual n source parent dist current q)
    (hcl : ∀ x ∈ List.range n, residual current x > 0 → parent x ≠ -1) :
    LoopInv residual n source parent dist q := by
  refine ⟨h.tree, h.sorted, fun x hx => (h.band x hx).1, ?_, ?_, ?_⟩
  · intro a ha b hb
    have h1 := (h.band a ha).2.1
    have h2 := (h.band b hb).2.2
    omega
  · intro v hv
    rcases h.closed v hv with h1 | h1 | h1
    · right
      rw [h1]
      intro w hw hpos
      have hw' := hcl w (List.mem_range.mpr hw) hpos
      refine ⟨hw', ?_⟩
      by_cases hq : w ∈ q
      · exact (h.band w hq).2.2
      · have := h.low w hw' hq
        omega
    · exact Or.inl h1
    · exact Or.inr h1
  · intro v hv hvq x hx
    have h1 := h.low v hv hvq
    have h2 := (h.band x hx).2.1
    omega

theorem bfsLoop_layers {residual : Nat → Nat → Int} {n source sink : Nat} :
    ∀ (fuel : Nat) (parent : Nat → Int) (dist : Nat → Nat) (q : List Nat)
      (parent' : Nat → Int),
    LoopInv residual n source parent dist q → parent sink = -1 →
    bfsLoop residual n sink fuel parent q = some (true, parent') →
    ∃ dist', BfsTree source parent' dist' ∧
      ∀ m, ResidualWalk residual n source sink m → dist' sink ≤ m := by
  intro fuel
  induction fuel with
  | zero => intro _ _ _ _ _ _ h; cases h
  | succ fuel ih =>
    intro parent dist q parent' hinv hsink h
    cases q with
    | nil =>
      simp only [bfsLoop, Option.some.injEq, Prod.mk.injEq] at h
      exact absurd h.1 (by decide)
    | cons current q =>
      simp only [bfsLoop] at h
      cases hsc : bfsScan residual sink current (List.range n) parent q with
      | mk b rest =>
        obtain ⟨parent1, q1⟩ := rest
        rw [hsc] at h
        obtain ⟨dist1, -, ht, hf⟩ := bfsScan_layers _ _ _ _ _ _ _
          (scanInv_of_loopInv hinv) hsink hsc
        cases b with
        | true =>
          simp only [Option.some.injEq, Prod.mk.injEq, true_and] at h
          subst h
          exact ⟨dist1, ht rfl⟩
        | false =>
          simp only at h
          obtain ⟨f1, f2, f3⟩ := hf rfl
          exact ih parent1 dist1 q1 parent' (loopInv_of_scanInv f1 f3) f2 h

theorem walk_of_path {residual : Nat → Nat → Int} {n source : Nat} :
    ∀ (p : List Nat) (u m last : Nat), ResidualWalk residual n source u m →
    p.head? = some u → p.getLast? = some last → (∀ x ∈ p, x < n) →
    p.Chain' (fun a b => residual a b > 0) →
    ResidualWalk residual n source last (m + p.length - 1) := by
  intro p
  induction p with
  | nil => intro _ _ _ _ h; cases h
  | cons a rest ih =>
    intro u m last hw hh hl hlt hch
    simp only [List.head?_cons, Option.some.injEq] at hh
    subst hh
    cases rest with
    | nil =>
      simp only [List.getLast?_singleton, Option.some.injEq] at hl
      subst hl
      simpa using hw
    | cons b rest' =>
      rw [List.getLast?_cons_cons] at hl
      obtain ⟨hab, hch'⟩ := List.chain'_cons.mp hch
      have hb : b < n := hlt b (List.mem_cons_of_mem _ (List.mem_cons_self _ _))
      have := ih b (m + 1) last (ResidualWalk.step hw hb hab) rfl hl
        (fun x hx => hlt x (List.mem_cons_of_mem _ hx)) hch'
      have he : m + 1 + (b :: rest').length - 1 = m + (a :: b :: rest').length - 1 := by
        simp only [List.length_cons]; omega
      rw [he] at this
      exact this

theorem loopInv_init (residual : Nat → Nat → Int) (n source : Nat) :
    LoopInv residual n source (setAt (fun _ => (-1 : Int)) source (-2)) (fun _ => 0)
      [source] := by
  have hvis : ∀ v, setAt (fun _ => (-1 : Int)) source (-2) v ≠ -1 → v = source := by
    intro v hv
    by_contra hne
    exact hv (setAt_other _ _ _ hne)
  refine ⟨⟨setAt_same _ _ _, rfl, fun v hv hne => absurd (hvis v hv) hne⟩,
    List.pairwise_singleton _ _, ?_, fun _ _ _ _ => Nat.zero_le _, ?_, ?_⟩
  · intro x hx
    rw [List.mem_singleton.mp hx, setAt_same]
    decide
  · intro v hv
    exact Or.inl (by rw [hvis v hv]; exact List.mem_singleton_self _)
  · intro v hv hvq
    exact absurd (by rw [hvis v hv]; exact List.mem_singleton_self _) hvq

/-- C17. For every residual matrix and every `source != sink` with `source` in range,
`bfs()` returns, and whenever it returns true the path recorded in the parent map (from
the sink back to the source, every edge of positive residual capacity) has the fewest
edges among all source-to-sink paths in the graph whose edges all have positive residual
capacity: its list of vertices is no longer than that of any such path, and no walk of
`m` such edges from the source reaches the sink with `m + 1` below its length. -/
theorem bfs_shortest_path (residual : Nat → Nat → Int) (n source sink : Nat)
    (hs : source < n) (hne : source ≠ sink) :
    ∃ b parent, bfs residual n source sink = some (b, parent) ∧
      (b = true → ∃ l, ParentChain parent source sink l ∧
        l.head? = some sink ∧ l.getLast? = some source ∧ (∀ x ∈ l, x < n) ∧
        (∀ e ∈ pathEdges l, residual e.1 e.2 > 0) ∧
        (∀ p, IsResidualPath residual n source sink p → l.length ≤ p.length) ∧
        ∀ m, ResidualWalk residual n source sink m → l.length ≤ m + 1) := by
  obtain ⟨b, parent, hbfs, hinv, htrue, -⟩ := @bfs_spec residual n source sink hs
  refine ⟨b, parent, hbfs, fun hb => ?_⟩
  subst hb
  obtain ⟨l, hl, hlx, hle⟩ := hinv.2.2 sink (htrue rfl).1
  have hsink0 : setAt (fun _ => (-1 : Int)) source (-2) sink = -1 :=
    setAt_other _ _ _ (Ne.symm hne)
  obtain ⟨dist, htree, hwalk⟩ := bfsLoop_layers (n + 1) _ _ _ parent
    (loopInv_init residual n source) hsink0 hbfs
  have hlen := bfsTree_chain_length htree hl (htrue rfl).1
  have hw : ∀ m, ResidualWalk residual n source sink m → l.length ≤ m + 1 := by
    intro m hm
    have := hwalk m hm
    omega
  refine ⟨l, hl, ?_, parentChain_getLast hl, fun x hx => (hlx x hx).1, hle, ?_, hw⟩
  · obtain ⟨t, rfl⟩ := parentChain_head hl; rfl
  · intro p hp
    obtain ⟨h1, h2, h3, h4⟩ := hp
    have hwp := walk_of_path p source 0 sink ResidualWalk.start h1 h2 h3 h4
    have hpos : 0 < p.length := by
      cases p with
      | nil => cases h1
      | cons _ _ => simp
    have := hw _ hwp
    omega

theorem bfs_shortest_path_witness :
    ∃ b parent, bfs smallGraph.capacityMatrix 3 0 2 = some (b, parent) ∧
      (b = true → ∃ l, ParentChain parent 0 2 l ∧
        l.head? = some 2 ∧ l.getLast? = some 0 ∧ (∀ x ∈ l, x < 3) ∧
        (∀ e ∈ pathEdges l, smallGraph.capacityMatrix e.1 e.2 > 0) ∧
        (∀ p, IsResidualPath smallGraph.capacityMatrix 3 0 2 p → l.length ≤ p.length) ∧
        ∀ m, ResidualWalk smallGraph.capacityMatrix 3 0 2 m → l.length ≤ m + 1) :=
  bfs_shortest_path smallGraph.capacityMatrix 3 0 2 (by decide) (by decide)

/-- C21. For valid records and a target `t`, the value `totalGames` that `isEliminated()`
compares the maximum flow against (the wrapped sum of the source row of the capacity
matrix of the built graph) is the sum of `gamesAgainst[i][j]` over the pairs `i < j`
with `i != t` and `j != t`; `isEliminated()` returns whether the flow is below it. -/
theorem totalGames_eq_gamesAmong (d : Division) (hv : ValidRecords d) (t fuel : Nat) :
    sourceRowTotal (FlowNetwork.create d t).graph (FlowNetwork.create d t).source
      = (∑ i ∈ Finset.range d.numTeams, ∑ j ∈ Finset.range d.numTeams,
          if i < j ∧ i ≠ t ∧ j ≠ t then d.gamesAgainstMatrix i j else 0) ∧
    (FlowNetwork.create d t).isEliminated fuel
      = (getMaxFlow fuel (FlowNetwork.create d t).graph (FlowNetwork.create d t).source
          (FlowNetwork.create d t).sink).map
        fun p => decide (p.1 < ∑ i ∈ Finset.range d.numTeams, ∑ j ∈ Finset.range d.numTeams,
          if i < j ∧ i ≠ t ∧ j ≠ t then d.gamesAgainstMatrix i j else 0) := by
  have hN : 1 ≤ d.numTeams := by have := hv.two_teams; omega
  obtain ⟨-, -, hsrc, -⟩ := create_graph d t hN
  have htot : sourceRowTotal (FlowNetwork.create d t).graph (FlowNetwork.create d t).source
      = gamesAmong d t := by
    rw [create_graph_eq d t hN, hsrc, sourceRowTotal_network d hv t]
  refine ⟨htot, ?_⟩
  cases hrun : getMaxFlow fuel (FlowNetwork.create d t).graph (FlowNetwork.create d t).source
      (FlowNetwork.create d t).sink with
  | none =>
    unfold FlowNetwork.isEliminated
    rw [hrun]
    rfl
  | some p =>
    obtain ⟨v, residual⟩ := p
    rw [isEliminated_eq hv hrun]
    rfl

set_option maxRecDepth 100000 in
theorem totalGames_eq_gamesAmong_witness :
    sourceRowTotal (FlowNetwork.create classicDivision 1).graph
        (FlowNetwork.create classicDivision 1).source
      = (∑ i ∈ Finset.range classicDivision.numTeams,
          ∑ j ∈ Finset.range classicDivision.numTeams,
          if i < j ∧ i ≠ 1 ∧ j ≠ 1 then classicDivision.gamesAgainstMatrix i j else 0) ∧
    (FlowNetwork.create classicDivision 1).isEliminated 10
      = (getMaxFlow 10 (FlowNetwork.create classicDivision 1).graph
          (FlowNetwork.create classicDivision 1).source
          (FlowNetwork.create classicDivision 1).sink).map
        fun p => decide (p.1 < ∑ i ∈ Finset.range classicDivision.numTeams,
          ∑ j ∈ Finset.range classicDivision.numTeams,
          if i < j ∧ i ≠ 1 ∧ j ≠ 1 then classicDivision.gamesAgainstMatrix i j else 0) :=
  totalGames_eq_gamesAmong classicDivision classicDivision_valid 1 10

/-- C22. For valid records and a target `t` in range, `getEliminationCertificate()`
returns the names of exactly the teams `i != t` whose team node `adjustedTeamNode(i)` is
reachable from the source along edges of positive capacity in the final residual graph,
each once, in ascending team index; the name of the target is not among them, no
listed team has the sink as its node, and the sink itself is not reachable. -/
theorem certificate_reachable_teams (d : Division) (hv : ValidRecords d) (t : Nat)
    (ht : t < d.numTeams) (fuel : Nat) (hfuel : (gamesAmong d t).toNat < fuel) :
    ∃ (v : Int) (residual : Nat → Nat → Int) (R : List Nat),
      getMaxFlow fuel (FlowNetwork.create d t).graph (FlowNetwork.create d t).source
        (FlowNetwork.create d t).sink = some (v, residual) ∧
      (FlowNetwork.create d t).getEliminationCertificate fuel = some (R.map d.teamNames) ∧
      R.Pairwise (fun i j => i < j) ∧ (R.map d.teamNames).Nodup ∧
      (∀ i, i ∈ R ↔ i < d.numTeams ∧ i ≠ t ∧
        ResidualReach residual (FlowNetwork.create d t).graph.numVertices
          (FlowNetwork.create d t).source
          (adjustedTeamNode (FlowNetwork.create d t).teamNodeStart
            (FlowNetwork.create d t).teamIndex i)) ∧
      d.teamNames t ∉ R.map d.teamNames ∧
      (∀ i ∈ R, adjustedTeamNode (FlowNetwork.create d t).teamNodeStart
        (FlowNetwork.create d t).teamIndex i ≠ (FlowNetwork.create d t).sink) ∧
      ¬ ResidualReach residual (FlowNetwork.create d t).graph.numVertices
        (FlowNetwork.create d t).source (FlowNetwork.create d t).sink := by
  have hN : 1 ≤ d.numTeams := by omega
  obtain ⟨v, residual, visited, hrun, hreach, hvis, -, hcut, -⟩ :=
    network_run d hv t ht fuel hfuel
  obtain ⟨hnum, -, hsrc, hsink, hstart, hidx, -, hnames⟩ := create_graph d t hN
  have hsz : networkSize d t = (gameList d t).length + d.numTeams + 1 := rfl
  have hcert := certificateIndices_eq hv hrun hreach
  have hmem : ∀ i, i ∈ (List.range d.numTeams).filter (fun i =>
      decide (i ≠ t ∧ visited (teamNode d t i) = true)) ↔
      i < d.numTeams ∧ i ≠ t ∧ ResidualReach residual (networkSize d t) 0 (teamNode d t i) := by
    intro i
    simp only [List.mem_filter, List.mem_range, decide_eq_true_eq, hvis]
  refine ⟨v, residual, (List.range d.numTeams).filter (fun i =>
    decide (i ≠ t ∧ visited (teamNode d t i) = true)), hrun, ?_, ?_, ?_, ?_, ?_, ?_, ?_⟩
  · unfold FlowNetwork.getEliminationCertificate
    rw [hcert, hnames]
    rfl
  · exact List.Pairwise.filter _ (List.pairwise_lt_range _)
  · refine List.Nodup.map_on ?_ (List.Nodup.filter _ (List.nodup_range _))
    intro i hi j hj hij
    exact hv.names_unique i j ((hmem i).mp hi).1 ((hmem j).mp hj).1 hij
  · intro i
    rw [hnum, hsrc, hstart, hidx, ← hsz]
    exact hmem i
  · intro hmem'
    obtain ⟨i, hi, hij⟩ := List.mem_map.mp hmem'
    have h1 := (hmem i).mp hi
    exact h1.2.1 (hv.names_unique i t h1.1 ht hij)
  · intro i hi
    have h1 := (hmem i).mp hi
    rw [hstart, hidx, hsink]
    have := teamNode_lt ht h1.1 h1.2.1
    unfold networkSink teamNode at this
    omega
  · rw [hnum, hsrc, hsink, ← hsz]
    intro hr
    have := (hvis _).mpr hr
    apply hcut.2.2
    simp only [Finset.mem_filter, Finset.mem_range]
    exact ⟨networkSink_lt d t, this⟩

set_option maxRecDepth 100000 in
theorem certificate_reachable_teams_witness :
    ∃ (v : Int) (residual : Nat → Nat → Int) (R : List Nat),
      getMaxFlow 10 (FlowNetwork.create classicDivision 1).graph
        (FlowNetwork.create classicDivision 1).source
        (FlowNetwork.create classicDivision 1).sink = some (v, residual) ∧
      (FlowNetwork.create classicDivision 1).getEliminationCertificate 10
        = some (R.map classicDivision.teamNames) ∧
      R.Pairwise (fun i j => i < j) ∧ (R.map classicDivision.teamNames).Nodup ∧
      (∀ i, i ∈ R ↔ i < classicDivision.numTeams ∧ i ≠ 1 ∧
        ResidualReach residual (FlowNetwork.create classicDivision 1).graph.numVertices
          (FlowNetwork.create classicDivision 1).source
          (adjustedTeamNode (FlowNetwork.create classicDivision 1).teamNodeStart
            (FlowNetwork.create classicDivision 1).teamIndex i)) ∧
      classicDivision.teamNames 1 ∉ R.map classicDivision.teamNames ∧
      (∀ i ∈ R, adjustedTeamNode (FlowNetwork.create classicDivision 1).teamNodeStart
        (FlowNetwork.create classicDivision 1).teamIndex i
          ≠ (FlowNetwork.create classicDivision 1).sink) ∧
      ¬ ResidualReach residual (FlowNetwork.create classicDivision 1).graph.numVertices
        (FlowNetwork.create classicDivision 1).source
        (FlowNetwork.create classicDivision 1).sink :=
  certificate_reachable_teams classicDivision classicDivision_valid 1 (by decide) 10
    (by decide)

theorem linked_before (P : (Nat → Nat → Int) → Prop) :
    ∀ (rounds : List Augmentation) (residual : Nat → Nat → Int),
    Linked residual rounds → P residual → (∀ a ∈ rounds, P a.after) →
    ∀ a ∈ rounds, P a.before := by
  intro rounds
  induction rounds with
  | nil => intro _ _ _ _ a ha; cases ha
  | cons b rest ih =>
    intro residual hl hP hall a ha
    obtain ⟨hb, hrest⟩ := hl
    rcases List.mem_cons.mp ha with h | h
    · rw [h, hb]; exact hP
    · exact ih b.after hrest (hall b (List.mem_cons_self _ _))
        (fun c hc => hall c (List.mem_cons_of_mem _ hc)) a h

theorem chain_source_edge {parent : Nat → Int} {source v : Nat} {l : List Nat}
    (h : ParentChain parent source v l) :
    v ≠ source → ∃ g, (source, g) ∈ pathEdges l := by
  induction h with
  | base => intro h; exact absurd rfl h
  | @step v u l _ _ hl _ ih =>
    intro _
    obtain ⟨t, rfl⟩ := parentChain_head hl
    rw [pathEdges_cons_cons]
    by_cases hu : u = source
    · exact ⟨v, by rw [hu]; exact List.mem_cons_self _ _⟩
    · obtain ⟨g, hg⟩ := ih hu
      exact ⟨g, List.mem_cons_of_mem _ hg⟩

section Sentinel

variable {d : Division} {t : Nat} {residual : Nat → Nat → Int} {v : Int}

theorem source_edge_game (ht : t < d.numTeams)
    (hinv : ResidualInv (Graph.mk (networkSize d t) (networkCap d t)) 0 (networkSink d t)
      residual v)
    {g : Nat} (hg : g < networkSize d t) (hpos : 0 < residual 0 g) :
    ∃ k, k < (gameList d t).length ∧ g = 1 + k ∧
      residual 0 g ≤ d.gamesAgainstMatrix (gameAt d t k).1 (gameAt d t k).2 := by
  have h0 : 0 < networkSize d t := by unfold networkSize; omega
  have hp := hinv.pair 0 g h0 hg
  have hn := hinv.nonneg g 0 hg h0
  simp only at hp hn
  rw [networkCap_to_source d t g ht, networkCap_source] at hp
  by_cases hc : 1 ≤ g ∧ g < 1 + (gameList d t).length
  · rw [if_pos hc] at hp
    refine ⟨g - 1, by omega, by omega, ?_⟩
    omega
  · rw [if_neg hc] at hp
    omega

theorem residual_game_row (ht : t < d.numTeams)
    (hinv : ResidualInv (Graph.mk (networkSize d t) (networkCap d t)) 0 (networkSink d t)
      residual v)
    {k : Nat} (hk : k < (gameList d t).length) :
    2 * INT_MAX ≤ residual (1 + k) 0 + residual (1 + k) (teamNode d t (gameAt d t k).1)
      + residual (1 + k) (teamNode d t (gameAt d t k).2) := by
  have hg := gameAt_spec hk
  have hkn := gameNode_lt_size hk
  have hne0 : 1 + k ≠ 0 := by omega
  have hnes : 1 + k ≠ networkSink d t := by unfold networkSink; omega
  have hrow := hinv.conserve (1 + k) hkn hne0 hnes
  simp only at hrow
  rw [rowSum_networkCap_game d t ht hk] at hrow
  unfold rowSum at hrow
  rw [sum_vertices d t ht] at hrow
  have hnn := hinv.nonneg
  have hpair := hinv.pair
  simp only at hnn hpair
  have hia : (gameAt d t k).1 < d.numTeams := by omega
  have hta := teamNode_ge (d := d) hg.2.2.1
  have htb := teamNode_ge (d := d) hg.2.2.2.1
  have hta' := teamNode_lt ht hia hg.2.2.1
  have htb' := teamNode_lt ht hg.2.1 hg.2.2.2.1
  have hsinkcap : ∀ x, networkCap d t (networkSink d t) x = 0 := by
    intro x
    by_contra h
    have := (networkCap_pos_lt d t _ x ht h).2
    omega
  -- the entries towards the other game nodes vanish
  have h1 : ∑ k' ∈ Finset.range (gameList d t).length, residual (1 + k) (1 + k') = 0 := by
    apply Finset.sum_eq_zero
    intro k' hk'
    have hk'' := Finset.mem_range.mp hk'
    have hk'n := gameNode_lt_size hk''
    have hp := hpair (1 + k) (1 + k') hkn hk'n
    rw [networkCap_game d t k (1 + k') hk, networkCap_game d t k' (1 + k) hk''] at hp
    have hg' := gameAt_spec hk''
    have hta2 := teamNode_ge (d := d) hg'.2.2.1
    have htb2 := teamNode_ge (d := d) hg'.2.2.2.1
    rw [if_neg (by omega), if_neg (by omega)] at hp
    have := hnn (1 + k) (1 + k') hkn hk'n
    have := hnn (1 + k') (1 + k) hk'n hkn
    omega
  -- the entry towards the sink vanishes
  have h2 : residual (1 + k) (networkSink d t) = 0 := by
    have hp := hpair (1 + k) (networkSink d t) hkn (networkSink_lt d t)
    rw [networkCap_game d t k _ hk, hsinkcap, if_neg (by omega)] at hp
    have := hnn (1 + k) (networkSink d t) hkn (networkSink_lt d t)
    have := hnn (networkSink d t) (1 + k) (networkSink_lt d t) hkn
    omega
  -- among the team nodes only those of the two teams of the game count
  have hsubset : ({(gameAt d t k).1, (gameAt d t k).2} : Finset Nat)
      ⊆ (Finset.range d.numTeams).erase t := by
    intro i hi
    simp only [Finset.mem_insert, Finset.mem_singleton] at hi
    simp only [Finset.mem_erase, Finset.mem_range]
    rcases hi with rfl | rfl
    · exact ⟨hg.2.2.1, hia⟩
    · exact ⟨hg.2.2.2.1, hg.2.1⟩
  have h3 := Finset.sum_subset hsubset (f := fun i => residual (1 + k) (teamNode d t i))
    (by
      intro i hi hni
      simp only [Finset.mem_insert, Finset.mem_singleton, not_or] at hni
      have hi' := Finset.mem_erase.mp hi
      have hin := teamNode_lt_size ht (Finset.mem_range.mp hi'.2) hi'.1
      have hp := hpair (1 + k) (teamNode d t i) hkn hin
      rw [networkCap_game d t k _ hk, networkCap_team_game d t i k ht hi'.1 hk] at hp
      have hn1 : ¬ (teamNode d t i = teamNode d t (gameAt d t k).1 ∨
          teamNode d t i = teamNode d t (gameAt d t k).2) := by
        rintro (h | h)
        · exact hni.1 (teamNode_inj hi'.1 hg.2.2.1 h)
        · exact hni.2 (teamNode_inj hi'.1 hg.2.2.2.1 h)
      rw [if_neg hn1] at hp
      have := hnn (1 + k) (teamNode d t i) hkn hin
      have := hnn (teamNode d t i) (1 + k) hin hkn
      show residual (1 + k) (teamNode d t i) = 0
      omega)
  rw [Finset.sum_pair (by omega : (gameAt d t k).1 ≠ (gameAt d t k).2)] at h3
  simp only at h3
  rw [← h3, h1, h2] at hrow
  omega

theorem sentinel_residual_pos (hv : ValidRecords d) (ht : t < d.numTeams)
    (hinv : ResidualInv (Graph.mk (networkSize d t) (networkCap d t)) 0 (networkSink d t)
      residual v)
    {k : Nat} (hk : k < (gameList d t).length) :
    0 < residual (1 + k) (teamNode d t (gameAt d t k).1) ∧
    0 < residual (1 + k) (teamNode d t (gameAt d t k).2) := by
  have hg := gameAt_spec hk
  have hkn := gameNode_lt_size hk
  have hrow := residual_game_row ht hinv hk
  have p := residual_game_team ht hinv hk
  have q := residual_source_game ht hinv hk
  have hnn := hinv.nonneg
  simp only at hnn
  have h0 : 0 < networkSize d t := by unfold networkSize; omega
  have hia : (gameAt d t k).1 < d.numTeams := by omega
  have n1 := hnn 0 (1 + k) h0 hkn
  have n2 := hnn _ _ (teamNode_lt_size ht hia hg.2.2.1) hkn
  have n3 := hnn _ _ (teamNode_lt_size ht hg.2.1 hg.2.2.2.1) hkn
  have hb1 := game_le_gamesAmong d hv t (gameAt_mem hk)
  have hb2 := gamesAmong_le_totalGames d hv t
  have hb3 := hv.games_bound
  have hIM : INT_MAX = 2147483647 := rfl
  constructor <;> omega

end Sentinel

theorem maxFlowTrace_residualInv (g : Graph) {source sink : Nat} (hs : source < g.numVertices)
    (hne : source ≠ sink) (hov : g.NoOverflow source) :
    ∀ (fuel : Nat) (residual : Nat → Nat → Int) (maxFlow : Int),
    ResidualInv g source sink residual maxFlow →
    (rowSum g.numVertices residual source).toNat < fuel →
    ∃ rounds, maxFlowTrace g.numVertices source sink fuel residual = some rounds ∧
      Linked residual rounds ∧
      ∀ a ∈ rounds, IsAugmentingStep g source sink a ∧
        ∃ total, ResidualInv g source sink a.after total := by
  intro fuel
  induction fuel with
  | zero => intro _ _ _ h; omega
  | succ fuel ih =>
    intro residual maxFlow hinv hfuel
    obtain ⟨b, parent, hbfs, hbinv, htrue, -⟩ :=
      @bfs_spec residual g.numVertices source sink hs
    simp only [maxFlowTrace, hbfs]
    cases b with
    | false => exact ⟨[], rfl, trivial, fun a ha => by cases ha⟩
    | true =>
      obtain ⟨hps, _⟩ := htrue rfl
      obtain ⟨l, hl, hlx, hle⟩ := hbinv.2.2 sink hps
      have hlen := parentChain_length_le hl (fun x hx => (hlx x hx).1)
      obtain ⟨pf, hb1, hb2, hb3, hb4⟩ := @bottleneck_spec residual parent source sink l hl
        g.numVertices INT_MAX (by omega)
      have hpos : 0 < pf := hb4 (by decide) hle
      have hbd : ∀ a b, a < g.numVertices → b < g.numVertices →
          residual a b + residual b a ≤ INT_MAX :=
        fun a b ha hb => by rw [hinv.pair a b ha hb]; exact hov.1 a b ha hb
      obtain ⟨r', ha1, ha2, ha3, ha4⟩ := augment_spec (n := g.numVertices) (le_of_lt hpos) hl
        g.numVertices residual (by omega) (fun x hx => (hlx x hx).1) hb3 hinv.nonneg hbd
      obtain ⟨r'', hx1, hx2⟩ := augment_exact (n := g.numVertices) (le_of_lt hpos) hl
        g.numVertices residual (by omega) (fun x hx => (hlx x hx).1) hb3 hinv.nonneg hbd
      rw [ha1] at hx1
      have hrr : r'' = r' := (Option.some.inj hx1).symm
      subst hrr
      have hsinkn : sink < g.numVertices := (hlx sink (by
        obtain ⟨t, rfl⟩ := parentChain_head hl; exact List.mem_cons_self _ _)).1
      have hrs := ha4 source hs
      have hrt := ha4 sink hsinkn
      simp only [hne, if_false, if_true, (Ne.symm hne)] at hrs hrt
      have hnn' := rowSum_nonneg hs ha2
      have hnn0 := rowSum_nonneg hs hinv.nonneg
      have hval := hinv.value
      have hvn := hinv.value_nonneg
      have hinv' : ResidualInv g source sink r'' (maxFlow + pf) := by
        refine ⟨ha2, fun u v hu hv => by rw [ha3, hinv.pair u v hu hv], ?_, ?_, ?_, by omega⟩
        · intro v hv h1 h2
          rw [ha4 v hv, hinv.conserve v hv h1 h2]
          simp [h1, h2]
        · omega
        · rw [hrt, hinv.sinkRow]; ring
      obtain ⟨rounds, hr1, hr2, hr3⟩ := ih r'' (maxFlow + pf) hinv' (by omega)
      simp only [hb1, ha1, hr1]
      refine ⟨_, rfl, ⟨rfl, hr2⟩, ?_⟩
      intro a ha
      rcases List.mem_cons.mp ha with h | h
      · rw [h]
        exact ⟨⟨l, hl, fun x hx => (hlx x hx).1, hb1, (by show 1 ≤ pf; omega), hb3, hx2⟩,
          maxFlow + pf, hinv'⟩
      · exact hr3 a h

theorem residual_le_intMax {g : Graph} {source sink : Nat} (hov : g.NoOverflow source)
    {residual : Nat → Nat → Int} {total : Int} (hinv : ResidualInv g source sink residual total)
    {i j : Nat} (hi : i < g.numVertices) (hj : j < g.numVertices) :
    0 ≤ residual i j ∧ residual i j ≤ INT_MAX := by
  have h1 := hinv.nonneg i j hi hj
  have h2 := hinv.nonneg j i hj hi
  have h3 := hinv.pair i j hi hj
  have h4 := hov.1 i j hi hj
  constructor <;> omega

/-- C23. For valid records (fewer than `INT_MAX` games remain in the division) and a
target `t` in range, the run of `getMaxFlow()` on the built network is a list of rounds
in which nothing wraps: before and after every round every residual entry lies in
`[0, INT_MAX]` and the round subtracts and adds its bottleneck exactly; the bottleneck
is at most the residual of the edge from the source to the game node with which the
path starts, hence at most the `gamesAgainst` entry of that game; and after every
round, and at termination, both edges from every game node to its team nodes keep a
strictly positive residual. -/
theorem sentinel_edges_never_bind (d : Division) (hv : ValidRecords d) (t : Nat)
    (ht : t < d.numTeams) (fuel : Nat) (hfuel : (gamesAmong d t).toNat < fuel) :
    ∃ rounds : List Augmentation,
      maxFlowTrace (FlowNetwork.create d t).graph.numVertices (FlowNetwork.create d t).source
        (FlowNetwork.create d t).sink fuel (FlowNetwork.create d t).graph.capacityMatrix
        = some rounds ∧
      getMaxFlow fuel (FlowNetwork.create d t).graph (FlowNetwork.create d t).source
        (FlowNetwork.create d t).sink
        = some (afterRounds rounds 0 (FlowNetwork.create d t).graph.capacityMatrix) ∧
      Linked (FlowNetwork.create d t).graph.capacityMatrix rounds ∧
      (∀ a ∈ rounds,
        IsAugmentingStep (FlowNetwork.create d t).graph (FlowNetwork.create d t).source
          (FlowNetwork.create d t).sink a ∧
        (∀ i j, i < (FlowNetwork.create d t).graph.numVertices →
          j < (FlowNetwork.create d t).graph.numVertices →
          (0 ≤ a.before i j ∧ a.before i j ≤ INT_MAX) ∧
          (0 ≤ a.after i j ∧ a.after i j ≤ INT_MAX)) ∧
        (∃ l k, ParentChain a.parent (FlowNetwork.create d t).source
            (FlowNetwork.create d t).sink l ∧
          k < (FlowNetwork.create d t).numGames ∧
          ((FlowNetwork.create d t).source, 1 + k) ∈ pathEdges l ∧
          a.pathFlow ≤ a.before (FlowNetwork.create d t).source (1 + k) ∧
          a.before (FlowNetwork.create d t).source (1 + k)
            ≤ d.gamesAgainstMatrix (gameAt d t k).1 (gameAt d t k).2) ∧
        (∀ k, k < (FlowNetwork.create d t).numGames →
          0 < a.after (1 + k) (adjustedTeamNode (FlowNetwork.create d t).teamNodeStart
            (FlowNetwork.create d t).teamIndex (gameAt d t k).1) ∧
          0 < a.after (1 + k) (adjustedTeamNode (FlowNetwork.create d t).teamNodeStart
            (FlowNetwork.create d t).teamIndex (gameAt d t k).2))) ∧
      (∀ i j, i < (FlowNetwork.create d t).graph.numVertices →
        j < (FlowNetwork.create d t).graph.numVertices →
        0 ≤ (afterRounds rounds 0 (FlowNetwork.create d t).graph.capacityMatrix).2 i j ∧
        (afterRounds rounds 0 (FlowNetwork.create d t).graph.capacityMatrix).2 i j
          ≤ INT_MAX) ∧
      (∀ k, k < (FlowNetwork.create d t).numGames →
        0 < (afterRounds rounds 0 (FlowNetwork.create d t).graph.capacityMatrix).2 (1 + k)
          (adjustedTeamNode (FlowNetwork.create d t).teamNodeStart
            (FlowNetwork.create d t).teamIndex (gameAt d t k).1) ∧
        0 < (afterRounds rounds 0 (FlowNetwork.create d t).graph.capacityMatrix).2 (1 + k)
          (adjustedTeamNode (FlowNetwork.create d t).teamNodeStart
            (FlowNetwork.create d t).teamIndex (gameAt d t k).2)) := by
  have hN : 1 ≤ d.numTeams := by omega
  obtain ⟨-, -, hsrc, hsink, hstart, hidx, -, -⟩ := create_graph d t hN
  have hG : (FlowNetwork.create d t).numGames = (gameList d t).length := countGames_eq d t
  have hgraph := create_graph_eq d t hN
  have hsk : networkSink d t = (gameList d t).length + d.numTeams := rfl
  rw [hgraph, hsrc, hsink, hG, hstart, hidx, ← hsk]
  have hnn := network_nonNeg d hv t
  have hov := network_noOverflow d hv t ht
  have h0 : 0 < networkSize d t := by unfold networkSize; omega
  have hne : (0 : Nat) ≠ networkSink d t := by unfold networkSink; omega
  have hfuel' : (rowSum (networkSize d t) (networkCap d t) 0).toNat < fuel := by
    rw [rowSum_networkCap_source d hv t]; exact hfuel
  obtain ⟨rounds, h1, h2, h3⟩ := maxFlowTrace_residualInv
    (Graph.mk (networkSize d t) (networkCap d t)) h0 hne hov fuel (networkCap d t) 0
    (residualInv_init _ 0 (networkSink d t) hnn) hfuel'
  have hbefore := linked_before
    (fun r => ∃ total, ResidualInv (Graph.mk (networkSize d t) (networkCap d t)) 0
      (networkSink d t) r total) rounds (networkCap d t) h2
    ⟨0, residualInv_init _ 0 (networkSink d t) hnn⟩ (fun a ha => (h3 a ha).2)
  have hfinal := linked_afterRounds rounds 0 (networkCap d t)
    (fun r => ∃ total, ResidualInv (Graph.mk (networkSize d t) (networkCap d t)) 0
      (networkSink d t) r total)
    ⟨0, residualInv_init _ 0 (networkSink d t) hnn⟩ (fun a ha => (h3 a ha).2)
  refine ⟨rounds, h1, ?_, h2, ?_, ?_, ?_⟩
  · unfold getMaxFlow
    rw [maxFlowLoop_eq_trace]
    show Option.map _ (maxFlowTrace (networkSize d t) 0 (networkSink d t) fuel
      (networkCap d t)) = _
    rw [h1]
    rfl
  · intro a ha
    obtain ⟨hstep, total, hinv⟩ := h3 a ha
    obtain ⟨total0, hinv0⟩ := hbefore a ha
    refine ⟨hstep, fun i j hi hj =>
      ⟨residual_le_intMax hov hinv0 hi hj, residual_le_intMax hov hinv hi hj⟩, ?_,
      fun k hk => sentinel_residual_pos hv ht hinv hk⟩
    obtain ⟨l, hl, hlx, -, hpf, hedge, -⟩ := hstep
    obtain ⟨g, hg⟩ := chain_source_edge hl (Ne.symm hne)
    have hgn : g < networkSize d t := hlx g (pathEdges_mem hg).2
    have hle := hedge (0, g) hg
    simp only at hle
    obtain ⟨k, hk, hgk, hgames⟩ := source_edge_game ht hinv0 hgn (by omega)
    subst hgk
    exact ⟨l, k, hl, hk, hg, hle, hgames⟩
  · intro i j hi hj
    obtain ⟨total, hinv⟩ := hfinal
    exact residual_le_intMax hov hinv hi hj
  · intro k hk
    obtain ⟨total, hinv⟩ := hfinal
    exact sentinel_residual_pos hv ht hinv hk

set_option maxRecDepth 100000 in
theorem sentinel_edges_never_bind_witness :
    ∃ rounds : List Augmentation,
      maxFlowTrace (FlowNetwork.create classicDivision 1).graph.numVertices (FlowNetwork.create
          classicDivision 1).source
        (FlowNetwork.create classicDivision 1).sink 10 (FlowNetwork.create classicDivision
            1).graph.capacityMatrix
        = some rounds ∧
      getMaxFlow 10 (FlowNetwork.create classicDivision 1).graph (FlowNetwork.create
          classicDivision 1).source
        (FlowNetwork.create classicDivision 1).sink
        = some (afterRounds rounds 0 (FlowNetwork.create classicDivision 1).graph.capacityMatrix)
            ∧
      Linked (FlowNetwork.create classicDivision 1).graph.capacityMatrix rounds ∧
      (∀ a ∈ rounds,
        IsAugmentingStep (FlowNetwork.create classicDivision 1).graph (FlowNetwork.create
            classicDivision 1).source
          (FlowNetwork.create classicDivision 1).sink a ∧
        (∀ i j, i < (FlowNetwork.create classicDivision 1).graph.numVertices →
          j < (FlowNetwork.create classicDivision 1).graph.numVertices →
          (0 ≤ a.before i j ∧ a.before i j ≤ INT_MAX) ∧
          (0 ≤ a.after i j ∧ a.after i j ≤ INT_MAX)) ∧
        (∃ l k, ParentChain a.parent (FlowNetwork.create classicDivision 1).source
            (FlowNetwork.create classicDivision 1).sink l ∧
          k < (FlowNetwork.create classicDivision 1).numGames ∧
          ((FlowNetwork.create classicDivision 1).source, 1 + k) ∈ pathEdges l ∧
          a.pathFlow ≤ a.before (FlowNetwork.create classicDivision 1).source (1 + k) ∧
          a.before (FlowNetwork.create classicDivision 1).source (1 + k)
            ≤ classicDivision.gamesAgainstMatrix (gameAt classicDivision 1 k).1 (gameAt
                classicDivision 1 k).2) ∧
        (∀ k, k < (FlowNetwork.create classicDivision 1).numGames →
          0 < a.after (1 + k) (adjustedTeamNode (FlowNetwork.create classicDivision
              1).teamNodeStart
            (FlowNetwork.create classicDivision 1).teamIndex (gameAt classicDivision 1 k).1) ∧
          0 < a.after (1 + k) (adjustedTeamNode (FlowNetwork.create classicDivision
              1).teamNodeStart
            (FlowNetwork.create classicDivision 1).teamIndex (gameAt classicDivision 1 k).2))) ∧
      (∀ i j, i < (FlowNetwork.create classicDivision 1).graph.numVertices →
        j < (FlowNetwork.create classicDivision 1).graph.numVertices →
        0 ≤ (afterRounds rounds 0 (FlowNetwork.create classicDivision 1).graph.capacityMatrix).2
            i j ∧
        (afterRounds rounds 0 (FlowNetwork.create classicDivision 1).graph.capacityMatrix).2 i j
          ≤ INT_MAX) ∧
      (∀ k, k < (FlowNetwork.create classicDivision 1).numGames →
        0 < (afterRounds rounds 0 (FlowNetwork.create classicDivision 1).graph.capacityMatrix).2
            (1 + k)
          (adjustedTeamNode (FlowNetwork.create classicDivision 1).teamNodeStart
            (FlowNetwork.create classicDivision 1).teamIndex (gameAt classicDivision 1 k).1) ∧
        0 < (afterRounds rounds 0 (FlowNetwork.create classicDivision 1).graph.capacityMatrix).2
            (1 + k)
          (adjustedTeamNode (FlowNetwork.create classicDivision 1).teamNodeStart
            (FlowNetwork.create classicDivision 1).teamIndex (gameAt classicDivision 1 k).2)) :=
  sentinel_edges_never_bind classicDivision classicDivision_valid 1 (by decide) 10 (by decide)

theorem reach_of_saturated {residual : Nat → Nat → Int} {n source : Nat}
    (hzero : ∀ j, j < n → residual source j ≤ 0) {x : Nat}
    (h : ResidualReach residual n source x) : x = source := by
  induction h with
  | start => rfl
  | @step u w _ hw hpos ih =>
    rw [ih] at hpos
    have := hzero w hw
    omega

/-- C24. For valid records and a target `t` in range (in particular one that is not
trivially eliminated), `getEliminationCertificate()` returns a non-empty list exactly
when `isEliminated()` returns true; when `isEliminated()` returns false the flow
saturates every edge leaving the source, so in the residual graph only the source is
reachable. -/
theorem certificate_nonempty_iff_eliminated (d : Division) (hv : ValidRecords d) (t : Nat)
    (ht : t < d.numTeams) (fuel : Nat) (hfuel : (gamesAmong d t).toNat < fuel) :
    ∃ (b : Bool) (c : List String) (v : Int) (residual : Nat → Nat → Int),
      (FlowNetwork.create d t).isEliminated fuel = some b ∧
      (FlowNetwork.create d t).getEliminationCertificate fuel = some c ∧
      (c ≠ [] ↔ b = true) ∧
      getMaxFlow fuel (FlowNetwork.create d t).graph (FlowNetwork.create d t).source
        (FlowNetwork.create d t).sink = some (v, residual) ∧
      (b = false →
        (∀ j, j < (FlowNetwork.create d t).graph.numVertices →
          residual (FlowNetwork.create d t).source j = 0) ∧
        ∀ x, ResidualReach residual (FlowNetwork.create d t).graph.numVertices
          (FlowNetwork.create d t).source x → x = (FlowNetwork.create d t).source) := by
  have hN : 1 ≤ d.numTeams := by omega
  obtain ⟨v, residual, visited, hrun, hreach, hvis, hinv, -, -⟩ :=
    network_run d hv t ht fuel hfuel
  obtain ⟨hnum, -, hsrc, -, -, -, -, hnames⟩ := create_graph d t hN
  have hsz : networkSize d t = (gameList d t).length + d.numTeams + 1 := rfl
  have helim := isEliminated_eq hv hrun
  have hcert := certificateIndices_eq hv hrun hreach
  have hc : (FlowNetwork.create d t).getEliminationCertificate fuel
      = some (((List.range d.numTeams).filter fun i =>
          decide (i ≠ t ∧ visited (teamNode d t i) = true)).map d.teamNames) := by
    unfold FlowNetwork.getEliminationCertificate
    rw [hcert, hnames]
    rfl
  have h0 : 0 < networkSize d t := by unfold networkSize; omega
  refine ⟨decide (v < gamesAmong d t), _, v, residual, helim, hc, ?_, hrun, ?_⟩
  · by_cases hlt : v < gamesAmong d t
    · have hb : decide (v < gamesAmong d t) = true := decide_eq_true hlt
      rw [hb] at helim
      obtain ⟨R, hR, hne, -⟩ := certificate_surplus d hv t ht fuel hfuel helim
      rw [hcert] at hR
      have hRR := Option.some.inj hR
      constructor
      · intro _; exact hb
      · intro _ hnil
        apply hne
        rw [← hRR]
        exact List.map_eq_nil_iff.mp hnil
    · have hb : decide (v < gamesAmong d t) = false := decide_eq_false hlt
      rw [hb]
      constructor
      · intro hne
        exfalso
        apply hne
        rw [List.map_eq_nil_iff, List.filter_eq_nil_iff]
        intro i hi
        simp only [decide_eq_true_eq, not_and]
        intro hit hvi
        have hval := hinv.value
        simp only at hval
        rw [rowSum_networkCap_source d hv t] at hval
        have hnn : 0 ≤ rowSum (networkSize d t) residual 0 := rowSum_nonneg h0 hinv.nonneg
        have hsum : rowSum (networkSize d t) residual 0 = 0 := by omega
        unfold rowSum at hsum
        have hz := (Finset.sum_eq_zero_iff_of_nonneg
          (fun j hj => hinv.nonneg 0 j h0 (Finset.mem_range.mp hj))).mp hsum
        have hr := reach_of_saturated
          (fun j hj => le_of_eq (hz j (Finset.mem_range.mpr hj))) ((hvis _).mp hvi)
        have := teamNode_ge (d := d) hit
        omega
      · intro h; cases h
  · intro hb
    have hlt : ¬ v < gamesAmong d t := of_decide_eq_false hb
    have hval := hinv.value
    simp only at hval
    rw [rowSum_networkCap_source d hv t] at hval
    have hnn : 0 ≤ rowSum (networkSize d t) residual 0 := rowSum_nonneg h0 hinv.nonneg
    have hsum : rowSum (networkSize d t) residual 0 = 0 := by omega
    unfold rowSum at hsum
    have hz := (Finset.sum_eq_zero_iff_of_nonneg
      (fun j hj => hinv.nonneg 0 j h0 (Finset.mem_range.mp hj))).mp hsum
    rw [hnum, hsrc, ← hsz]
    exact ⟨fun j hj => hz j (Finset.mem_range.mpr hj),
      fun x hx => reach_of_saturated
        (fun j hj => le_of_eq (hz j (Finset.mem_range.mpr hj))) hx⟩

set_option maxRecDepth 100000 in
theorem certificate_nonempty_iff_eliminated_witness :
    ∃ (b : Bool) (c : List String) (v : Int) (residual : Nat → Nat → Int),
      (FlowNetwork.create classicDivision 1).isEliminated 10 = some b ∧
      (FlowNetwork.create classicDivision 1).getEliminationCertificate 10 = some c ∧
      (c ≠ [] ↔ b = true) ∧
      getMaxFlow 10 (FlowNetwork.create classicDivision 1).graph
        (FlowNetwork.create classicDivision 1).source
        (FlowNetwork.create classicDivision 1).sink = some (v, residual) ∧
      (b = false →
        (∀ j, j < (FlowNetwork.create classicDivision 1).graph.numVertices →
          residual (FlowNetwork.create classicDivision 1).source j = 0) ∧
        ∀ x, ResidualReach residual (FlowNetwork.create classicDivision 1).graph.numVertices
          (FlowNetwork.create classicDivision 1).source x →
          x = (FlowNetwork.create classicDivision 1).source) :=
  certificate_nonempty_iff_eliminated classicDivision classicDivision_valid 1 (by decide) 10
    (by decide)

theorem isEliminated_fuel_mono (fn : FlowNetwork) (fuel k : Nat) (b : Bool)
    (h : fn.isEliminated fuel = some b) : fn.isEliminated (fuel + k) = some b := by
  unfold FlowNetwork.isEliminated at h ⊢
  cases hrun : getMaxFlow fuel fn.graph fn.source fn.sink with
  | none => rw [hrun] at h; cases h
  | some p =>
    rw [hrun] at h
    have := maxFlowLoop_fuel_mono fn.graph.numVertices fn.source fn.sink fuel
      fn.graph.capacityMatrix 0 p k hrun
    unfold getMaxFlow
    rw [this]
    exact h

set_option maxRecDepth 100000 in
/-- C25. The flow check alone does not subsume the trivial check: in the valid records
`twinDivision` the target `C` (index 2, 0 wins, nothing left to play) is trivially
eliminated, since `A` already has 10 wins; the capacity of the edge from the team node
of `A` to the sink is clamped to 0 (the difference is -10), no game remains among the
other teams, and `FlowNetwork(division, 2).isEliminated()` returns false; `main` reports
the team as trivially eliminated without consulting the flow check. -/
theorem flow_check_misses_trivial :
    ∃ (d : Division) (t : Nat), ValidRecords d ∧ t < d.numTeams ∧
      (∃ i, i < d.numTeams ∧ i ≠ t ∧ d.wins i > d.wins t + d.remainingGames t ∧
        d.wins t + d.remainingGames t - d.wins i < 0 ∧
        (FlowNetwork.create d t).graph.capacityMatrix
          (adjustedTeamNode (FlowNetwork.create d t).teamNodeStart
            (FlowNetwork.create d t).teamIndex i)
          (FlowNetwork.create d t).sink = 0) ∧
      (∀ k, (FlowNetwork.create d t).isEliminated (1 + k) = some false) ∧
      ∃ name, ∀ fuel, analyzeTeam fuel d t = some (Verdict.TriviallyEliminated name) := by
  refine ⟨twinDivision, 2, twinDivision_valid, by decide,
    ⟨0, by decide, by decide, by decide, by decide, by decide⟩, ?_, "A", ?_⟩
  · intro k
    exact isEliminated_fuel_mono _ 1 k false (by decide)
  · intro fuel
    have h : trivialCheck twinDivision 2 = some 0 := by decide
    unfold analyzeTeam
    rw [h]
    rfl

end CricketElimination
